import Mathlib

/-!
Incremental random forest (pconstr/irf): shallow embedding of `randomForest.cpp`.

The embedding follows `src/irf/randomForest.cpp` function by function.

* `unsigned int` values are natural numbers below `2^32`; every arithmetic
  operation on them wraps explicitly (`% 4294967296`).
* A `Sample*` is a `Sample` record that carries its address `ptr`; two pointers
  are equal iff the addresses are equal.
* `float` targets and feature values are rationals: the engine only compares
  them with `0.5` (a NaN compares like a value below `0.5`).
* `std::map` and `std::set` are lists kept in key order; `sparse_hash_map` is a
  list kept in key order (the order in which a table of small non-negative
  keys is iterated).
* What the file does not contain (`MurmurHash3_x86_32`, the C library's
  `rand_r`, floating point `log` and arithmetic) is a parameter, bundled in a
  `Platform`; `refPlatform` is a concrete instance used to evaluate the engine.
* `exit(1)`, a null dereference and running out of recursion fuel are `none`.
* Feature codes are arbitrary `int`s; the code `-1`, which marks a leaf and is the
  deleted key of the tables, gets no special treatment.
* Arithmetic on `int` codes (`code + 1` in the watermark) is exact: a signed
  overflow is undefined in the source.
-/

namespace IncrementalRandomForest

/-! ## Machine integers -/

/-- Wrap-around of an `unsigned int`. -/
def wrapU32 (n : Nat) : Nat := n % 4294967296

/-- Unsigned subtraction `a - b` on `unsigned int`. -/
def subU32 (a b : Nat) : Nat := (a + (4294967296 - b % 4294967296)) % 4294967296

/-- Conversion `unsigned int` to `int` (two's complement). -/
def toInt32 (n : Nat) : Int :=
  if n % 4294967296 < 2147483648 then ((n % 4294967296 : Nat) : Int)
  else ((n % 4294967296 : Nat) : Int) - 4294967296

/-- Wrap-around of an `int`. -/
def wrapInt32 (z : Int) : Int := toInt32 (z % 4294967296).toNat

/-- The statement `x += direction` on an `unsigned int` with `int direction`. -/
def addDirection (x : Nat) (direction : Int) : Nat :=
  ((x : Int) + direction % 4294967296).toNat % 4294967296

/-! ## Constants -/

def maxCodesToConsider : Nat := 30
def maxCodesToKeep : Nat := 40
def minEvidence : Nat := 2

/-! ## Samples -/

/-- A heap-allocated `Sample`; `ptr` is its address. -/
structure Sample where
  ptr : Nat
  suid : String
  y : ℚ
  xCodes : List (Int × ℚ)
deriving DecidableEq

/-- The value of `s->xCodes.find(c)`. -/
def Sample.find (s : Sample) (c : Int) : Option ℚ := s.xCodes.lookup c

/-! ## Platform parameters -/

/-- Single precision arithmetic as used by `entropyBinary`. -/
structure FloatOps (F : Type) where
  ofInt : Int → F
  sub : F → F → F
  add : F → F → F
  mul : F → F → F
  div : F → F → F
  log : F → F
  lt : F → F → Bool

/-- External routines: `MurmurHash3_x86_32(s, strlen(s), 42, &out)`, `rand_r`
(result and new seed) and the float operations. -/
structure Platform (F : Type) where
  fl : FloatOps F
  murmurHash3 : List Char → Nat
  rand_r : Nat → Nat × Nat

/-- Decimal digits of a natural number, most significant first (`fuel` bounds the
number of digits). -/
def decimalDigits : Nat → Nat → List Char → List Char
  | 0, _, acc => acc
  | fuel + 1, n, acc =>
    let acc1 := Char.ofNat (48 + n % 10) :: acc
    if n / 10 = 0 then acc1 else decimalDigits fuel (n / 10) acc1

/-- Output of `printf("%lu", n)`. -/
def decimalNat (n : Nat) : List Char := decimalDigits 40 n []

/-- Output of `printf("%d", z)`. -/
def decimalInt (z : Int) : List Char :=
  if z < 0 then '-' :: decimalNat z.natAbs else decimalNat z.natAbs

section Engine

variable {F : Type} (P : Platform F)

/-- The rank of a code within a node: `sprintf(s, "%d%lu", code, nodeId)` hashed. -/
def codeRankInNode (code : Int) (nodeId : Nat) : Nat :=
  P.murmurHash3 (decimalInt code ++ decimalNat nodeId)

/-- Whether sample `sp` is routed to tree `t`: `sprintf(s, "%d%s", t, suid)` hashed. -/
def sampleInTree (sp : Sample) (t : Nat) : Bool :=
  decide (P.murmurHash3 (decimalNat t ++ sp.suid.data) % 3 < 2)

end Engine

/-! ## Ordered containers -/

/-- A `pair<CodeRankType, int>`. -/
abbrev RankPair := Nat × Int

/-- Lexicographic `operator<` of `std::pair`. -/
def pairLt (a b : RankPair) : Bool :=
  decide (a.1 < b.1) || (decide (a.1 = b.1) && decide (a.2 < b.2))

/-- The comparison `a >= b` of `std::pair`. -/
def pairGe (a b : RankPair) : Bool := !pairLt a b

/-- The call `std::max(a, b)` on pairs. -/
def pairMax (a b : RankPair) : RankPair := if pairLt a b then b else a

/-- Insertion into a `std::set<pair<CodeRankType, int>>` (ascending list). -/
def rankSetInsert (p : RankPair) : List RankPair → List RankPair
  | [] => [p]
  | q :: l =>
    if pairLt p q then p :: q :: l
    else if pairLt q p then q :: rankSetInsert p l
    else q :: l

/-- Insertion into a `std::set<int>` (ascending list). -/
def intSetInsert (c : Int) : List Int → List Int
  | [] => [c]
  | d :: l =>
    if c < d then c :: d :: l
    else if d < c then d :: intSetInsert c l
    else d :: l

/-- Byte-wise `operator<` of `std::string`. -/
def charsLt : List Char → List Char → Bool
  | _, [] => false
  | [], _ :: _ => true
  | a :: as, b :: bs =>
    if a.toNat < b.toNat then true
    else if b.toNat < a.toNat then false
    else charsLt as bs

/-- A `std::map<string, Sample*>`: entries in key order. -/
abbrev SampleMap := List (String × Sample)

/-- The value of `m.find(k)`. -/
def SampleMap.find (m : SampleMap) (k : String) : Option Sample := m.lookup k

/-- Whether `m.find(k) != m.end()`. -/
def SampleMap.contains (m : SampleMap) (k : String) : Bool := (m.lookup k).isSome

/-- Insertion of a new key at its ordered position. -/
def SampleMap.insertNew (k : String) (v : Sample) : SampleMap → SampleMap
  | [] => [(k, v)]
  | e :: m => if charsLt k.data e.1.data then (k, v) :: e :: m else e :: SampleMap.insertNew k v m

/-- The assignment `m[k] = v`. -/
def SampleMap.set (m : SampleMap) (k : String) (v : Sample) : SampleMap :=
  if m.contains k then m.map (fun e => if e.1 = k then (k, v) else e)
  else SampleMap.insertNew k v m

/-- The call `m.erase(k)`. -/
def SampleMap.erase (m : SampleMap) (k : String) : SampleMap :=
  m.filter (fun e => !decide (e.1 = k))

/-! ## Decision counts and tree nodes -/

/-- Per-node, per-code sufficient statistics. -/
structure DecisionCounts where
  c0p : Nat
  c1p : Nat
  rank : Nat
deriving DecidableEq

/-- A `sparse_hash_map<int, DecisionCounts>`. -/
abbrev DCMap := List (Int × DecisionCounts)

/-- Whether `m.find(code) != m.end()`. -/
def DCMap.contains (m : DCMap) (code : Int) : Bool := m.any (fun e => decide (e.1 = code))

/-- The value of `m.find(code)`. -/
def DCMap.find (m : DCMap) (code : Int) : Option DecisionCounts := m.lookup code

/-- Insertion of a key that is not in the table. -/
def DCMap.insertNew (code : Int) (dc : DecisionCounts) : DCMap → DCMap
  | [] => [(code, dc)]
  | e :: m => if code < e.1 then (code, dc) :: e :: m else e :: DCMap.insertNew code dc m

/-- The call `m.erase(code)`. -/
def DCMap.erase (m : DCMap) (code : Int) : DCMap := m.filter (fun e => !decide (e.1 = code))

/-- The fields of `DecisionTreeNode` shared by leaves and internal nodes. -/
structure NodeData where
  c0 : Nat
  c1 : Nat
  decisionCountMap : DCMap
  id : Nat
  minValidRank : RankPair
deriving DecidableEq

/-- A decision tree node: `DecisionTreeLeaf` (`code == -1`) or `DecisionTreeInternal`. -/
inductive DecisionTreeNode where
  | leaf (d : NodeData) (value : ℚ) (samples : List Sample)
  | internal (code : Int) (d : NodeData) (negative positive : DecisionTreeNode)
deriving DecidableEq

/-- The shared fields of a node. -/
def DecisionTreeNode.data : DecisionTreeNode → NodeData
  | .leaf d _ _ => d
  | .internal _ d _ _ => d

/-- The field `code` of a node (`-1` at a leaf). -/
def DecisionTreeNode.code : DecisionTreeNode → Int
  | .leaf _ _ _ => -1
  | .internal c _ _ _ => c

/-- The method `DecisionCounts::enoughEvidence`. -/
def DecisionCounts.enoughEvidence (dc : DecisionCounts) (dt : NodeData) : Bool :=
  let c0n := subU32 dt.c0 dc.c0p
  let c1n := subU32 dt.c1 dc.c1p
  decide (wrapU32 (c0n + c1n) ≥ minEvidence) && decide (wrapU32 (dc.c0p + dc.c1p) ≥ minEvidence)

/-- The method `DecisionCounts::isZeroFor`. -/
def DecisionCounts.isZeroFor (dc : DecisionCounts) (dt : NodeData) : Bool :=
  let c0n := subU32 dt.c0 dc.c0p
  let c1n := subU32 dt.c1 dc.c1p
  decide (c0n = dt.c0) && decide (c1n = dt.c1) && decide (dc.c0p = 0) && decide (dc.c1p = 0)

section Engine

variable {F : Type}

/-- The function `entropyBinary(int c0, int c1)`. -/
def entropyBinary (fl : FloatOps F) (c0 c1 : Int) : F :=
  let h := fl.ofInt 0
  let n := wrapInt32 (c0 + c1)
  let h := if c0 > 0 then
      let p0 := fl.div (fl.ofInt c0) (fl.ofInt n)
      fl.sub h (fl.mul p0 (fl.log p0))
    else h
  let h := if c1 > 0 then
      let p1 := fl.div (fl.ofInt c1) (fl.ofInt n)
      fl.sub h (fl.mul p1 (fl.log p1))
    else h
  h

/-- The method `DecisionCounts::entropy`. -/
def DecisionCounts.entropy (fl : FloatOps F) (dc : DecisionCounts) (dt : NodeData) : F :=
  let c0n := subU32 dt.c0 dc.c0p
  let c1n := subU32 dt.c1 dc.c1p
  let hn := entropyBinary fl (toInt32 c0n) (toInt32 c1n)
  let hp := entropyBinary fl (toInt32 dc.c0p) (toInt32 dc.c1p)
  let cp := toInt32 (wrapU32 (dc.c0p + dc.c1p))
  let cn := toInt32 (wrapU32 (c0n + c1n))
  fl.div (fl.add (fl.mul hn (fl.ofInt cn)) (fl.mul hp (fl.ofInt cp))) (fl.ofInt (wrapInt32 (cn + cp)))

/-- The function `findMinRankToConsider`. -/
def findMinRankToConsider (dcMap : DCMap) : RankPair :=
  if dcMap.length > maxCodesToConsider then
    let ranks := dcMap.foldl (fun (ranks : List RankPair) e =>
      let ranks := rankSetInsert (e.2.rank, e.1) ranks
      if ranks.length > maxCodesToConsider then ranks.tail else ranks) []
    ranks.headD (0, 0)
  else (0, 0)

/-- The function `findMinEntropyCode`. -/
def findMinEntropyCode (fl : FloatOps F) (currentEntropy : F) (dt : NodeData) : Int :=
  let minRankToConsider := findMinRankToConsider dt.decisionCountMap
  let best := dt.decisionCountMap.foldl (fun (acc : F × Int) e =>
    if pairGe (e.2.rank, e.1) minRankToConsider && e.2.enoughEvidence dt then
      let ah := e.2.entropy fl dt
      if fl.lt ah acc.1 then (ah, e.1) else acc
    else acc) (fl.ofInt 10, -1)
  if best.2 = -1 then -1
  else if fl.lt best.1 currentEntropy then best.2
  else -1

/-- The function `splitListByTarget`. -/
def splitListByTarget (sl : List Sample) : List Sample × List Sample :=
  sl.foldl (fun (acc : List Sample × List Sample) s =>
    if s.y > 1 / 2 then (acc.1, acc.2 ++ [s]) else (acc.1 ++ [s], acc.2)) ([], [])

/-- The function `splitListAgainstCode` applied to the samples a walker yields. -/
def splitListAgainstCode (sw : List Sample) (c : Int) : List Sample × List Sample :=
  sw.foldl (fun (acc : List Sample × List Sample) s =>
    let cc := match s.find c with
      | some v => decide (v > 1 / 2)
      | none => false
    if cc then (acc.1, acc.2 ++ [s]) else (acc.1 ++ [s], acc.2)) ([], [])

/-- The function `findUsedCodes`. -/
def findUsedCodes (sw : List Sample) : List Int :=
  sw.foldl (fun (uc : List Int) s => s.xCodes.foldl (fun (uc : List Int) e => intSetInsert e.1 uc) uc) []

/-- The function `updateValue` (new value of the leaf). -/
def updateValue (d : NodeData) : ℚ :=
  let n := toInt32 (wrapU32 (d.c0 + d.c1))
  if n = 0 then 1 else (d.c1 : ℚ) / (n : ℚ)

/-- The function `collectRecursive`. -/
def collectRecursive : DecisionTreeNode → List Sample
  | .leaf _ _ samples => samples
  | .internal _ _ negative positive => collectRecursive negative ++ collectRecursive positive

/-! ## TreeSampleWalker -/

/-- State of a `TreeSampleWalker`: the stack `st` (top first) and the samples in
the range `[itCurr, itEnd)`. -/
structure TreeSampleWalker where
  st : List DecisionTreeNode
  cur : List Sample

/-- The method `TreeSampleWalker::stackDown`: the result and the new state. -/
def stackDown : DecisionTreeNode → List DecisionTreeNode → Bool × TreeSampleWalker
  | .internal c d negative positive, st => stackDown negative (.internal c d negative positive :: st)
  | .leaf d v samples, st =>
    if samples.isEmpty then (false, ⟨st, []⟩) else (true, ⟨.leaf d v samples :: st, samples⟩)

/-- Number of nodes of a tree. -/
def treeSize : DecisionTreeNode → Nat
  | .leaf _ _ _ => 1
  | .internal _ _ negative positive => 1 + treeSize negative + treeSize positive

/-- Bound on the iterations of `advanceToNext` from a given stack. -/
def stackWeight : List DecisionTreeNode → Nat
  | [] => 0
  | .leaf _ _ _ :: st => 1 + stackWeight st
  | .internal _ _ _ positive :: st => 1 + treeSize positive + stackWeight st

/-- The loop of `TreeSampleWalker::advanceToNext`, at most `fuel` iterations. -/
def advanceToNextLoop : Nat → TreeSampleWalker → Option TreeSampleWalker
  | 0, w => if w.st.isEmpty then some w else none
  | fuel + 1, w =>
    match w.st with
    | [] => some w
    | .leaf _ _ _ :: _ => none
    | .internal _ _ _ positive :: rest =>
      let r := stackDown positive rest
      if r.1 then some r.2 else advanceToNextLoop fuel r.2

/-- The method `TreeSampleWalker::advanceToNext`. -/
def advanceToNext (w : TreeSampleWalker) : Option TreeSampleWalker :=
  advanceToNextLoop (stackWeight w.st) w

/-- The constructor `TreeSampleWalker(n)`. -/
def TreeSampleWalker.new (n : DecisionTreeNode) : Option TreeSampleWalker :=
  let r := stackDown n []
  if r.1 then some r.2 else advanceToNext r.2

/-- The method `TreeSampleWalker::stillSome`. -/
def TreeSampleWalker.stillSome (w : TreeSampleWalker) : Bool := !w.st.isEmpty

/-- The method `TreeSampleWalker::get`: the sample and the new state. -/
def TreeSampleWalker.get (w : TreeSampleWalker) : Option (Sample × TreeSampleWalker) :=
  match w.cur with
  | [] => none
  | s :: rest =>
    if rest.isEmpty then (advanceToNext ⟨w.st.tail, rest⟩).map (fun w1 => (s, w1))
    else some (s, ⟨w.st, rest⟩)

/-- The loop `while(sw.stillSome()) v.push_back(sw.get())`, at most `fuel` iterations. -/
def drainWalker : Nat → TreeSampleWalker → Option (List Sample)
  | 0, w => if w.stillSome then none else some []
  | fuel + 1, w =>
    if w.stillSome then
      match w.get with
      | none => none
      | some (s, w1) => (drainWalker fuel w1).map (fun v => s :: v)
    else some []

/-- The samples a fresh `TreeSampleWalker(n)` yields until `stillSome` is false. -/
def walkSamples (n : DecisionTreeNode) : Option (List Sample) :=
  match TreeSampleWalker.new n with
  | none => none
  | some w => drainWalker (collectRecursive n).length w

/-! ## Counters -/

/-- The function `makeLeaf`: the new seed and the leaf. -/
def makeLeaf (P : Platform F) (ts : Nat) (v : ℚ) : Nat × DecisionTreeNode :=
  let r := P.rand_r ts
  (r.2, .leaf ⟨0, 0, [], r.1, (0, 0)⟩ v [])

/-- The function `emptyDecisionTree`. -/
def emptyDecisionTree (P : Platform F) (ts : Nat) : Nat × DecisionTreeNode := makeLeaf P ts 0

/-- The per-code loop of `computeDecisionCounters` over the samples, starting from `dc`. -/
def countCode (code : Int) (dc : DecisionCounts) (sw : List Sample) : DecisionCounts :=
  sw.foldl (fun (dc : DecisionCounts) s =>
    let classIn := decide (s.y > 1 / 2)
    let hasCode := match s.find code with
      | some v => decide (v > 1 / 2)
      | none => false
    if classIn then
      if hasCode then { dc with c1p := wrapU32 (dc.c1p + 1) } else dc
    else
      if hasCode then { dc with c0p := wrapU32 (dc.c0p + 1) } else dc) dc

/-- One iteration of the loop of `computeDecisionCounters` over the used codes:
the set `ranks` and `minValidRank`. -/
def rankStep (P : Platform F) (id : Nat) (acc : List RankPair × RankPair) (code : Int) :
    List RankPair × RankPair :=
  let rank := codeRankInNode P code id
  let ranks := rankSetInsert (rank, code) acc.1
  if ranks.length > maxCodesToKeep then
    (ranks.tail, pairMax acc.2 ((ranks.headD (0, 0)).1, code + 1))
  else (ranks, acc.2)

/-- One iteration of the loop of `computeDecisionCounters` over `ranks`: the entry
`decisionCountMap[code]` gets its rank and its counts over the samples `sw`. -/
def fillStep (P : Platform F) (id : Nat) (sw : List Sample) (m : DCMap) (rc : RankPair) : DCMap :=
  let code := rc.2
  let m := if m.contains code then m else DCMap.insertNew code ⟨0, 0, 0⟩ m
  m.map (fun e =>
    if e.1 = code then (e.1, countCode code { e.2 with rank := codeRankInNode P code id } sw)
    else e)

/-- The function `computeDecisionCounters` for node id `id` and the samples `sw`
of the walker: the new `decisionCountMap`, `outC0`, `outC1` and `minValidRank`. -/
def computeDecisionCounters (P : Platform F) (id : Nat) (sw : List Sample) :
    DCMap × Nat × Nat × RankPair :=
  let usedCodes := findUsedCodes sw
  let c01 := sw.foldl (fun (c : Nat × Nat) s =>
    if s.y ≥ 1 / 2 then (c.1, wrapU32 (c.2 + 1)) else (wrapU32 (c.1 + 1), c.2)) (0, 0)
  let rm := usedCodes.foldl (rankStep P id) ([], (0, 0))
  let dcm := rm.1.foldl (fillStep P id sw) []
  (dcm, c01.1, c01.2, rm.2)

/-- The function `setupLeafFromSamples` on a leaf with data `d` and samples `samples`. -/
def setupLeafFromSamples (P : Platform F) (d : NodeData) (samples : List Sample) :
    Option DecisionTreeNode :=
  match walkSamples (.leaf d 0 samples) with
  | none => none
  | some sw =>
    let r := computeDecisionCounters P d.id sw
    let d1 : NodeData := ⟨r.2.1, r.2.2.1, r.1, d.id, r.2.2.2⟩
    some (.leaf d1 (updateValue d1) samples)

/-! ## Splitting -/

/-- The function `splitNode` on an internal node with data `d`; `cascade` is
`splitLeafIfPossible` and `sw` the samples of the walker. -/
def splitNode (P : Platform F)
    (cascade : Nat → DecisionTreeNode → Option (Nat × DecisionTreeNode))
    (ts : Nat) (d : NodeData) (minEntropyCode : Int) (sw : List Sample) :
    Option (Nat × DecisionTreeNode) :=
  let dtn := makeLeaf P ts 0
  let dtp := makeLeaf P dtn.1 0
  if !d.decisionCountMap.contains minEntropyCode then none
  else
    let sl := splitListAgainstCode sw minEntropyCode
    match setupLeafFromSamples P dtn.2.data sl.1, setupLeafFromSamples P dtp.2.data sl.2 with
    | some ln, some lp =>
      match cascade dtp.1 ln with
      | none => none
      | some (ts1, negative) =>
        match cascade ts1 lp with
        | none => none
        | some (ts2, positive) => some (ts2, .internal minEntropyCode d negative positive)
    | _, _ => none

/-- The function `splitLeafIfPossible`; the cascade of splits may nest at most
`fuel` times. -/
def splitLeafIfPossible (P : Platform F) :
    Nat → Nat → DecisionTreeNode → Option (Nat × DecisionTreeNode)
  | 0, ts, dt =>
    let currentEntropy := entropyBinary P.fl (toInt32 dt.data.c0) (toInt32 dt.data.c1)
    let minEntropyCode := findMinEntropyCode P.fl currentEntropy dt.data
    if minEntropyCode ≠ -1 then none else some (ts, dt)
  | fuel + 1, ts, dt =>
    let currentEntropy := entropyBinary P.fl (toInt32 dt.data.c0) (toInt32 dt.data.c1)
    let minEntropyCode := findMinEntropyCode P.fl currentEntropy dt.data
    if minEntropyCode ≠ -1 then
      match walkSamples dt with
      | none => none
      | some sw =>
        let ts1 := (P.rand_r ts).2
        splitNode P (fun ts2 dt2 => splitLeafIfPossible P fuel ts2 dt2) ts1 dt.data minEntropyCode sw
    else some (ts, dt)

/-! ## Incremental counter update -/

/-- The counter update of one table entry in `updateDecisionCounters`. -/
def bumpCounts (dc : DecisionCounts) (s : Sample) (code : Int) (direction : Int) : DecisionCounts :=
  match s.find code with
  | none => dc
  | some v =>
    if s.y ≥ 1 / 2 then
      if v ≥ 1 / 2 then { dc with c1p := addDirection dc.c1p direction } else dc
    else
      if v ≥ 1 / 2 then { dc with c0p := addDirection dc.c0p direction } else dc

/-- One iteration of the first loop of `updateDecisionCounters`: the entry after
the update, or `none` when it is erased. -/
def bumpEntry (s : Sample) (direction : Int) (e : Int × DecisionCounts) :
    Option (Int × DecisionCounts) :=
  let dc := bumpCounts e.2 s e.1 direction
  if direction < 0 ∧ dc.c0p = 0 ∧ dc.c1p = 0 then none else some (e.1, dc)

/-- One iteration of the loop of `updateDecisionCounters` over the codes of the
sample: the table, the set `ranks` and `minValidRank`. -/
def insertStep (P : Platform F) (id : Nat) (s : Sample) (direction : Int)
    (acc : DCMap × List RankPair × RankPair) (codeIt : Int × ℚ) :
    DCMap × List RankPair × RankPair :=
  if acc.1.contains codeIt.1 then acc
  else
    let newRank := codeRankInNode P codeIt.1 id
    if pairGe (newRank, codeIt.1) acc.2.2 then
      let dc : DecisionCounts :=
        if s.y ≥ 1 / 2 then
          if codeIt.2 ≥ 1 / 2 then ⟨0, addDirection 0 direction, newRank⟩ else ⟨0, 0, newRank⟩
        else
          if codeIt.2 ≥ 1 / 2 then ⟨addDirection 0 direction, 0, newRank⟩ else ⟨0, 0, newRank⟩
      let m := DCMap.insertNew codeIt.1 dc acc.1
      let ranks := rankSetInsert (newRank, codeIt.1) acc.2.1
      if ranks.length > maxCodesToKeep then
        let b := ranks.headD (0, 0)
        (m.erase b.2, ranks.tail, pairMax acc.2.2 (b.1, b.2 + 1))
      else (m, ranks, acc.2.2)
    else acc

/-- The function `updateDecisionCounters`. -/
def updateDecisionCounters (P : Platform F) (dt : NodeData) (s : Sample) (direction : Int) :
    NodeData :=
  let m1 : DCMap := dt.decisionCountMap.filterMap (bumpEntry s direction)
  if direction < 0 then { dt with decisionCountMap := m1 }
  else
    let ranks0 := m1.foldl (fun (ranks : List RankPair) e => rankSetInsert (e.2.rank, e.1) ranks) []
    let r := s.xCodes.foldl (insertStep P dt.id s direction) (m1, ranks0, dt.minValidRank)
    { dt with decisionCountMap := r.1, minValidRank := r.2.2 }

/-! ## Tree update -/

/-- The statement `nl->samples.erase(find(begin, end, s))`: the first entry with
the address of `s` is removed; nothing changes when there is none. -/
def eraseSample : List Sample → Sample → List Sample
  | [], _ => []
  | x :: xs, s => if x.ptr = s.ptr then xs else x :: eraseSample xs s

/-- The function `updateDecisionTreeSamples`. -/
def updateDecisionTreeSamples : DecisionTreeNode → List Sample → List Sample → DecisionTreeNode
  | .leaf d v samples, batchAdd, batchRemove =>
    .leaf d v (batchRemove.foldl eraseSample samples ++ batchAdd)
  | .internal code d negative positive, batchAdd, batchRemove =>
    let a := splitListAgainstCode batchAdd code
    let r := splitListAgainstCode batchRemove code
    let negative1 :=
      if a.1.length > 0 ∨ r.1.length > 0 then updateDecisionTreeSamples negative a.1 r.1
      else negative
    let positive1 :=
      if a.2.length > 0 ∨ r.2.length > 0 then updateDecisionTreeSamples positive a.2 r.2
      else positive
    .internal code d negative1 positive1

/-- The blocks `removals` and `additions` of `updateDecisionTreeNode`: the data of
the node after the counters and the totals have been updated for both batches. -/
def applyBatches (P : Platform F) (d : NodeData) (batchAdd batchRemove : List Sample) :
    NodeData :=
  let d := batchRemove.foldl (fun (d : NodeData) s => updateDecisionCounters P d s (-1)) d
  let b := splitListByTarget batchRemove
  let d := { d with c1 := subU32 d.c1 b.2.length, c0 := subU32 d.c0 b.1.length }
  let d := batchAdd.foldl (fun (d : NodeData) s => updateDecisionCounters P d s 1) d
  let b := splitListByTarget batchAdd
  { d with c1 := wrapU32 (d.c1 + b.2.length), c0 := wrapU32 (d.c0 + b.1.length) }

/-- The first part of `updateDecisionTreeNode`: removals, additions and the full
recount of the counters of node `dt`; the result is the node's new data. -/
def updateNodeCounters (P : Platform F) (dt : DecisionTreeNode)
    (batchAdd batchRemove : List Sample) : Option NodeData :=
  let d := applyBatches P dt.data batchAdd batchRemove
  if d.decisionCountMap.length < maxCodesToConsider
      ∧ (d.minValidRank.1 ≠ (0 : Nat) ∨ d.minValidRank.2 ≠ (0 : Int)) then
    match walkSamples dt with
    | none => none
    | some sw =>
      let r := computeDecisionCounters P d.id sw
      some ⟨r.2.1, r.2.2.1, r.1, d.id, r.2.2.2⟩
  else some d

/-- The function `updateDecisionTreeNode`: the new seed and the new node. -/
def updateDecisionTreeNode (P : Platform F) :
    DecisionTreeNode → Nat → List Sample → List Sample → Option (Nat × DecisionTreeNode)
  | .leaf d0 v samples, ts, batchAdd, batchRemove =>
    match updateNodeCounters P (.leaf d0 v samples) batchAdd batchRemove with
    | none => none
    | some d =>
      let currentEntropy := entropyBinary P.fl (toInt32 d.c0) (toInt32 d.c1)
      let minEntropyCode := findMinEntropyCode P.fl currentEntropy d
      if minEntropyCode ≠ -1 then
        let ts1 := (P.rand_r ts).2
        splitNode P (fun ts2 dt2 => splitLeafIfPossible P samples.length ts2 dt2)
          ts1 d minEntropyCode samples
      else some (ts, .leaf d (updateValue d) samples)
  | .internal code d0 negative positive, ts, batchAdd, batchRemove =>
    match updateNodeCounters P (.internal code d0 negative positive) batchAdd batchRemove with
    | none => none
    | some d =>
      let currentEntropy := entropyBinary P.fl (toInt32 d.c0) (toInt32 d.c1)
      let minEntropyCode := findMinEntropyCode P.fl currentEntropy d
      if minEntropyCode = -1 then
        let newLeaf := makeLeaf P ts 0
        match walkSamples (.internal code d negative positive) with
        | none => none
        | some sw =>
          match setupLeafFromSamples P { newLeaf.2.data with id := d.id } sw with
          | none => none
          | some l => some (newLeaf.1, l)
      else if minEntropyCode ≠ code then
        match walkSamples (.internal code d negative positive) with
        | none => none
        | some sw =>
          splitNode P (fun ts2 dt2 => splitLeafIfPossible P sw.length ts2 dt2)
            ts d minEntropyCode sw
      else
        let a := splitListAgainstCode batchAdd code
        let r := splitListAgainstCode batchRemove code
        let rn :=
          if a.1.length > 0 ∨ r.1.length > 0 then updateDecisionTreeNode P negative ts a.1 r.1
          else some (ts, negative)
        match rn with
        | none => none
        | some (ts1, negative1) =>
          let rp :=
            if a.2.length > 0 ∨ r.2.length > 0 then updateDecisionTreeNode P positive ts1 a.2 r.2
            else some (ts1, positive)
          match rp with
          | none => none
          | some (ts2, positive1) => some (ts2, .internal code d negative1 positive1)

/-- The function `updateDecisionTree`: `none` when a sample of `batchAdd` is also
in `batchRemove` (`exit(1)`). -/
def updateDecisionTree (P : Platform F) (ts : Nat) (dt : DecisionTreeNode)
    (batchAdd batchRemove : List Sample) : Option (Nat × DecisionTreeNode) :=
  if batchAdd.any (fun a => batchRemove.any (fun r => decide (r.ptr = a.ptr))) then none
  else if batchRemove.any (fun r => batchAdd.any (fun a => decide (a.ptr = r.ptr))) then none
  else updateDecisionTreeNode P (updateDecisionTreeSamples dt batchAdd batchRemove) ts batchAdd batchRemove

/-! ## Validation -/

/-- The function `compareDCsDir`. -/
def compareDCsDir (dcM1 dcM2 : DCMap) (dt : NodeData) : Bool :=
  let minR1 := findMinRankToConsider dcM1
  let minR2 := findMinRankToConsider dcM2
  dcM1.foldl (fun (valid : Bool) e =>
    if pairGe (e.2.rank, e.1) minR1 then
      match dcM2.find e.1 with
      | none => if !e.2.isZeroFor dt then false else valid
      | some dc2 =>
        let valid := if pairLt (dc2.rank, e.1) minR2 then false else valid
        if ¬ (e.2.c0p = dc2.c0p ∧ e.2.c1p = dc2.c1p) then false else valid
    else valid) true

/-- The function `compareDCs`. -/
def compareDCs (dcM1 dcM2 : DCMap) (dt : NodeData) : Bool :=
  let valid := true
  let valid := if !compareDCsDir dcM1 dcM2 dt then false else valid
  let valid := if !compareDCsDir dcM2 dcM1 dt then false else valid
  valid

/-- The function `validateWalker`. -/
def validateWalker (dt : DecisionTreeNode) : Option Bool :=
  match walkSamples dt with
  | none => none
  | some vWalker => some (decide (vWalker.map Sample.ptr = (collectRecursive dt).map Sample.ptr))

/-- The leaf check of `validateDecisionTree` for repeated `suid`s. -/
def suidsDistinct (samples : List Sample) : Bool :=
  (samples.foldl (fun (acc : Bool × List String) s =>
    (if acc.2.contains s.suid then false else acc.1, s.suid :: acc.2)) (true, [])).1

/-- The checks of `validateDecisionTree` on the counters of one node. -/
def validateCounters (dt : NodeData) : Bool :=
  dt.decisionCountMap.foldl (fun (valid : Bool) e =>
    let c0n := subU32 dt.c0 e.2.c0p
    let c1n := subU32 dt.c1 e.2.c1p
    let valid := if wrapU32 (e.2.c0p + c0n) ≠ dt.c0 then false else valid
    let valid := if wrapU32 (e.2.c1p + c1n) ≠ dt.c1 then false else valid
    valid) true

/-- The check of `validateDecisionTree` of the stored counters against the
counters computed from the samples `sw` of the node. -/
def validateAgainstSamples (P : Platform F) (dt : NodeData) (sw : List Sample) : Bool :=
  let computed := computeDecisionCounters P dt.id sw
  let valid := true
  let valid := if computed.2.1 ≠ dt.c0 then false else valid
  let valid := if computed.2.2.1 ≠ dt.c1 then false else valid
  let valid := if !compareDCs dt.decisionCountMap computed.1 dt then false else valid
  valid

/-- The function `validateDecisionTree`. -/
def validateDecisionTree (P : Platform F) : DecisionTreeNode → Option Bool
  | .leaf d v samples =>
    match validateWalker (.leaf d v samples), walkSamples (.leaf d v samples) with
    | some okWalker, some sw =>
      let valid := okWalker
      let valid := if !suidsDistinct samples then false else valid
      let valid := if samples.length ≠ wrapU32 (d.c0 + d.c1) then false else valid
      let valid := if !validateCounters d then false else valid
      let valid := if !validateAgainstSamples P d sw then false else valid
      some valid
    | _, _ => none
  | .internal code d negative positive =>
    match validateWalker (.internal code d negative positive),
        walkSamples (.internal code d negative positive) with
    | some okWalker, some sw =>
      let valid := okWalker
      let valid := if !validateCounters d then false else valid
      let valid := if !validateAgainstSamples P d sw then false else valid
      let valid :=
        match d.decisionCountMap.find code with
        | some dc =>
          let c0n := subU32 d.c0 dc.c0p
          let c1n := subU32 d.c1 dc.c1p
          let valid := if negative.data.c0 ≠ c0n then false else valid
          let valid := if negative.data.c1 ≠ c1n then false else valid
          let valid := if positive.data.c0 ≠ dc.c0p then false else valid
          let valid := if positive.data.c1 ≠ dc.c1p then false else valid
          valid
        | none => false
      match validateDecisionTree P negative, validateDecisionTree P positive with
      | some vn, some vp =>
        let valid := if !vn then false else valid
        let valid := if !vp then false else valid
        let valid :=
          if wrapU32 (negative.data.c0 + positive.data.c0) ≠ d.c0 then false else valid
        let valid :=
          if wrapU32 (negative.data.c1 + positive.data.c1) ≠ d.c1 then false else valid
        some valid
      | _, _ => none
    | _, _ => none

/-! ## Forest -/

/-- The class `Forest`. -/
structure Forest where
  samples : SampleMap
  toAdd : SampleMap
  toRemove : SampleMap
  forest : List DecisionTreeNode
  changesToCommit : Bool
  ts : Nat
deriving DecidableEq

/-- The loop of the constructor `Forest(int nTrees)`. -/
def createTrees (P : Platform F) : Nat → Nat → List DecisionTreeNode → Nat × List DecisionTreeNode
  | 0, ts, acc => (ts, acc)
  | n + 1, ts, acc =>
    let r := emptyDecisionTree P ts
    createTrees P n r.1 (acc ++ [r.2])

/-- The function `create` (a negative `nTrees` builds no tree). -/
def create (P : Platform F) (nTrees : Int) : Forest :=
  let r := createTrees P nTrees.toNat 1 []
  ⟨[], [], [], r.2, false, r.1⟩

/-- The method `Forest::add`: the new state and the result. -/
def Forest.add (rf : Forest) (s : Sample) : Forest × Bool :=
  let rf := { rf with changesToCommit := true }
  if rf.toAdd.contains s.suid then
    ({ rf with toAdd := rf.toAdd.set s.suid s }, false)
  else
    let toRemove :=
      if !rf.toRemove.contains s.suid then
        match rf.samples.find s.suid with
        | some old => rf.toRemove.set s.suid old
        | none => rf.toRemove
      else rf.toRemove
    ({ rf with toRemove := toRemove, toAdd := rf.toAdd.set s.suid s }, true)

/-- The method `Forest::remove`: the new state and the result. -/
def Forest.remove (rf : Forest) (sId : String) : Forest × Bool :=
  if rf.toAdd.contains sId then
    ({ rf with toAdd := rf.toAdd.erase sId, changesToCommit := true }, true)
  else if rf.toRemove.contains sId then (rf, false)
  else
    match rf.samples.find sId with
    | none => (rf, false)
    | some old => ({ rf with changesToCommit := true, toRemove := rf.toRemove.set sId old }, true)

/-- The samples of the pending map `m` that `Forest::commit` pushes on the batch
of tree `treeId`, in the order of the map. -/
def treeBatch (P : Platform F) (m : SampleMap) (treeId : Nat) : List Sample :=
  (m.filter (fun e => sampleInTree P e.2 treeId)).map Prod.snd

/-- The loop of `Forest::commit` over the trees, starting at index `treeId`. -/
def commitTrees (P : Platform F) (toAdd toRemove : SampleMap) :
    List DecisionTreeNode → Nat → Nat → Option (Nat × List DecisionTreeNode)
  | [], _, ts => some (ts, [])
  | tree :: rest, treeId, ts =>
    let treeRemove := treeBatch P toRemove treeId
    let treeAdd := treeBatch P toAdd treeId
    match updateDecisionTree P ts tree treeAdd treeRemove with
    | none => none
    | some (ts1, tree1) =>
      match commitTrees P toAdd toRemove rest (treeId + 1) ts1 with
      | none => none
      | some (ts2, rest1) => some (ts2, tree1 :: rest1)

/-- The method `Forest::commit`. -/
def Forest.commit (P : Platform F) (rf : Forest) : Option Forest :=
  if !rf.changesToCommit then some rf
  else
    match commitTrees P rf.toAdd rf.toRemove rf.forest 0 rf.ts with
    | none => none
    | some (ts1, forest1) =>
      let samples := rf.toRemove.foldl (fun (m : SampleMap) e => m.erase e.1) rf.samples
      let samples := rf.toAdd.foldl (fun (m : SampleMap) e => m.set e.1 e.2) samples
      some ⟨samples, [], [], forest1, false, ts1⟩

/-- The method `Forest::validate`. -/
def Forest.validate (P : Platform F) (rf : Forest) : Option Bool :=
  rf.forest.foldl (fun (acc : Option Bool) tree =>
    match acc with
    | none => none
    | some false => some false
    | some true => validateDecisionTree P tree) (some true)

/-! ## Classification -/

/-- The function `evaluateSampleAgainstDecisionTree`. -/
def evaluateSampleAgainstDecisionTree (s : Sample) : DecisionTreeNode → ℚ
  | .leaf _ value _ => value
  | .internal code _ negative positive =>
    let y : ℚ := match s.find code with
      | some v => v
      | none => 0
    if y ≥ 1 / 2 then evaluateSampleAgainstDecisionTree s positive
    else evaluateSampleAgainstDecisionTree s negative

/-- The method `Forest::classify`: the state after the commit and the result. The
sum and the quotient are exact; with no tree the quotient `0/0` of the code is a
NaN, for which the rationals have the value `0`. -/
def Forest.classify (P : Platform F) (rf : Forest) (s : Sample) : Option (Forest × ℚ) :=
  match rf.commit P with
  | none => none
  | some rf1 =>
    let v : ℚ := rf1.forest.foldl
      (fun (v : ℚ) tree => v + evaluateSampleAgainstDecisionTree s tree) (0 : ℚ)
    some (rf1, v / (rf1.forest.length : ℚ))

end Engine

/-! ## Reference platform -/

/-- Rotation `ROTL32` of a 32-bit word. -/
def rotl32 (x r : Nat) : Nat := ((x <<< r) ||| (x >>> (32 - r))) % 4294967296

/-- One four-byte block of the hash body. -/
def murmurBlock (h1 k : Nat) : Nat :=
  let k1 := (k * 0xcc9e2d51) % 4294967296
  let k1 := rotl32 k1 15
  let k1 := (k1 * 0x1b873593) % 4294967296
  let h1 := h1 ^^^ k1
  let h1 := rotl32 h1 13
  (h1 * 5 + 0xe6546b64) % 4294967296

/-- The tail (one to three bytes) of the hash body. -/
def murmurTail (h1 k : Nat) : Nat :=
  let k1 := (k * 0xcc9e2d51) % 4294967296
  let k1 := rotl32 k1 15
  let k1 := (k1 * 0x1b873593) % 4294967296
  h1 ^^^ k1

/-- The finalisation mix `fmix32`. -/
def fmix32 (h : Nat) : Nat :=
  let h := h ^^^ (h >>> 16)
  let h := (h * 0x85ebca6b) % 4294967296
  let h := h ^^^ (h >>> 13)
  let h := (h * 0xc2b2ae35) % 4294967296
  h ^^^ (h >>> 16)

/-- Body and tail of the hash over the bytes of the key (little endian blocks). -/
def murmurBody : List Nat → Nat → Nat
  | b0 :: b1 :: b2 :: b3 :: rest, h1 =>
    murmurBody rest (murmurBlock h1 (b0 + b1 * 256 + b2 * 65536 + b3 * 16777216))
  | [b0, b1, b2], h1 => murmurTail h1 (b0 + b1 * 256 + b2 * 65536)
  | [b0, b1], h1 => murmurTail h1 (b0 + b1 * 256)
  | [b0], h1 => murmurTail h1 b0
  | [], h1 => h1

/-- Modelled from the spec: `MurmurHash3_x86_32` (the file `MurmurHash3.h` that
`randomForest.cpp` includes is missing), the 32-bit MurmurHash3 the spec names. -/
def murmurHash3_x86_32 (key : List Char) (seed : Nat) : Nat :=
  let bytes := key.map (fun c => c.toNat % 256)
  fmix32 (murmurBody bytes seed ^^^ (bytes.length % 4294967296))

/-- The C library routine `rand_r` (glibc): the result and the new seed. -/
def glibcRandR (seed : Nat) : Nat × Nat :=
  let next := (seed * 1103515245 + 12345) % 4294967296
  let result := (next / 65536) % 2048
  let next := (next * 1103515245 + 12345) % 4294967296
  let result := (result <<< 10) ^^^ ((next / 65536) % 1024)
  let next := (next * 1103515245 + 12345) % 4294967296
  let result := (result <<< 10) ^^^ ((next / 65536) % 1024)
  (result, next)

/-- Partial sum of `2 * atanh z`, with `terms` terms. -/
def atanhSeries : Nat → ℚ → ℚ
  | 0, _ => 0
  | terms + 1, z => atanhSeries terms z + 2 * z ^ (2 * terms + 1) / (2 * terms + 1)

/-- A rational stand-in for the natural logarithm: `0` at `1`, negative and
increasing on `(0, 1)`. -/
def refLog (x : ℚ) : ℚ := if x ≤ 0 then 0 else atanhSeries 12 ((x - 1) / (x + 1))

/-- Exact rational arithmetic with `refLog` in place of `log`. -/
def refFloat : FloatOps ℚ where
  ofInt := fun z => (z : ℚ)
  sub := fun a b => a - b
  add := fun a b => a + b
  mul := fun a b => a * b
  div := fun a b => a / b
  log := refLog
  lt := fun a b => decide (a < b)

/-- The platform used to evaluate the engine on concrete inputs. -/
def refPlatform : Platform ℚ where
  fl := refFloat
  murmurHash3 := fun key => murmurHash3_x86_32 key 42
  rand_r := glibcRandR


/-! ## Reachable states and the store invariant -/

/-- Forest states reachable from `create` by `add`, `remove` and `commit`. The
predicate `ok` says which samples `add` may receive in which state. -/
inductive Reachable {F : Type} (P : Platform F) (ok : Forest → Sample → Prop) : Forest → Prop
  | create (nTrees : Int) : Reachable P ok (create P nTrees)
  | add (rf : Forest) (s : Sample) : Reachable P ok rf → ok rf s → Reachable P ok (rf.add s).1
  | remove (rf : Forest) (sId : String) : Reachable P ok rf → Reachable P ok (rf.remove sId).1
  | commit (rf rf1 : Forest) : Reachable P ok rf → rf.commit P = some rf1 → Reachable P ok rf1

/-- The sample handed to `add` is a freshly allocated object: its address differs
from the address of every sample the forest holds. -/
def freshSample (rf : Forest) (s : Sample) : Prop :=
  ∀ e ∈ rf.samples ++ rf.toAdd, e.2.ptr ≠ s.ptr

/-- Consistency of the sample store of a forest. -/
structure StoreInv (rf : Forest) : Prop where
  keySamples : ∀ e ∈ rf.samples, e.2.suid = e.1
  keyAdd : ∀ e ∈ rf.toAdd, e.2.suid = e.1
  nodupSamples : (rf.samples.map Prod.fst).Nodup
  nodupAdd : (rf.toAdd.map Prod.fst).Nodup
  nodupRemove : (rf.toRemove.map Prod.fst).Nodup
  removeSub : ∀ e ∈ rf.toRemove, e ∈ rf.samples
  addCovered : ∀ e ∈ rf.toAdd, rf.samples.contains e.1 = true → rf.toRemove.contains e.1 = true

/-- Distinct samples of the store have distinct addresses, and no pending addition
is a committed sample. -/
structure PtrInv (rf : Forest) : Prop where
  ptrInj : ∀ a ∈ rf.samples ++ rf.toAdd, ∀ b ∈ rf.samples ++ rf.toAdd, a.2.ptr = b.2.ptr → a = b
  addFresh : ∀ a ∈ rf.toAdd, a ∉ rf.samples

/-! ## Counting samples and the node invariant -/

/-- The feature `c` is present in sample `s`: its value is `> 0.5`. -/
def hasCodeGt (s : Sample) (c : Int) : Bool :=
  match s.find c with
  | some v => decide (v > 1 / 2)
  | none => false

/-- The sample is of class 1: `y ≥ 0.5`. -/
def isClass1 (s : Sample) : Bool := decide (s.y ≥ 1 / 2)

/-- The strict test `y > 0.5` that some paths of the engine apply to the target. -/
def isAboveHalf (s : Sample) : Bool := decide (s.y > 1 / 2)

/-- Number of class-0 samples. -/
def countClass0 (S : List Sample) : Nat := S.countP (fun s => !isClass1 s)

/-- Number of class-1 samples. -/
def countClass1 (S : List Sample) : Nat := S.countP isClass1

/-- Number of class-0 samples in which code `c` is present. -/
def countPresent0 (S : List Sample) (c : Int) : Nat :=
  S.countP (fun s => !isClass1 s && hasCodeGt s c)

/-- Number of class-1 samples in which code `c` is present. -/
def countPresent1 (S : List Sample) (c : Int) : Nat :=
  S.countP (fun s => isClass1 s && hasCodeGt s c)

/-- A well-formed sample with target and feature values in `{0, 1}`: the keys of
the map `xCodes` are distinct. -/
def Sample.Binary (s : Sample) : Prop :=
  (s.y = 0 ∨ s.y = 1) ∧ (∀ e ∈ s.xCodes, e.2 = 0 ∨ e.2 = 1) ∧ (s.xCodes.map Prod.fst).Nodup

/-- The counters `d` of a node agree with the samples `S` under it. -/
structure CountInv {F : Type} (P : Platform F) (S : List Sample) (d : NodeData) : Prop where
  c0 : d.c0 = countClass0 S
  c1 : d.c1 = countClass1 S
  entries : ∀ e ∈ d.decisionCountMap,
    e.2.c0p = countPresent0 S e.1 ∧ e.2.c1p = countPresent1 S e.1 ∧
      e.2.rank = codeRankInNode P e.1 d.id
  absent : ∀ c, pairGe (codeRankInNode P c d.id, c) d.minValidRank = true →
    d.decisionCountMap.contains c = false → ∀ s ∈ S, hasCodeGt s c = false

/-- The invariant of the data `d` of a node over the samples `S` under it: the
totals add up to the number of samples (modulo `2^32`) and, in binary mode `B`,
the samples are binary, fewer than `2^32`, and all counters are exact. -/
def NodeInv {F : Type} (P : Platform F) (B : Prop) (S : List Sample) (d : NodeData) : Prop :=
  (d.c0 + d.c1) % 4294967296 = S.length % 4294967296 ∧
    (B → (∀ s ∈ S, s.Binary) ∧ S.length < 4294967296 ∧ CountInv P S d)

/-- The invariant of a tree: every node's data agrees with the samples under it,
and samples sit on the side of each split that their feature value selects. -/
def TreeInv {F : Type} (P : Platform F) (B : Prop) : DecisionTreeNode → Prop
  | .leaf d _ samples => NodeInv P B samples d
  | .internal code d negative positive =>
    NodeInv P B (collectRecursive negative ++ collectRecursive positive) d ∧
      (∀ s ∈ collectRecursive negative, hasCodeGt s code = false) ∧
      (∀ s ∈ collectRecursive positive, hasCodeGt s code = true) ∧
      TreeInv P B negative ∧ TreeInv P B positive

/-- The state of a tree between the two passes of `updateDecisionTree`: the sample
vectors hold the new samples while the counters still describe the old ones, which
are the new ones with `batchRemove` put back and `batchAdd` taken out. -/
def MidInv {F : Type} (P : Platform F) (B : Prop) :
    DecisionTreeNode → List Sample → List Sample → Prop
  | .leaf d _ samples, batchAdd, batchRemove =>
    ∃ M, NodeInv P B (batchRemove ++ M) d ∧ List.Perm samples (M ++ batchAdd)
  | .internal code d negative positive, batchAdd, batchRemove =>
    (∃ M, NodeInv P B (batchRemove ++ M) d ∧
        List.Perm (collectRecursive negative ++ collectRecursive positive) (M ++ batchAdd)) ∧
      (∀ s ∈ collectRecursive negative, hasCodeGt s code = false) ∧
      (∀ s ∈ collectRecursive positive, hasCodeGt s code = true) ∧
      MidInv P B negative (batchAdd.filter (fun s => !hasCodeGt s code))
        (batchRemove.filter (fun s => !hasCodeGt s code)) ∧
      MidInv P B positive (batchAdd.filter (fun s => hasCodeGt s code))
        (batchRemove.filter (fun s => hasCodeGt s code))

/-- All nodes of a tree, the root first. -/
def DecisionTreeNode.nodes : DecisionTreeNode → List DecisionTreeNode
  | .leaf d v samples => [.leaf d v samples]
  | .internal code d negative positive =>
    .internal code d negative positive :: (negative.nodes ++ positive.nodes)

/-- The table part of `CountInv`: the entries of the table `m` of a node with id `id`
and watermark `mvr` agree with the samples `S`. -/
structure TableInv {F : Type} (P : Platform F) (S : List Sample) (id : Nat) (mvr : RankPair)
    (m : DCMap) : Prop where
  entries : ∀ e ∈ m,
    e.2.c0p = countPresent0 S e.1 ∧ e.2.c1p = countPresent1 S e.1 ∧
      e.2.rank = codeRankInNode P e.1 id
  absent : ∀ c, pairGe (codeRankInNode P c id, c) mvr = true →
    m.contains c = false → ∀ s ∈ S, hasCodeGt s c = false

/-! ## Proof-level descriptions of walker and loop states -/

/-- Samples still to be visited below the internal nodes of a walker stack. -/
def pendingSamples : List DecisionTreeNode → List Sample
  | [] => []
  | .leaf _ _ _ :: st => pendingSamples st
  | .internal _ _ _ positive :: st => collectRecursive positive ++ pendingSamples st

/-- Every node of the stack is an internal node. -/
def allInternal : List DecisionTreeNode → Prop
  | [] => True
  | .leaf _ _ _ :: _ => False
  | .internal _ _ _ _ :: st => allInternal st

/-- The samples a walker state still yields. -/
def TreeSampleWalker.remaining (w : TreeSampleWalker) : List Sample :=
  w.cur ++ pendingSamples w.st.tail

/-- A walker state between two calls: exhausted, or positioned in a non-empty leaf
that sits on top of a stack of internal nodes. -/
def TreeSampleWalker.Good (w : TreeSampleWalker) : Prop :=
  (w.st = [] ∧ w.cur = []) ∨
    (∃ d v samples st, w.st = .leaf d v samples :: st ∧ allInternal st ∧ w.cur ≠ [])

/-- The loop invariant of the insertion loop of `updateDecisionCounters` for the
sample `s` added to the samples `S`: `done` are the entries of `s.xCodes` visited. -/
structure InsertInv {F : Type} (P : Platform F) (s : Sample) (S : List Sample) (id : Nat)
    (acc : DCMap × List RankPair × RankPair) (done : List (Int × ℚ)) : Prop where
  entries : ∀ e ∈ acc.1,
    e.2.c0p = countPresent0 (s :: S) e.1 ∧ e.2.c1p = countPresent1 (s :: S) e.1 ∧
      e.2.rank = codeRankInNode P e.1 id
  absentOld : ∀ c, pairGe (codeRankInNode P c id, c) acc.2.2 = true →
    acc.1.contains c = false → ∀ s1 ∈ S, hasCodeGt s1 c = false
  ranksOK : ∀ p ∈ acc.2.1, p.1 = codeRankInNode P p.2 id
  processed : ∀ x ∈ done, acc.1.contains x.1 = true ∨
    pairGe (codeRankInNode P x.1 id, x.1) acc.2.2 = false

/-- Distinct samples of the list have distinct addresses. -/
def PtrInj (L : List Sample) : Prop := ∀ a ∈ L, ∀ b ∈ L, a.ptr = b.ptr → a = b

/-! ## The forest invariant -/

/-- Tree number `i` of a forest with the committed samples `samples`: the tree
invariant holds, no sample sits twice in the tree, and the samples of the tree are
the committed samples that `sampleInTree` assigns to it. -/
def TreeOK {F : Type} (P : Platform F) (B : Prop) (samples : SampleMap)
    (tree : DecisionTreeNode) (i : Nat) : Prop :=
  TreeInv P B tree ∧ (collectRecursive tree).Nodup ∧
    ∀ s, s ∈ collectRecursive tree ↔ ((s.suid, s) ∈ samples ∧ sampleInTree P s i = true)

/-- The trees of a forest, numbered from `i` on. -/
def TreesOK {F : Type} (P : Platform F) (B : Prop) (samples : SampleMap) :
    List DecisionTreeNode → Nat → Prop
  | [], _ => True
  | t :: rest, i => TreeOK P B samples t i ∧ TreesOK P B samples rest (i + 1)

/-- The invariant of a forest; in binary mode `B` all samples are binary and there
are fewer than `2^32` of them. -/
structure ForestInv {F : Type} (P : Platform F) (B : Prop) (rf : Forest) : Prop where
  store : StoreInv rf
  ptr : PtrInv rf
  trees : TreesOK P B rf.samples rf.forest 0
  binary : B → (∀ e ∈ rf.samples ++ rf.toAdd, e.2.Binary) ∧
    rf.samples.length + rf.toAdd.length < 4294967296

/-- The sample handed to `add` is fresh, its target and feature values are in
`{0, 1}`, and with it the forest holds fewer than `2^32` samples. -/
def binarySample (rf : Forest) (s : Sample) : Prop :=
  freshSample rf s ∧ s.Binary ∧ rf.samples.length + rf.toAdd.length + 1 < 4294967296

/-! ## The shape invariant -/

/-- The shape invariant of a tree: every internal node splits on the code that
`findMinEntropyCode` returns for its counters, and every leaf has the value that
`updateValue` computes from its counters or is an untouched leaf of `create`
(value 0 and no counts). -/
def Settled {F : Type} (P : Platform F) : DecisionTreeNode → Prop
  | .leaf d value _ => value = updateValue d ∨ (value = 0 ∧ d.c0 = 0 ∧ d.c1 = 0)
  | .internal code d negative positive =>
    findMinEntropyCode P.fl (entropyBinary P.fl (toInt32 d.c0) (toInt32 d.c1)) d = code ∧
      code ≠ -1 ∧ Settled P negative ∧ Settled P positive

/-- The root of a tree that an update has visited: a leaf has the value that
`updateValue` computes. -/
def RootUpdated : DecisionTreeNode → Prop
  | .leaf d value _ => value = updateValue d
  | .internal _ _ _ _ => True

/-! ## Concrete samples and forests on which the engine is evaluated

The suids `a`, `e`, `g`, `h` and `k` are suids that `sampleInTree` of the
reference platform assigns to tree 0. -/

/-- Class 1, feature 1 present. -/
def exA : Sample := ⟨1, "a", 1, [(1, 1)]⟩

/-- Class 1, feature 1 present. -/
def exE : Sample := ⟨2, "e", 1, [(1, 1)]⟩

/-- Class 0, no feature. -/
def exG : Sample := ⟨3, "g", 0, []⟩

/-- Class 0, no feature. -/
def exH : Sample := ⟨4, "h", 0, []⟩

/-- Class 1, feature 1 with the value `0.5`. -/
def exK : Sample := ⟨5, "k", 1, [(1, 1 / 2)]⟩

/-- A sample with the target `0.5`, feature 1 present. -/
def exHalf : Sample := ⟨1, "a", 1 / 2, [(1, 1)]⟩

/-- A new sample for the committed suid `a`. -/
def exA2 : Sample := ⟨6, "a", 0, [(2, 1)]⟩

/-- Class 1, the features 1 to 30 present and feature 31 with the value 0. -/
def exBig : Sample :=
  ⟨1, "a", 1, (List.range 30).map (fun i => ((i : Int) + 1, (1 : ℚ))) ++ [(31, 0)]⟩

/-- Class 0, no feature. -/
def exZero : Sample := ⟨2, "e", 0, []⟩

/-- One tree, the samples `exA`, `exE`, `exG`, `exH` added and not yet committed. -/
def exPending : Forest :=
  ((((create refPlatform 1).add exA).1.add exE).1.add exG).1.add exH |>.1

/-- The forest `exPending` after `commit`: the tree has split on code 1. -/
def exCommitted : Forest :=
  ⟨[("a", exA), ("e", exE), ("g", exG), ("h", exH)], [], [],
    [.internal 1 ⟨2, 2, [(1, ⟨0, 2, 1167667938⟩)], 476707713, (0, 0)⟩
      (.leaf ⟨2, 0, [], 505671508, (0, 0)⟩ 0 [exG, exH])
      (.leaf ⟨0, 2, [(1, ⟨0, 2, 2073703938⟩)], 2137716191, (0, 0)⟩ 1 [exA, exE])],
    false, 836760821⟩

/-- One tree, the samples `exA`, `exE`, `exG`, `exH`, `exK` added and not yet committed. -/
def exPendingK : Forest := (exPending.add exK).1

/-- The forest `exPendingK` after `commit`. -/
def exCommittedK : Forest :=
  ⟨[("a", exA), ("e", exE), ("g", exG), ("h", exH), ("k", exK)], [], [],
    [.internal 1 ⟨2, 3, [(1, ⟨0, 3, 1167667938⟩)], 476707713, (0, 0)⟩
      (.leaf ⟨2, 1, [(1, ⟨0, 0, 73757539⟩)], 505671508, (0, 0)⟩ (1 / 3) [exG, exH, exK])
      (.leaf ⟨0, 2, [(1, ⟨0, 2, 2073703938⟩)], 2137716191, (0, 0)⟩ 1 [exA, exE])],
    false, 836760821⟩

/-- The forest after `create(1)`, `add(exHalf)` and `commit`. -/
def exCommittedHalf : Forest :=
  ⟨[("a", exHalf)], [], [],
    [.leaf ⟨1, 0, [(1, ⟨0, 1, 1167667938⟩)], 476707713, (0, 0)⟩ 0 [exHalf]],
    false, 662824084⟩

/-- One tree; `exA` added and its pending add cancelled by `remove`: both pending
maps are empty and `changesToCommit` is set. -/
def exCancelled : Forest := (((create refPlatform 1).add exA).1.remove "a").1

/-- The forest `exCancelled` after `commit`. -/
def exCancelledCommitted : Forest :=
  ⟨[], [], [], [.leaf ⟨0, 0, [], 476707713, (0, 0)⟩ 1 []], false, 662824084⟩

/-- A query with no feature. -/
def exQueryNone : Sample := ⟨100, "q", 0, []⟩

/-- A query with feature 1 present. -/
def exQueryOne : Sample := ⟨101, "q", 0, [(1, 1)]⟩

/-- A query with the value 0 for feature 1. -/
def exQueryZero : Sample := ⟨102, "q", 0, [(1, 0)]⟩

/-- Target `0.5`, no feature. -/
def exHalfG : Sample := ⟨3, "g", 1 / 2, []⟩

/-- Target `0.5`, no feature. -/
def exHalfH : Sample := ⟨4, "h", 1 / 2, []⟩

/-- Target `0.5`, no feature. -/
def exHalfK : Sample := ⟨5, "k", 1 / 2, []⟩

/-- Target `0.5`, no feature. -/
def exHalfL : Sample := ⟨6, "l", 1 / 2, []⟩

/-- Class 0, feature 1 with the value 0 (scenario S1 of the specification). -/
def exB : Sample := ⟨2, "b", 0, [(1, 0)]⟩

/-- Class 0, feature 1 with the value `0.5`: not present. -/
def exK0 : Sample := ⟨5, "k", 0, [(1, 1 / 2)]⟩

/-- Class 0, feature 2 present. -/
def exK2 : Sample := ⟨5, "k", 0, [(2, 1)]⟩

/-- Class 0, feature 2 present. -/
def exL2 : Sample := ⟨6, "l", 0, [(2, 1)]⟩

/-- Class 0, feature 2 present. -/
def exM2 : Sample := ⟨7, "m", 0, [(2, 1)]⟩

/-- Class 0, feature 2 present. -/
def exN2 : Sample := ⟨8, "n", 0, [(2, 1)]⟩

/-- Class 1, feature 2 with the value `0.5`. -/
def exO : Sample := ⟨9, "o", 1, [(2, 1 / 2)]⟩

/-- Class 1, feature 2 with the value `0.5`. -/
def exP : Sample := ⟨10, "p", 1, [(2, 1 / 2)]⟩

/-- The samples of scenario S1 of the specification, at the addresses `pa` and `pb`. -/
def sampleS1a (pa : Nat) : Sample := ⟨pa, "a", 1, [(1, 1)]⟩

/-- The second sample of scenario S1. -/
def sampleS1b (pb : Nat) : Sample := ⟨pb, "b", 0, [(1, 0)]⟩

/-- Scenario S1 before `commit`: `create(1)`, `add("a", {1: 1.0}, 1.0)`,
`add("b", {1: 0.0}, 0.0)`. -/
def scenarioS1 {F : Type} (P : Platform F) (pa pb : Nat) : Forest :=
  (((create P 1).add (sampleS1a pa)).1.add (sampleS1b pb)).1

/-- The forest `scenarioS1 refPlatform 1 2` after `commit`: the suid `b` is not
routed to tree 0. -/
def exS1Committed : Forest :=
  ⟨[("a", sampleS1a 1), ("b", sampleS1b 2)], [], [],
    [.leaf ⟨0, 1, [(1, ⟨0, 1, 1167667938⟩)], 476707713, (0, 0)⟩ 1 [sampleS1a 1]],
    false, 662824084⟩

/-- One tree; `exA`, `exE` and four samples with the target `0.5` added. -/
def exBoundsPending : Forest :=
  ((((((create refPlatform 1).add exA).1.add exE).1.add exHalfG).1.add exHalfH).1.add
    exHalfK).1.add exHalfL |>.1

/-- The forest `exBoundsPending` after `commit`: the recount of the negative child
counts the four samples with the target `0.5` as class 1. -/
def exBoundsCommitted : Forest :=
  ⟨[("a", exA), ("e", exE), ("g", exHalfG), ("h", exHalfH), ("k", exHalfK), ("l", exHalfL)],
    [], [],
    [.internal 1 ⟨4, 2, [(1, ⟨0, 2, 1167667938⟩)], 476707713, (0, 0)⟩
      (.leaf ⟨0, 4, [], 505671508, (0, 0)⟩ 1 [exHalfG, exHalfH, exHalfK, exHalfL])
      (.leaf ⟨0, 2, [(1, ⟨0, 2, 2073703938⟩)], 2137716191, (0, 0)⟩ 1 [exA, exE])],
    false, 836760821⟩

/-- The forest `exBoundsCommitted` after `remove("g")`, `remove("h")` and `commit`:
the removal takes the two samples off `c0` of the negative child, which wraps
around. -/
def exBoundsFinal : Forest :=
  ⟨[("a", exA), ("e", exE), ("k", exHalfK), ("l", exHalfL)], [], [],
    [.internal 1 ⟨2, 2, [(1, ⟨0, 2, 1167667938⟩)], 476707713, (0, 0)⟩
      (.leaf ⟨4294967294, 4, [], 505671508, (0, 0)⟩ 2 [exHalfK, exHalfL])
      (.leaf ⟨0, 2, [(1, ⟨0, 2, 2073703938⟩)], 2137716191, (0, 0)⟩ 1 [exA, exE])],
    false, 836760821⟩

/-- The forest `exCommitted` with its four samples removed and four class-0 samples
with feature 2 present and two class-1 samples with feature 2 at `0.5` added. -/
def exMixedPending : Forest :=
  ((((((((((exCommitted.remove "a").1.remove "e").1.remove "g").1.remove "h").1.add
    exK2).1.add exL2).1.add exM2).1.add exN2).1.add exO).1.add exP).1

/-- The forest `exMixedPending` after `commit`: the root has collapsed to a leaf
whose table was recounted. -/
def exMixedCommitted : Forest :=
  ⟨[("k", exK2), ("l", exL2), ("m", exM2), ("n", exN2), ("o", exO), ("p", exP)], [], [],
    [.leaf ⟨4, 2, [(2, ⟨4, 0, 155670421⟩)], 476707713, (0, 0)⟩ (1 / 3)
      [exK2, exL2, exM2, exN2, exO, exP]],
    false, 2111915288⟩

/-- The forest `exMixedCommitted` after `remove("o")`, `remove("p")` and `commit`:
all samples are of class 0 and the root is an internal node. -/
def exMixedFinal : Forest :=
  ⟨[("k", exK2), ("l", exL2), ("m", exM2), ("n", exN2)], [], [],
    [.internal 2 ⟨4, 0, [(2, ⟨4, 4294967294, 155670421⟩)], 476707713, (0, 0)⟩
      (.leaf ⟨0, 0, [], 589265238, (0, 0)⟩ 1 [])
      (.leaf ⟨4, 0, [(2, ⟨4, 0, 3881570154⟩)], 924859463, (0, 0)⟩ 0 [exK2, exL2, exM2, exN2])],
    false, 675780521⟩

/-- One tree; two class-1 samples with feature 1 present, a class-0 sample with no
code and a class-0 sample with feature 1 at `0.5`. -/
def exS4Pending : Forest :=
  ((((create refPlatform 1).add exA).1.add exE).1.add exG).1.add exK0 |>.1

/-- The forest `exS4Pending` after `commit`. -/
def exS4Committed : Forest :=
  ⟨[("a", exA), ("e", exE), ("g", exG), ("k", exK0)], [], [],
    [.leaf ⟨2, 2, [(1, ⟨1, 2, 1167667938⟩)], 476707713, (0, 0)⟩ (1 / 2) [exA, exE, exG, exK0]],
    false, 662824084⟩

/-- A class-0 sample without features. -/
def exZ : Sample := ⟨20, "z", 0, []⟩

/-- The forest `exMixedCommitted` after `add(exZ)` and `remove("z")`: nothing is
pending and `changesToCommit` is set. -/
def exRecommit : Forest := ((exMixedCommitted.add exZ).1.remove "z").1

/-! ## Walks of a query through a tree -/

/-- The leaf at which the loop of `evaluateSampleAgainstDecisionTree` stops. -/
def reachedLeaf (s : Sample) : DecisionTreeNode → DecisionTreeNode
  | .leaf d value samples => .leaf d value samples
  | .internal code _ negative positive =>
    let y : ℚ := match s.find code with
      | some v => v
      | none => 0
    if y ≥ 1 / 2 then reachedLeaf s positive else reachedLeaf s negative

/-- The field `value` of a leaf. -/
def DecisionTreeNode.leafValue : DecisionTreeNode → ℚ
  | .leaf _ value _ => value
  | .internal _ _ _ _ => 0

/-- The samples stored in the vector of a leaf. -/
def DecisionTreeNode.leafSamples : DecisionTreeNode → List Sample
  | .leaf _ _ samples => samples
  | .internal _ _ _ _ => []

/-- Whether the node is a leaf (`code == -1`). -/
def DecisionTreeNode.isLeaf : DecisionTreeNode → Bool
  | .leaf _ _ _ => true
  | .internal _ _ _ _ => false

/-- The walk by feature presence in the words of the specification: at an
internal node the walk descends to the positive child exactly when the feature
of the node's code is present in the query (its value is `> 0.5`, a missing code
is absent), the rule by which `splitListAgainstCode` places stored samples. -/
def presenceWalk (s : Sample) : DecisionTreeNode → DecisionTreeNode
  | .leaf d value samples => .leaf d value samples
  | .internal code _ negative positive =>
    if hasCodeGt s code then presenceWalk s positive else presenceWalk s negative

/-! ## Serialization: `Forest::save` and `loadRandomForest`

A stream is the list of its characters. Integers are written in decimal. What
the file does not contain, the formatting and the extraction of a `float` by the
stream library and the addresses that `new Sample()` returns, is a parameter,
bundled in `StreamOps`; `refStream` is a concrete instance: it writes a value with
six significant digits, the default precision of a stream, and reads a decimal
numeral exactly. An extraction that fails (after which the source goes on with
the stream in the failed state) is `none`, as are `exit(1)` and running out of
recursion fuel. -/

/-- The stream library and the allocator as seen by `save` and `load`:
`outS << v` and `inS >> v` for a `float` (the value and the rest of the stream),
and the address of the `i`-th sample that a load allocates. -/
structure StreamOps where
  showFloat : ℚ → List Char
  readFloat : List Char → Option (ℚ × List Char)
  newSample : Nat → Nat

/-- The output of `endl`. -/
def endl : List Char := [Char.ofNat 10]

/-- The output of `" "`. -/
def blank : List Char := [' ']

/-- White space as skipped by `>>`. -/
def isSpaceChar (c : Char) : Bool :=
  c.toNat = 32 || (9 ≤ c.toNat && c.toNat ≤ 13)

/-- The characters that `>>` skips before an extraction. -/
def skipSpace (inS : List Char) : List Char := inS.dropWhile isSpaceChar

/-- The value of a sequence of decimal digits. -/
def digitsValue (ds : List Char) : Nat := ds.foldl (fun n c => 10 * n + (c.toNat - 48)) 0

/-- A non-empty sequence of decimal digits at the head of the stream. -/
def readDigits (inS : List Char) : Option (Nat × List Char) :=
  let ds := inS.takeWhile Char.isDigit
  if ds.isEmpty then none else some (digitsValue ds, inS.dropWhile Char.isDigit)

/-- Extraction `inS >> v` of an unsigned integer of `bits` bits. -/
def readUnsigned (bits : Nat) (inS : List Char) : Option (Nat × List Char) :=
  match readDigits (skipSpace inS) with
  | none => none
  | some (n, rest) => if n < 2 ^ bits then some (n, rest) else none

/-- Extraction `inS >> v` of a signed integer of `bits` bits. -/
def readSigned (bits : Nat) (inS : List Char) : Option (Int × List Char) :=
  match skipSpace inS with
  | '-' :: rest =>
    match readDigits rest with
    | none => none
    | some (n, rest1) => if n ≤ 2 ^ (bits - 1) then some (-(n : Int), rest1) else none
  | '+' :: rest =>
    match readDigits rest with
    | none => none
    | some (n, rest1) => if n < 2 ^ (bits - 1) then some ((n : Int), rest1) else none
  | rest =>
    match readDigits rest with
    | none => none
    | some (n, rest1) => if n < 2 ^ (bits - 1) then some ((n : Int), rest1) else none

/-- Extraction `inS >> s` of a `std::string`: the characters up to the next white
space; it fails at the end of the stream. -/
def readString (inS : List Char) : Option (String × List Char) :=
  let w := (skipSpace inS).takeWhile (fun c => !isSpaceChar c)
  if w.isEmpty then none
  else some (String.mk w, (skipSpace inS).dropWhile (fun c => !isSpaceChar c))

/-- The assignment `xCodes[code] = value` on a `std::map<int, float>`. -/
def assignCode (code : Int) (value : ℚ) : List (Int × ℚ) → List (Int × ℚ)
  | [] => [(code, value)]
  | e :: m =>
    if code < e.1 then (code, value) :: e :: m
    else if code = e.1 then (code, value) :: m
    else e :: assignCode code value m

/-- The assignment `decisionCountMap[code] = dc`. -/
def DCMap.assign (m : DCMap) (code : Int) (dc : DecisionCounts) : DCMap :=
  if m.contains code then m.map (fun e => if e.1 = code then (code, dc) else e)
  else DCMap.insertNew code dc m

section Streams

variable {F : Type} (P : Platform F) (io : StreamOps)

/-- The body of the loop of `Forest::save` over the samples. -/
def saveSample (s : Sample) : List Char :=
  decimalNat s.ptr ++ endl
    ++ s.suid.data ++ endl
    ++ io.showFloat s.y ++ endl
    ++ decimalNat s.xCodes.length ++ endl
    ++ (s.xCodes.map (fun e => decimalInt e.1 ++ blank ++ io.showFloat e.2 ++ endl)).flatten

/-- The body of the loop of `saveDecisionTreeNodeInForest` over the table. -/
def saveDecisionCounts (e : Int × DecisionCounts) : List Char :=
  decimalInt e.1 ++ endl
    ++ decimalNat 0 ++ blank ++ decimalNat 0 ++ blank ++ decimalNat e.2.c0p ++ blank
    ++ decimalNat e.2.c1p ++ blank ++ decimalNat e.2.rank ++ endl

/-- The part of `saveDecisionTreeNodeInForest` that leaves and internal nodes share. -/
def saveNodeHeader (code : Int) (d : NodeData) : List Char :=
  decimalInt code ++ endl
    ++ decimalNat d.id ++ endl
    ++ decimalNat d.minValidRank.1 ++ blank ++ decimalInt d.minValidRank.2 ++ endl
    ++ decimalNat d.c0 ++ blank ++ decimalNat d.c1 ++ endl
    ++ decimalNat d.decisionCountMap.length ++ endl
    ++ (d.decisionCountMap.map saveDecisionCounts).flatten

/-- The function `saveDecisionTreeNodeInForest`. -/
def saveDecisionTreeNodeInForest : DecisionTreeNode → List Char
  | .leaf d value samples =>
    saveNodeHeader (-1) d
      ++ decimalNat samples.length ++ endl
      ++ (samples.map (fun s => decimalNat s.ptr ++ endl)).flatten
      ++ io.showFloat value ++ endl
  | .internal code d negative positive =>
    saveNodeHeader code d
      ++ saveDecisionTreeNodeInForest negative
      ++ saveDecisionTreeNodeInForest positive

/-- The method `Forest::save`: the state after the commit and the characters
written. -/
def Forest.save (rf : Forest) : Option (Forest × List Char) :=
  match rf.commit P with
  | none => none
  | some rf1 =>
    some (rf1,
      decimalNat rf1.ts ++ endl
        ++ decimalNat rf1.forest.length ++ endl
        ++ decimalNat rf1.samples.length ++ endl
        ++ (rf1.samples.map (fun e => saveSample io e.2)).flatten
        ++ (rf1.forest.map (saveDecisionTreeNodeInForest io)).flatten)

/-- The loop of `loadRandomForest` over the codes of a sample. -/
def loadSampleCodes : Nat → List Char → List (Int × ℚ) → Option (List (Int × ℚ) × List Char)
  | 0, inS, xCodes => some (xCodes, inS)
  | n + 1, inS, xCodes =>
    match readSigned 32 inS with
    | none => none
    | some (code, inS) =>
      match io.readFloat inS with
      | none => none
      | some (value, inS) => loadSampleCodes n inS (assignCode code value xCodes)

/-- The loop of `loadRandomForest` over the samples: `i` samples have been
allocated; `sampleMap` is searched from the most recent assignment. -/
def loadSamples : Nat → Nat → List Char → List (Int × Sample) → SampleMap →
    Option (List (Int × Sample) × SampleMap × List Char)
  | 0, _, inS, sampleMap, samples => some (sampleMap, samples, inS)
  | n + 1, i, inS, sampleMap, samples =>
    match readSigned 64 inS with
    | none => none
    | some (sampleId, inS) =>
      match readString inS with
      | none => none
      | some (suid, inS) =>
        match io.readFloat inS with
        | none => none
        | some (y, inS) =>
          match readSigned 32 inS with
          | none => none
          | some (countSampleCodes, inS) =>
            match loadSampleCodes io countSampleCodes.toNat inS [] with
            | none => none
            | some (xCodes, inS) =>
              let s : Sample := ⟨io.newSample i, suid, y, xCodes⟩
              loadSamples n (i + 1) inS ((sampleId, s) :: sampleMap) (samples.set suid s)

/-- The loop of `loadDecisionTreeNodeForForest` over the table. -/
def loadDecisionCounts : Nat → List Char → DCMap → Option (DCMap × List Char)
  | 0, inS, m => some (m, inS)
  | n + 1, inS, m =>
    match readSigned 32 inS with
    | none => none
    | some (code, inS) =>
      match readUnsigned 32 inS with
      | none => none
      | some (_, inS) =>
        match readUnsigned 32 inS with
        | none => none
        | some (_, inS) =>
          match readUnsigned 32 inS with
          | none => none
          | some (c0p, inS) =>
            match readUnsigned 32 inS with
            | none => none
            | some (c1p, inS) =>
              match readUnsigned 32 inS with
              | none => none
              | some (rank, inS) =>
                let dc : DecisionCounts := ⟨c0p, c1p, rank⟩
                loadDecisionCounts n inS
                  (if !(c0p == 0 && c1p == 0) then m.assign code dc else m)

/-- The loop of `loadDecisionTreeNodeForForest` over the samples of a leaf. -/
def loadLeafSamples : Nat → List Char → List (Int × Sample) → List Sample →
    Option (List Sample × List Char)
  | 0, inS, _, acc => some (acc, inS)
  | n + 1, inS, sampleMap, acc =>
    match readSigned 64 inS with
    | none => none
    | some (sampleId, inS) =>
      match sampleMap.lookup sampleId with
      | none => none
      | some s => loadLeafSamples n inS sampleMap (acc ++ [s])

/-- The function `loadDecisionTreeNodeForForest`: the new seed, the node and the
rest of the stream. `makeLeaf` and `makeInternal` draw an id, which the id read
from the stream replaces. -/
def loadDecisionTreeNodeForForest :
    Nat → Nat → List Char → List (Int × Sample) → Option (Nat × DecisionTreeNode × List Char)
  | 0, _, _, _ => none
  | fuel + 1, ts, inS, sampleMap =>
    match readSigned 32 inS with
    | none => none
    | some (nodeCode, inS) =>
      let ts := (P.rand_r ts).2
      match readUnsigned 64 inS with
      | none => none
      | some (id, inS) =>
        match readUnsigned 32 inS with
        | none => none
        | some (rankFirst, inS) =>
          match readSigned 32 inS with
          | none => none
          | some (rankSecond, inS) =>
            match readUnsigned 32 inS with
            | none => none
            | some (c0, inS) =>
              match readUnsigned 32 inS with
              | none => none
              | some (c1, inS) =>
                match readSigned 32 inS with
                | none => none
                | some (countDC, inS) =>
                  match loadDecisionCounts countDC.toNat inS [] with
                  | none => none
                  | some (dcMap, inS) =>
                    let d : NodeData := ⟨c0, c1, dcMap, id, (rankFirst, rankSecond)⟩
                    if nodeCode = -1 then
                      match readSigned 32 inS with
                      | none => none
                      | some (countSamples, inS) =>
                        match loadLeafSamples countSamples.toNat inS sampleMap [] with
                        | none => none
                        | some (samples, inS) =>
                          match io.readFloat inS with
                          | none => none
                          | some (value, inS) => some (ts, .leaf d value samples, inS)
                    else
                      match loadDecisionTreeNodeForForest fuel ts inS sampleMap with
                      | none => none
                      | some (ts, negative, inS) =>
                        match loadDecisionTreeNodeForForest fuel ts inS sampleMap with
                        | none => none
                        | some (ts, positive, inS) =>
                          some (ts, .internal nodeCode d negative positive, inS)

/-- The loop of `loadRandomForest` over the trees; every node read takes at least
one character, so that the length of the stream bounds the depth. -/
def loadTrees : Nat → Nat → List Char → List (Int × Sample) → List DecisionTreeNode →
    Option (Nat × List DecisionTreeNode)
  | 0, ts, _, _, forest => some (ts, forest)
  | n + 1, ts, inS, sampleMap, forest =>
    match loadDecisionTreeNodeForForest P io (inS.length + 1) ts inS sampleMap with
    | none => none
    | some (ts, tree, inS) => loadTrees n ts inS sampleMap (forest ++ [tree])

/-- The constructor `Forest(istream&)`, which calls `loadRandomForest`. -/
def Forest.load (inS : List Char) : Option Forest :=
  match readUnsigned 32 inS with
  | none => none
  | some (seed, inS) =>
    match readSigned 32 inS with
    | none => none
    | some (nTrees, inS) =>
      match readSigned 32 inS with
      | none => none
      | some (nSamples, inS) =>
        match loadSamples io nSamples.toNat 0 inS [] [] with
        | none => none
        | some (sampleMap, samples, inS) =>
          match loadTrees P io nTrees.toNat seed inS sampleMap [] with
          | none => none
          | some (ts, forest) => some ⟨samples, [], [], forest, false, ts⟩

end Streams

/-! ## A reference stream library -/

/-- The digits of a positive `m` without the zeros at its end. -/
def stripZeros (ds : List Char) : List Char :=
  (ds.reverse.dropWhile (fun c => c = '0')).reverse

/-- The decimal exponent `e` of a positive rational `num / den`:
`10^e ≤ num / den < 10^(e+1)`. -/
def decimalExponent (num den : Nat) : Int :=
  let e0 : Int := ((decimalNat num).length : Int) - ((decimalNat den).length : Int)
  if 0 ≤ e0 then (if den * 10 ^ e0.toNat ≤ num then e0 else e0 - 1)
  else (if den ≤ num * 10 ^ (-e0).toNat then e0 else e0 - 1)

/-- The quotient `n / d` rounded to the nearest integer, a tie to the even one. -/
def roundHalfEven (n d : Nat) : Nat :=
  let q := n / d
  let r := n % d
  if d < 2 * r then q + 1
  else if 2 * r = d then (if q % 2 = 0 then q else q + 1)
  else q

/-- Six significant digits of a positive rational and its decimal exponent. -/
def sixDigits (num den : Nat) : Nat × Int :=
  let e := decimalExponent num den
  let m := if e ≤ 5 then roundHalfEven (num * 10 ^ (5 - e).toNat) den
    else roundHalfEven num (den * 10 ^ (e - 5).toNat)
  if m = 1000000 then (100000, e + 1) else (m, e)

/-- The output of `printf("%g", x)` for a positive rational. -/
def showPositive (num den : Nat) : List Char :=
  let me := sixDigits num den
  let ds := decimalNat me.1
  let e := me.2
  if e < -4 ∨ 6 ≤ e then
    let frac := stripZeros ds.tail
    let ex := decimalNat e.natAbs
    ds.take 1 ++ (if frac.isEmpty then [] else '.' :: frac)
      ++ ['e', if e < 0 then '-' else '+'] ++ (if ex.length < 2 then '0' :: ex else ex)
  else if 0 ≤ e then
    let frac := stripZeros (ds.drop (e.toNat + 1))
    ds.take (e.toNat + 1) ++ (if frac.isEmpty then [] else '.' :: frac)
  else
    ['0', '.'] ++ List.replicate ((-e).toNat - 1) '0' ++ stripZeros ds

/-- The output of `outS << x` for a `float` with the default format of a stream
(`%g` with precision 6). -/
def refShowFloat (x : ℚ) : List Char :=
  if x = 0 then ['0']
  else if x < 0 then '-' :: showPositive x.num.natAbs x.den
  else showPositive x.num.natAbs x.den

/-- The exponent part of a decimal numeral, when there is one. -/
def readExponent (inS : List Char) : Int × List Char :=
  match inS with
  | c :: rest =>
    if c = 'e' ∨ c = 'E' then
      match rest with
      | '-' :: rest1 =>
        match readDigits rest1 with
        | none => (0, inS)
        | some (n, rest2) => (-(n : Int), rest2)
      | '+' :: rest1 =>
        match readDigits rest1 with
        | none => (0, inS)
        | some (n, rest2) => ((n : Int), rest2)
      | _ =>
        match readDigits rest with
        | none => (0, inS)
        | some (n, rest2) => ((n : Int), rest2)
    else (0, inS)
  | [] => (0, inS)

/-- A decimal numeral without sign at the head of the stream, read exactly. -/
def readUnsignedDecimal (inS : List Char) : Option (ℚ × List Char) :=
  let intDigits := inS.takeWhile Char.isDigit
  let rest := inS.dropWhile Char.isDigit
  let fracDigits := match rest with
    | '.' :: rest1 => rest1.takeWhile Char.isDigit
    | _ => []
  let rest := match rest with
    | '.' :: rest1 => rest1.dropWhile Char.isDigit
    | _ => rest
  if intDigits.isEmpty && fracDigits.isEmpty then none
  else
    let ex := readExponent rest
    let mantissa : ℚ :=
      (digitsValue (intDigits ++ fracDigits) : ℚ) / ((10 ^ fracDigits.length : Nat) : ℚ)
    some (if 0 ≤ ex.1 then mantissa * ((10 ^ ex.1.toNat : Nat) : ℚ)
          else mantissa / ((10 ^ (-ex.1).toNat : Nat) : ℚ), ex.2)

/-- The extraction `inS >> x` of a `float`: a decimal numeral, read exactly. -/
def refReadFloat (inS : List Char) : Option (ℚ × List Char) :=
  match skipSpace inS with
  | '-' :: rest =>
    match readUnsignedDecimal rest with
    | none => none
    | some (v, rest1) => some (-v, rest1)
  | '+' :: rest => readUnsignedDecimal rest
  | rest => readUnsignedDecimal rest

/-- The reference stream library; the `i`-th sample of a load is allocated at
address `i + 1`. -/
def refStream : StreamOps where
  showFloat := refShowFloat
  readFloat := refReadFloat
  newSample := fun i => i + 1

/-! ## Example streams -/

/-- A class-1 sample without features. -/
def exA1 : Sample := ⟨1, "a", 1, []⟩

/-- One tree; one class-1 sample and two class-0 samples, all without features. -/
def exThirdPending : Forest :=
  (((create refPlatform 1).add exA1).1.add exG).1.add exH |>.1

/-- The forest `exThirdPending` after `commit`: a leaf with the value `1/3`. -/
def exThirdCommitted : Forest :=
  ⟨[("a", exA1), ("g", exG), ("h", exH)], [], [],
    [.leaf ⟨2, 1, [], 476707713, (0, 0)⟩ (1 / 3) [exA1, exG, exH]], false, 662824084⟩

/-- The lines that `save` writes for `exThirdPending`. -/
def exThirdLines : List String :=
  ["662824084", "1", "3",
    "1", "a", "1", "0",
    "3", "g", "0", "0",
    "4", "h", "0", "0",
    "-1", "476707713", "0 0", "2 1", "0", "3", "1", "3", "4", "0.333333"]

/-- The characters that `save` writes for `exThirdPending`. -/
def exThirdText : List Char := (exThirdLines.map (fun l => l.data ++ endl)).flatten

/-- The forest that `load` builds from `exThirdText`. -/
def exThirdLoaded : Forest :=
  ⟨[("a", ⟨1, "a", 1, []⟩), ("g", ⟨2, "g", 0, []⟩), ("h", ⟨3, "h", 0, []⟩)], [], [],
    [.leaf ⟨2, 1, [], 476707713, (0, 0)⟩ (333333 / 1000000)
      [⟨1, "a", 1, []⟩, ⟨2, "g", 0, []⟩, ⟨3, "h", 0, []⟩]], false, 2516284547⟩

/-! ## Enumeration of the committed samples -/

/-- The class `MapSampleWalker`: the entries of the map from `itCurr` to `itEnd`. -/
structure MapSampleWalker where
  rest : SampleMap
deriving DecidableEq

/-- The constructor `MapSampleWalker(sm)`. -/
def MapSampleWalker.new (sm : SampleMap) : MapSampleWalker := ⟨sm⟩

/-- The method `MapSampleWalker::stillSome`. -/
def MapSampleWalker.stillSome (w : MapSampleWalker) : Bool := !w.rest.isEmpty

/-- The method `MapSampleWalker::get`; `none` when the iterator is at the end. -/
def MapSampleWalker.get (w : MapSampleWalker) : Option (Sample × MapSampleWalker) :=
  match w.rest with
  | [] => none
  | e :: rest => some (e.2, ⟨rest⟩)

/-- The method `Forest::getSamples`: the state after the commit and the walker. -/
def Forest.getSamples {F : Type} (P : Platform F) (rf : Forest) :
    Option (Forest × MapSampleWalker) :=
  match rf.commit P with
  | none => none
  | some rf1 => some (rf1, MapSampleWalker.new rf1.samples)

/-- The samples that `n` calls of `get` yield, and the walker after them. -/
def MapSampleWalker.take : Nat → MapSampleWalker → Option (List Sample × MapSampleWalker)
  | 0, w => some ([], w)
  | n + 1, w =>
    match w.get with
    | none => none
    | some (s, w1) =>
      match MapSampleWalker.take n w1 with
      | none => none
      | some (l, w2) => some (s :: l, w2)

/-! ## Accessors used in statements -/

/-- The positive child of an internal node. -/
def DecisionTreeNode.positiveChild : DecisionTreeNode → Option DecisionTreeNode
  | .leaf _ _ _ => none
  | .internal _ _ _ positive => some positive

/-- The pair `(rank, code)` of a table entry. -/
def entryPair (e : Int × DecisionCounts) : RankPair := (e.2.rank, e.1)

/-! ## More concrete samples and forests -/

/-- A sample with the target `0.5`, feature 2 present. -/
def exW : Sample := ⟨30, "w", 1 / 2, [(2, 1)]⟩

/-- The forest `exCommitted` with its four samples removed and `exW` added. -/
def exOverPending : Forest :=
  (((((exCommitted.remove "a").1.remove "e").1.remove "g").1.remove "h").1.add exW).1

/-- The forest `exOverPending` after `commit`: the root has collapsed to a leaf,
whose counters are recounted from its sample. -/
def exOverCommitted : Forest :=
  ⟨[("w", exW)], [], [],
    [.leaf ⟨0, 1, [(2, ⟨1, 0, 155670421⟩)], 476707713, (0, 0)⟩ 1 [exW]],
    false, 2111915288⟩

/-- The codes 1 to `n`. -/
def codesTo (n : Nat) : List Int := (List.range n).map (fun (i : Nat) => (i : Int) + 1)

/-- The codes 1 to `n`, all present. -/
def wideCodes (n : Nat) : List (Int × ℚ) := (codesTo n).map (fun c => (c, (1 : ℚ)))

/-- Class 1, the features 1 to 41 present. -/
def exWideA : Sample := ⟨1, "a", 1, wideCodes 41⟩

/-- Class 1, the features 1 to 41 present. -/
def exWideE : Sample := ⟨2, "e", 1, wideCodes 41⟩

/-- One tree; two class-1 samples with 41 features and two class-0 samples
without features. -/
def exWidePending : Forest :=
  ((((create refPlatform 1).add exWideA).1.add exWideE).1.add exG).1.add exH |>.1

/-! ## Order of the keys of a map -/

/-- The keys of the map are in strictly ascending order of `std::string`. -/
def SampleMap.Ascending (m : SampleMap) : Prop :=
  (m.map (fun e => e.1.data)).Pairwise (fun a b => charsLt a b = true)

/-! ## Proof-level descriptions of the bounded rank sets -/

/-- One step of the loops that keep the `K` largest pairs in a set: the pair is
inserted and the smallest pair is dropped when the set has grown past `K`. -/
def keepTop (K : Nat) (ranks : List RankPair) (p : RankPair) : List RankPair :=
  let ranks := rankSetInsert p ranks
  if ranks.length > K then ranks.tail else ranks

/-- The list is in strictly ascending order of pairs. -/
def RankSorted (l : List RankPair) : Prop := l.Pairwise (fun a b => pairLt a b = true)

/-- The set `ranks` holds the `K` largest pairs of `done` (all of them when there
are fewer). -/
structure TopInv (K : Nat) (ranks done : List RankPair) : Prop where
  sorted : RankSorted ranks
  sub : ∀ p ∈ ranks, p ∈ done
  len : ranks.length = min K done.length
  full : ranks.length < K → ∀ q ∈ done, q ∈ ranks
  rest : ∀ q ∈ done, q ∉ ranks → ∀ p ∈ ranks, pairLt q p = true

/-- The table of a node with id `id`: the keys are distinct, there are at most
`maxCodesToKeep` entries, and every entry carries the rank of its code. -/
def TableOK {F : Type} (P : Platform F) (id : Nat) (m : DCMap) : Prop :=
  (m.map Prod.fst).Nodup ∧ m.length ≤ maxCodesToKeep ∧
    ∀ e ∈ m, e.2.rank = codeRankInNode P e.1 id

/-- Every node of the tree has a table that is `TableOK`. -/
def Capped {F : Type} (P : Platform F) : DecisionTreeNode → Prop
  | .leaf d _ _ => TableOK P d.id d.decisionCountMap
  | .internal _ d negative positive =>
    TableOK P d.id d.decisionCountMap ∧ Capped P negative ∧ Capped P positive

/-- The state of the insertion loop of `updateDecisionCounters` for the node `id`:
the set `ranks` holds the pairs of the entries of the table. -/
structure SyncInv {F : Type} (P : Platform F) (id : Nat)
    (acc : DCMap × List RankPair × RankPair) : Prop where
  keys : (acc.1.map Prod.fst).Nodup
  sorted : RankSorted acc.2.1
  sync : ∀ p, p ∈ acc.2.1 ↔ ∃ e ∈ acc.1, entryPair e = p
  cap : acc.2.1.length ≤ maxCodesToKeep
  genuine : ∀ e ∈ acc.1, e.2.rank = codeRankInNode P e.1 id

/-- The state of the table after the insertion of the entry `dc` for `code` and
the eviction that follows when the set `ranks` has grown past `maxCodesToKeep`. -/
def insertCore (m : DCMap) (ranks : List RankPair) (mvr : RankPair) (code : Int)
    (dc : DecisionCounts) : DCMap × List RankPair × RankPair :=
  let m1 := DCMap.insertNew code dc m
  let ranks1 := rankSetInsert (dc.rank, code) ranks
  if ranks1.length > maxCodesToKeep then
    let b := ranks1.headD (0, 0)
    (m1.erase b.2, ranks1.tail, pairMax mvr (b.1, b.2 + 1))
  else (m1, ranks1, mvr)

/-- One incremental counter update of a node: an addition (`true`, direction 1)
or a removal (`false`, direction -1) of the sample. -/
def incrementalStep {F : Type} (P : Platform F) (d : NodeData) (st : Sample × Bool) : NodeData :=
  updateDecisionCounters P d st.1 (if st.2 then 1 else -1)

/-! ## Split candidates -/

/-- The entry is eligible as a split candidate of the node `d`: its pair
`(rank, code)` is at or above the threshold of the search and both sides of the
split have enough evidence (the test of `findMinEntropyCode`). -/
def eligible (d : NodeData) (e : Int × DecisionCounts) : Bool :=
  pairGe (e.2.rank, e.1) (findMinRankToConsider d.decisionCountMap) && e.2.enoughEvidence d

/-- The comparison `<` of the float operations is a strict weak order, as it is on
exact reals. -/
structure FloatOps.IsOrder {F : Type} (fl : FloatOps F) : Prop where
  irrefl : ∀ a, fl.lt a a = false
  trans : ∀ a b c, fl.lt a b = true → fl.lt b c = true → fl.lt a c = true
  cotrans : ∀ a b c, fl.lt a b = true → fl.lt a c = true ∨ fl.lt c b = true

/-- The loop of `findMinEntropyCode` over the table. -/
def minEntropyLoop {F : Type} (fl : FloatOps F) (d : NodeData) (m : DCMap) (acc : F × Int) :
    F × Int :=
  m.foldl (fun (acc : F × Int) e =>
    if eligible d e then
      let ah := e.2.entropy fl d
      if fl.lt ah acc.1 then (ah, e.1) else acc
    else acc) acc

/-- The counters of the root of `exCommitted`. -/
def exRootData : NodeData := ⟨2, 2, [(1, ⟨0, 2, 1167667938⟩)], 476707713, (0, 0)⟩
/-! ## Further definitions: iterated `get`, placement, refreshed leaves, the
removal log and the JSON output -/

/-- The result of `k` calls of `TreeSampleWalker::get`: the samples returned and
the state after the last call. -/
def TreeSampleWalker.getN : Nat → TreeSampleWalker → Option (List Sample × TreeSampleWalker)
  | 0, w => some ([], w)
  | k + 1, w =>
    match w.get with
    | none => none
    | some (s, w1) =>
      match TreeSampleWalker.getN k w1 with
      | none => none
      | some (v, w2) => some (s :: v, w2)

/-- Every sample of the tree sits on the side of each split that
`splitListAgainstCode` selects for it. -/
def Placed : DecisionTreeNode → Prop
  | .leaf _ _ _ => True
  | .internal code _ negative positive =>
    (∀ s ∈ collectRecursive negative, hasCodeGt s code = false) ∧
      (∀ s ∈ collectRecursive positive, hasCodeGt s code = true) ∧
      Placed negative ∧ Placed positive

/-- Every leaf of the tree has the value that `updateValue` computes from its
counters. -/
def Refreshed : DecisionTreeNode → Prop
  | .leaf d value _ => value = updateValue d
  | .internal _ _ negative positive => Refreshed negative ∧ Refreshed positive

/-- An untouched leaf of `create`: no counts, no samples, the value 0. -/
def Untouched (t : DecisionTreeNode) : Prop := ∃ id, t = .leaf ⟨0, 0, [], id, (0, 0)⟩ 0 []

/-- The loop over `batchRemove` in the leaf branch of `updateDecisionTreeSamples`:
the sample vector and the number of times the branch `could not find sample to
remove` is taken. -/
def removeLoop (samples : List Sample) (batchRemove : List Sample) : List Sample × Nat :=
  batchRemove.foldl (fun (acc : List Sample × Nat) s =>
    if acc.1.any (fun x => decide (x.ptr = s.ptr)) then (eraseSample acc.1 s, acc.2)
    else (acc.1, acc.2 + 1)) (samples, 0)

/-- The number of messages `could not find sample to remove` that
`updateDecisionTreeSamples` writes. -/
def missedRemovals : DecisionTreeNode → List Sample → List Sample → Nat
  | .leaf _ _ samples, _, batchRemove => (removeLoop samples batchRemove).2
  | .internal code _ negative positive, batchAdd, batchRemove =>
    let a := splitListAgainstCode batchAdd code
    let r := splitListAgainstCode batchRemove code
    (if a.1.length > 0 ∨ r.1.length > 0 then missedRemovals negative a.1 r.1 else 0)
      + (if a.2.length > 0 ∨ r.2.length > 0 then missedRemovals positive a.2 r.2 else 0)

/-- A sample that no tree of the examples holds: class 1, feature 1 present. -/
def exY : Sample := ⟨21, "y", 1, [(1, 1)]⟩

/-- The tree of the forest `exCommitted`. -/
def exTree : DecisionTreeNode :=
  .internal 1 ⟨2, 2, [(1, ⟨0, 2, 1167667938⟩)], 476707713, (0, 0)⟩
    (.leaf ⟨2, 0, [], 505671508, (0, 0)⟩ 0 [exG, exH])
    (.leaf ⟨0, 2, [(1, ⟨0, 2, 2073703938⟩)], 2137716191, (0, 0)⟩ 1 [exA, exE])

/-- A tree in which the sample `exA`, which has feature 1, sits below the
negative child of a split on code 1. -/
def exMisplaced : DecisionTreeNode :=
  .internal 1 ⟨2, 2, [(1, ⟨0, 2, 1167667938⟩)], 476707713, (0, 0)⟩
    (.leaf ⟨1, 1, [(1, ⟨0, 1, 73757539⟩)], 505671508, (0, 0)⟩ (1 / 2) [exG, exA])
    (.leaf ⟨1, 1, [(1, ⟨0, 1, 2073703938⟩)], 2137716191, (0, 0)⟩ (1 / 2) [exH, exE])

/-- A leaf that holds `exA` and `exG`, with the counters of a recount. -/
def exLeaf : DecisionTreeNode :=
  .leaf ⟨1, 1, [(1, ⟨0, 1, 1167667938⟩)], 476707713, (0, 0)⟩ (1 / 2) [exA, exG]

/-- The relation between the node `dt` handed to `updateDecisionTreeNode` with the
seed `ts` and the node returned, when the counters of the node have become `d`:
a leaf stays a leaf with the data `d` and its samples, or becomes an internal
node with the data `d` and two children with newly drawn ids (after the draw of
`makeInternal`); an internal node becomes a leaf with the id of `d` that holds
the samples of the subtree in the order of `collectRecursive`, or stays an
internal node with the data `d`, whose children keep their ids when the code is
kept and have newly drawn ids when the code changes. -/
def KeepsIdentity {F : Type} (P : Platform F) (ts : Nat) (d : NodeData) :
    DecisionTreeNode → DecisionTreeNode → Prop
  | .leaf _ _ samples, .leaf d1 v1 s1 => d1 = d ∧ v1 = updateValue d ∧ s1 = samples
  | .leaf _ _ _, .internal _ d1 n p =>
    d1 = d ∧ n.data.id = (P.rand_r (P.rand_r ts).2).1 ∧
      p.data.id = (P.rand_r (P.rand_r (P.rand_r ts).2).2).1
  | .internal _ _ negative positive, .leaf d1 _ s1 =>
    d1.id = d.id ∧ s1 = collectRecursive negative ++ collectRecursive positive
  | .internal code _ negative positive, .internal c d1 n p =>
    d1 = d ∧ (c = code → n.data.id = negative.data.id ∧ p.data.id = positive.data.id) ∧
      (c ≠ code → n.data.id = (P.rand_r ts).1 ∧ p.data.id = (P.rand_r (P.rand_r ts).2).1)

/-- The root of the tree of `exPending` after the first pass of the commit. -/
def exRootFilled : DecisionTreeNode :=
  .leaf ⟨0, 0, [], 476707713, (0, 0)⟩ 0 [exA, exE, exG, exH]

/-- Every split of the tree leaves at least `minEvidence` samples on either side. -/
def EvidenceSplit : DecisionTreeNode → Prop
  | .leaf _ _ _ => True
  | .internal _ _ negative positive =>
    2 ≤ (collectRecursive negative).length ∧ 2 ≤ (collectRecursive positive).length ∧
      EvidenceSplit negative ∧ EvidenceSplit positive

/-- A leaf that holds the single sample `exA`, with the counters that
`setupLeafFromSamples` computes. -/
def exSingle : DecisionTreeNode :=
  .leaf ⟨0, 1, [(1, ⟨0, 1, 1167667938⟩)], 476707713, (0, 0)⟩ 1 [exA]

/-! ## The JSON output -/

/-- The function `outputDecisionTree`: the characters written for a tree; `io`
formats the `float` of a leaf. -/
def outputDecisionTree (io : StreamOps) : DecisionTreeNode → List Char
  | .leaf _ value _ => io.showFloat value
  | .internal code _ negative positive =>
    ['['] ++ decimalInt code ++ [','] ++ outputDecisionTree io negative ++ [',']
      ++ outputDecisionTree io positive ++ [']']

/-- The loop of `Forest::asJSON` over the trees; `first` says that the iterator is
at `forest.begin()`. -/
def outputTrees (io : StreamOps) : Bool → List DecisionTreeNode → List Char
  | _, [] => []
  | first, t :: rest =>
    (if first then [] else [',']) ++ outputDecisionTree io t ++ outputTrees io false rest

/-- The method `Forest::asJSON`: the state after the commit and the characters
written. -/
def Forest.asJSON {F : Type} (P : Platform F) (io : StreamOps) (rf : Forest) :
    Option (Forest × List Char) :=
  match rf.commit P with
  | none => none
  | some rf1 => some (rf1, ['['] ++ outputTrees io true rf1.forest ++ [']'])

/-- The shape of a tree: its internal nodes with their split codes. -/
inductive TreeShape where
  | leaf : TreeShape
  | node (code : Int) (negative positive : TreeShape) : TreeShape
  deriving DecidableEq

/-- The shape of a decision tree. -/
def DecisionTreeNode.shape : DecisionTreeNode → TreeShape
  | .leaf _ _ _ => .leaf
  | .internal code _ negative positive => .node code negative.shape positive.shape

/-- The split codes of the tree are values of an `int` of 32 bits. -/
def IntCodes : DecisionTreeNode → Prop
  | .leaf _ _ _ => True
  | .internal code _ negative positive =>
    (-2147483648 ≤ code ∧ code < 2147483648) ∧ IntCodes negative ∧ IntCodes positive

/-- The formatted value of no leaf of the tree contains a bracket or a comma. -/
def PlainValues (io : StreamOps) : DecisionTreeNode → Prop
  | .leaf _ value _ => ∀ c ∈ io.showFloat value, c ≠ '[' ∧ c ≠ ',' ∧ c ≠ ']'
  | .internal _ _ negative positive => PlainValues io negative ∧ PlainValues io positive

/-- The characters of a decimal numeral in the format `%g`. -/
def floatChars : List Char :=
  ['0', '1', '2', '3', '4', '5', '6', '7', '8', '9', '.', 'e', '+', '-']

/-! ## Proof-level descriptions of the table during additions -/

/-- The state of the insertion loop of `updateDecisionCounters` when the codes
`seen` have been offered to the table of the node `id`: the table holds codes
that were offered, every offered code is in the table or below the watermark,
every pair of the table is at or above the watermark, and the watermark has
moved only when the table is full. -/
structure SeenInv {F : Type} (P : Platform F) (id : Nat) (seen : Int → Prop)
    (acc : DCMap × List RankPair × RankPair) : Prop where
  sync : SyncInv P id acc
  sub : ∀ c, acc.1.contains c = true → seen c
  cover : ∀ c, seen c →
    acc.1.contains c = true ∨ pairLt (codeRankInNode P c id, c) acc.2.2 = true
  above : ∀ p ∈ acc.2.1, pairGe p acc.2.2 = true
  full : acc.2.2 = (0, 0) ∨ acc.2.1.length = maxCodesToKeep

/-- The table of a node to which the samples `S` have been added one by one. -/
structure NodeSeen {F : Type} (P : Platform F) (S : List Sample) (d : NodeData) : Prop where
  table : TableOK P d.id d.decisionCountMap
  sub : ∀ c, d.decisionCountMap.contains c = true → c ∈ findUsedCodes S
  cover : ∀ c ∈ findUsedCodes S,
    d.decisionCountMap.contains c = true ∨ pairLt (codeRankInNode P c d.id, c) d.minValidRank = true
  above : ∀ e ∈ d.decisionCountMap, pairGe (entryPair e) d.minValidRank = true
  full : d.minValidRank = (0, 0) ∨ d.decisionCountMap.length = maxCodesToKeep

/-! ## Entropies as exact numbers -/

/-- Exact arithmetic in the ordered field `R` with the logarithm `ln`, as float
operations: no rounding, and `<` is the order of `R`. -/
def exactFloat {R : Type} [Field R] [LT R] [DecidableRel (fun (a b : R) => a < b)]
    (ln : R → R) : FloatOps R where
  ofInt := fun z => (z : R)
  sub := fun a b => a - b
  add := fun a b => a + b
  mul := fun a b => a * b
  div := fun a b => a / b
  log := ln
  lt := fun a b => decide (a < b)

/-- The binary entropy of the specification (section 4.3), for the class counts
`c0` and `c1` with `n = c0 + c1`: `H(c0, c1) = -(c0/n) ln(c0/n) - (c1/n) ln(c1/n)`,
with the convention `0 ln 0 = 0`. -/
def specEntropy {R : Type} [Field R] (ln : R → R) (c0 c1 : Nat) : R :=
  (if c0 = 0 then 0
    else -(((c0 : R) / ((c0 : R) + (c1 : R))) * ln ((c0 : R) / ((c0 : R) + (c1 : R)))))
  + (if c1 = 0 then 0
    else -(((c1 : R) / ((c0 : R) + (c1 : R))) * ln ((c1 : R) / ((c0 : R) + (c1 : R)))))

/-- The weighted split entropy of the specification (section 4.3) for a node with
the totals `c0`, `c1` and an entry with the counts `c0p`, `c1p`, where
`c0n = c0 - c0p` and `c1n = c1 - c1p`:
`H_split = (H(c0n, c1n) (c0n + c1n) + H(c0p, c1p) (c0p + c1p)) / (c0 + c1)`. -/
def specSplitEntropy {R : Type} [Field R] (ln : R → R) (c0 c1 c0p c1p : Nat) : R :=
  (specEntropy ln (c0 - c0p) (c1 - c1p) * (((c0 - c0p : Nat) : R) + ((c1 - c1p : Nat) : R))
      + specEntropy ln c0p c1p * ((c0p : R) + (c1p : R)))
    / ((c0 : R) + (c1 : R))

/-- Class 1, the feature `-380155102` present: in the root of tree 1 (id
`1186278907`) this code has the rank 0. -/
def exNeg : Sample := ⟨40, "e", 1, [(-380155102, 1)]⟩

/-- The forest after `create(2)`, `add(exNeg)` and `commit`: the sample is in both
trees; the table of tree 0 has the entry of its code, the table of tree 1 has
none. -/
def exNegCommitted : Forest :=
  ⟨[("e", exNeg)], [], [],
    [.leaf ⟨0, 1, [(-380155102, ⟨0, 1, 3299932716⟩)], 476707713, (0, 0)⟩ 1 [exNeg],
     .leaf ⟨0, 1, [], 1186278907, (0, 0)⟩ 1 [exNeg]],
    false, 2516284547⟩

/-! ## Lemmas on `SampleMap` -/

theorem SampleMap.find_nil (k : String) : SampleMap.find [] k = none := rfl

theorem SampleMap.find_cons (e : String × Sample) (m : SampleMap) (k : String) :
    SampleMap.find (e :: m) k = if k = e.1 then some e.2 else SampleMap.find m k := by
  obtain ⟨a, b⟩ := e
  by_cases h : k = a
  · subst h; simp [SampleMap.find, List.lookup]
  · have : (k == a) = false := by simpa using h
    simp [SampleMap.find, List.lookup, this, h]

theorem SampleMap.contains_eq (m : SampleMap) (k : String) :
    m.contains k = (m.find k).isSome := rfl

theorem SampleMap.find_of_mem_cons_ne (m : SampleMap) (k : String) :
    (∀ e ∈ m, e.1 ≠ k) → m.find k = none := by
  induction m with
  | nil => intro _; rfl
  | cons e m ih =>
    intro h
    rw [SampleMap.find_cons]
    have h1 : k ≠ e.1 := fun hk => h e (List.mem_cons_self _ _) hk.symm
    simp only [h1, if_false]
    exact ih (fun e' he' => h e' (List.mem_cons_of_mem _ he'))

theorem SampleMap.mem_of_find (m : SampleMap) (k : String) (s : Sample) :
    m.find k = some s → (k, s) ∈ m := by
  induction m with
  | nil => intro h; simp [SampleMap.find] at h
  | cons e m ih =>
    rw [SampleMap.find_cons]
    by_cases h : k = e.1
    · simp only [h, if_true]
      intro hs
      have : e.2 = s := by simpa using hs
      rw [← this]
      exact List.mem_cons_self _ _
    · simp only [h, if_false]
      intro hs
      exact List.mem_cons_of_mem _ (ih hs)

theorem SampleMap.find_of_mem (m : SampleMap) (k : String) (s : Sample)
    (hn : (m.map Prod.fst).Nodup) : (k, s) ∈ m → m.find k = some s := by
  induction m with
  | nil => intro h; simp at h
  | cons e m ih =>
    intro h
    rw [SampleMap.find_cons]
    rw [List.map_cons, List.nodup_cons] at hn
    rcases List.mem_cons.mp h with h | h
    · subst h; simp
    · have hk : k ≠ e.1 := by
        intro hk
        apply hn.1
        rw [← hk]
        exact List.mem_map_of_mem Prod.fst h
      simp only [hk, if_false]
      exact ih hn.2 h

theorem SampleMap.find_none_iff (m : SampleMap) (k : String) :
    m.find k = none ↔ ∀ e ∈ m, e.1 ≠ k := by
  constructor
  · intro h e he hk
    induction m with
    | nil => simp at he
    | cons e' m ih =>
      rw [SampleMap.find_cons] at h
      by_cases h1 : k = e'.1
      · simp [h1] at h
      · simp only [h1, if_false] at h
        rcases List.mem_cons.mp he with h2 | h2
        · exact h1 (by rw [← h2]; exact hk.symm)
        · exact ih h h2
  · exact SampleMap.find_of_mem_cons_ne m k

theorem SampleMap.mem_insertNew (k : String) (v : Sample) (m : SampleMap) (e : String × Sample) :
    e ∈ SampleMap.insertNew k v m ↔ e = (k, v) ∨ e ∈ m := by
  induction m with
  | nil => simp [SampleMap.insertNew]
  | cons a m ih =>
    unfold SampleMap.insertNew
    split
    · simp
    · simp only [List.mem_cons, ih]
      tauto

theorem SampleMap.perm_insertNew (k : String) (v : Sample) (m : SampleMap) :
    List.Perm (SampleMap.insertNew k v m) ((k, v) :: m) := by
  induction m with
  | nil => simp [SampleMap.insertNew]
  | cons a m ih =>
    unfold SampleMap.insertNew
    split
    · exact List.Perm.refl _
    · exact (List.Perm.cons a ih).trans (List.Perm.swap _ _ _)

theorem SampleMap.mem_set (m : SampleMap) (k : String) (v : Sample) (e : String × Sample) :
    e ∈ m.set k v ↔ e = (k, v) ∨ (e ∈ m ∧ e.1 ≠ k) := by
  unfold SampleMap.set
  split
  · rename_i hc
    rw [SampleMap.contains_eq, Option.isSome_iff_exists] at hc
    obtain ⟨s, hs⟩ := hc
    have hm := SampleMap.mem_of_find m k s hs
    simp only [List.mem_map]
    constructor
    · rintro ⟨a, ha, rfl⟩
      by_cases h : a.1 = k
      · left; simp [h]
      · right; simp [h, ha]
    · rintro (h | ⟨h1, h2⟩)
      · exact ⟨(k, s), hm, by simp [h]⟩
      · exact ⟨e, h1, by simp [h2]⟩
  · rename_i hc
    have hn : m.find k = none := by
      rw [SampleMap.contains_eq] at hc
      simpa using hc
    rw [SampleMap.find_none_iff] at hn
    rw [SampleMap.mem_insertNew]
    constructor
    · rintro (h | h)
      · exact Or.inl h
      · exact Or.inr ⟨h, hn e h⟩
    · rintro (h | h)
      · exact Or.inl h
      · exact Or.inr h.1

theorem SampleMap.keys_set (m : SampleMap) (k : String) (v : Sample)
    (hn : (m.map Prod.fst).Nodup) : ((m.set k v).map Prod.fst).Nodup := by
  unfold SampleMap.set
  split
  · have : (m.map (fun e => if e.1 = k then (k, v) else e)).map Prod.fst = m.map Prod.fst := by
      rw [List.map_map]
      apply List.map_congr_left
      intro a _
      by_cases h : a.1 = k <;> simp [h]
    rw [this]; exact hn
  · rename_i hc
    have hnone : m.find k = none := by
      rw [SampleMap.contains_eq] at hc
      simpa using hc
    rw [SampleMap.find_none_iff] at hnone
    have hp := (SampleMap.perm_insertNew k v m).map Prod.fst
    rw [hp.nodup_iff, List.map_cons, List.nodup_cons]
    refine ⟨?_, hn⟩
    intro hk
    obtain ⟨a, ha, hak⟩ := List.mem_map.mp hk
    exact hnone a ha hak

theorem SampleMap.mem_erase (m : SampleMap) (k : String) (e : String × Sample) :
    e ∈ m.erase k ↔ e ∈ m ∧ e.1 ≠ k := by
  simp [SampleMap.erase, List.mem_filter]

theorem SampleMap.keys_erase (m : SampleMap) (k : String)
    (hn : (m.map Prod.fst).Nodup) : ((m.erase k).map Prod.fst).Nodup := by
  unfold SampleMap.erase
  exact hn.sublist ((List.filter_sublist _).map Prod.fst)

theorem SampleMap.find_mapReplace (m : SampleMap) (k : String) (v : Sample) (k' : String) :
    SampleMap.find (m.map (fun e => if e.1 = k then (k, v) else e)) k'
      = if k' = k then (m.find k).map (fun _ => v) else m.find k' := by
  induction m with
  | nil => simp [SampleMap.find]
  | cons a m ih =>
    rw [List.map_cons, SampleMap.find_cons, ih, SampleMap.find_cons, SampleMap.find_cons]
    by_cases h1 : a.1 = k
    · by_cases h2 : k' = k
      · simp [h1, h2]
      · have h3 : ¬ k' = a.1 := by rw [h1]; exact h2
        simp [h1, h2, h3]
    · by_cases h2 : k' = k
      · have h3 : ¬ k = a.1 := fun h => h1 h.symm
        simp [h1, h2, h3]
      · simp [h1, h2]

theorem SampleMap.find_insertNew (m : SampleMap) (k : String) (v : Sample) (k' : String)
    (hn : m.find k = none) :
    SampleMap.find (SampleMap.insertNew k v m) k' = if k' = k then some v else m.find k' := by
  induction m with
  | nil =>
    show SampleMap.find [(k, v)] k' = _
    rw [SampleMap.find_cons]
  | cons a m ih =>
    rw [SampleMap.find_cons] at hn
    have hka : ¬ k = a.1 := by
      intro h; simp [h] at hn
    simp only [hka, if_false] at hn
    unfold SampleMap.insertNew
    split
    · rw [SampleMap.find_cons]
    · rw [SampleMap.find_cons, ih hn, SampleMap.find_cons]
      by_cases h1 : k' = a.1
      · have h2 : ¬ k' = k := by rw [h1]; exact fun h => hka h.symm
        have h4 : ¬ a.1 = k := fun h => hka h.symm
        simp [h1, h4]
      · simp [h1]

theorem SampleMap.find_set (m : SampleMap) (k : String) (v : Sample) (k' : String) :
    (m.set k v).find k' = if k' = k then some v else m.find k' := by
  unfold SampleMap.set
  split
  · rename_i hc
    rw [SampleMap.contains_eq, Option.isSome_iff_exists] at hc
    obtain ⟨s, hs⟩ := hc
    rw [SampleMap.find_mapReplace, hs]
    simp
  · rename_i hc
    have hn : m.find k = none := by
      rw [SampleMap.contains_eq] at hc
      simpa using hc
    exact SampleMap.find_insertNew m k v k' hn

theorem SampleMap.find_erase (m : SampleMap) (k k' : String) :
    (m.erase k).find k' = if k' = k then none else m.find k' := by
  induction m with
  | nil => simp [SampleMap.erase, SampleMap.find]
  | cons a m ih =>
    have hunf : SampleMap.erase (a :: m) k
        = if a.1 = k then SampleMap.erase m k else a :: SampleMap.erase m k := by
      by_cases h : a.1 = k <;> simp [SampleMap.erase, List.filter_cons, h]
    rw [hunf]
    by_cases h1 : a.1 = k
    · simp only [h1, if_true, ih, SampleMap.find_cons]
      by_cases h2 : k' = k
      · simp [h2]
      · have h3 : ¬ k' = a.1 := by rw [h1]; exact h2
        simp [h2, h3, h1]
    · simp only [h1, if_false, SampleMap.find_cons, ih]
      by_cases h2 : k' = k
      · have h3 : ¬ k = a.1 := fun h => h1 h.symm
        simp [h2, h3]
      · simp [h2]

theorem SampleMap.contains_set (m : SampleMap) (k : String) (v : Sample) (k' : String) :
    (m.set k v).contains k' = (decide (k' = k) || m.contains k') := by
  rw [SampleMap.contains_eq, SampleMap.find_set, SampleMap.contains_eq]
  by_cases h : k' = k <;> simp [h]

theorem SampleMap.contains_erase (m : SampleMap) (k k' : String) :
    (m.erase k).contains k' = (!decide (k' = k) && m.contains k') := by
  rw [SampleMap.contains_eq, SampleMap.find_erase, SampleMap.contains_eq]
  by_cases h : k' = k <;> simp [h]


/-! ## The store invariant holds in every reachable state -/

theorem SampleMap.mem_foldl_erase (L : SampleMap) (m : SampleMap) (e : String × Sample) :
    e ∈ L.foldl (fun (m : SampleMap) x => m.erase x.1) m ↔ e ∈ m ∧ ∀ x ∈ L, e.1 ≠ x.1 := by
  induction L generalizing m with
  | nil => simp
  | cons a L ih =>
    rw [List.foldl_cons, ih, SampleMap.mem_erase]
    simp only [List.mem_cons, forall_eq_or_imp]
    tauto

theorem SampleMap.keys_foldl_erase (L : SampleMap) (m : SampleMap)
    (hn : (m.map Prod.fst).Nodup) :
    ((L.foldl (fun (m : SampleMap) x => m.erase x.1) m).map Prod.fst).Nodup := by
  induction L generalizing m with
  | nil => exact hn
  | cons a L ih =>
    rw [List.foldl_cons]
    exact ih _ (SampleMap.keys_erase m a.1 hn)

theorem SampleMap.mem_foldl_set (L : SampleMap) (m : SampleMap) (e : String × Sample) :
    e ∈ L.foldl (fun (m : SampleMap) x => m.set x.1 x.2) m → e ∈ L ∨ e ∈ m := by
  induction L generalizing m with
  | nil => intro h; exact Or.inr h
  | cons a L ih =>
    rw [List.foldl_cons]
    intro h
    rcases ih _ h with h1 | h1
    · exact Or.inl (List.mem_cons_of_mem _ h1)
    · rw [SampleMap.mem_set] at h1
      rcases h1 with h2 | h2
      · left; rw [h2]; exact List.mem_cons_self _ _
      · exact Or.inr h2.1

theorem SampleMap.keys_foldl_set (L : SampleMap) (m : SampleMap)
    (hn : (m.map Prod.fst).Nodup) :
    ((L.foldl (fun (m : SampleMap) x => m.set x.1 x.2) m).map Prod.fst).Nodup := by
  induction L generalizing m with
  | nil => exact hn
  | cons a L ih =>
    rw [List.foldl_cons]
    exact ih _ (SampleMap.keys_set m a.1 a.2 hn)

theorem SampleMap.contains_iff_mem (m : SampleMap) (k : String) :
    m.contains k = true ↔ ∃ s, (k, s) ∈ m := by
  rw [SampleMap.contains_eq, Option.isSome_iff_exists]
  constructor
  · rintro ⟨s, hs⟩
    exact ⟨s, SampleMap.mem_of_find m k s hs⟩
  · rintro ⟨s, hs⟩
    cases hf : m.find k with
    | some v => exact ⟨v, rfl⟩
    | none =>
      rw [SampleMap.find_none_iff] at hf
      exact absurd rfl (hf (k, s) hs)

theorem storeInv_create {F : Type} (P : Platform F) (nTrees : Int) :
    StoreInv (create P nTrees) := by
  constructor <;> simp [create]

theorem Forest.add_samples (rf : Forest) (s : Sample) : (rf.add s).1.samples = rf.samples := by
  unfold Forest.add; dsimp only; split <;> rfl

theorem Forest.add_toAdd (rf : Forest) (s : Sample) :
    (rf.add s).1.toAdd = rf.toAdd.set s.suid s := by
  unfold Forest.add; dsimp only; split <;> rfl

theorem Forest.add_forest (rf : Forest) (s : Sample) : (rf.add s).1.forest = rf.forest := by
  unfold Forest.add; dsimp only; split <;> rfl

theorem Forest.add_ts (rf : Forest) (s : Sample) : (rf.add s).1.ts = rf.ts := by
  unfold Forest.add; dsimp only; split <;> rfl

theorem Forest.add_changesToCommit (rf : Forest) (s : Sample) :
    (rf.add s).1.changesToCommit = true := by
  unfold Forest.add; dsimp only; split <;> rfl

theorem Forest.add_result (rf : Forest) (s : Sample) :
    (rf.add s).2 = !rf.toAdd.contains s.suid := by
  unfold Forest.add; dsimp only; split <;> simp_all

theorem Forest.add_toRemove (rf : Forest) (s : Sample) :
    (rf.add s).1.toRemove =
      if rf.toAdd.contains s.suid = true then rf.toRemove
      else if rf.toRemove.contains s.suid = true then rf.toRemove
      else match rf.samples.find s.suid with
        | some old => rf.toRemove.set s.suid old
        | none => rf.toRemove := by
  unfold Forest.add; dsimp only
  split
  · rfl
  · dsimp only
    by_cases h : rf.toRemove.contains s.suid = true
    · simp [h]
    · simp [h]

theorem storeInv_add (rf : Forest) (s : Sample) (h : StoreInv rf) : StoreInv (rf.add s).1 := by
  have hsamples := Forest.add_samples rf s
  have hadd := Forest.add_toAdd rf s
  have hrem : ∀ e ∈ (rf.add s).1.toRemove,
      e ∈ rf.toRemove ∨ (rf.samples.find s.suid = some e.2 ∧ e.1 = s.suid) := by
    intro e he
    rw [Forest.add_toRemove] at he
    split at he
    · exact Or.inl he
    · split at he
      · exact Or.inl he
      · split at he
        · rename_i old hold
          rw [SampleMap.mem_set] at he
          rcases he with h1 | h1
          · right; rw [h1]; exact ⟨hold, rfl⟩
          · exact Or.inl h1.1
        · exact Or.inl he
  have hremc : ∀ k, rf.toRemove.contains k = true → (rf.add s).1.toRemove.contains k = true := by
    intro k hk
    rw [Forest.add_toRemove]
    split
    · exact hk
    · split
      · exact hk
      · split
        · rw [SampleMap.contains_set, hk]; simp
        · exact hk
  have hremn : ((rf.add s).1.toRemove.map Prod.fst).Nodup := by
    rw [Forest.add_toRemove]
    split
    · exact h.nodupRemove
    · split
      · exact h.nodupRemove
      · split
        · exact SampleMap.keys_set _ _ _ h.nodupRemove
        · exact h.nodupRemove
  have hcov : rf.samples.contains s.suid = true → (rf.add s).1.toRemove.contains s.suid = true := by
    intro hc
    rw [Forest.add_toRemove]
    split
    · rename_i hin
      obtain ⟨v, hv⟩ := (SampleMap.contains_iff_mem _ _).mp hin
      exact h.addCovered _ hv hc
    · split
      · rename_i hnr
        exact hnr
      · rw [SampleMap.contains_eq, Option.isSome_iff_exists] at hc
        obtain ⟨old, hold⟩ := hc
        simp only [hold]
        rw [SampleMap.contains_set]; simp
  constructor
  · rw [hsamples]; exact h.keySamples
  · rw [hadd]
    intro e he
    rw [SampleMap.mem_set] at he
    rcases he with h1 | h1
    · rw [h1]
    · exact h.keyAdd e h1.1
  · rw [hsamples]; exact h.nodupSamples
  · rw [hadd]; exact SampleMap.keys_set _ _ _ h.nodupAdd
  · exact hremn
  · rw [hsamples]
    intro e he
    rcases hrem e he with h1 | ⟨h1, h2⟩
    · exact h.removeSub e h1
    · have := SampleMap.mem_of_find _ _ _ h1
      rw [← h2] at this
      exact this
  · rw [hsamples, hadd]
    intro e he hc
    rw [SampleMap.mem_set] at he
    rcases he with h1 | h1
    · rw [h1] at hc ⊢
      exact hcov hc
    · exact hremc _ (h.addCovered e h1.1 hc)

theorem ptrInv_add (rf : Forest) (s : Sample) (h : PtrInv rf) (hfresh : freshSample rf s) :
    PtrInv (rf.add s).1 := by
  have hsamples := Forest.add_samples rf s
  have hadd := Forest.add_toAdd rf s
  constructor
  · rw [hsamples, hadd]
    have key : ∀ a ∈ rf.samples ++ rf.toAdd.set s.suid s,
        a = (s.suid, s) ∨ a ∈ rf.samples ++ rf.toAdd := by
      intro a ha
      rw [List.mem_append] at ha
      rcases ha with h1 | h1
      · exact Or.inr (List.mem_append_left _ h1)
      · rw [SampleMap.mem_set] at h1
        rcases h1 with h2 | h2
        · exact Or.inl h2
        · exact Or.inr (List.mem_append_right _ h2.1)
    intro a ha b hb hab
    rcases key a ha with h1 | h1 <;> rcases key b hb with h2 | h2
    · rw [h1, h2]
    · rw [h1] at hab
      exact absurd hab.symm (hfresh b h2)
    · rw [h2] at hab
      exact absurd hab (hfresh a h1)
    · exact h.ptrInj a h1 b h2 hab
  · rw [hsamples, hadd]
    intro a ha hs
    rw [SampleMap.mem_set] at ha
    rcases ha with h1 | h1
    · rw [h1] at hs
      exact hfresh (s.suid, s) (List.mem_append_left _ hs) rfl
    · exact h.addFresh a h1.1 hs

theorem Forest.remove_eq (rf : Forest) (sId : String) :
    rf.remove sId =
      if rf.toAdd.contains sId = true then
        (⟨rf.samples, rf.toAdd.erase sId, rf.toRemove, rf.forest, true, rf.ts⟩, true)
      else if rf.toRemove.contains sId = true then (rf, false)
      else match rf.samples.find sId with
        | none => (rf, false)
        | some old =>
          (⟨rf.samples, rf.toAdd, rf.toRemove.set sId old, rf.forest, true, rf.ts⟩, true) := by
  unfold Forest.remove
  rfl

theorem storeInv_remove (rf : Forest) (sId : String) (h : StoreInv rf) :
    StoreInv (rf.remove sId).1 := by
  rw [Forest.remove_eq]
  split
  · constructor
    · exact h.keySamples
    · intro e he
      exact h.keyAdd e ((SampleMap.mem_erase _ _ _).mp he).1
    · exact h.nodupSamples
    · exact SampleMap.keys_erase _ _ h.nodupAdd
    · exact h.nodupRemove
    · exact h.removeSub
    · intro e he hc
      exact h.addCovered e ((SampleMap.mem_erase _ _ _).mp he).1 hc
  · split
    · exact h
    · split
      · exact h
      · rename_i old hold
        constructor
        · exact h.keySamples
        · exact h.keyAdd
        · exact h.nodupSamples
        · exact h.nodupAdd
        · exact SampleMap.keys_set _ _ _ h.nodupRemove
        · intro e he
          rw [SampleMap.mem_set] at he
          rcases he with h1 | h1
          · rw [h1]; exact SampleMap.mem_of_find _ _ _ hold
          · exact h.removeSub e h1.1
        · intro e he hc
          show (rf.toRemove.set sId old).contains e.1 = true
          rw [SampleMap.contains_set]
          have := h.addCovered e he hc
          simp [this]

theorem ptrInv_remove (rf : Forest) (sId : String) (h : PtrInv rf) :
    PtrInv (rf.remove sId).1 := by
  rw [Forest.remove_eq]
  split
  · constructor
    · intro a ha b hb hab
      have sub : ∀ x ∈ rf.samples ++ rf.toAdd.erase sId, x ∈ rf.samples ++ rf.toAdd := by
        intro x hx
        rw [List.mem_append] at hx ⊢
        rcases hx with h1 | h1
        · exact Or.inl h1
        · exact Or.inr ((SampleMap.mem_erase _ _ _).mp h1).1
      exact h.ptrInj a (sub a ha) b (sub b hb) hab
    · intro a ha
      exact h.addFresh a ((SampleMap.mem_erase _ _ _).mp ha).1
  · split
    · exact h
    · split
      · exact h
      · exact ⟨h.ptrInj, h.addFresh⟩

theorem storeInv_commit {F : Type} (P : Platform F) (rf rf1 : Forest) (h : StoreInv rf)
    (hc : rf.commit P = some rf1) : StoreInv rf1 := by
  unfold Forest.commit at hc
  split at hc
  · cases hc; exact h
  · split at hc
    · cases hc
    · cases hc
      have hmem : ∀ e,
          e ∈ rf.toAdd.foldl (fun (m : SampleMap) x => m.set x.1 x.2)
            (rf.toRemove.foldl (fun (m : SampleMap) x => m.erase x.1) rf.samples) →
          e ∈ rf.toAdd ∨ e ∈ rf.samples := by
        intro e he
        rcases SampleMap.mem_foldl_set _ _ _ he with h1 | h1
        · exact Or.inl h1
        · exact Or.inr ((SampleMap.mem_foldl_erase _ _ _).mp h1).1
      constructor
      · intro e he
        rcases hmem e he with h1 | h1
        · exact h.keyAdd e h1
        · exact h.keySamples e h1
      · simp
      · exact SampleMap.keys_foldl_set _ _ (SampleMap.keys_foldl_erase _ _ h.nodupSamples)
      · simp
      · simp
      · simp
      · simp

theorem ptrInv_commit {F : Type} (P : Platform F) (rf rf1 : Forest) (h : PtrInv rf)
    (hc : rf.commit P = some rf1) : PtrInv rf1 := by
  unfold Forest.commit at hc
  split at hc
  · cases hc; exact h
  · split at hc
    · cases hc
    · cases hc
      have hmem : ∀ e,
          e ∈ rf.toAdd.foldl (fun (m : SampleMap) x => m.set x.1 x.2)
            (rf.toRemove.foldl (fun (m : SampleMap) x => m.erase x.1) rf.samples) →
          e ∈ rf.toAdd ∨ e ∈ rf.samples := by
        intro e he
        rcases SampleMap.mem_foldl_set _ _ _ he with h1 | h1
        · exact Or.inl h1
        · exact Or.inr ((SampleMap.mem_foldl_erase _ _ _).mp h1).1
      constructor
      · intro a ha b hb hab
        simp only [List.append_nil] at ha hb
        have sub : ∀ x, x ∈ rf.toAdd ∨ x ∈ rf.samples → x ∈ rf.samples ++ rf.toAdd := by
          intro x hx
          rw [List.mem_append]
          exact hx.symm
        exact h.ptrInj a (sub a (hmem a ha)) b (sub b (hmem b hb)) hab
      · simp

theorem storeInv_of_reachable {F : Type} (P : Platform F) (ok : Forest → Sample → Prop)
    (rf : Forest) (h : Reachable P ok rf) : StoreInv rf := by
  induction h with
  | create n => exact storeInv_create P n
  | add rf s _ _ ih => exact storeInv_add rf s ih
  | remove rf sId _ ih => exact storeInv_remove rf sId ih
  | commit rf rf1 _ hc ih => exact storeInv_commit P rf rf1 ih hc

theorem ptrInv_of_reachable {F : Type} (P : Platform F) (ok : Forest → Sample → Prop)
    (hok : ∀ rf s, ok rf s → freshSample rf s) (rf : Forest) (h : Reachable P ok rf) :
    PtrInv rf := by
  induction h with
  | create n => constructor <;> simp [create]
  | add rf s _ hs ih => exact ptrInv_add rf s ih (hok rf s hs)
  | remove rf sId _ ih => exact ptrInv_remove rf sId ih
  | commit rf rf1 _ hc ih => exact ptrInv_commit P rf rf1 ih hc

/-! ## The tree walker enumerates `collectRecursive` -/

theorem stackDown_spec (n : DecisionTreeNode) (st : List DecisionTreeNode) (h : allInternal st) :
    ((stackDown n st).1 = true →
        (stackDown n st).2.Good ∧ (stackDown n st).2.st ≠ [] ∧
          (stackDown n st).2.remaining = collectRecursive n ++ pendingSamples st) ∧
      ((stackDown n st).1 = false →
        allInternal (stackDown n st).2.st ∧ (stackDown n st).2.cur = [] ∧
          pendingSamples (stackDown n st).2.st = collectRecursive n ++ pendingSamples st ∧
          stackWeight (stackDown n st).2.st < treeSize n + stackWeight st) := by
  induction n generalizing st with
  | leaf d v samples =>
    by_cases hs : samples.isEmpty = true
    · have hsd : stackDown (.leaf d v samples) st = (false, ⟨st, []⟩) := by
        simp [stackDown, hs]
      rw [hsd]
      have : samples = [] := by simpa using hs
      subst this
      refine ⟨fun hf => by simp at hf, fun _ => ⟨h, rfl, ?_, ?_⟩⟩
      · simp [collectRecursive]
      · simp [treeSize]
    · have hsd : stackDown (.leaf d v samples) st = (true, ⟨.leaf d v samples :: st, samples⟩) := by
        simp [stackDown, hs]
      rw [hsd]
      have hne : samples ≠ [] := by simpa using hs
      refine ⟨fun _ => ⟨Or.inr ⟨d, v, samples, st, rfl, h, hne⟩, by simp, ?_⟩,
        fun hf => by simp at hf⟩
      simp [TreeSampleWalker.remaining, collectRecursive]
  | internal c d negative positive ihn _ =>
    unfold stackDown
    have h1 : allInternal (.internal c d negative positive :: st) := h
    have := ihn (.internal c d negative positive :: st) h1
    refine ⟨fun hf => ?_, fun hf => ?_⟩
    · obtain ⟨g, hne, hr⟩ := this.1 hf
      refine ⟨g, hne, ?_⟩
      rw [hr]
      simp [pendingSamples, collectRecursive]
    · obtain ⟨ha, hc, hp, hw⟩ := this.2 hf
      refine ⟨ha, hc, ?_, ?_⟩
      · rw [hp]
        simp [pendingSamples, collectRecursive]
      · simp only [stackWeight, treeSize] at hw ⊢
        omega

theorem advanceToNextLoop_spec (fuel : Nat) (st : List DecisionTreeNode) (h : allInternal st)
    (hf : stackWeight st ≤ fuel) :
    ∃ w, advanceToNextLoop fuel ⟨st, []⟩ = some w ∧ w.Good ∧ w.remaining = pendingSamples st := by
  induction fuel generalizing st with
  | zero =>
    cases st with
    | nil =>
      exact ⟨⟨[], []⟩, by simp [advanceToNextLoop], Or.inl ⟨rfl, rfl⟩,
        by simp [TreeSampleWalker.remaining, pendingSamples]⟩
    | cons n st =>
      cases n with
      | leaf d v s => exact absurd h (by simp [allInternal])
      | internal c d a b => simp [stackWeight] at hf
  | succ fuel ih =>
    cases st with
    | nil =>
      exact ⟨⟨[], []⟩, by simp [advanceToNextLoop], Or.inl ⟨rfl, rfl⟩,
        by simp [TreeSampleWalker.remaining, pendingSamples]⟩
    | cons n st =>
      cases n with
      | leaf d v s => exact absurd h (by simp [allInternal])
      | internal c d a b =>
        have h1 : allInternal st := h
        have hsd := stackDown_spec b st h1
        simp only [advanceToNextLoop]
        by_cases hr : (stackDown b st).1 = true
        · simp only [hr, if_true]
          obtain ⟨g, _, hrem⟩ := hsd.1 hr
          exact ⟨_, rfl, g, by rw [hrem]; simp [pendingSamples]⟩
        · have hr' : (stackDown b st).1 = false := by simpa using hr
          simp only [hr', Bool.false_eq_true, if_false]
          obtain ⟨ha, hc, hp, hw⟩ := hsd.2 hr'
          have hfuel : stackWeight (stackDown b st).2.st ≤ fuel := by
            simp only [stackWeight] at hf
            omega
          obtain ⟨w, hw1, hw2, hw3⟩ := ih (stackDown b st).2.st ha hfuel
          refine ⟨w, ?_, hw2, ?_⟩
          · rw [← hw1]
            congr 1
            cases hsdv : (stackDown b st).2 with
            | mk st2 cur2 =>
              rw [hsdv] at hc
              simp only at hc
              rw [hc]
          · rw [hw3, hp]
            simp [pendingSamples]

theorem advanceToNext_spec (st : List DecisionTreeNode) (h : allInternal st) :
    ∃ w, advanceToNext ⟨st, []⟩ = some w ∧ w.Good ∧ w.remaining = pendingSamples st :=
  advanceToNextLoop_spec (stackWeight st) st h (Nat.le_refl _)

theorem walker_new_spec (n : DecisionTreeNode) :
    ∃ w, TreeSampleWalker.new n = some w ∧ w.Good ∧ w.remaining = collectRecursive n := by
  have hsd := stackDown_spec n [] trivial
  unfold TreeSampleWalker.new
  by_cases hr : (stackDown n []).1 = true
  · simp only [hr, if_true]
    obtain ⟨g, _, hrem⟩ := hsd.1 hr
    exact ⟨_, rfl, g, by rw [hrem]; simp [pendingSamples]⟩
  · have hr' : (stackDown n []).1 = false := by simpa using hr
    simp only [hr', Bool.false_eq_true, if_false]
    obtain ⟨ha, hc, hp, _⟩ := hsd.2 hr'
    obtain ⟨w, hw1, hw2, hw3⟩ := advanceToNext_spec (stackDown n []).2.st ha
    refine ⟨w, ?_, hw2, ?_⟩
    · rw [← hw1]
      congr 1
      cases hsdv : (stackDown n []).2 with
      | mk st2 cur2 =>
        rw [hsdv] at hc
        simp only at hc
        rw [hc]
    · rw [hw3, hp]
      simp [pendingSamples]

theorem walker_get_spec (w : TreeSampleWalker) (hg : w.Good) (hs : w.stillSome = true) :
    ∃ s w1, w.get = some (s, w1) ∧ w1.Good ∧ w.remaining = s :: w1.remaining := by
  rcases hg with ⟨h1, _⟩ | ⟨d, v, samples, st, hst, hall, hcur⟩
  · simp [TreeSampleWalker.stillSome, h1] at hs
  · cases hc : w.cur with
    | nil => exact absurd hc hcur
    | cons s rest =>
      unfold TreeSampleWalker.get
      simp only [hc]
      by_cases hr : rest.isEmpty = true
      · simp only [hr, if_true]
        have hrest : rest = [] := by simpa using hr
        subst hrest
        obtain ⟨w1, hw1, hw2, hw3⟩ := advanceToNext_spec st hall
        refine ⟨s, w1, ?_, hw2, ?_⟩
        · rw [hst]
          simp only [List.tail_cons]
          rw [hw1]
          rfl
        · rw [hw3]
          simp [TreeSampleWalker.remaining, hc, hst]
      · simp only [hr, if_false]
        have hrest : rest ≠ [] := by simpa using hr
        refine ⟨s, ⟨w.st, rest⟩, rfl, Or.inr ⟨d, v, samples, st, hst, hall, hrest⟩, ?_⟩
        simp [TreeSampleWalker.remaining, hc]

theorem drainWalker_spec (fuel : Nat) (w : TreeSampleWalker) (hg : w.Good)
    (hf : w.remaining.length ≤ fuel) : drainWalker fuel w = some w.remaining := by
  induction fuel generalizing w with
  | zero =>
    have hnil : w.remaining = [] := List.eq_nil_of_length_eq_zero (Nat.le_zero.mp hf)
    rcases hg with ⟨h1, h2⟩ | ⟨d, v, samples, st, hst, _, hcur⟩
    · simp [drainWalker, TreeSampleWalker.stillSome, h1, hnil]
    · exfalso
      apply hcur
      unfold TreeSampleWalker.remaining at hnil
      exact (List.append_eq_nil.mp hnil).1
  | succ fuel ih =>
    unfold drainWalker
    by_cases hs : w.stillSome = true
    · simp only [hs, if_true]
      obtain ⟨s, w1, hget, hg1, hrem⟩ := walker_get_spec w hg hs
      rw [hget]
      simp only
      have hlen : w1.remaining.length ≤ fuel := by
        rw [hrem] at hf
        simp only [List.length_cons] at hf
        omega
      rw [ih w1 hg1 hlen, hrem]
      rfl
    · simp only [hs, if_false]
      rcases hg with ⟨h1, h2⟩ | ⟨d, v, samples, st, hst, _, _⟩
      · simp [TreeSampleWalker.remaining, h1, h2, pendingSamples]
      · simp [TreeSampleWalker.stillSome, hst] at hs

/-- Draining a fresh `TreeSampleWalker` yields the samples of `collectRecursive`. -/
theorem walkSamples_eq (n : DecisionTreeNode) : walkSamples n = some (collectRecursive n) := by
  obtain ⟨w, hw1, hw2, hw3⟩ := walker_new_spec n
  unfold walkSamples
  rw [hw1]
  simp only
  rw [← hw3]
  exact drainWalker_spec _ w hw2 (Nat.le_refl _)

/-! ## Basic lemmas: machine integers, pairs, ordered sets, partitions -/

theorem addDirection_one (x : Nat) : addDirection x 1 = (x + 1) % 4294967296 := by
  unfold addDirection
  omega

theorem addDirection_neg_one (x : Nat) :
    addDirection x (-1) = (x + 4294967295) % 4294967296 := by
  unfold addDirection
  omega

theorem pairLt_iff (a b : RankPair) :
    pairLt a b = true ↔ a.1 < b.1 ∨ (a.1 = b.1 ∧ a.2 < b.2) := by
  simp [pairLt]

theorem pairGe_iff (a b : RankPair) :
    pairGe a b = true ↔ ¬ (a.1 < b.1 ∨ (a.1 = b.1 ∧ a.2 < b.2)) := by
  unfold pairGe
  rw [← pairLt_iff]
  simp

theorem pairLt_pairMax_left (x a b : RankPair) (h : pairLt x a = true) :
    pairLt x (pairMax a b) = true := by
  unfold pairMax
  split
  · rename_i hab
    rw [pairLt_iff] at h hab ⊢
    omega
  · exact h

theorem pairLt_pairMax_right (x a b : RankPair) (h : pairLt x b = true) :
    pairLt x (pairMax a b) = true := by
  unfold pairMax
  split
  · exact h
  · rename_i hab
    have hab' : ¬ (a.1 < b.1 ∨ (a.1 = b.1 ∧ a.2 < b.2)) := by
      rw [← pairLt_iff]; exact hab
    rw [pairLt_iff] at h ⊢
    omega

theorem pairLt_succ (r : Nat) (c c1 : Int) (h : c ≤ c1) : pairLt (r, c) (r, c1 + 1) = true := by
  rw [pairLt_iff]
  right
  exact ⟨rfl, by simp only; omega⟩

theorem mem_rankSetInsert (p : RankPair) (l : List RankPair) (x : RankPair) :
    x ∈ rankSetInsert p l ↔ x = p ∨ x ∈ l := by
  induction l with
  | nil => simp [rankSetInsert]
  | cons q l ih =>
    unfold rankSetInsert
    split
    · simp
    · split
      · simp only [List.mem_cons, ih]
        tauto
      · rename_i h1 h2
        have hpq : p = q := by
          have h1' : ¬ (p.1 < q.1 ∨ (p.1 = q.1 ∧ p.2 < q.2)) := by
            rw [← pairLt_iff]; exact h1
          have h2' : ¬ (q.1 < p.1 ∨ (q.1 = p.1 ∧ q.2 < p.2)) := by
            rw [← pairLt_iff]; exact h2
          apply Prod.ext <;> omega
        subst hpq
        simp

theorem rankSetInsert_codes_nodup (p : RankPair) (l : List RankPair)
    (hn : (l.map Prod.snd).Nodup) (hp : p.2 ∉ l.map Prod.snd) :
    ((rankSetInsert p l).map Prod.snd).Nodup := by
  induction l with
  | nil => simp [rankSetInsert]
  | cons q l ih =>
    rw [List.map_cons, List.nodup_cons] at hn
    rw [List.map_cons, List.mem_cons, not_or] at hp
    unfold rankSetInsert
    split
    · rw [List.map_cons, List.nodup_cons]
      refine ⟨?_, ?_⟩
      · rw [List.map_cons, List.mem_cons, not_or]
        exact hp
      · rw [List.map_cons, List.nodup_cons]
        exact hn
    · split
      · rw [List.map_cons, List.nodup_cons]
        refine ⟨?_, ih hn.2 hp.2⟩
        intro hmem
        obtain ⟨x, hx, hxq⟩ := List.mem_map.mp hmem
        rw [mem_rankSetInsert] at hx
        rcases hx with h1 | h1
        · rw [h1] at hxq
          exact hp.1 hxq
        · exact hn.1 (List.mem_map.mpr ⟨x, h1, hxq⟩)
      · rw [List.map_cons, List.nodup_cons]
        exact hn

theorem mem_intSetInsert (c : Int) (l : List Int) (x : Int) :
    x ∈ intSetInsert c l ↔ x = c ∨ x ∈ l := by
  induction l with
  | nil => simp [intSetInsert]
  | cons d l ih =>
    unfold intSetInsert
    split
    · simp
    · split
      · simp only [List.mem_cons, ih]
        tauto
      · rename_i h1 h2
        have : c = d := by omega
        subst this
        simp

theorem intSetInsert_sorted (c : Int) (l : List Int) (h : l.Pairwise (· < ·)) :
    (intSetInsert c l).Pairwise (· < ·) := by
  induction l with
  | nil => simp [intSetInsert]
  | cons d l ih =>
    rw [List.pairwise_cons] at h
    unfold intSetInsert
    split
    · rename_i hcd
      rw [List.pairwise_cons]
      refine ⟨?_, List.pairwise_cons.mpr h⟩
      intro x hx
      rcases List.mem_cons.mp hx with h1 | h1
      · rw [h1]; exact hcd
      · exact lt_trans hcd (h.1 x h1)
    · split
      · rename_i hdc
        rw [List.pairwise_cons]
        refine ⟨?_, ih h.2⟩
        intro x hx
        rw [mem_intSetInsert] at hx
        rcases hx with h1 | h1
        · rw [h1]; exact hdc
        · exact h.1 x h1
      · exact List.pairwise_cons.mpr h

theorem findUsedCodes_sorted (sw : List Sample) : (findUsedCodes sw).Pairwise (· < ·) := by
  unfold findUsedCodes
  have inner : ∀ (xs : List (Int × ℚ)) (uc : List Int), uc.Pairwise (· < ·) →
      (xs.foldl (fun (uc : List Int) e => intSetInsert e.1 uc) uc).Pairwise (· < ·) := by
    intro xs
    induction xs with
    | nil => intro uc h; exact h
    | cons e xs ih => intro uc h; exact ih _ (intSetInsert_sorted e.1 uc h)
  have outer : ∀ (sw : List Sample) (uc : List Int), uc.Pairwise (· < ·) →
      (sw.foldl (fun (uc : List Int) s =>
        s.xCodes.foldl (fun (uc : List Int) e => intSetInsert e.1 uc) uc) uc).Pairwise (· < ·) := by
    intro sw
    induction sw with
    | nil => intro uc h; exact h
    | cons s sw ih => intro uc h; exact ih _ (inner s.xCodes uc h)
  exact outer sw [] List.Pairwise.nil

theorem mem_findUsedCodes (sw : List Sample) (c : Int) :
    c ∈ findUsedCodes sw ↔ ∃ s ∈ sw, c ∈ s.xCodes.map Prod.fst := by
  unfold findUsedCodes
  have inner : ∀ (xs : List (Int × ℚ)) (uc : List Int),
      c ∈ xs.foldl (fun (uc : List Int) e => intSetInsert e.1 uc) uc ↔
        c ∈ xs.map Prod.fst ∨ c ∈ uc := by
    intro xs
    induction xs with
    | nil => intro uc; simp
    | cons e xs ih =>
      intro uc
      rw [List.foldl_cons, ih, mem_intSetInsert, List.map_cons, List.mem_cons]
      tauto
  have outer : ∀ (sw : List Sample) (uc : List Int),
      c ∈ sw.foldl (fun (uc : List Int) s =>
        s.xCodes.foldl (fun (uc : List Int) e => intSetInsert e.1 uc) uc) uc ↔
        (∃ s ∈ sw, c ∈ s.xCodes.map Prod.fst) ∨ c ∈ uc := by
    intro sw
    induction sw with
    | nil => intro uc; simp
    | cons s sw ih =>
      intro uc
      rw [List.foldl_cons, ih, inner]
      constructor
      · rintro (⟨t, ht, hc⟩ | h | h)
        · exact Or.inl ⟨t, List.mem_cons_of_mem _ ht, hc⟩
        · exact Or.inl ⟨s, List.mem_cons_self _ _, h⟩
        · exact Or.inr h
      · rintro (⟨t, ht, hc⟩ | h)
        · rcases List.mem_cons.mp ht with h1 | h1
          · subst h1; exact Or.inr (Or.inl hc)
          · exact Or.inl ⟨t, h1, hc⟩
        · exact Or.inr (Or.inr h)
  rw [outer]
  simp

theorem foldl_partition (p : Sample → Bool) (sw : List Sample) (a b : List Sample) :
    sw.foldl (fun (acc : List Sample × List Sample) s =>
        if p s = true then (acc.1, acc.2 ++ [s]) else (acc.1 ++ [s], acc.2)) (a, b)
      = (a ++ sw.filter (fun s => !p s), b ++ sw.filter p) := by
  induction sw generalizing a b with
  | nil => simp
  | cons s sw ih =>
    rw [List.foldl_cons]
    by_cases h : p s = true
    · simp only [h, if_true]
      rw [ih]
      simp [List.filter_cons, h]
    · have h0 : p s = false := by simpa using h
      simp only [h0, Bool.false_eq_true, if_false]
      rw [ih]
      simp [List.filter_cons, h0]

theorem splitListAgainstCode_eq (sw : List Sample) (c : Int) :
    splitListAgainstCode sw c
      = (sw.filter (fun s => !hasCodeGt s c), sw.filter (fun s => hasCodeGt s c)) := by
  have h := foldl_partition (fun s => hasCodeGt s c) sw [] []
  simp only [List.nil_append] at h
  exact h

theorem splitListByTarget_eq (sl : List Sample) :
    splitListByTarget sl
      = (sl.filter (fun s => !decide (s.y > 1 / 2)), sl.filter (fun s => decide (s.y > 1 / 2))) := by
  have h := foldl_partition (fun s => decide (s.y > 1 / 2)) sl [] []
  simp only [List.nil_append, decide_eq_true_eq] at h
  exact h

theorem filter_not_perm (S : List Sample) (p : Sample → Bool) :
    List.Perm (S.filter (fun s => !p s) ++ S.filter p) S :=
  List.perm_append_comm.trans (List.filter_append_perm p S)

/-! ## The full recount `computeDecisionCounters` -/

theorem countCode_nil (code : Int) (dc : DecisionCounts) : countCode code dc [] = dc := rfl

theorem countCode_cons (code : Int) (dc : DecisionCounts) (s : Sample) (sw : List Sample) :
    countCode code dc (s :: sw) =
      countCode code
        (if isAboveHalf s = true then
          (if hasCodeGt s code = true then { dc with c1p := wrapU32 (dc.c1p + 1) } else dc)
        else
          (if hasCodeGt s code = true then { dc with c0p := wrapU32 (dc.c0p + 1) } else dc)) sw := by
  rfl

theorem countCode_spec (code : Int) (sw : List Sample) (dc : DecisionCounts) :
    (countCode code dc sw).rank = dc.rank ∧
      (countCode code dc sw).c1p % 4294967296
        = (dc.c1p + sw.countP (fun s => isAboveHalf s && hasCodeGt s code)) % 4294967296 ∧
      (countCode code dc sw).c0p % 4294967296
        = (dc.c0p + sw.countP (fun s => !isAboveHalf s && hasCodeGt s code)) % 4294967296 ∧
      (dc.c1p < 4294967296 → (countCode code dc sw).c1p < 4294967296) ∧
      (dc.c0p < 4294967296 → (countCode code dc sw).c0p < 4294967296) := by
  induction sw generalizing dc with
  | nil => simp [countCode_nil]
  | cons s sw ih =>
    rw [countCode_cons]
    by_cases hy : isAboveHalf s = true <;> by_cases hc : hasCodeGt s code = true
    · simp only [hy, hc, if_true]
      obtain ⟨h1, h2, h3, h4, h5⟩ := ih { dc with c1p := wrapU32 (dc.c1p + 1) }
      refine ⟨h1, ?_, ?_, ?_, h5⟩
      · rw [h2]
        simp only [List.countP_cons, hy, hc, Bool.and_self, if_true, wrapU32]
        omega
      · rw [h3]
        simp [List.countP_cons, hy, hc]
      · intro _
        apply h4
        simp only [wrapU32]
        omega
    · have hc0 : hasCodeGt s code = false := by simpa using hc
      simp only [hy, hc0, if_true, Bool.false_eq_true, if_false]
      obtain ⟨h1, h2, h3, h4, h5⟩ := ih dc
      refine ⟨h1, ?_, ?_, h4, h5⟩
      · rw [h2]; simp [List.countP_cons, hy, hc0]
      · rw [h3]; simp [List.countP_cons, hy, hc0]
    · have hy0 : isAboveHalf s = false := by simpa using hy
      simp only [hy0, hc, if_true, Bool.false_eq_true, if_false]
      obtain ⟨h1, h2, h3, h4, h5⟩ := ih { dc with c0p := wrapU32 (dc.c0p + 1) }
      refine ⟨h1, ?_, ?_, h4, ?_⟩
      · rw [h2]
        simp [List.countP_cons, hy0, hc]
      · rw [h3]
        simp only [List.countP_cons, hy0, hc, Bool.not_false, Bool.and_self, if_true, wrapU32]
        omega
      · intro _
        apply h5
        simp only [wrapU32]
        omega
    · have hy0 : isAboveHalf s = false := by simpa using hy
      have hc0 : hasCodeGt s code = false := by simpa using hc
      simp only [hy0, hc0, Bool.false_eq_true, if_false]
      obtain ⟨h1, h2, h3, h4, h5⟩ := ih dc
      refine ⟨h1, ?_, ?_, h4, h5⟩
      · rw [h2]; simp [List.countP_cons, hy0, hc0]
      · rw [h3]; simp [List.countP_cons, hy0, hc0]

theorem classTotals_cons (s : Sample) (sw : List Sample) (c : Nat × Nat) :
    (s :: sw).foldl (fun (c : Nat × Nat) s =>
        if s.y ≥ 1 / 2 then (c.1, wrapU32 (c.2 + 1)) else (wrapU32 (c.1 + 1), c.2)) c
      = sw.foldl (fun (c : Nat × Nat) s =>
        if s.y ≥ 1 / 2 then (c.1, wrapU32 (c.2 + 1)) else (wrapU32 (c.1 + 1), c.2))
        (if isClass1 s = true then (c.1, wrapU32 (c.2 + 1)) else (wrapU32 (c.1 + 1), c.2)) := by
  rw [List.foldl_cons]
  congr 1
  unfold isClass1
  by_cases h : s.y ≥ 1 / 2
  · rw [if_pos h, if_pos (decide_eq_true h)]
  · rw [if_neg h, if_neg (by rw [decide_eq_false h]; simp)]

theorem classTotals_spec (sw : List Sample) (c : Nat × Nat) :
    ((sw.foldl (fun (c : Nat × Nat) s =>
        if s.y ≥ 1 / 2 then (c.1, wrapU32 (c.2 + 1)) else (wrapU32 (c.1 + 1), c.2)) c).1 % 4294967296
        = (c.1 + countClass0 sw) % 4294967296) ∧
      ((sw.foldl (fun (c : Nat × Nat) s =>
        if s.y ≥ 1 / 2 then (c.1, wrapU32 (c.2 + 1)) else (wrapU32 (c.1 + 1), c.2)) c).2 % 4294967296
        = (c.2 + countClass1 sw) % 4294967296) ∧
      (c.1 < 4294967296 → (sw.foldl (fun (c : Nat × Nat) s =>
        if s.y ≥ 1 / 2 then (c.1, wrapU32 (c.2 + 1)) else (wrapU32 (c.1 + 1), c.2)) c).1
          < 4294967296) ∧
      (c.2 < 4294967296 → (sw.foldl (fun (c : Nat × Nat) s =>
        if s.y ≥ 1 / 2 then (c.1, wrapU32 (c.2 + 1)) else (wrapU32 (c.1 + 1), c.2)) c).2
          < 4294967296) := by
  induction sw generalizing c with
  | nil => simp [countClass0, countClass1]
  | cons s sw ih =>
    rw [classTotals_cons]
    by_cases hcl : isClass1 s = true
    · simp only [hcl, if_true]
      obtain ⟨h1, h2, h3, h4⟩ := ih (c.1, wrapU32 (c.2 + 1))
      refine ⟨?_, ?_, h3, ?_⟩
      · rw [h1]; simp [countClass0, List.countP_cons, hcl]
      · rw [h2]
        simp only [countClass1, List.countP_cons, hcl, if_true, wrapU32]
        omega
      · intro _
        apply h4
        simp only [wrapU32]
        omega
    · have hcl0 : isClass1 s = false := by simpa using hcl
      simp only [hcl0, Bool.false_eq_true, if_false]
      obtain ⟨h1, h2, h3, h4⟩ := ih (wrapU32 (c.1 + 1), c.2)
      refine ⟨?_, ?_, ?_, h4⟩
      · rw [h1]
        simp only [countClass0, List.countP_cons, hcl0, Bool.not_false, if_true, wrapU32]
        omega
      · rw [h2]; simp [countClass1, List.countP_cons, hcl0]
      · intro _
        apply h3
        simp only [wrapU32]
        omega

theorem rankFold_spec {F : Type} (P : Platform F) (id : Nat) (L : List Int) :
    ∀ (acc : List RankPair × RankPair) (done : List Int),
      L.Pairwise (· < ·) →
      (∀ p ∈ acc.1, p.1 = codeRankInNode P p.2 id ∧ p.2 ∈ done) →
      (∀ c ∈ done, (codeRankInNode P c id, c) ∈ acc.1 ∨
        pairLt (codeRankInNode P c id, c) acc.2 = true) →
      (acc.1.map Prod.snd).Nodup →
      (∀ c ∈ done, ∀ c1 ∈ L, c < c1) →
      (∀ p ∈ (L.foldl (rankStep P id) acc).1,
          p.1 = codeRankInNode P p.2 id ∧ (p.2 ∈ done ∨ p.2 ∈ L)) ∧
        (∀ c, (c ∈ done ∨ c ∈ L) → (codeRankInNode P c id, c) ∈ (L.foldl (rankStep P id) acc).1 ∨
          pairLt (codeRankInNode P c id, c) (L.foldl (rankStep P id) acc).2 = true) ∧
        ((L.foldl (rankStep P id) acc).1.map Prod.snd).Nodup := by
  induction L with
  | nil =>
    intro acc done _ h1 h2 h3 _
    refine ⟨fun p hp => ⟨(h1 p hp).1, Or.inl (h1 p hp).2⟩, ?_, h3⟩
    intro c hc
    rcases hc with hc | hc
    · exact h2 c hc
    · simp at hc
  | cons c L ih =>
    intro acc done hsorted h1 h2 h3 h4
    rw [List.foldl_cons]
    rw [List.pairwise_cons] at hsorted
    have hcnew : c ∉ acc.1.map Prod.snd := by
      intro hmem
      obtain ⟨p, hp, hpc⟩ := List.mem_map.mp hmem
      have := h4 p.2 (h1 p hp).2 c (List.mem_cons_self _ _)
      omega
    have hins_nodup := rankSetInsert_codes_nodup (codeRankInNode P c id, c) acc.1 h3 hcnew
    have hins_mem : ∀ p ∈ rankSetInsert (codeRankInNode P c id, c) acc.1,
        p.1 = codeRankInNode P p.2 id ∧ (p.2 = c ∨ p.2 ∈ done) := by
      intro p hp
      rw [mem_rankSetInsert] at hp
      rcases hp with hp | hp
      · rw [hp]; exact ⟨rfl, Or.inl rfl⟩
      · exact ⟨(h1 p hp).1, Or.inr (h1 p hp).2⟩
    have hle : ∀ p ∈ rankSetInsert (codeRankInNode P c id, c) acc.1, p.2 ≤ c := by
      intro p hp
      rcases (hins_mem p hp).2 with h | h
      · omega
      · have := h4 p.2 h c (List.mem_cons_self _ _)
        omega
    have key := ih (rankStep P id acc c) (c :: done) hsorted.2
    have hstep1 : ∀ p ∈ (rankStep P id acc c).1,
        p.1 = codeRankInNode P p.2 id ∧ p.2 ∈ c :: done := by
      intro p hp
      unfold rankStep at hp
      simp only at hp
      split at hp
      · have := hins_mem p (List.mem_of_mem_tail hp)
        exact ⟨this.1, List.mem_cons.mpr this.2⟩
      · have := hins_mem p hp
        exact ⟨this.1, List.mem_cons.mpr this.2⟩
    have hstep2 : ∀ c2 ∈ c :: done, (codeRankInNode P c2 id, c2) ∈ (rankStep P id acc c).1 ∨
        pairLt (codeRankInNode P c2 id, c2) (rankStep P id acc c).2 = true := by
      intro c2 hc2
      have hin : (codeRankInNode P c2 id, c2) ∈ rankSetInsert (codeRankInNode P c id, c) acc.1 ∨
          pairLt (codeRankInNode P c2 id, c2) acc.2 = true := by
        rcases List.mem_cons.mp hc2 with h | h
        · left; rw [mem_rankSetInsert, h]; exact Or.inl rfl
        · rcases h2 c2 h with h5 | h5
          · left; rw [mem_rankSetInsert]; exact Or.inr h5
          · exact Or.inr h5
      unfold rankStep
      simp only
      split
      · rename_i hlen
        rcases hin with h | h
        · cases hl : rankSetInsert (codeRankInNode P c id, c) acc.1 with
          | nil => rw [hl] at h; simp at h
          | cons hd tl =>
            rw [hl] at h
            rcases List.mem_cons.mp h with h5 | h5
            · right
              simp only [List.headD_cons]
              apply pairLt_pairMax_right
              have hhd : hd.2 ≤ c := hle hd (by rw [hl]; exact List.mem_cons_self _ _)
              rw [← h5] at hhd ⊢
              exact pairLt_succ _ _ _ hhd
            · left; simpa using h5
        · right
          exact pairLt_pairMax_left _ _ _ h
      · exact hin
    have hstep3 : ((rankStep P id acc c).1.map Prod.snd).Nodup := by
      unfold rankStep
      simp only
      split
      · exact hins_nodup.sublist ((List.tail_sublist _).map Prod.snd)
      · exact hins_nodup
    have hstep4 : ∀ c2 ∈ c :: done, ∀ c1 ∈ L, c2 < c1 := by
      intro c2 hc2 c1 hc1
      rcases List.mem_cons.mp hc2 with h | h
      · rw [h]; exact hsorted.1 c1 hc1
      · exact h4 c2 h c1 (List.mem_cons_of_mem _ hc1)
    obtain ⟨k1, k2, k3⟩ := key hstep1 hstep2 hstep3 hstep4
    refine ⟨?_, ?_, k3⟩
    · intro p hp
      refine ⟨(k1 p hp).1, ?_⟩
      rcases (k1 p hp).2 with h | h
      · rcases List.mem_cons.mp h with h5 | h5
        · right; rw [h5]; exact List.mem_cons_self _ _
        · exact Or.inl h5
      · exact Or.inr (List.mem_cons_of_mem _ h)
    · intro c2 hc2
      apply k2
      rcases hc2 with h | h
      · exact Or.inl (List.mem_cons_of_mem _ h)
      · rcases List.mem_cons.mp h with h5 | h5
        · left; rw [h5]; exact List.mem_cons_self _ _
        · exact Or.inr h5

theorem DCMap.mem_insertCode (code : Int) (dc : DecisionCounts) (m : DCMap)
    (e : Int × DecisionCounts) : e ∈ DCMap.insertNew code dc m ↔ e = (code, dc) ∨ e ∈ m := by
  induction m with
  | nil => simp [DCMap.insertNew]
  | cons a m ih =>
    unfold DCMap.insertNew
    split
    · simp
    · simp only [List.mem_cons, ih]
      tauto

theorem DCMap.contains_iff (m : DCMap) (code : Int) :
    m.contains code = true ↔ ∃ e ∈ m, e.1 = code := by
  simp [DCMap.contains]

theorem DCMap.contains_false_iff (m : DCMap) (code : Int) :
    m.contains code = false ↔ ∀ e ∈ m, e.1 ≠ code := by
  simp [DCMap.contains]

theorem DCMap.mem_eraseCode (m : DCMap) (code : Int) (e : Int × DecisionCounts) :
    e ∈ m.erase code ↔ e ∈ m ∧ e.1 ≠ code := by
  simp [DCMap.erase, List.mem_filter]

theorem mem_fillStep {F : Type} (P : Platform F) (id : Nat) (sw : List Sample) (m : DCMap)
    (rc : RankPair) (hnew : m.contains rc.2 = false) (e : Int × DecisionCounts) :
    e ∈ fillStep P id sw m rc ↔
      e ∈ m ∨ e = (rc.2, countCode rc.2 ⟨0, 0, codeRankInNode P rc.2 id⟩ sw) := by
  unfold fillStep
  simp only [hnew, Bool.false_eq_true, if_false, List.mem_map]
  rw [DCMap.contains_false_iff] at hnew
  constructor
  · rintro ⟨a, ha, rfl⟩
    rw [DCMap.mem_insertCode] at ha
    rcases ha with ha | ha
    · right; rw [ha]; simp
    · left
      have := hnew a ha
      simp only [this, if_false]
      exact ha
  · rintro (h | h)
    · refine ⟨e, (DCMap.mem_insertCode _ _ _ _).mpr (Or.inr h), ?_⟩
      simp [hnew e h]
    · refine ⟨(rc.2, ⟨0, 0, 0⟩), (DCMap.mem_insertCode _ _ _ _).mpr (Or.inl rfl), ?_⟩
      rw [h]; simp

theorem fillFold_spec {F : Type} (P : Platform F) (id : Nat) (sw : List Sample)
    (L : List RankPair) :
    ∀ (m0 : DCMap), (L.map Prod.snd).Nodup → (∀ e ∈ m0, e.1 ∉ L.map Prod.snd) →
      ∀ e, e ∈ L.foldl (fillStep P id sw) m0 ↔
        e ∈ m0 ∨ ∃ p ∈ L, e = (p.2, countCode p.2 ⟨0, 0, codeRankInNode P p.2 id⟩ sw) := by
  induction L with
  | nil => intro m0 _ _ e; simp
  | cons rc L ih =>
    intro m0 hn hdis e
    rw [List.map_cons, List.nodup_cons] at hn
    have hnew : m0.contains rc.2 = false := by
      rw [DCMap.contains_false_iff]
      intro a ha heq
      apply hdis a ha
      rw [heq]
      exact List.mem_cons_self _ _
    rw [List.foldl_cons]
    have hdis' : ∀ a ∈ fillStep P id sw m0 rc, a.1 ∉ L.map Prod.snd := by
      intro a ha
      rw [mem_fillStep P id sw m0 rc hnew] at ha
      rcases ha with ha | ha
      · intro hmem
        exact hdis a ha (List.mem_cons_of_mem _ hmem)
      · rw [ha]; exact hn.1
    rw [ih _ hn.2 hdis', mem_fillStep P id sw m0 rc hnew]
    simp only [List.mem_cons, exists_eq_or_imp]
    tauto

theorem lookup_cons_eq (a : Int × ℚ) (l : List (Int × ℚ)) (c : Int) :
    List.lookup c (a :: l) = if c = a.1 then some a.2 else List.lookup c l := by
  obtain ⟨k, w⟩ := a
  by_cases hk : c = k
  · subst hk; simp [List.lookup]
  · have hb : (c == k) = false := by simpa using hk
    simp [List.lookup, hb, hk]

theorem mem_of_lookup (l : List (Int × ℚ)) (c : Int) (v : ℚ) (h : l.lookup c = some v) :
    (c, v) ∈ l := by
  induction l with
  | nil => simp [List.lookup] at h
  | cons a l ih =>
    rw [lookup_cons_eq] at h
    by_cases hk : c = a.1
    · simp only [hk, if_true, Option.some.injEq] at h
      rw [hk, ← h]
      exact List.mem_cons_self _ _
    · simp only [hk, if_false] at h
      exact List.mem_cons_of_mem _ (ih h)

theorem lookup_of_mem (l : List (Int × ℚ)) (c : Int) (v : ℚ) (hn : (l.map Prod.fst).Nodup)
    (h : (c, v) ∈ l) : l.lookup c = some v := by
  induction l with
  | nil => simp at h
  | cons a l ih =>
    rw [lookup_cons_eq]
    rw [List.map_cons, List.nodup_cons] at hn
    rcases List.mem_cons.mp h with h1 | h1
    · rw [← h1]; simp
    · have hk : c ≠ a.1 := by
        intro hk
        apply hn.1
        rw [← hk]
        exact List.mem_map.mpr ⟨(c, v), h1, rfl⟩
      simp only [hk, if_false]
      exact ih hn.2 h1

theorem mem_xCodes_of_hasCodeGt (s : Sample) (c : Int) (h : hasCodeGt s c = true) :
    c ∈ s.xCodes.map Prod.fst := by
  unfold hasCodeGt Sample.find at h
  cases hl : s.xCodes.lookup c with
  | none => rw [hl] at h; simp at h
  | some v => exact List.mem_map.mpr ⟨(c, v), mem_of_lookup _ _ _ hl, rfl⟩

theorem countClass_add (S : List Sample) : countClass0 S + countClass1 S = S.length := by
  unfold countClass0 countClass1
  induction S with
  | nil => simp
  | cons s S ih =>
    simp only [List.countP_cons, List.length_cons]
    cases isClass1 s <;> simp <;> omega

/-- What `computeDecisionCounters` returns, for any samples. -/
theorem computeDecisionCounters_spec {F : Type} (P : Platform F) (id : Nat) (sw : List Sample) :
    (computeDecisionCounters P id sw).2.1 = countClass0 sw % 4294967296 ∧
      (computeDecisionCounters P id sw).2.2.1 = countClass1 sw % 4294967296 ∧
      (∀ e ∈ (computeDecisionCounters P id sw).1,
        e.2 = countCode e.1 ⟨0, 0, codeRankInNode P e.1 id⟩ sw ∧ e.1 ∈ findUsedCodes sw) ∧
      (∀ c ∈ findUsedCodes sw, (computeDecisionCounters P id sw).1.contains c = true ∨
        pairLt (codeRankInNode P c id, c) (computeDecisionCounters P id sw).2.2.2 = true) := by
  have hct := classTotals_spec sw (0, 0)
  have hrank := rankFold_spec P id (findUsedCodes sw) ([], (0, 0)) [] (findUsedCodes_sorted sw)
    (by simp) (by simp) (by simp) (by simp)
  obtain ⟨r1, r2, r3⟩ := hrank
  have hfill := fillFold_spec P id sw ((findUsedCodes sw).foldl (rankStep P id) ([], (0, 0))).1
    [] r3 (by simp)
  unfold computeDecisionCounters
  simp only
  refine ⟨?_, ?_, ?_, ?_⟩
  · have h1 := hct.1
    have h3 := hct.2.2.1 (by simp)
    simp only [Nat.zero_add] at h1
    omega
  · have h2 := hct.2.1
    have h4 := hct.2.2.2 (by simp)
    simp only [Nat.zero_add] at h2
    omega
  · intro e he
    rw [hfill] at he
    rcases he with he | ⟨p, hp, he⟩
    · simp at he
    · rw [he]
      refine ⟨rfl, ?_⟩
      rcases (r1 p hp).2 with h | h
      · simp at h
      · exact h
  · intro c hc
    rcases r2 c (Or.inr hc) with h | h
    · left
      rw [DCMap.contains_iff]
      exact ⟨_, (hfill _).mpr (Or.inr ⟨_, h, rfl⟩), rfl⟩
    · exact Or.inr h

theorem binary_isAboveHalf (s : Sample) (h : s.Binary) : isAboveHalf s = isClass1 s := by
  unfold isAboveHalf isClass1
  rcases h.1 with h0 | h1
  · rw [h0]; norm_num
  · rw [h1]; norm_num

theorem binary_value_ge (s : Sample) (h : s.Binary) (e : Int × ℚ) (he : e ∈ s.xCodes) :
    (e.2 ≥ 1 / 2) ↔ (e.2 > 1 / 2) := by
  rcases h.2.1 e he with h0 | h1
  · rw [h0]; norm_num
  · rw [h1]; norm_num

theorem countP_le_of_length_lt (S : List Sample) (p : Sample → Bool) (n : Nat)
    (h : S.length < n) : S.countP p < n :=
  Nat.lt_of_le_of_lt (List.countP_le_length p) h

theorem countPresent_binary (S : List Sample) (c : Int) (hb : ∀ s ∈ S, s.Binary) :
    S.countP (fun s => !isAboveHalf s && hasCodeGt s c) = countPresent0 S c ∧
      S.countP (fun s => isAboveHalf s && hasCodeGt s c) = countPresent1 S c := by
  unfold countPresent0 countPresent1
  constructor
  · apply List.countP_congr
    intro s hs
    rw [binary_isAboveHalf s (hb s hs)]
  · apply List.countP_congr
    intro s hs
    rw [binary_isAboveHalf s (hb s hs)]

/-- After a full recount the node invariant holds for the samples counted. -/
theorem recount_nodeInv {F : Type} (P : Platform F) (B : Prop) (id : Nat) (sw : List Sample)
    (hB : B → (∀ s ∈ sw, s.Binary) ∧ sw.length < 4294967296) :
    NodeInv P B sw ⟨(computeDecisionCounters P id sw).2.1, (computeDecisionCounters P id sw).2.2.1,
      (computeDecisionCounters P id sw).1, id, (computeDecisionCounters P id sw).2.2.2⟩ := by
  obtain ⟨h0, h1, hent, habs⟩ := computeDecisionCounters_spec P id sw
  constructor
  · simp only
    rw [h0, h1]
    have := countClass_add sw
    omega
  · intro hb
    obtain ⟨hbin, hlen⟩ := hB hb
    refine ⟨hbin, hlen, ?_⟩
    have hc0 : countClass0 sw < 4294967296 := countP_le_of_length_lt sw _ _ hlen
    have hc1 : countClass1 sw < 4294967296 := countP_le_of_length_lt sw _ _ hlen
    constructor
    · simp only; rw [h0]; omega
    · simp only; rw [h1]; omega
    · intro e he
      simp only at he
      obtain ⟨heq, _⟩ := hent e he
      obtain ⟨s1, s2, s3, s4, s5⟩ := countCode_spec e.1 sw ⟨0, 0, codeRankInNode P e.1 id⟩
      rw [← heq] at s1 s2 s3 s4 s5
      obtain ⟨p0, p1⟩ := countPresent_binary sw e.1 hbin
      have hp0 : countPresent0 sw e.1 < 4294967296 := countP_le_of_length_lt sw _ _ hlen
      have hp1 : countPresent1 sw e.1 < 4294967296 := countP_le_of_length_lt sw _ _ hlen
      have s4' := s4 (by simp)
      have s5' := s5 (by simp)
      rw [p1] at s2
      rw [p0] at s3
      simp only [Nat.zero_add] at s2 s3
      refine ⟨by omega, by omega, s1⟩
    · intro c hge hnc s hs
      simp only at hge hnc
      by_contra hcon
      have hgt : hasCodeGt s c = true := by simpa using hcon
      have hused : c ∈ findUsedCodes sw :=
        (mem_findUsedCodes sw c).mpr ⟨s, hs, mem_xCodes_of_hasCodeGt s c hgt⟩
      rcases habs c hused with h | h
      · rw [hnc] at h; simp at h
      · unfold pairGe at hge
        rw [h] at hge
        simp at hge

theorem setupLeafFromSamples_eq {F : Type} (P : Platform F) (d : NodeData)
    (samples : List Sample) :
    setupLeafFromSamples P d samples =
      some (.leaf ⟨(computeDecisionCounters P d.id samples).2.1,
          (computeDecisionCounters P d.id samples).2.2.1,
          (computeDecisionCounters P d.id samples).1, d.id,
          (computeDecisionCounters P d.id samples).2.2.2⟩
        (updateValue ⟨(computeDecisionCounters P d.id samples).2.1,
          (computeDecisionCounters P d.id samples).2.2.1,
          (computeDecisionCounters P d.id samples).1, d.id,
          (computeDecisionCounters P d.id samples).2.2.2⟩) samples) := by
  unfold setupLeafFromSamples
  rw [walkSamples_eq]
  rfl

/-! ## The incremental update `updateDecisionCounters` -/

theorem countInv_iff {F : Type} (P : Platform F) (S : List Sample) (d : NodeData) :
    CountInv P S d ↔ d.c0 = countClass0 S ∧ d.c1 = countClass1 S ∧
      TableInv P S d.id d.minValidRank d.decisionCountMap := by
  constructor
  · intro h
    exact ⟨h.c0, h.c1, ⟨h.entries, h.absent⟩⟩
  · rintro ⟨h0, h1, ht⟩
    exact ⟨h0, h1, ht.entries, ht.absent⟩

theorem bumpCounts_binary (dc : DecisionCounts) (s : Sample) (code : Int) (direction : Int)
    (hb : s.Binary) :
    bumpCounts dc s code direction =
      if hasCodeGt s code = true then
        (if isClass1 s = true then { dc with c1p := addDirection dc.c1p direction }
          else { dc with c0p := addDirection dc.c0p direction })
      else dc := by
  unfold bumpCounts hasCodeGt isClass1
  cases hf : s.find code with
  | none => simp
  | some v =>
    have hmem : (code, v) ∈ s.xCodes := mem_of_lookup _ _ _ hf
    have hv := binary_value_ge s hb (code, v) hmem
    simp only at hv
    simp only [decide_eq_true_eq]
    by_cases hy : s.y ≥ 1 / 2
    · by_cases hvv : v ≥ 1 / 2
      · rw [if_pos hy, if_pos hvv, if_pos (hv.mp hvv), if_pos hy]
      · rw [if_pos hy, if_neg hvv, if_neg (fun h => hvv (hv.mpr h))]
    · by_cases hvv : v ≥ 1 / 2
      · rw [if_neg hy, if_pos hvv, if_pos (hv.mp hvv), if_neg hy]
      · rw [if_neg hy, if_neg hvv, if_neg (fun h => hvv (hv.mpr h))]

theorem countPresent0_cons (s : Sample) (S : List Sample) (c : Int) :
    countPresent0 (s :: S) c
      = countPresent0 S c + (if hasCodeGt s c = true ∧ isClass1 s = false then 1 else 0) := by
  unfold countPresent0
  rw [List.countP_cons]
  cases isClass1 s <;> cases hasCodeGt s c <;> simp

theorem countPresent1_cons (s : Sample) (S : List Sample) (c : Int) :
    countPresent1 (s :: S) c
      = countPresent1 S c + (if hasCodeGt s c = true ∧ isClass1 s = true then 1 else 0) := by
  unfold countPresent1
  rw [List.countP_cons]
  cases isClass1 s <;> cases hasCodeGt s c <;> simp

theorem hasCodeGt_false_of_counts (S : List Sample) (c : Int)
    (h0 : countPresent0 S c = 0) (h1 : countPresent1 S c = 0) :
    ∀ s ∈ S, hasCodeGt s c = false := by
  intro s hs
  unfold countPresent0 at h0
  unfold countPresent1 at h1
  rw [List.countP_eq_zero] at h0 h1
  have a := h0 s hs
  have b := h1 s hs
  cases hc : hasCodeGt s c
  · rfl
  · rw [hc] at a b
    cases hcl : isClass1 s <;> simp [hcl] at a b

theorem counts_zero_of_hasCodeGt_false (S : List Sample) (c : Int)
    (h : ∀ s ∈ S, hasCodeGt s c = false) : countPresent0 S c = 0 ∧ countPresent1 S c = 0 := by
  unfold countPresent0 countPresent1
  constructor
  · rw [List.countP_eq_zero]
    intro s hs
    simp [h s hs]
  · rw [List.countP_eq_zero]
    intro s hs
    simp [h s hs]

theorem countPresent_lt (S : List Sample) (c : Int) (n : Nat) (h : S.length < n) :
    countPresent0 S c < n ∧ countPresent1 S c < n :=
  ⟨countP_le_of_length_lt S _ n h, countP_le_of_length_lt S _ n h⟩

/-- The counts of entry `e` after `bumpCounts` with direction `-1`, when `s` is
among the samples counted. -/
theorem bump_remove_counts (s : Sample) (S : List Sample) (e : Int × DecisionCounts)
    (hb : s.Binary) (hlen : (s :: S).length < 4294967296)
    (h0 : e.2.c0p = countPresent0 (s :: S) e.1) (h1 : e.2.c1p = countPresent1 (s :: S) e.1) :
    (bumpCounts e.2 s e.1 (-1)).c0p = countPresent0 S e.1 ∧
      (bumpCounts e.2 s e.1 (-1)).c1p = countPresent1 S e.1 ∧
      (bumpCounts e.2 s e.1 (-1)).rank = e.2.rank := by
  rw [bumpCounts_binary _ _ _ _ hb]
  rw [countPresent0_cons] at h0
  rw [countPresent1_cons] at h1
  have hlt := countPresent_lt S e.1 4294967296 (by simp only [List.length_cons] at hlen; omega)
  by_cases hc : hasCodeGt s e.1 = true
  · by_cases hy : isClass1 s = true
    · simp only [hc, hy, if_true, true_and] at h0 h1 ⊢
      simp only [Bool.true_eq_false, if_false] at h0
      rw [addDirection_neg_one]
      exact ⟨by omega, by omega, by first | rfl | trivial⟩
    · have hy0 : isClass1 s = false := by simpa using hy
      simp only [hc, hy0, if_true, true_and, Bool.false_eq_true, if_false] at h0 h1 ⊢
      rw [addDirection_neg_one]
      exact ⟨by omega, by omega, by first | rfl | trivial⟩
  · have hc0 : hasCodeGt s e.1 = false := by simpa using hc
    simp only [hc0, Bool.false_eq_true, false_and, if_false] at h0 h1 ⊢
    exact ⟨by omega, by omega, by first | rfl | trivial⟩

/-- The counts of entry `e` after `bumpCounts` with direction `1`. -/
theorem bump_add_counts (s : Sample) (S : List Sample) (e : Int × DecisionCounts)
    (hb : s.Binary) (hlen : (s :: S).length < 4294967296)
    (h0 : e.2.c0p = countPresent0 S e.1) (h1 : e.2.c1p = countPresent1 S e.1) :
    (bumpCounts e.2 s e.1 1).c0p = countPresent0 (s :: S) e.1 ∧
      (bumpCounts e.2 s e.1 1).c1p = countPresent1 (s :: S) e.1 ∧
      (bumpCounts e.2 s e.1 1).rank = e.2.rank := by
  rw [bumpCounts_binary _ _ _ _ hb]
  rw [countPresent0_cons, countPresent1_cons]
  have hlt := countPresent_lt S e.1 4294967295 (by simp only [List.length_cons] at hlen; omega)
  by_cases hc : hasCodeGt s e.1 = true
  · by_cases hy : isClass1 s = true
    · simp only [hc, hy, if_true, true_and]
      simp only [Bool.true_eq_false, if_false]
      rw [addDirection_one]
      exact ⟨by omega, by omega, by first | rfl | trivial⟩
    · have hy0 : isClass1 s = false := by simpa using hy
      simp only [hc, hy0, if_true, true_and, Bool.false_eq_true, if_false]
      rw [addDirection_one]
      exact ⟨by omega, by omega, by first | rfl | trivial⟩
  · have hc0 : hasCodeGt s e.1 = false := by simpa using hc
    simp only [hc0, Bool.false_eq_true, false_and, if_false]
    exact ⟨by omega, by omega, by first | rfl | trivial⟩

theorem updateDecisionCounters_remove {F : Type} (P : Platform F) (d : NodeData) (s : Sample) :
    updateDecisionCounters P d s (-1)
      = { d with decisionCountMap := d.decisionCountMap.filterMap (bumpEntry s (-1)) } := by
  unfold updateDecisionCounters
  simp

theorem tableInv_remove {F : Type} (P : Platform F) (s : Sample) (S : List Sample) (id : Nat)
    (mvr : RankPair) (m : DCMap) (hb : s.Binary) (hlen : (s :: S).length < 4294967296)
    (h : TableInv P (s :: S) id mvr m) :
    TableInv P S id mvr (m.filterMap (bumpEntry s (-1))) := by
  constructor
  · intro e' he'
    rw [List.mem_filterMap] at he'
    obtain ⟨e, he, hbe⟩ := he'
    obtain ⟨e0, e1, er⟩ := h.entries e he
    obtain ⟨b0, b1, br⟩ := bump_remove_counts s S e hb hlen e0 e1
    unfold bumpEntry at hbe
    simp only at hbe
    split at hbe
    · cases hbe
    · cases hbe
      exact ⟨b0, b1, by rw [br]; exact er⟩
  · intro c hge hnc
    by_cases hcm : m.contains c = true
    · rw [DCMap.contains_iff] at hcm
      obtain ⟨e, he, hec⟩ := hcm
      obtain ⟨e0, e1, _⟩ := h.entries e he
      obtain ⟨b0, b1, _⟩ := bump_remove_counts s S e hb hlen e0 e1
      have hnone : bumpEntry s (-1) e = none := by
        cases hbe : bumpEntry s (-1) e with
        | none => rfl
        | some e' =>
          exfalso
          rw [DCMap.contains_false_iff] at hnc
          have hmem : e' ∈ m.filterMap (bumpEntry s (-1)) :=
            List.mem_filterMap.mpr ⟨e, he, hbe⟩
          apply hnc e' hmem
          unfold bumpEntry at hbe
          simp only at hbe
          split at hbe
          · cases hbe
          · cases hbe
            exact hec
      unfold bumpEntry at hnone
      simp only at hnone
      split at hnone
      · rename_i hz
        rw [← hec]
        apply hasCodeGt_false_of_counts
        · rw [← b0]; exact hz.2.1
        · rw [← b1]; exact hz.2.2
      · cases hnone
    · have hcm0 : m.contains c = false := by simpa using hcm
      intro s' hs'
      exact h.absent c hge hcm0 s' (List.mem_cons_of_mem _ hs')

theorem pairGe_of_pairMax_left (x a b : RankPair) (h : pairGe x (pairMax a b) = true) :
    pairGe x a = true := by
  unfold pairGe at h ⊢
  cases hlt : pairLt x a
  · rfl
  · rw [pairLt_pairMax_left x a b hlt] at h
    simp at h

theorem pairGe_of_pairMax_right (x a b : RankPair) (h : pairGe x (pairMax a b) = true) :
    pairGe x b = true := by
  unfold pairGe at h ⊢
  cases hlt : pairLt x b
  · rfl
  · rw [pairLt_pairMax_right x a b hlt] at h
    simp at h

theorem pairGe_succ_false (r : Nat) (c : Int) : pairGe (r, c) (r, c + 1) = false := by
  unfold pairGe
  rw [pairLt_succ r c c (le_refl c)]
  rfl

theorem bumpEntry_add (s : Sample) (e : Int × DecisionCounts) :
    bumpEntry s 1 e = some (e.1, bumpCounts e.2 s e.1 1) := by
  unfold bumpEntry
  simp

theorem mem_filterMap_bump_add (s : Sample) (m : DCMap) (e1 : Int × DecisionCounts) :
    e1 ∈ m.filterMap (bumpEntry s 1) ↔ ∃ e ∈ m, e1 = (e.1, bumpCounts e.2 s e.1 1) := by
  rw [List.mem_filterMap]
  constructor
  · rintro ⟨e, he, hbe⟩
    rw [bumpEntry_add] at hbe
    exact ⟨e, he, (Option.some.inj hbe).symm⟩
  · rintro ⟨e, he, rfl⟩
    exact ⟨e, he, bumpEntry_add s e⟩

theorem contains_filterMap_bump_add (s : Sample) (m : DCMap) (c : Int) :
    DCMap.contains (m.filterMap (bumpEntry s 1)) c = m.contains c := by
  cases h : m.contains c
  · rw [DCMap.contains_false_iff] at h ⊢
    intro e1 he1
    rw [mem_filterMap_bump_add] at he1
    obtain ⟨e, he, rfl⟩ := he1
    exact h e he
  · rw [DCMap.contains_iff] at h ⊢
    obtain ⟨e, he, hec⟩ := h
    exact ⟨(e.1, bumpCounts e.2 s e.1 1), (mem_filterMap_bump_add s m _).mpr ⟨e, he, rfl⟩, hec⟩

theorem mem_foldl_rankSetInsert (L : DCMap) (r0 : List RankPair) (p : RankPair) :
    p ∈ L.foldl (fun (ranks : List RankPair) e => rankSetInsert (e.2.rank, e.1) ranks) r0 ↔
      p ∈ r0 ∨ ∃ e ∈ L, p = (e.2.rank, e.1) := by
  induction L generalizing r0 with
  | nil => simp
  | cons a L ih =>
    rw [List.foldl_cons, ih, mem_rankSetInsert]
    simp only [List.mem_cons, exists_eq_or_imp]
    tauto

theorem DCMap.contains_insertNew (code : Int) (dc : DecisionCounts) (m : DCMap) (c : Int) :
    (DCMap.insertNew code dc m).contains c = (decide (c = code) || m.contains c) := by
  cases h : (decide (c = code) || m.contains c)
  · rw [Bool.or_eq_false_iff] at h
    rw [DCMap.contains_false_iff]
    intro e he
    rw [DCMap.mem_insertCode] at he
    rcases he with he | he
    · rw [he]
      have := h.1
      simp only [decide_eq_false_iff_not] at this
      exact fun hh => this hh.symm
    · exact (DCMap.contains_false_iff m c).mp h.2 e he
  · rw [Bool.or_eq_true] at h
    rw [DCMap.contains_iff]
    rcases h with h | h
    · simp only [decide_eq_true_eq] at h
      exact ⟨(code, dc), (DCMap.mem_insertCode _ _ _ _).mpr (Or.inl rfl), h.symm⟩
    · obtain ⟨e, he, hec⟩ := (DCMap.contains_iff m c).mp h
      exact ⟨e, (DCMap.mem_insertCode _ _ _ _).mpr (Or.inr he), hec⟩

theorem DCMap.contains_eraseCode (m : DCMap) (code c : Int) :
    (m.erase code).contains c = (!decide (c = code) && m.contains c) := by
  cases h : (!decide (c = code) && m.contains c)
  · rw [DCMap.contains_false_iff]
    intro e he hec
    rw [DCMap.mem_eraseCode] at he
    have hc : m.contains c = true := (DCMap.contains_iff m c).mpr ⟨e, he.1, hec⟩
    have hne : c ≠ code := by rw [← hec]; exact he.2
    simp [hc, hne] at h
  · rw [Bool.and_eq_true] at h
    obtain ⟨h1, h2⟩ := h
    have hne : c ≠ code := by simpa using h1
    obtain ⟨e, he, hec⟩ := (DCMap.contains_iff m c).mp h2
    rw [DCMap.contains_iff]
    exact ⟨e, (DCMap.mem_eraseCode _ _ _).mpr ⟨he, by rw [hec]; exact hne⟩, hec⟩

/-- The counts of the entry that `insertStep` creates for a new code. -/
theorem new_entry_counts {F : Type} (P : Platform F) (s : Sample) (S : List Sample) (id : Nat)
    (code : Int) (v : ℚ) (hb : s.Binary) (hmem : (code, v) ∈ s.xCodes)
    (hold : ∀ s1 ∈ S, hasCodeGt s1 code = false) :
    let dc : DecisionCounts :=
      if s.y ≥ 1 / 2 then
        if v ≥ 1 / 2 then ⟨0, addDirection 0 1, codeRankInNode P code id⟩
        else ⟨0, 0, codeRankInNode P code id⟩
      else
        if v ≥ 1 / 2 then ⟨addDirection 0 1, 0, codeRankInNode P code id⟩
        else ⟨0, 0, codeRankInNode P code id⟩
    dc.c0p = countPresent0 (s :: S) code ∧ dc.c1p = countPresent1 (s :: S) code ∧
      dc.rank = codeRankInNode P code id := by
  intro dc
  have hfind : s.find code = some v := lookup_of_mem _ _ _ hb.2.2 hmem
  have hgt : hasCodeGt s code = decide (v > 1 / 2) := by
    unfold hasCodeGt
    rw [hfind]
  have hv := binary_value_ge s hb (code, v) hmem
  simp only at hv
  obtain ⟨z0, z1⟩ := counts_zero_of_hasCodeGt_false S code hold
  rw [countPresent0_cons, countPresent1_cons, z0, z1]
  have hone : addDirection 0 1 = 1 := by rw [addDirection_one]
  by_cases hy : s.y ≥ 1 / 2
  · have hc1 : isClass1 s = true := decide_eq_true hy
    by_cases hvv : v ≥ 1 / 2
    · have hg : hasCodeGt s code = true := by rw [hgt]; exact decide_eq_true (hv.mp hvv)
      have hdc : dc = ⟨0, addDirection 0 1, codeRankInNode P code id⟩ := by
        show (if s.y ≥ 1 / 2 then _ else _) = _
        rw [if_pos hy, if_pos hvv]
      rw [hdc, hone, hg, hc1]
      simp
    · have hg : hasCodeGt s code = false := by
        rw [hgt]; exact decide_eq_false (fun h => hvv (hv.mpr h))
      have hdc : dc = ⟨0, 0, codeRankInNode P code id⟩ := by
        show (if s.y ≥ 1 / 2 then _ else _) = _
        rw [if_pos hy, if_neg hvv]
      rw [hdc, hg, hc1]
      simp
  · have hc1 : isClass1 s = false := decide_eq_false hy
    by_cases hvv : v ≥ 1 / 2
    · have hg : hasCodeGt s code = true := by rw [hgt]; exact decide_eq_true (hv.mp hvv)
      have hdc : dc = ⟨addDirection 0 1, 0, codeRankInNode P code id⟩ := by
        show (if s.y ≥ 1 / 2 then _ else _) = _
        rw [if_neg hy, if_pos hvv]
      rw [hdc, hone, hg, hc1]
      simp
    · have hg : hasCodeGt s code = false := by
        rw [hgt]; exact decide_eq_false (fun h => hvv (hv.mpr h))
      have hdc : dc = ⟨0, 0, codeRankInNode P code id⟩ := by
        show (if s.y ≥ 1 / 2 then _ else _) = _
        rw [if_neg hy, if_neg hvv]
      rw [hdc, hg, hc1]
      simp

theorem insertStep_inv {F : Type} (P : Platform F) (s : Sample) (S : List Sample) (id : Nat)
    (acc : DCMap × List RankPair × RankPair) (done : List (Int × ℚ)) (x : Int × ℚ)
    (hb : s.Binary) (hx : x ∈ s.xCodes) (h : InsertInv P s S id acc done) :
    InsertInv P s S id (insertStep P id s 1 acc x) (x :: done) := by
  unfold insertStep
  by_cases hc : acc.1.contains x.1 = true
  · simp only [hc, if_true]
    refine ⟨h.entries, h.absentOld, h.ranksOK, ?_⟩
    intro y hy
    rcases List.mem_cons.mp hy with h1 | h1
    · rw [h1]; exact Or.inl hc
    · exact h.processed y h1
  · have hc0 : acc.1.contains x.1 = false := by simpa using hc
    simp only [hc0, Bool.false_eq_true, if_false]
    by_cases hge : pairGe (codeRankInNode P x.1 id, x.1) acc.2.2 = true
    · simp only [hge, if_true]
      have hold := h.absentOld x.1 hge hc0
      have hnew := new_entry_counts P s S id x.1 x.2 hb hx hold
      simp only at hnew
      have hent : ∀ e ∈ DCMap.insertNew x.1
          (if s.y ≥ 1 / 2 then
            if x.2 ≥ 1 / 2 then ⟨0, addDirection 0 1, codeRankInNode P x.1 id⟩
            else ⟨0, 0, codeRankInNode P x.1 id⟩
          else
            if x.2 ≥ 1 / 2 then ⟨addDirection 0 1, 0, codeRankInNode P x.1 id⟩
            else ⟨0, 0, codeRankInNode P x.1 id⟩) acc.1,
          e.2.c0p = countPresent0 (s :: S) e.1 ∧ e.2.c1p = countPresent1 (s :: S) e.1 ∧
            e.2.rank = codeRankInNode P e.1 id := by
        intro e he
        rw [DCMap.mem_insertCode] at he
        rcases he with he | he
        · rw [he]; exact hnew
        · exact h.entries e he
      have hranks : ∀ p ∈ rankSetInsert (codeRankInNode P x.1 id, x.1) acc.2.1,
          p.1 = codeRankInNode P p.2 id := by
        intro p hp
        rw [mem_rankSetInsert] at hp
        rcases hp with hp | hp
        · rw [hp]
        · exact h.ranksOK p hp
      split
      · rename_i hlen
        cases hl : rankSetInsert (codeRankInNode P x.1 id, x.1) acc.2.1 with
        | nil => rw [hl] at hlen; simp [maxCodesToKeep] at hlen
        | cons b tl =>
          have hbr : b.1 = codeRankInNode P b.2 id := hranks b (by rw [hl]; exact List.mem_cons_self _ _)
          have hlow : ∀ c, c = b.2 →
              pairGe (codeRankInNode P c id, c) (pairMax acc.2.2 (b.1, b.2 + 1)) = false := by
            intro c hcb
            cases hg : pairGe (codeRankInNode P c id, c) (pairMax acc.2.2 (b.1, b.2 + 1))
            · rfl
            · have := pairGe_of_pairMax_right _ _ _ hg
              rw [hcb, ← hbr, pairGe_succ_false] at this
              exact absurd this (by simp)
          simp only [List.headD_cons, List.tail_cons]
          refine ⟨?_, ?_, ?_, ?_⟩
          · intro e he
            exact hent e ((DCMap.mem_eraseCode _ _ _).mp he).1
          · intro c hgec hncc
            simp only at hgec hncc
            rw [DCMap.contains_eraseCode, DCMap.contains_insertNew] at hncc
            by_cases hcb : c = b.2
            · rw [hlow c hcb] at hgec
              exact absurd hgec (by simp)
            · have hcx : ¬ c = x.1 := by
                intro hcx
                rw [hcx] at hncc hcb
                simp [hcb] at hncc
              have hnc : acc.1.contains c = false := by
                simpa [hcb, hcx] using hncc
              exact h.absentOld c (pairGe_of_pairMax_left _ _ _ hgec) hnc
          · intro p hp
            exact hranks p (by rw [hl]; exact List.mem_cons_of_mem _ hp)
          · intro y hy
            simp only
            rw [DCMap.contains_eraseCode, DCMap.contains_insertNew]
            by_cases hyb : y.1 = b.2
            · exact Or.inr (hlow y.1 hyb)
            · rcases List.mem_cons.mp hy with h1 | h1
              · left; rw [h1]; simp [hyb]
                intro hxb; exact hyb (by rw [h1]; exact hxb)
              · rcases h.processed y h1 with h2 | h2
                · left; simp [hyb, h2]
                · right
                  cases hg : pairGe (codeRankInNode P y.1 id, y.1) (pairMax acc.2.2 (b.1, b.2 + 1))
                  · rfl
                  · have := pairGe_of_pairMax_left _ _ _ hg
                    rw [h2] at this
                    exact absurd this (by simp)
      · refine ⟨hent, ?_, hranks, ?_⟩
        · intro c hgec hncc
          simp only at hgec hncc
          rw [DCMap.contains_insertNew, Bool.or_eq_false_iff] at hncc
          exact h.absentOld c hgec hncc.2
        · intro y hy
          simp only
          rw [DCMap.contains_insertNew]
          rcases List.mem_cons.mp hy with h1 | h1
          · left; rw [h1]; simp
          · rcases h.processed y h1 with h2 | h2
            · left; simp [h2]
            · exact Or.inr h2
    · have hge0 : pairGe (codeRankInNode P x.1 id, x.1) acc.2.2 = false := by simpa using hge
      simp only [hge0, Bool.false_eq_true, if_false]
      refine ⟨h.entries, h.absentOld, h.ranksOK, ?_⟩
      intro y hy
      rcases List.mem_cons.mp hy with h1 | h1
      · rw [h1]; exact Or.inr hge0
      · exact h.processed y h1

theorem insertFold_inv {F : Type} (P : Platform F) (s : Sample) (S : List Sample) (id : Nat)
    (hb : s.Binary) (L : List (Int × ℚ)) :
    ∀ (acc : DCMap × List RankPair × RankPair) (done : List (Int × ℚ)),
      (∀ x ∈ L, x ∈ s.xCodes) → InsertInv P s S id acc done →
      ∃ done1, (∀ x, x ∈ done ∨ x ∈ L → x ∈ done1) ∧
        InsertInv P s S id (L.foldl (insertStep P id s 1) acc) done1 := by
  induction L with
  | nil =>
    intro acc done _ h
    exact ⟨done, fun x hx => hx.elim (fun h => h) (fun h => absurd h (List.not_mem_nil _)), h⟩
  | cons x L ih =>
    intro acc done hsub h
    rw [List.foldl_cons]
    have hstep := insertStep_inv P s S id acc done x hb (hsub x (List.mem_cons_self _ _)) h
    obtain ⟨done1, hd1, hinv⟩ := ih _ (x :: done)
      (fun y hy => hsub y (List.mem_cons_of_mem _ hy)) hstep
    refine ⟨done1, ?_, hinv⟩
    intro y hy
    apply hd1
    rcases hy with hy | hy
    · exact Or.inl (List.mem_cons_of_mem _ hy)
    · rcases List.mem_cons.mp hy with h1 | h1
      · left; rw [h1]; exact List.mem_cons_self _ _
      · exact Or.inr h1

theorem updateDecisionCounters_add {F : Type} (P : Platform F) (d : NodeData) (s : Sample) :
    updateDecisionCounters P d s 1
      = { d with
          decisionCountMap := (s.xCodes.foldl (insertStep P d.id s 1)
            (d.decisionCountMap.filterMap (bumpEntry s 1),
              (d.decisionCountMap.filterMap (bumpEntry s 1)).foldl
                (fun (ranks : List RankPair) e => rankSetInsert (e.2.rank, e.1) ranks) [],
              d.minValidRank)).1,
          minValidRank := (s.xCodes.foldl (insertStep P d.id s 1)
            (d.decisionCountMap.filterMap (bumpEntry s 1),
              (d.decisionCountMap.filterMap (bumpEntry s 1)).foldl
                (fun (ranks : List RankPair) e => rankSetInsert (e.2.rank, e.1) ranks) [],
              d.minValidRank)).2.2 } := by
  unfold updateDecisionCounters
  simp

theorem tableInv_add {F : Type} (P : Platform F) (s : Sample) (S : List Sample) (id : Nat)
    (mvr : RankPair) (m : DCMap) (hb : s.Binary) (hlen : (s :: S).length < 4294967296)
    (h : TableInv P S id mvr m) :
    TableInv P (s :: S) id
      (s.xCodes.foldl (insertStep P id s 1)
        (m.filterMap (bumpEntry s 1),
          (m.filterMap (bumpEntry s 1)).foldl
            (fun (ranks : List RankPair) e => rankSetInsert (e.2.rank, e.1) ranks) [],
          mvr)).2.2
      (s.xCodes.foldl (insertStep P id s 1)
        (m.filterMap (bumpEntry s 1),
          (m.filterMap (bumpEntry s 1)).foldl
            (fun (ranks : List RankPair) e => rankSetInsert (e.2.rank, e.1) ranks) [],
          mvr)).1 := by
  have hent1 : ∀ e ∈ m.filterMap (bumpEntry s 1),
      e.2.c0p = countPresent0 (s :: S) e.1 ∧ e.2.c1p = countPresent1 (s :: S) e.1 ∧
        e.2.rank = codeRankInNode P e.1 id := by
    intro e1 he1
    rw [mem_filterMap_bump_add] at he1
    obtain ⟨e, he, rfl⟩ := he1
    obtain ⟨e0, e1, er⟩ := h.entries e he
    obtain ⟨b0, b1, br⟩ := bump_add_counts s S e hb hlen e0 e1
    exact ⟨b0, b1, by rw [br]; exact er⟩
  have hinit : InsertInv P s S id
      (m.filterMap (bumpEntry s 1),
        (m.filterMap (bumpEntry s 1)).foldl
          (fun (ranks : List RankPair) e => rankSetInsert (e.2.rank, e.1) ranks) [],
        mvr) [] := by
    refine ⟨hent1, ?_, ?_, ?_⟩
    · intro c hge hnc
      simp only at hge hnc
      rw [contains_filterMap_bump_add] at hnc
      exact h.absent c hge hnc
    · intro p hp
      simp only at hp
      rw [mem_foldl_rankSetInsert] at hp
      rcases hp with hp | ⟨e, he, hp⟩
      · simp at hp
      · rw [hp]
        exact (hent1 e he).2.2
    · intro x hx
      simp at hx
  obtain ⟨done1, hd1, hinv⟩ := insertFold_inv P s S id hb s.xCodes _ [] (fun x hx => hx) hinit
  constructor
  · exact hinv.entries
  · intro c hge hnc s1 hs1
    rcases List.mem_cons.mp hs1 with h1 | h1
    · rw [h1]
      cases hg : hasCodeGt s c
      · rfl
      · exfalso
        have hmem := mem_xCodes_of_hasCodeGt s c hg
        obtain ⟨x, hx, hxc⟩ := List.mem_map.mp hmem
        rcases hinv.processed x (hd1 x (Or.inr hx)) with h2 | h2
        · rw [hxc, hnc] at h2
          exact absurd h2 (by simp)
        · rw [hxc, hge] at h2
          exact absurd h2 (by simp)
    · exact hinv.absentOld c hge hnc s1 h1

/-! ## The counter part of `updateDecisionTreeNode` -/

theorem tableInv_perm {F : Type} (P : Platform F) (S S1 : List Sample) (id : Nat)
    (mvr : RankPair) (m : DCMap) (hp : List.Perm S S1) (h : TableInv P S id mvr m) :
    TableInv P S1 id mvr m := by
  constructor
  · intro e he
    obtain ⟨e0, e1, er⟩ := h.entries e he
    refine ⟨?_, ?_, er⟩
    · rw [e0]; exact hp.countP_eq _
    · rw [e1]; exact hp.countP_eq _
  · intro c hge hnc s hs
    exact h.absent c hge hnc s (hp.mem_iff.mpr hs)

theorem tableInv_cast {F : Type} (P : Platform F) (S : List Sample) (id id1 : Nat)
    (mvr : RankPair) (m : DCMap) (h : TableInv P S id mvr m) (hid : id = id1) :
    TableInv P S id1 mvr m := hid ▸ h

theorem nodeInv_perm {F : Type} (P : Platform F) (B : Prop) (S S1 : List Sample) (d : NodeData)
    (hp : List.Perm S S1) (h : NodeInv P B S d) : NodeInv P B S1 d := by
  obtain ⟨hsum, hB⟩ := h
  constructor
  · rw [hsum, hp.length_eq]
  · intro hb
    obtain ⟨hbin, hlen, hc⟩ := hB hb
    refine ⟨fun s hs => hbin s (hp.mem_iff.mpr hs), by rw [← hp.length_eq]; exact hlen, ?_⟩
    rw [countInv_iff] at hc ⊢
    obtain ⟨h0, h1, ht⟩ := hc
    refine ⟨?_, ?_, tableInv_perm P S S1 _ _ _ hp ht⟩
    · rw [h0]; exact hp.countP_eq _
    · rw [h1]; exact hp.countP_eq _

theorem updateDecisionCounters_frame {F : Type} (P : Platform F) (d : NodeData) (s : Sample) :
    (updateDecisionCounters P d s (-1)).id = d.id ∧
      (updateDecisionCounters P d s (-1)).c0 = d.c0 ∧
      (updateDecisionCounters P d s (-1)).c1 = d.c1 ∧
      (updateDecisionCounters P d s (-1)).minValidRank = d.minValidRank ∧
      (updateDecisionCounters P d s 1).id = d.id ∧
      (updateDecisionCounters P d s 1).c0 = d.c0 ∧
      (updateDecisionCounters P d s 1).c1 = d.c1 := by
  rw [updateDecisionCounters_remove, updateDecisionCounters_add]
  simp

theorem removeFold_frame {F : Type} (P : Platform F) (R : List Sample) (d : NodeData) :
    (R.foldl (fun (d : NodeData) s => updateDecisionCounters P d s (-1)) d).id = d.id ∧
      (R.foldl (fun (d : NodeData) s => updateDecisionCounters P d s (-1)) d).c0 = d.c0 ∧
      (R.foldl (fun (d : NodeData) s => updateDecisionCounters P d s (-1)) d).c1 = d.c1 ∧
      (R.foldl (fun (d : NodeData) s => updateDecisionCounters P d s (-1)) d).minValidRank
        = d.minValidRank := by
  induction R generalizing d with
  | nil => simp
  | cons s R ih =>
    rw [List.foldl_cons]
    obtain ⟨h1, h2, h3, h4, _⟩ := updateDecisionCounters_frame P d s
    obtain ⟨i1, i2, i3, i4⟩ := ih (updateDecisionCounters P d s (-1))
    exact ⟨i1.trans h1, i2.trans h2, i3.trans h3, i4.trans h4⟩

theorem addFold_frame {F : Type} (P : Platform F) (A : List Sample) (d : NodeData) :
    (A.foldl (fun (d : NodeData) s => updateDecisionCounters P d s 1) d).id = d.id ∧
      (A.foldl (fun (d : NodeData) s => updateDecisionCounters P d s 1) d).c0 = d.c0 ∧
      (A.foldl (fun (d : NodeData) s => updateDecisionCounters P d s 1) d).c1 = d.c1 := by
  induction A generalizing d with
  | nil => simp
  | cons s A ih =>
    rw [List.foldl_cons]
    obtain ⟨_, _, _, _, h1, h2, h3⟩ := updateDecisionCounters_frame P d s
    obtain ⟨i1, i2, i3⟩ := ih (updateDecisionCounters P d s 1)
    exact ⟨i1.trans h1, i2.trans h2, i3.trans h3⟩

theorem removeFold_table {F : Type} (P : Platform F) (R M : List Sample) :
    ∀ (d : NodeData), (∀ s ∈ R ++ M, s.Binary) → (R ++ M).length < 4294967296 →
      TableInv P (R ++ M) d.id d.minValidRank d.decisionCountMap →
      TableInv P M d.id d.minValidRank
        (R.foldl (fun (d : NodeData) s => updateDecisionCounters P d s (-1)) d).decisionCountMap := by
  induction R with
  | nil => intro d _ _ h; exact h
  | cons s R ih =>
    intro d hbin hlen h
    rw [List.foldl_cons]
    have hstep := tableInv_remove P s (R ++ M) d.id d.minValidRank d.decisionCountMap
      (hbin s (by simp)) hlen h
    obtain ⟨f1, _, _, f4, _⟩ := updateDecisionCounters_frame P d s
    have hnext := ih (updateDecisionCounters P d s (-1))
      (fun x hx => hbin x (List.mem_cons_of_mem _ hx))
      (by simp only [List.cons_append, List.length_cons] at hlen; omega)
      (by rw [f1, f4, updateDecisionCounters_remove]; exact hstep)
    rw [f1, f4] at hnext
    exact hnext

theorem addFold_table {F : Type} (P : Platform F) (A : List Sample) :
    ∀ (M : List Sample) (d : NodeData), (∀ s ∈ A, s.Binary) →
      (M ++ A).length < 4294967296 →
      TableInv P M d.id d.minValidRank d.decisionCountMap →
      TableInv P (M ++ A) d.id
        (A.foldl (fun (d : NodeData) s => updateDecisionCounters P d s 1) d).minValidRank
        (A.foldl (fun (d : NodeData) s => updateDecisionCounters P d s 1) d).decisionCountMap := by
  induction A with
  | nil => intro M d _ _ h; simpa using h
  | cons s A ih =>
    intro M d hbin hlen h
    rw [List.foldl_cons]
    have hlen1 : (s :: M).length < 4294967296 := by
      simp only [List.length_append, List.length_cons] at hlen ⊢
      omega
    have hstep := tableInv_add P s M d.id d.minValidRank d.decisionCountMap
      (hbin s (List.mem_cons_self _ _)) hlen1 h
    obtain ⟨_, _, _, _, f1, _, _⟩ := updateDecisionCounters_frame P d s
    have hnext := ih (s :: M) (updateDecisionCounters P d s 1)
      (fun x hx => hbin x (List.mem_cons_of_mem _ hx))
      (by simp only [List.length_append, List.length_cons] at hlen ⊢; omega)
      (by rw [f1, updateDecisionCounters_add]; exact hstep)
    rw [f1] at hnext
    have hperm : List.Perm (s :: M ++ A) (M ++ s :: A) := by
      have h1 : List.Perm (M ++ s :: A) (s :: (M ++ A)) := List.perm_middle
      simpa using h1.symm
    exact tableInv_perm P _ _ _ _ _ hperm hnext

theorem splitListByTarget_lengths (L : List Sample) :
    (splitListByTarget L).1.length = L.countP (fun s => !isAboveHalf s) ∧
      (splitListByTarget L).2.length = L.countP isAboveHalf := by
  rw [splitListByTarget_eq]
  simp only [List.countP_eq_length_filter]
  exact ⟨rfl, rfl⟩

theorem countP_not_add (L : List Sample) (p : Sample → Bool) :
    L.countP (fun s => !p s) + L.countP p = L.length := by
  induction L with
  | nil => simp
  | cons s L ih =>
    simp only [List.countP_cons, List.length_cons]
    cases p s <;> simp <;> omega

theorem countClass_binary (L : List Sample) (hb : ∀ s ∈ L, s.Binary) :
    L.countP (fun s => !isAboveHalf s) = countClass0 L ∧ L.countP isAboveHalf = countClass1 L := by
  unfold countClass0 countClass1
  constructor
  · apply List.countP_congr
    intro s hs
    rw [binary_isAboveHalf s (hb s hs)]
  · apply List.countP_congr
    intro s hs
    rw [binary_isAboveHalf s (hb s hs)]

theorem countClass_append (A B : List Sample) :
    countClass0 (A ++ B) = countClass0 A + countClass0 B ∧
      countClass1 (A ++ B) = countClass1 A + countClass1 B := by
  unfold countClass0 countClass1
  exact ⟨List.countP_append _ _ _, List.countP_append _ _ _⟩

/-- The node invariant after the removals and additions of a batch pair. -/
theorem applyBatches_spec {F : Type} (P : Platform F) (B : Prop) (d : NodeData)
    (A R M : List Sample) (h : NodeInv P B (R ++ M) d)
    (hB : B → (∀ s ∈ A, s.Binary) ∧ (M ++ A).length < 4294967296) :
    NodeInv P B (M ++ A) (applyBatches P d A R) ∧ (applyBatches P d A R).id = d.id := by
  obtain ⟨hsum, hcount⟩ := h
  obtain ⟨r1, r2, r3, r4⟩ := removeFold_frame P R d
  have a := addFold_frame P A
    { (R.foldl (fun (d : NodeData) s => updateDecisionCounters P d s (-1)) d) with
      c1 := subU32 (R.foldl (fun (d : NodeData) s => updateDecisionCounters P d s (-1)) d).c1
        (splitListByTarget R).2.length,
      c0 := subU32 (R.foldl (fun (d : NodeData) s => updateDecisionCounters P d s (-1)) d).c0
        (splitListByTarget R).1.length }
  obtain ⟨a1, a2, a3⟩ := a
  simp only at a1 a2 a3
  obtain ⟨lr0, lr1⟩ := splitListByTarget_lengths R
  obtain ⟨la0, la1⟩ := splitListByTarget_lengths A
  have hRsum := countP_not_add R isAboveHalf
  have hAsum := countP_not_add A isAboveHalf
  have hid : (applyBatches P d A R).id = d.id := by
    unfold applyBatches
    simp only
    rw [a1, r1]
  have hc0 : (applyBatches P d A R).c0
      = wrapU32 (subU32 d.c0 (R.countP (fun s => !isAboveHalf s))
          + A.countP (fun s => !isAboveHalf s)) := by
    unfold applyBatches
    simp only
    rw [a2, r2, lr0, la0]
  have hc1 : (applyBatches P d A R).c1
      = wrapU32 (subU32 d.c1 (R.countP isAboveHalf) + A.countP isAboveHalf) := by
    unfold applyBatches
    simp only
    rw [a3, r3, lr1, la1]
  refine ⟨⟨?_, ?_⟩, hid⟩
  · rw [hc0, hc1]
    simp only [List.length_append] at hsum ⊢
    unfold wrapU32 subU32
    omega
  · intro hb
    obtain ⟨hbinRM, hlenRM, hcRM⟩ := hcount hb
    obtain ⟨hbinA, hlenMA⟩ := hB hb
    have hbinM : ∀ s ∈ M, s.Binary := fun s hs => hbinRM s (List.mem_append_right _ hs)
    have hbinR : ∀ s ∈ R, s.Binary := fun s hs => hbinRM s (List.mem_append_left _ hs)
    refine ⟨?_, hlenMA, ?_⟩
    · intro s hs
      rcases List.mem_append.mp hs with h1 | h1
      · exact hbinM s h1
      · exact hbinA s h1
    · rw [countInv_iff] at hcRM ⊢
      obtain ⟨c0RM, c1RM, tRM⟩ := hcRM
      obtain ⟨bR0, bR1⟩ := countClass_binary R hbinR
      obtain ⟨bA0, bA1⟩ := countClass_binary A hbinA
      obtain ⟨ap0, ap1⟩ := countClass_append R M
      obtain ⟨aq0, aq1⟩ := countClass_append M A
      have hM := countClass_add M
      have hA := countClass_add A
      have hR := countClass_add R
      simp only [List.length_append] at hlenRM hlenMA
      refine ⟨?_, ?_, ?_⟩
      · rw [hc0, c0RM, ap0, aq0, bR0, bA0]
        unfold wrapU32 subU32
        omega
      · rw [hc1, c1RM, ap1, aq1, bR1, bA1]
        unfold wrapU32 subU32
        omega
      · have t1 := removeFold_table P R M d hbinRM (by simpa using hlenRM) tRM
        have t2 := addFold_table P A M
          { (R.foldl (fun (d : NodeData) s => updateDecisionCounters P d s (-1)) d) with
            c1 := subU32 (R.foldl (fun (d : NodeData) s => updateDecisionCounters P d s (-1)) d).c1
              (splitListByTarget R).2.length,
            c0 := subU32 (R.foldl (fun (d : NodeData) s => updateDecisionCounters P d s (-1)) d).c0
              (splitListByTarget R).1.length }
          hbinA (by simpa using hlenMA) (by simp only; rw [r1, r4]; exact t1)
        rw [hid]
        exact tableInv_cast P _ _ _ _ _ t2 r1

/-- The node invariant after the counter part of `updateDecisionTreeNode`. -/
theorem updateNodeCounters_spec {F : Type} (P : Platform F) (B : Prop) (dt : DecisionTreeNode)
    (A R M : List Sample) (h : NodeInv P B (R ++ M) dt.data)
    (hperm : List.Perm (collectRecursive dt) (M ++ A))
    (hB : B → (∀ s ∈ A, s.Binary) ∧ (M ++ A).length < 4294967296) :
    ∃ d, updateNodeCounters P dt A R = some d ∧ NodeInv P B (collectRecursive dt) d ∧
      d.id = dt.data.id := by
  obtain ⟨hinv, hid⟩ := applyBatches_spec P B dt.data A R M h hB
  have hinv1 := nodeInv_perm P B _ _ _ hperm.symm hinv
  unfold updateNodeCounters
  simp only
  split
  · rw [walkSamples_eq]
    refine ⟨_, rfl, ?_, ?_⟩
    · rw [hid]
      apply recount_nodeInv
      intro hb
      obtain ⟨hbin, hlen, _⟩ := hinv1.2 hb
      exact ⟨hbin, hlen⟩
    · exact hid
  · exact ⟨_, rfl, hinv1, hid⟩

/-! ## Splits, the cascade and the second pass of the tree update -/

theorem treeInv_nodeInv {F : Type} (P : Platform F) (B : Prop) (dt : DecisionTreeNode)
    (h : TreeInv P B dt) : NodeInv P B (collectRecursive dt) dt.data := by
  cases dt with
  | leaf d v samples => exact h
  | internal code d negative positive => exact h.1

theorem nodeInv_sub {F : Type} (P : Platform F) (B : Prop) (S S1 : List Sample) (d : NodeData)
    (h : NodeInv P B S d) (hsub : ∀ s ∈ S1, s ∈ S) (hlen : S1.length ≤ S.length) :
    B → (∀ s ∈ S1, s.Binary) ∧ S1.length < 4294967296 := by
  intro hb
  obtain ⟨hbin, hl, _⟩ := h.2 hb
  exact ⟨fun s hs => hbin s (hsub s hs), by omega⟩

theorem splitNode_spec {F : Type} (P : Platform F) (B : Prop)
    (cascade : Nat → DecisionTreeNode → Option (Nat × DecisionTreeNode))
    (ts : Nat) (d : NodeData) (code : Int) (sw : List Sample) (ts1 : Nat) (t : DecisionTreeNode)
    (hcasc : ∀ tsa l tsb t2, cascade tsa l = some (tsb, t2) → TreeInv P B l →
      TreeInv P B t2 ∧ List.Perm (collectRecursive t2) (collectRecursive l))
    (hd : NodeInv P B sw d)
    (h : splitNode P cascade ts d code sw = some (ts1, t)) :
    TreeInv P B t ∧ List.Perm (collectRecursive t) sw := by
  unfold splitNode at h
  simp only at h
  split at h
  · cases h
  · rw [setupLeafFromSamples_eq, setupLeafFromSamples_eq, splitListAgainstCode_eq] at h
    simp only at h
    have hsub0 : ∀ s ∈ sw.filter (fun s => !hasCodeGt s code), s ∈ sw :=
      fun s hs => (List.mem_filter.mp hs).1
    have hsub1 : ∀ s ∈ sw.filter (fun s => hasCodeGt s code), s ∈ sw :=
      fun s hs => (List.mem_filter.mp hs).1
    have hB0 := nodeInv_sub P B sw _ d hd hsub0 (List.length_filter_le _ _)
    have hB1 := nodeInv_sub P B sw _ d hd hsub1 (List.length_filter_le _ _)
    have hl0 := recount_nodeInv P B (makeLeaf P ts 0).2.data.id _ hB0
    have hl1 := recount_nodeInv P B (makeLeaf P (makeLeaf P ts 0).1 0).2.data.id _ hB1
    split at h
    · cases h
    · rename_i tsa negative hneg
      split at h
      · cases h
      · rename_i tsb positive hpos
        cases h
        obtain ⟨tn, pn⟩ := hcasc _ _ _ _ hneg hl0
        obtain ⟨tp, pp⟩ := hcasc _ _ _ _ hpos hl1
        simp only [collectRecursive] at pn pp
        have hperm : List.Perm (collectRecursive negative ++ collectRecursive positive) sw :=
          (List.Perm.append pn pp).trans (filter_not_perm sw (fun s => hasCodeGt s code))
        refine ⟨⟨nodeInv_perm P B _ _ _ hperm.symm hd, ?_, ?_, tn, tp⟩, hperm⟩
        · intro s hs
          have := (List.mem_filter.mp (pn.mem_iff.mp hs)).2
          simpa using this
        · intro s hs
          have := (List.mem_filter.mp (pp.mem_iff.mp hs)).2
          simpa using this

theorem splitLeafIfPossible_spec {F : Type} (P : Platform F) (B : Prop) (fuel : Nat) :
    ∀ (ts : Nat) (dt : DecisionTreeNode) (ts1 : Nat) (t : DecisionTreeNode),
      splitLeafIfPossible P fuel ts dt = some (ts1, t) → TreeInv P B dt →
      TreeInv P B t ∧ List.Perm (collectRecursive t) (collectRecursive dt) := by
  induction fuel with
  | zero =>
    intro ts dt ts1 t h hinv
    unfold splitLeafIfPossible at h
    simp only at h
    split at h
    · cases h
    · cases h
      exact ⟨hinv, List.Perm.refl _⟩
  | succ fuel ih =>
    intro ts dt ts1 t h hinv
    unfold splitLeafIfPossible at h
    simp only at h
    split at h
    · rw [walkSamples_eq] at h
      simp only at h
      exact splitNode_spec P B _ _ _ _ _ _ _ (fun tsa l tsb t2 hc hl => ih tsa l tsb t2 hc hl)
        (treeInv_nodeInv P B dt hinv) h
    · cases h
      exact ⟨hinv, List.Perm.refl _⟩

theorem midInv_nil {F : Type} (P : Platform F) (B : Prop) (dt : DecisionTreeNode)
    (h : MidInv P B dt [] []) : TreeInv P B dt := by
  induction dt with
  | leaf d v samples =>
    obtain ⟨M, hM, hp⟩ := h
    simp only [List.nil_append, List.append_nil] at hM hp
    exact nodeInv_perm P B _ _ _ hp.symm hM
  | internal code d negative positive ihn ihp =>
    obtain ⟨⟨M, hM, hp⟩, hr0, hr1, hn, hpz⟩ := h
    simp only [List.nil_append, List.append_nil, List.filter_nil] at hM hp hn hpz
    exact ⟨nodeInv_perm P B _ _ _ hp.symm hM, hr0, hr1, ihn hn, ihp hpz⟩

theorem length_zero_of_not_pos (A R : List Sample) (h : ¬ (A.length > 0 ∨ R.length > 0)) :
    A = [] ∧ R = [] := by
  constructor
  · apply List.eq_nil_of_length_eq_zero; omega
  · apply List.eq_nil_of_length_eq_zero; omega

/-- The second pass restores the tree invariant and keeps the samples. -/
theorem updateDecisionTreeNode_spec {F : Type} (P : Platform F) (B : Prop)
    (dt : DecisionTreeNode) :
    ∀ (ts : Nat) (A R : List Sample) (ts1 : Nat) (t : DecisionTreeNode),
      MidInv P B dt A R →
      (B → (∀ s ∈ A, s.Binary) ∧ (collectRecursive dt).length < 4294967296) →
      updateDecisionTreeNode P dt ts A R = some (ts1, t) →
      TreeInv P B t ∧ List.Perm (collectRecursive t) (collectRecursive dt) := by
  induction dt with
  | leaf d0 v samples =>
    intro ts A R ts1 t hmid hB h
    obtain ⟨M, hM, hp⟩ := hmid
    have hB1 : B → (∀ s ∈ A, s.Binary) ∧ (M ++ A).length < 4294967296 := by
      intro hb
      obtain ⟨h1, h2⟩ := hB hb
      refine ⟨h1, ?_⟩
      rw [← hp.length_eq]
      exact h2
    obtain ⟨d, hd, hinv, hid⟩ := updateNodeCounters_spec P B (.leaf d0 v samples) A R M hM hp hB1
    unfold updateDecisionTreeNode at h
    rw [hd] at h
    simp only at h
    simp only [collectRecursive] at hinv ⊢
    split at h
    · exact splitNode_spec P B _ _ _ _ _ _ _
        (fun tsa l tsb t2 hc hl => splitLeafIfPossible_spec P B _ tsa l tsb t2 hc hl) hinv h
    · cases h
      exact ⟨hinv, List.Perm.refl _⟩
  | internal code d0 negative positive ihn ihp =>
    intro ts A R ts1 t hmid hB h
    obtain ⟨⟨M, hM, hp⟩, hr0, hr1, hmn, hmp⟩ := hmid
    have hB1 : B → (∀ s ∈ A, s.Binary) ∧ (M ++ A).length < 4294967296 := by
      intro hb
      obtain ⟨h1, h2⟩ := hB hb
      refine ⟨h1, ?_⟩
      rw [← hp.length_eq]
      exact h2
    obtain ⟨d, hd, hinv, hid⟩ :=
      updateNodeCounters_spec P B (.internal code d0 negative positive) A R M hM hp hB1
    unfold updateDecisionTreeNode at h
    rw [hd] at h
    simp only at h
    have hwalk : walkSamples (.internal code d negative positive)
        = some (collectRecursive negative ++ collectRecursive positive) := by
      rw [walkSamples_eq]; rfl
    simp only [collectRecursive] at hinv hB ⊢
    split at h
    · rw [hwalk] at h
      simp only at h
      rw [setupLeafFromSamples_eq] at h
      simp only at h
      cases h
      simp only [collectRecursive]
      refine ⟨?_, List.Perm.refl _⟩
      apply recount_nodeInv
      intro hb
      obtain ⟨hbin, hlen, _⟩ := hinv.2 hb
      exact ⟨hbin, hlen⟩
    · split at h
      · rw [hwalk] at h
        simp only at h
        exact splitNode_spec P B _ _ _ _ _ _ _
          (fun tsa l tsb t2 hc hl => splitLeafIfPossible_spec P B _ tsa l tsb t2 hc hl) hinv h
      · rw [splitListAgainstCode_eq, splitListAgainstCode_eq] at h
        simp only at h
        have hBn : B → (∀ s ∈ A.filter (fun s => !hasCodeGt s code), s.Binary) ∧
            (collectRecursive negative).length < 4294967296 := by
          intro hb
          obtain ⟨h1, h2⟩ := hB hb
          refine ⟨fun s hs => h1 s (List.mem_filter.mp hs).1, ?_⟩
          simp only [List.length_append] at h2
          omega
        have hBp : B → (∀ s ∈ A.filter (fun s => hasCodeGt s code), s.Binary) ∧
            (collectRecursive positive).length < 4294967296 := by
          intro hb
          obtain ⟨h1, h2⟩ := hB hb
          refine ⟨fun s hs => h1 s (List.mem_filter.mp hs).1, ?_⟩
          simp only [List.length_append] at h2
          omega
        split at h
        · cases h
        · rename_i tsa negative1 hrn
          split at h
          · cases h
          · rename_i tsb positive1 hrp
            cases h
            have hn1 : TreeInv P B negative1 ∧
                List.Perm (collectRecursive negative1) (collectRecursive negative) := by
              split at hrn
              · exact ihn _ _ _ _ _ hmn hBn hrn
              · rename_i hz
                obtain ⟨z1, z2⟩ := length_zero_of_not_pos _ _ hz
                rw [z1, z2] at hmn
                cases hrn
                exact ⟨midInv_nil P B _ hmn, List.Perm.refl _⟩
            have hp1 : TreeInv P B positive1 ∧
                List.Perm (collectRecursive positive1) (collectRecursive positive) := by
              split at hrp
              · exact ihp _ _ _ _ _ hmp hBp hrp
              · rename_i hz
                obtain ⟨z1, z2⟩ := length_zero_of_not_pos _ _ hz
                rw [z1, z2] at hmp
                cases hrp
                exact ⟨midInv_nil P B _ hmp, List.Perm.refl _⟩
            simp only [collectRecursive]
            have hperm := List.Perm.append hn1.2 hp1.2
            refine ⟨⟨nodeInv_perm P B _ _ _ hperm.symm hinv, ?_, ?_, hn1.1, hp1.1⟩, hperm⟩
            · intro s hs
              exact hr0 s (hn1.2.mem_iff.mp hs)
            · intro s hs
              exact hr1 s (hp1.2.mem_iff.mp hs)

/-! ## The first pass of the tree update -/

theorem perm_append4 (a b c d : List Sample) :
    List.Perm ((a ++ b) ++ (c ++ d)) ((a ++ c) ++ (b ++ d)) := by
  have h : List.Perm (b ++ (c ++ d)) (c ++ (b ++ d)) := by
    rw [← List.append_assoc, ← List.append_assoc]
    exact List.Perm.append_right d List.perm_append_comm
  rw [List.append_assoc, List.append_assoc]
  exact List.Perm.append_left a h

theorem eraseSample_eq_erase (L : List Sample) (r : Sample) (hr : r ∈ L) (hp : PtrInj L) :
    eraseSample L r = L.erase r := by
  induction L with
  | nil => simp at hr
  | cons x xs ih =>
    unfold eraseSample
    by_cases hx : x.ptr = r.ptr
    · have hxr : x = r := hp x (List.mem_cons_self _ _) r hr hx
      simp [hx, hxr]
    · have hne : x ≠ r := fun h => hx (by rw [h])
      have hr1 : r ∈ xs := by
        rcases List.mem_cons.mp hr with h | h
        · exact absurd h.symm hne
        · exact h
      have hp1 : PtrInj xs := fun a ha b hb hab =>
        hp a (List.mem_cons_of_mem _ ha) b (List.mem_cons_of_mem _ hb) hab
      simp only [hx, if_false]
      rw [ih hr1 hp1, List.erase_cons_tail (by simpa using hne)]

theorem eraseFold_perm (R : List Sample) :
    ∀ (L : List Sample), (∀ r ∈ R, r ∈ L) → R.Nodup → PtrInj L →
      List.Perm L (R ++ R.foldl eraseSample L) := by
  induction R with
  | nil => intro L _ _ _; simp
  | cons r R ih =>
    intro L hsub hn hp
    rw [List.nodup_cons] at hn
    rw [List.foldl_cons, eraseSample_eq_erase L r (hsub r (List.mem_cons_self _ _)) hp]
    have hsub1 : ∀ x ∈ R, x ∈ L.erase r := by
      intro x hx
      have hxr : x ≠ r := fun h => hn.1 (h ▸ hx)
      exact (List.mem_erase_of_ne hxr).mpr (hsub x (List.mem_cons_of_mem _ hx))
    have hp1 : PtrInj (L.erase r) := fun a ha b hb hab =>
      hp a (List.mem_of_mem_erase ha) b (List.mem_of_mem_erase hb) hab
    have h1 := ih (L.erase r) hsub1 hn.2 hp1
    exact (List.perm_cons_erase (hsub r (List.mem_cons_self _ _))).trans (List.Perm.cons r h1)

theorem updateDecisionTreeSamples_nil (dt : DecisionTreeNode) :
    updateDecisionTreeSamples dt [] [] = dt := by
  cases dt with
  | leaf d v samples => simp [updateDecisionTreeSamples]
  | internal code d negative positive =>
    simp [updateDecisionTreeSamples, splitListAgainstCode]

theorem updateDecisionTreeSamples_internal (code : Int) (d : NodeData)
    (negative positive : DecisionTreeNode) (A R : List Sample) :
    updateDecisionTreeSamples (.internal code d negative positive) A R =
      .internal code d
        (updateDecisionTreeSamples negative (A.filter (fun s => !hasCodeGt s code))
          (R.filter (fun s => !hasCodeGt s code)))
        (updateDecisionTreeSamples positive (A.filter (fun s => hasCodeGt s code))
          (R.filter (fun s => hasCodeGt s code))) := by
  conv_lhs => rw [updateDecisionTreeSamples]
  rw [splitListAgainstCode_eq, splitListAgainstCode_eq]
  simp only
  congr 1
  · split
    · rfl
    · rename_i hz
      obtain ⟨z1, z2⟩ := length_zero_of_not_pos _ _ hz
      rw [z1, z2, updateDecisionTreeSamples_nil]
  · split
    · rfl
    · rename_i hz
      obtain ⟨z1, z2⟩ := length_zero_of_not_pos _ _ hz
      rw [z1, z2, updateDecisionTreeSamples_nil]

theorem ptrInj_sub (L L1 : List Sample) (h : PtrInj L) (hsub : ∀ s ∈ L1, s ∈ L) : PtrInj L1 :=
  fun a ha b hb hab => h a (hsub a ha) b (hsub b hb) hab

/-- The first pass moves the batches into the leaves and leaves the counters for
the second pass. -/
theorem updateDecisionTreeSamples_spec {F : Type} (P : Platform F) (B : Prop)
    (dt : DecisionTreeNode) :
    ∀ (A R : List Sample), TreeInv P B dt → (∀ r ∈ R, r ∈ collectRecursive dt) → R.Nodup →
      PtrInj (collectRecursive dt) →
      ∃ M, List.Perm (collectRecursive dt) (R ++ M) ∧
        List.Perm (collectRecursive (updateDecisionTreeSamples dt A R)) (M ++ A) ∧
        MidInv P B (updateDecisionTreeSamples dt A R) A R := by
  induction dt with
  | leaf d v samples =>
    intro A R hinv hsub hn hp
    simp only [collectRecursive] at hsub hp
    have hperm := eraseFold_perm R samples hsub hn hp
    refine ⟨R.foldl eraseSample samples, hperm, ?_, ?_⟩
    · simp [updateDecisionTreeSamples, collectRecursive]
    · exact ⟨R.foldl eraseSample samples, nodeInv_perm P B _ _ _ hperm hinv, List.Perm.refl _⟩
  | internal code d negative positive ihn ihp =>
    intro A R hinv hsub hn hp
    obtain ⟨hnode, hr0, hr1, tn, tp⟩ := hinv
    simp only [collectRecursive] at hsub hp
    rw [updateDecisionTreeSamples_internal]
    have hsubn : ∀ r ∈ R.filter (fun s => !hasCodeGt s code), r ∈ collectRecursive negative := by
      intro r hr
      obtain ⟨h1, h2⟩ := List.mem_filter.mp hr
      rcases List.mem_append.mp (hsub r h1) with h | h
      · exact h
      · have := hr1 r h
        simp [this] at h2
    have hsubp : ∀ r ∈ R.filter (fun s => hasCodeGt s code), r ∈ collectRecursive positive := by
      intro r hr
      obtain ⟨h1, h2⟩ := List.mem_filter.mp hr
      rcases List.mem_append.mp (hsub r h1) with h | h
      · have := hr0 r h
        simp [this] at h2
      · exact h
    obtain ⟨Mn, pn1, pn2, mn⟩ := ihn (A.filter (fun s => !hasCodeGt s code))
      (R.filter (fun s => !hasCodeGt s code)) tn hsubn (hn.filter _)
      (ptrInj_sub _ _ hp (fun s hs => List.mem_append_left _ hs))
    obtain ⟨Mp, pp1, pp2, mp⟩ := ihp (A.filter (fun s => hasCodeGt s code))
      (R.filter (fun s => hasCodeGt s code)) tp hsubp (hn.filter _)
      (ptrInj_sub _ _ hp (fun s hs => List.mem_append_right _ hs))
    have hperm1 : List.Perm (collectRecursive negative ++ collectRecursive positive)
        (R ++ (Mn ++ Mp)) :=
      ((List.Perm.append pn1 pp1).trans (perm_append4 _ _ _ _)).trans
        (List.Perm.append_right _ (filter_not_perm R (fun s => hasCodeGt s code)))
    have hperm2 : List.Perm
        (collectRecursive (updateDecisionTreeSamples negative
            (A.filter (fun s => !hasCodeGt s code)) (R.filter (fun s => !hasCodeGt s code))) ++
          collectRecursive (updateDecisionTreeSamples positive
            (A.filter (fun s => hasCodeGt s code)) (R.filter (fun s => hasCodeGt s code))))
        ((Mn ++ Mp) ++ A) :=
      ((List.Perm.append pn2 pp2).trans (perm_append4 _ _ _ _)).trans
        (List.Perm.append_left _ (filter_not_perm A (fun s => hasCodeGt s code)))
    refine ⟨Mn ++ Mp, hperm1, ?_, ⟨Mn ++ Mp, nodeInv_perm P B _ _ _ hperm1 hnode, hperm2⟩,
      ?_, ?_, mn, mp⟩
    · simp only [collectRecursive]
      exact hperm2
    · intro s hs
      rcases List.mem_append.mp (pn2.mem_iff.mp hs) with h | h
      · exact hr0 s (pn1.mem_iff.mpr (List.mem_append_right _ h))
      · have := (List.mem_filter.mp h).2
        simpa using this
    · intro s hs
      rcases List.mem_append.mp (pp2.mem_iff.mp hs) with h | h
      · exact hr1 s (pp1.mem_iff.mpr (List.mem_append_right _ h))
      · have := (List.mem_filter.mp h).2
        simpa using this

/-- The update of one tree restores the invariant; the samples under the new tree
are the old ones without `batchRemove` plus `batchAdd`. -/
theorem updateDecisionTree_spec {F : Type} (P : Platform F) (B : Prop) (ts : Nat)
    (dt : DecisionTreeNode) (A R : List Sample) (ts1 : Nat) (t : DecisionTreeNode)
    (hinv : TreeInv P B dt) (hsub : ∀ r ∈ R, r ∈ collectRecursive dt) (hn : R.Nodup)
    (hp : PtrInj (collectRecursive dt))
    (hB : B → (∀ s ∈ A, s.Binary) ∧ (collectRecursive dt).length + A.length < 4294967296)
    (h : updateDecisionTree P ts dt A R = some (ts1, t)) :
    TreeInv P B t ∧ ∃ M, List.Perm (collectRecursive dt) (R ++ M) ∧
      List.Perm (collectRecursive t) (M ++ A) := by
  unfold updateDecisionTree at h
  split at h
  · cases h
  · split at h
    · cases h
    · obtain ⟨M, p1, p2, hmid⟩ := updateDecisionTreeSamples_spec P B dt A R hinv hsub hn hp
      have hB1 : B → (∀ s ∈ A, s.Binary) ∧
          (collectRecursive (updateDecisionTreeSamples dt A R)).length < 4294967296 := by
        intro hb
        obtain ⟨h1, h2⟩ := hB hb
        refine ⟨h1, ?_⟩
        have l1 := p1.length_eq
        have l2 := p2.length_eq
        simp only [List.length_append] at l1 l2
        omega
      obtain ⟨ht, hperm⟩ := updateDecisionTreeNode_spec P B _ ts A R ts1 t hmid hB1 h
      exact ⟨ht, M, p1, hperm.trans p2⟩
/-! ## The update of a tree returns -/

theorem minEntropyFold_spec {F : Type} (fl : FloatOps F) (d : NodeData) (mr : RankPair)
    (m : DCMap) :
    ∀ acc : F × Int,
      (m.foldl (fun (acc : F × Int) e =>
        if pairGe (e.2.rank, e.1) mr && e.2.enoughEvidence d then
          let ah := e.2.entropy fl d
          if fl.lt ah acc.1 then (ah, e.1) else acc
        else acc) acc).2 = acc.2 ∨
      ∃ e ∈ m, e.1 = (m.foldl (fun (acc : F × Int) e =>
        if pairGe (e.2.rank, e.1) mr && e.2.enoughEvidence d then
          let ah := e.2.entropy fl d
          if fl.lt ah acc.1 then (ah, e.1) else acc
        else acc) acc).2 ∧ e.2.enoughEvidence d = true := by
  induction m with
  | nil => intro acc; exact Or.inl rfl
  | cons a m ih =>
    intro acc
    rw [List.foldl_cons]
    by_cases h1 : (pairGe (a.2.rank, a.1) mr && a.2.enoughEvidence d) = true
    · rw [if_pos h1]
      simp only
      by_cases h2 : fl.lt (a.2.entropy fl d) acc.1 = true
      · rw [if_pos h2]
        rcases ih (a.2.entropy fl d, a.1) with h3 | ⟨e, he, h3⟩
        · right
          refine ⟨a, List.mem_cons_self _ _, h3.symm, ?_⟩
          simp only [Bool.and_eq_true] at h1
          exact h1.2
        · exact Or.inr ⟨e, List.mem_cons_of_mem _ he, h3⟩
      · rw [if_neg h2]
        rcases ih acc with h3 | ⟨e, he, h3⟩
        · exact Or.inl h3
        · exact Or.inr ⟨e, List.mem_cons_of_mem _ he, h3⟩
    · rw [if_neg h1]
      rcases ih acc with h3 | ⟨e, he, h3⟩
      · exact Or.inl h3
      · exact Or.inr ⟨e, List.mem_cons_of_mem _ he, h3⟩

/-- A code that `findMinEntropyCode` returns is a key of the table with enough
evidence on both sides. -/
theorem findMinEntropyCode_spec {F : Type} (fl : FloatOps F) (ce : F) (d : NodeData)
    (h : findMinEntropyCode fl ce d ≠ -1) :
    ∃ e ∈ d.decisionCountMap, e.1 = findMinEntropyCode fl ce d ∧ e.2.enoughEvidence d = true := by
  have key := minEntropyFold_spec fl d (findMinRankToConsider d.decisionCountMap)
    d.decisionCountMap (fl.ofInt 10, -1)
  unfold findMinEntropyCode at h ⊢
  simp only at h ⊢
  split at h
  · exact absurd rfl h
  · rename_i hb
    split at h
    · rename_i hlt
      rw [if_neg hb, if_pos hlt]
      rcases key with h3 | h3
      · exact absurd h3 hb
      · exact h3
    · exact absurd rfl h

theorem countP_split (L : List Sample) (p q : Sample → Bool) :
    L.countP (fun s => p s && q s) + L.countP (fun s => !p s && q s) = L.countP q := by
  induction L with
  | nil => rfl
  | cons a L ih =>
    simp only [List.countP_cons]
    cases hp : p a <;> cases hq : q a <;> simp <;> omega

/-- In a leaf set up from the samples `L`, a table entry with enough evidence
splits `L` into two non-empty parts. -/
theorem evidence_parts {F : Type} (P : Platform F) (id : Nat) (L : List Sample)
    (e : Int × DecisionCounts) (he : e ∈ (computeDecisionCounters P id L).1)
    (hev : e.2.enoughEvidence ⟨(computeDecisionCounters P id L).2.1,
      (computeDecisionCounters P id L).2.2.1, (computeDecisionCounters P id L).1, id,
      (computeDecisionCounters P id L).2.2.2⟩ = true) :
    0 < (L.filter (fun s => hasCodeGt s e.1)).length ∧
      0 < (L.filter (fun s => !hasCodeGt s e.1)).length := by
  obtain ⟨h0, h1, hent, _⟩ := computeDecisionCounters_spec P id L
  obtain ⟨heq, _⟩ := hent e he
  obtain ⟨_, c1, c0, b1, b0⟩ := countCode_spec e.1 L ⟨0, 0, codeRankInNode P e.1 id⟩
  rw [← heq] at c1 c0 b1 b0
  have hb1 := b1 (by simp)
  have hb0 := b0 (by simp)
  have hsplit := countP_split L isAboveHalf (fun s => hasCodeGt s e.1)
  have hlen := List.length_eq_countP_add_countP (fun s => hasCodeGt s e.1) L
  have hadd := countClass_add L
  rw [← List.countP_eq_length_filter, ← List.countP_eq_length_filter]
  unfold DecisionCounts.enoughEvidence at hev
  simp only [Bool.and_eq_true, decide_eq_true_eq, h0, h1, subU32, wrapU32, minEvidence] at hev
  have hnot : L.countP (fun s => !hasCodeGt s e.1) = L.countP (fun a => ¬ hasCodeGt a e.1 = true) := by
    congr 1
    funext s
    cases hasCodeGt s e.1 <;> simp
  rw [hnot]
  simp only [Nat.zero_add] at c1 c0
  omega

theorem recount_empty {F : Type} (P : Platform F) (id : Nat) :
    (computeDecisionCounters P id []).1 = [] := by
  obtain ⟨_, _, hent, _⟩ := computeDecisionCounters_spec P id []
  apply List.eq_nil_iff_forall_not_mem.mpr
  intro e he
  have := (hent e he).2
  simp [findUsedCodes] at this

theorem splitNode_total {F : Type} (P : Platform F)
    (cascade : Nat → DecisionTreeNode → Option (Nat × DecisionTreeNode))
    (ts : Nat) (d : NodeData) (code : Int) (sw : List Sample)
    (hc : d.decisionCountMap.contains code = true)
    (hcasc : ∀ (ts0 : Nat) (d0 : NodeData) (L l : List Sample) ,
      (L = sw.filter (fun s => !hasCodeGt s code) ∨ L = sw.filter (fun s => hasCodeGt s code)) →
      l = L → ∀ lf, setupLeafFromSamples P d0 L = some lf → ∃ r, cascade ts0 lf = some r) :
    ∃ r, splitNode P cascade ts d code sw = some r := by
  unfold splitNode
  simp only [hc, Bool.not_true, Bool.false_eq_true, if_false]
  rw [splitListAgainstCode_eq]
  simp only
  obtain ⟨rn, hn⟩ := hcasc (makeLeaf P (makeLeaf P ts 0).1 0).1 (makeLeaf P ts 0).2.data _ _
    (Or.inl rfl) rfl _ (setupLeafFromSamples_eq P _ _)
  rw [setupLeafFromSamples_eq, setupLeafFromSamples_eq]
  simp only
  rw [hn]
  simp only
  obtain ⟨rp, hp⟩ := hcasc rn.1 (makeLeaf P (makeLeaf P ts 0).1 0).2.data _ _
    (Or.inr rfl) rfl _ (setupLeafFromSamples_eq P _ _)
  rw [hp]
  exact ⟨_, rfl⟩

/-- The cascade of splits of a leaf set up from `L` needs at most `L.length`
nested calls. -/
theorem splitLeafIfPossible_total {F : Type} (P : Platform F) (fuel : Nat) :
    ∀ (ts : Nat) (d0 : NodeData) (L : List Sample) (lf : DecisionTreeNode),
      L.length ≤ fuel → setupLeafFromSamples P d0 L = some lf →
      ∃ r, splitLeafIfPossible P fuel ts lf = some r := by
  induction fuel with
  | zero =>
    intro ts d0 L lf hlen hlf
    have hL : L = [] := List.eq_nil_of_length_eq_zero (by omega)
    subst hL
    rw [setupLeafFromSamples_eq] at hlf
    cases hlf
    unfold splitLeafIfPossible
    simp only [DecisionTreeNode.data]
    split
    · rename_i hne
      obtain ⟨e, he, _⟩ := findMinEntropyCode_spec _ _ _ hne
      simp only [recount_empty] at he
      cases he
    · exact ⟨_, rfl⟩
  | succ fuel ih =>
    intro ts d0 L lf hlen hlf
    rw [setupLeafFromSamples_eq] at hlf
    cases hlf
    unfold splitLeafIfPossible
    simp only [DecisionTreeNode.data]
    split
    · rename_i hne
      obtain ⟨e, he, hcode, hev⟩ := findMinEntropyCode_spec _ _ _ hne
      rw [walkSamples_eq]
      simp only [collectRecursive]
      obtain ⟨hpos, hneg⟩ := evidence_parts P d0.id L e he hev
      rw [hcode] at hpos hneg
      have hsum := (filter_not_perm L (fun s => hasCodeGt s
        (findMinEntropyCode P.fl
          (entropyBinary P.fl (toInt32 (computeDecisionCounters P d0.id L).2.1)
            (toInt32 (computeDecisionCounters P d0.id L).2.2.1))
          ⟨(computeDecisionCounters P d0.id L).2.1, (computeDecisionCounters P d0.id L).2.2.1,
            (computeDecisionCounters P d0.id L).1, d0.id,
            (computeDecisionCounters P d0.id L).2.2.2⟩))).length_eq
      rw [List.length_append] at hsum
      apply splitNode_total
      · rw [DCMap.contains_iff]
        exact ⟨e, he, hcode⟩
      · intro ts0 d1 L1 l hL1 _ lf1 hlf1
        apply ih ts0 d1 L1 lf1 _ hlf1
        rcases hL1 with h | h
        · rw [h]; omega
        · rw [h]; omega
    · exact ⟨_, rfl⟩

theorem splitNode_total_of_length {F : Type} (P : Platform F) (fuel : Nat) (ts : Nat)
    (d : NodeData) (code : Int) (sw : List Sample)
    (hc : d.decisionCountMap.contains code = true) (hf : sw.length ≤ fuel) :
    ∃ r, splitNode P (fun ts2 dt2 => splitLeafIfPossible P fuel ts2 dt2) ts d code sw = some r := by
  apply splitNode_total P _ ts d code sw hc
  intro ts0 d1 L1 l hL1 _ lf1 hlf1
  apply splitLeafIfPossible_total P fuel ts0 d1 L1 lf1 _ hlf1
  rcases hL1 with h | h
  · rw [h]; exact le_trans (List.length_filter_le _ _) hf
  · rw [h]; exact le_trans (List.length_filter_le _ _) hf

theorem updateNodeCounters_total {F : Type} (P : Platform F) (dt : DecisionTreeNode)
    (A R : List Sample) : ∃ d, updateNodeCounters P dt A R = some d := by
  unfold updateNodeCounters
  simp only
  split
  · rw [walkSamples_eq]
    exact ⟨_, rfl⟩
  · exact ⟨_, rfl⟩

/-- The second pass of the tree update always returns. -/
theorem updateDecisionTreeNode_total {F : Type} (P : Platform F) (dt : DecisionTreeNode) :
    ∀ (ts : Nat) (A R : List Sample), ∃ r, updateDecisionTreeNode P dt ts A R = some r := by
  induction dt with
  | leaf d0 v samples =>
    intro ts A R
    obtain ⟨d, hd⟩ := updateNodeCounters_total P (.leaf d0 v samples) A R
    unfold updateDecisionTreeNode
    rw [hd]
    simp only
    split
    · rename_i hne
      obtain ⟨e, he, hcode, _⟩ := findMinEntropyCode_spec _ _ _ hne
      apply splitNode_total_of_length
      · rw [DCMap.contains_iff]
        exact ⟨e, he, hcode⟩
      · exact le_refl _
    · exact ⟨_, rfl⟩
  | internal code d0 negative positive ihn ihp =>
    intro ts A R
    obtain ⟨d, hd⟩ := updateNodeCounters_total P (.internal code d0 negative positive) A R
    unfold updateDecisionTreeNode
    rw [hd]
    simp only
    split
    · rw [walkSamples_eq]
      simp only
      rw [setupLeafFromSamples_eq]
      exact ⟨_, rfl⟩
    · rename_i hne
      split
      · rw [walkSamples_eq]
        simp only
        obtain ⟨e, he, hcode, _⟩ := findMinEntropyCode_spec _ _ _ hne
        apply splitNode_total_of_length
        · rw [DCMap.contains_iff]
          exact ⟨e, he, hcode⟩
        · exact le_refl _
      · have hrn : ∃ rn, (if (splitListAgainstCode A code).1.length > 0 ∨
              (splitListAgainstCode R code).1.length > 0 then
            updateDecisionTreeNode P negative ts (splitListAgainstCode A code).1
              (splitListAgainstCode R code).1
            else some (ts, negative)) = some rn := by
          split
          · exact ihn _ _ _
          · exact ⟨_, rfl⟩
        obtain ⟨rn, hrn⟩ := hrn
        rw [hrn]
        simp only
        have hrp : ∃ rp, (if (splitListAgainstCode A code).2.length > 0 ∨
              (splitListAgainstCode R code).2.length > 0 then
            updateDecisionTreeNode P positive rn.1 (splitListAgainstCode A code).2
              (splitListAgainstCode R code).2
            else some (rn.1, positive)) = some rp := by
          split
          · exact ihp _ _ _
          · exact ⟨_, rfl⟩
        obtain ⟨rp, hrp⟩ := hrp
        rw [hrp]
        exact ⟨_, rfl⟩

/-- The function `updateDecisionTree` returns unless the two batches share a sample. -/
theorem updateDecisionTree_total {F : Type} (P : Platform F) (ts : Nat) (dt : DecisionTreeNode)
    (A R : List Sample) (h : ∀ a ∈ A, ∀ r ∈ R, a.ptr ≠ r.ptr) :
    ∃ r, updateDecisionTree P ts dt A R = some r := by
  unfold updateDecisionTree
  have h1 : A.any (fun a => R.any (fun r => decide (r.ptr = a.ptr))) = false := by
    rw [List.any_eq_false]
    intro a ha
    rw [Bool.not_eq_true, List.any_eq_false]
    intro r hr
    simpa using fun hh => h a ha r hr hh.symm
  have h2 : R.any (fun r => A.any (fun a => decide (a.ptr = r.ptr))) = false := by
    rw [List.any_eq_false]
    intro r hr
    rw [Bool.not_eq_true, List.any_eq_false]
    intro a ha
    simpa using h a ha r hr
  rw [h1, h2]
  simp only [Bool.false_eq_true, if_false]
  exact updateDecisionTreeNode_total P _ ts A R

theorem updateDecisionTree_none {F : Type} (P : Platform F) (ts : Nat) (dt : DecisionTreeNode)
    (A R : List Sample) (a : Sample) (ha : a ∈ A) (r : Sample) (hr : r ∈ R)
    (h : a.ptr = r.ptr) : updateDecisionTree P ts dt A R = none := by
  unfold updateDecisionTree
  have h1 : A.any (fun a => R.any (fun r => decide (r.ptr = a.ptr))) = true := by
    rw [List.any_eq_true]
    refine ⟨a, ha, ?_⟩
    rw [List.any_eq_true]
    exact ⟨r, hr, by simpa using h.symm⟩
  rw [h1]
  simp
/-! ## The forest invariant is kept by `create`, `add`, `remove` and `commit` -/

theorem mem_treeBatch {F : Type} (P : Platform F) (m : SampleMap) (t : Nat) (s : Sample) :
    s ∈ treeBatch P m t ↔ ∃ k, (k, s) ∈ m ∧ sampleInTree P s t = true := by
  unfold treeBatch
  simp only [List.mem_map, List.mem_filter]
  constructor
  · rintro ⟨e, ⟨he, ht⟩, rfl⟩
    exact ⟨e.1, he, ht⟩
  · rintro ⟨k, hk, ht⟩
    exact ⟨(k, s), ⟨hk, ht⟩, rfl⟩

theorem sampleInTree_congr {F : Type} (P : Platform F) (a b : Sample) (t : Nat)
    (h : a.suid = b.suid) : sampleInTree P a t = sampleInTree P b t := by
  unfold sampleInTree
  rw [h]

theorem SampleMap.mem_foldl_set_iff (L : SampleMap) (hn : (L.map Prod.fst).Nodup)
    (m : SampleMap) (e : String × Sample) :
    e ∈ L.foldl (fun (m : SampleMap) x => m.set x.1 x.2) m ↔
      e ∈ L ∨ (e ∈ m ∧ ∀ x ∈ L, e.1 ≠ x.1) := by
  induction L generalizing m with
  | nil => simp
  | cons a L ih =>
    rw [List.map_cons, List.nodup_cons] at hn
    rw [List.foldl_cons, ih hn.2, SampleMap.mem_set]
    have ha : ∀ x ∈ L, a.1 ≠ x.1 := fun x hx h => hn.1 (h ▸ List.mem_map_of_mem Prod.fst hx)
    simp only [List.mem_cons, forall_eq_or_imp]
    constructor
    · rintro (h | ⟨h | ⟨h1, h2⟩, h3⟩)
      · exact Or.inl (Or.inr h)
      · exact Or.inl (Or.inl h)
      · exact Or.inr ⟨h1, h2, h3⟩
    · rintro ((h | h) | ⟨h1, h2, h3⟩)
      · right
        refine ⟨Or.inl h, ?_⟩
        rw [h]
        exact ha
      · exact Or.inl h
      · exact Or.inr ⟨Or.inr ⟨h1, h2⟩, h3⟩

theorem SampleMap.length_set_le (m : SampleMap) (k : String) (v : Sample) :
    (m.set k v).length ≤ m.length + 1 := by
  unfold SampleMap.set
  split
  · rw [List.length_map]; omega
  · rw [(SampleMap.perm_insertNew k v m).length_eq]; simp

theorem SampleMap.length_erase_le (m : SampleMap) (k : String) :
    (m.erase k).length ≤ m.length := by
  unfold SampleMap.erase
  exact List.length_filter_le _ _

theorem SampleMap.length_foldl_set_le (L : SampleMap) (m : SampleMap) :
    (L.foldl (fun (m : SampleMap) x => m.set x.1 x.2) m).length ≤ m.length + L.length := by
  induction L generalizing m with
  | nil => simp
  | cons a L ih =>
    rw [List.foldl_cons, List.length_cons]
    have h1 := ih (m.set a.1 a.2)
    have h2 := SampleMap.length_set_le m a.1 a.2
    omega

theorem SampleMap.length_foldl_erase_le (L : SampleMap) (m : SampleMap) :
    (L.foldl (fun (m : SampleMap) x => m.erase x.1) m).length ≤ m.length := by
  induction L generalizing m with
  | nil => simp
  | cons a L ih =>
    rw [List.foldl_cons]
    have h1 := ih (m.erase a.1)
    have h2 := SampleMap.length_erase_le m a.1
    omega

theorem SampleMap.values_nodup (m : SampleMap) (hk : ∀ e ∈ m, e.2.suid = e.1)
    (hn : (m.map Prod.fst).Nodup) : (m.map Prod.snd).Nodup := by
  have h : m.map Prod.fst = (m.map Prod.snd).map Sample.suid := by
    rw [List.map_map]
    apply List.map_congr_left
    intro e he
    exact (hk e he).symm
  rw [h] at hn
  exact List.Nodup.of_map _ hn

theorem treeBatch_nodup {F : Type} (P : Platform F) (m : SampleMap) (t : Nat)
    (hk : ∀ e ∈ m, e.2.suid = e.1) (hn : (m.map Prod.fst).Nodup) : (treeBatch P m t).Nodup := by
  unfold treeBatch
  exact (SampleMap.values_nodup m hk hn).sublist ((List.filter_sublist _).map _)

theorem treeBatch_length_le {F : Type} (P : Platform F) (m : SampleMap) (t : Nat) :
    (treeBatch P m t).length ≤ m.length := by
  unfold treeBatch
  rw [List.length_map]
  exact List.length_filter_le _ _

/-- The samples of the committed map after `commit`. -/
theorem commit_samples_mem (rf : Forest) (hs : StoreInv rf) (e : String × Sample) :
    e ∈ rf.toAdd.foldl (fun (m : SampleMap) x => m.set x.1 x.2)
        (rf.toRemove.foldl (fun (m : SampleMap) x => m.erase x.1) rf.samples) ↔
      e ∈ rf.toAdd ∨ (e ∈ rf.samples ∧ (∀ x ∈ rf.toRemove, e.1 ≠ x.1) ∧
        ∀ x ∈ rf.toAdd, e.1 ≠ x.1) := by
  rw [SampleMap.mem_foldl_set_iff _ hs.nodupAdd, SampleMap.mem_foldl_erase]
  tauto

/-- One tree of the loop of `commit`. -/
theorem treeOK_update {F : Type} (P : Platform F) (B : Prop) (rf : Forest) (hs : StoreInv rf)
    (hp : PtrInv rf)
    (hB : B → (∀ e ∈ rf.samples ++ rf.toAdd, e.2.Binary) ∧
      rf.samples.length + rf.toAdd.length < 4294967296)
    (samples1 : SampleMap)
    (hmem : ∀ e, e ∈ samples1 ↔ e ∈ rf.toAdd ∨ (e ∈ rf.samples ∧
      (∀ x ∈ rf.toRemove, e.1 ≠ x.1) ∧ ∀ x ∈ rf.toAdd, e.1 ≠ x.1))
    (tree : DecisionTreeNode) (i ts ts1 : Nat) (t : DecisionTreeNode)
    (hok : TreeOK P B rf.samples tree i)
    (h : updateDecisionTree P ts tree (treeBatch P rf.toAdd i) (treeBatch P rf.toRemove i)
      = some (ts1, t)) :
    TreeOK P B samples1 t i := by
  obtain ⟨hinv, hnd, hmemT⟩ := hok
  have hkeyRem : ∀ e ∈ rf.toRemove, e.2.suid = e.1 :=
    fun e he => hs.keySamples e (hs.removeSub e he)
  have hsub : ∀ r ∈ treeBatch P rf.toRemove i, r ∈ collectRecursive tree := by
    intro r hr
    obtain ⟨k, hk, ht⟩ := (mem_treeBatch P _ _ _).mp hr
    have hkey : r.suid = k := hkeyRem (k, r) hk
    rw [hmemT]
    refine ⟨?_, ht⟩
    rw [hkey]
    exact hs.removeSub _ hk
  have hnR := treeBatch_nodup P rf.toRemove i hkeyRem hs.nodupRemove
  have hnA := treeBatch_nodup P rf.toAdd i hs.keyAdd hs.nodupAdd
  have hpi : PtrInj (collectRecursive tree) := by
    intro a ha b hb hab
    have ha1 := ((hmemT a).mp ha).1
    have hb1 := ((hmemT b).mp hb).1
    have := hp.ptrInj _ (List.mem_append_left _ ha1) _ (List.mem_append_left _ hb1) hab
    exact (Prod.mk.inj this).2
  have hlenT : (collectRecursive tree).length ≤ rf.samples.length := by
    have hsubp : (collectRecursive tree).Subperm (rf.samples.map Prod.snd) :=
      List.subperm_of_subset hnd
        (fun s hs1 => List.mem_map.mpr ⟨(s.suid, s), ((hmemT s).mp hs1).1, rfl⟩)
    simpa using hsubp.length_le
  have hlenA := treeBatch_length_le P rf.toAdd i
  have hB1 : B → (∀ s ∈ treeBatch P rf.toAdd i, s.Binary) ∧
      (collectRecursive tree).length + (treeBatch P rf.toAdd i).length < 4294967296 := by
    intro hb
    obtain ⟨h1, h2⟩ := hB hb
    refine ⟨?_, by omega⟩
    intro s hs1
    obtain ⟨k, hk, _⟩ := (mem_treeBatch P _ _ _).mp hs1
    exact h1 (k, s) (List.mem_append_right _ hk)
  obtain ⟨htinv, M, hperm1, hperm2⟩ :=
    updateDecisionTree_spec P B ts tree _ _ ts1 t hinv hsub hnR hpi hB1 h
  have hndRM : (treeBatch P rf.toRemove i ++ M).Nodup := hperm1.nodup_iff.mp hnd
  obtain ⟨_, hndM, hdisj⟩ := List.nodup_append.mp hndRM
  have hM : ∀ s ∈ M, ((s.suid, s) ∈ rf.samples ∧ sampleInTree P s i = true) ∧
      (∀ x ∈ rf.toRemove, s.suid ≠ x.1) ∧ ∀ x ∈ rf.toAdd, s.suid ≠ x.1 := by
    intro s hsM
    have hst : s ∈ collectRecursive tree := hperm1.mem_iff.mpr (List.mem_append_right _ hsM)
    have hsam := (hmemT s).mp hst
    have hnoRem : ∀ x ∈ rf.toRemove, s.suid ≠ x.1 := by
      intro x hx hxs
      have h1 := SampleMap.find_of_mem _ _ _ hs.nodupSamples hsam.1
      have h2 : (x.1, x.2) ∈ rf.samples := hs.removeSub x hx
      have h3 := SampleMap.find_of_mem _ _ _ hs.nodupSamples h2
      rw [← hxs, h1] at h3
      have h4 : s = x.2 := Option.some.inj h3
      have h5 : s ∈ treeBatch P rf.toRemove i := by
        rw [mem_treeBatch]
        refine ⟨x.1, ?_, hsam.2⟩
        rw [h4]
        exact hx
      exact hdisj h5 hsM
    refine ⟨hsam, hnoRem, ?_⟩
    intro x hx hxs
    have hc : rf.samples.contains x.1 = true := by
      rw [SampleMap.contains_iff_mem]
      exact ⟨s, hxs ▸ hsam.1⟩
    have hr := hs.addCovered x hx hc
    rw [SampleMap.contains_iff_mem] at hr
    obtain ⟨r, hr⟩ := hr
    exact hnoRem (x.1, r) hr hxs
  refine ⟨htinv, ?_, ?_⟩
  · rw [hperm2.nodup_iff, List.nodup_append]
    refine ⟨hndM, hnA, ?_⟩
    intro s hsM hsA
    obtain ⟨k, hk, _⟩ := (mem_treeBatch P _ _ _).mp hsA
    have hkey : s.suid = k := hs.keyAdd (k, s) hk
    exact (hM s hsM).2.2 (k, s) hk hkey
  · intro s
    rw [hperm2.mem_iff, List.mem_append, hmem]
    constructor
    · rintro (hsM | hsA)
      · obtain ⟨h1, h2, h3⟩ := hM s hsM
        exact ⟨Or.inr ⟨h1.1, h2, h3⟩, h1.2⟩
      · obtain ⟨k, hk, ht⟩ := (mem_treeBatch P _ _ _).mp hsA
        have hkey : s.suid = k := hs.keyAdd (k, s) hk
        rw [hkey]
        exact ⟨Or.inl hk, ht⟩
    · rintro ⟨hadd | ⟨hsam, hnr, hna⟩, ht⟩
      · exact Or.inr ((mem_treeBatch P _ _ _).mpr ⟨s.suid, hadd, ht⟩)
      · left
        have hst : s ∈ collectRecursive tree := (hmemT s).mpr ⟨hsam, ht⟩
        rcases List.mem_append.mp (hperm1.mem_iff.mp hst) with hR | hMm
        · obtain ⟨k, hk, _⟩ := (mem_treeBatch P _ _ _).mp hR
          have hkey : s.suid = k := hkeyRem (k, s) hk
          exact absurd hkey (hnr (k, s) hk)
        · exact hMm

/-- The loop of `commit` over the trees keeps every tree consistent. -/
theorem commitTrees_spec {F : Type} (P : Platform F) (B : Prop) (rf : Forest) (hs : StoreInv rf)
    (hp : PtrInv rf)
    (hB : B → (∀ e ∈ rf.samples ++ rf.toAdd, e.2.Binary) ∧
      rf.samples.length + rf.toAdd.length < 4294967296)
    (samples1 : SampleMap)
    (hmem : ∀ e, e ∈ samples1 ↔ e ∈ rf.toAdd ∨ (e ∈ rf.samples ∧
      (∀ x ∈ rf.toRemove, e.1 ≠ x.1) ∧ ∀ x ∈ rf.toAdd, e.1 ≠ x.1))
    (trees : List DecisionTreeNode) :
    ∀ (i ts ts1 : Nat) (trees1 : List DecisionTreeNode),
      TreesOK P B rf.samples trees i →
      commitTrees P rf.toAdd rf.toRemove trees i ts = some (ts1, trees1) →
      TreesOK P B samples1 trees1 i := by
  induction trees with
  | nil =>
    intro i ts ts1 trees1 _ h
    simp only [commitTrees] at h
    cases h
    trivial
  | cons tree rest ih =>
    intro i ts ts1 trees1 hok h
    simp only [commitTrees] at h
    split at h
    · cases h
    · rename_i tsa tree1 hup
      split at h
      · cases h
      · rename_i tsb rest1 hrest
        cases h
        exact ⟨treeOK_update P B rf hs hp hB samples1 hmem tree i ts tsa tree1 hok.1 hup,
          ih (i + 1) tsa _ _ hok.2 hrest⟩

theorem commitTrees_length {F : Type} (P : Platform F) (toAdd toRemove : SampleMap)
    (trees : List DecisionTreeNode) :
    ∀ (i ts ts1 : Nat) (trees1 : List DecisionTreeNode),
      commitTrees P toAdd toRemove trees i ts = some (ts1, trees1) →
      trees1.length = trees.length := by
  induction trees with
  | nil =>
    intro i ts ts1 trees1 h
    simp only [commitTrees] at h
    cases h
    rfl
  | cons tree rest ih =>
    intro i ts ts1 trees1 h
    simp only [commitTrees] at h
    split at h
    · cases h
    · split at h
      · cases h
      · rename_i hrest
        cases h
        simp [ih _ _ _ _ hrest]

/-- The loop of `commit` over the trees returns when no sample is on both
pending lists. -/
theorem commitTrees_total {F : Type} (P : Platform F) (toAdd toRemove : SampleMap)
    (h : ∀ a ∈ toAdd, ∀ r ∈ toRemove, a.2.ptr ≠ r.2.ptr) (trees : List DecisionTreeNode) :
    ∀ (i ts : Nat), ∃ r, commitTrees P toAdd toRemove trees i ts = some r := by
  induction trees with
  | nil => intro i ts; exact ⟨_, rfl⟩
  | cons tree rest ih =>
    intro i ts
    have hb : ∀ a ∈ treeBatch P toAdd i, ∀ r ∈ treeBatch P toRemove i, a.ptr ≠ r.ptr := by
      intro a ha r hr
      obtain ⟨ka, hka, _⟩ := (mem_treeBatch P _ _ _).mp ha
      obtain ⟨kr, hkr, _⟩ := (mem_treeBatch P _ _ _).mp hr
      exact h (ka, a) hka (kr, r) hkr
    obtain ⟨r1, hr1⟩ := updateDecisionTree_total P ts tree _ _ hb
    obtain ⟨r2, hr2⟩ := ih (i + 1) r1.1
    simp only [commitTrees]
    rw [hr1]
    simp only
    rw [hr2]
    exact ⟨_, rfl⟩

theorem pending_disjoint (rf : Forest) (hs : StoreInv rf) (hp : PtrInv rf) :
    ∀ a ∈ rf.toAdd, ∀ r ∈ rf.toRemove, a.2.ptr ≠ r.2.ptr := by
  intro a ha r hr hab
  have hrs := hs.removeSub r hr
  have := hp.ptrInj a (List.mem_append_right _ ha) r (List.mem_append_left _ hrs) hab
  rw [this] at ha
  exact hp.addFresh r ha hrs

/-- The method `commit` returns on a forest with a consistent store. -/
theorem commit_total {F : Type} (P : Platform F) (rf : Forest) (hs : StoreInv rf)
    (hp : PtrInv rf) : ∃ rf1, rf.commit P = some rf1 := by
  unfold Forest.commit
  split
  · exact ⟨_, rfl⟩
  · obtain ⟨r, hr⟩ := commitTrees_total P rf.toAdd rf.toRemove (pending_disjoint rf hs hp)
      rf.forest 0 rf.ts
    rw [hr]
    exact ⟨_, rfl⟩

theorem treesOK_of_empty {F : Type} (P : Platform F) (B : Prop) (trees : List DecisionTreeNode)
    (h : ∀ t ∈ trees, ∃ id, t = .leaf ⟨0, 0, [], id, (0, 0)⟩ 0 []) :
    ∀ i, TreesOK P B [] trees i := by
  induction trees with
  | nil => intro i; trivial
  | cons t rest ih =>
    intro i
    refine ⟨?_, ih (fun t1 ht1 => h t1 (List.mem_cons_of_mem _ ht1)) (i + 1)⟩
    obtain ⟨id, hid⟩ := h t (List.mem_cons_self _ _)
    subst hid
    refine ⟨⟨rfl, fun _ => ⟨by simp, by simp, ?_⟩⟩, by simp [collectRecursive], ?_⟩
    · constructor
      · rfl
      · rfl
      · intro e he; cases he
      · intro c _ _ s hs; cases hs
    · intro s
      simp [collectRecursive]

theorem createTrees_empty {F : Type} (P : Platform F) (n : Nat) :
    ∀ (ts : Nat) (acc : List DecisionTreeNode),
      (∀ t ∈ acc, ∃ id, t = .leaf ⟨0, 0, [], id, (0, 0)⟩ 0 []) →
      ∀ t ∈ (createTrees P n ts acc).2, ∃ id, t = .leaf ⟨0, 0, [], id, (0, 0)⟩ 0 [] := by
  induction n with
  | zero => intro ts acc h; exact h
  | succ n ih =>
    intro ts acc h
    simp only [createTrees]
    apply ih
    intro t ht
    rcases List.mem_append.mp ht with h1 | h1
    · exact h t h1
    · rw [List.mem_singleton] at h1
      exact ⟨_, h1⟩

theorem forestInv_create {F : Type} (P : Platform F) (B : Prop) (nTrees : Int) :
    ForestInv P B (create P nTrees) := by
  refine ⟨storeInv_create P nTrees, ?_, ?_, ?_⟩
  · constructor <;> simp [create]
  · exact treesOK_of_empty P B _ (createTrees_empty P _ _ _ (by simp)) 0
  · intro _
    simp [create]

theorem forestInv_add {F : Type} (P : Platform F) (B : Prop) (rf : Forest) (s : Sample)
    (h : ForestInv P B rf) (hfresh : freshSample rf s)
    (hb : B → s.Binary ∧ rf.samples.length + rf.toAdd.length + 1 < 4294967296) :
    ForestInv P B (rf.add s).1 := by
  refine ⟨storeInv_add rf s h.store, ptrInv_add rf s h.ptr hfresh, ?_, ?_⟩
  · rw [Forest.add_samples, Forest.add_forest]
    exact h.trees
  · intro b
    obtain ⟨h1, h2⟩ := h.binary b
    obtain ⟨h3, h4⟩ := hb b
    rw [Forest.add_samples, Forest.add_toAdd]
    have hl := SampleMap.length_set_le rf.toAdd s.suid s
    refine ⟨?_, by omega⟩
    intro e he
    rcases List.mem_append.mp he with h5 | h5
    · exact h1 e (List.mem_append_left _ h5)
    · rw [SampleMap.mem_set] at h5
      rcases h5 with h6 | h6
      · rw [h6]; exact h3
      · exact h1 e (List.mem_append_right _ h6.1)

theorem forestInv_remove {F : Type} (P : Platform F) (B : Prop) (rf : Forest) (sId : String)
    (h : ForestInv P B rf) : ForestInv P B (rf.remove sId).1 := by
  refine ⟨storeInv_remove rf sId h.store, ptrInv_remove rf sId h.ptr, ?_, ?_⟩
  · rw [Forest.remove_eq]
    split
    · exact h.trees
    · split
      · exact h.trees
      · split
        · exact h.trees
        · exact h.trees
  · intro b
    obtain ⟨h1, h2⟩ := h.binary b
    rw [Forest.remove_eq]
    split
    · have hl := SampleMap.length_erase_le rf.toAdd sId
      refine ⟨?_, by simp only; omega⟩
      intro e he
      rcases List.mem_append.mp he with h5 | h5
      · exact h1 e (List.mem_append_left _ h5)
      · exact h1 e (List.mem_append_right _ ((SampleMap.mem_erase _ _ _).mp h5).1)
    · split
      · exact ⟨h1, h2⟩
      · split
        · exact ⟨h1, h2⟩
        · exact ⟨h1, h2⟩

theorem forestInv_commit {F : Type} (P : Platform F) (B : Prop) (rf rf1 : Forest)
    (h : ForestInv P B rf) (hc : rf.commit P = some rf1) : ForestInv P B rf1 := by
  refine ⟨storeInv_commit P rf rf1 h.store hc, ptrInv_commit P rf rf1 h.ptr hc, ?_, ?_⟩
  · unfold Forest.commit at hc
    split at hc
    · cases hc; exact h.trees
    · split at hc
      · cases hc
      · rename_i ts1 forest1 hct
        cases hc
        exact commitTrees_spec P B rf h.store h.ptr h.binary _
          (commit_samples_mem rf h.store) rf.forest 0 rf.ts ts1 forest1 h.trees hct
  · intro b
    obtain ⟨h1, h2⟩ := h.binary b
    unfold Forest.commit at hc
    split at hc
    · cases hc; exact ⟨h1, h2⟩
    · split at hc
      · cases hc
      · cases hc
        simp only [List.append_nil, List.length_nil, Nat.add_zero]
        have hl1 := SampleMap.length_foldl_set_le rf.toAdd
          (rf.toRemove.foldl (fun (m : SampleMap) x => m.erase x.1) rf.samples)
        have hl2 := SampleMap.length_foldl_erase_le rf.toRemove rf.samples
        refine ⟨?_, by omega⟩
        intro e he
        rw [commit_samples_mem rf h.store] at he
        rcases he with h5 | h5
        · exact h1 e (List.mem_append_right _ h5)
        · exact h1 e (List.mem_append_left _ h5.1)

/-- Every forest reached with fresh samples, in binary mode with binary samples
and fewer than `2^32` of them, satisfies the forest invariant. -/
theorem forestInv_of_reachable {F : Type} (P : Platform F) (B : Prop)
    (ok : Forest → Sample → Prop)
    (hok : ∀ rf s, ok rf s → freshSample rf s ∧
      (B → s.Binary ∧ rf.samples.length + rf.toAdd.length + 1 < 4294967296))
    (rf : Forest) (h : Reachable P ok rf) : ForestInv P B rf := by
  induction h with
  | create n => exact forestInv_create P B n
  | add rf s _ hs ih => exact forestInv_add P B rf s ih (hok rf s hs).1 (hok rf s hs).2
  | remove rf sId _ ih => exact forestInv_remove P B rf sId ih
  | commit rf rf1 _ hc ih => exact forestInv_commit P B rf rf1 ih hc
/-! ## From the forest invariant to the nodes of the trees -/

theorem treeInv_nodes {F : Type} (P : Platform F) (B : Prop) (t : DecisionTreeNode)
    (h : TreeInv P B t) : ∀ n ∈ t.nodes, TreeInv P B n := by
  induction t with
  | leaf d v samples =>
    intro n hn
    simp only [DecisionTreeNode.nodes, List.mem_singleton] at hn
    rw [hn]
    exact h
  | internal code d negative positive ihn ihp =>
    intro n hn
    simp only [DecisionTreeNode.nodes, List.mem_cons, List.mem_append] at hn
    rcases hn with h1 | h1 | h1
    · rw [h1]; exact h
    · exact ihn h.2.2.2.1 n h1
    · exact ihp h.2.2.2.2 n h1

theorem nodes_sublist (t : DecisionTreeNode) :
    ∀ n ∈ t.nodes, (collectRecursive n).Sublist (collectRecursive t) := by
  induction t with
  | leaf d v samples =>
    intro n hn
    simp only [DecisionTreeNode.nodes, List.mem_singleton] at hn
    rw [hn]
  | internal code d negative positive ihn ihp =>
    intro n hn
    simp only [DecisionTreeNode.nodes, List.mem_cons, List.mem_append] at hn
    rcases hn with h1 | h1 | h1
    · rw [h1]
    · exact (ihn n h1).trans (List.sublist_append_left _ _)
    · exact (ihp n h1).trans (List.sublist_append_right _ _)

theorem treesOK_mem {F : Type} (P : Platform F) (B : Prop) (samples : SampleMap)
    (trees : List DecisionTreeNode) :
    ∀ i, TreesOK P B samples trees i → ∀ t ∈ trees, ∃ j, TreeOK P B samples t j := by
  induction trees with
  | nil => intro i _ t ht; cases ht
  | cons a rest ih =>
    intro i h t ht
    rcases List.mem_cons.mp ht with h1 | h1
    · rw [h1]; exact ⟨i, h.1⟩
    · exact ih (i + 1) h.2 t h1

theorem treeOK_suids {F : Type} (P : Platform F) (B : Prop) (samples : SampleMap)
    (hn : (samples.map Prod.fst).Nodup) (t : DecisionTreeNode) (i : Nat)
    (h : TreeOK P B samples t i) : ((collectRecursive t).map Sample.suid).Nodup := by
  apply List.Nodup.map_on _ h.2.1
  intro x hx y hy hxy
  have h1 := SampleMap.find_of_mem _ _ _ hn ((h.2.2 x).mp hx).1
  have h2 := SampleMap.find_of_mem _ _ _ hn ((h.2.2 y).mp hy).1
  rw [hxy, h2] at h1
  exact (Option.some.inj h1).symm

theorem SampleMap.find_foldl_erase (L : SampleMap) (m : SampleMap) (k : String) :
    (L.foldl (fun (m : SampleMap) x => m.erase x.1) m).find k
      = if L.contains k = true then none else m.find k := by
  induction L generalizing m with
  | nil => simp [SampleMap.contains]
  | cons a L ih =>
    rw [List.foldl_cons, ih, SampleMap.find_erase, SampleMap.contains_eq, SampleMap.contains_eq,
      SampleMap.find_cons]
    by_cases h1 : k = a.1
    · simp [h1]
    · simp [h1]

theorem SampleMap.find_foldl_set_of_not_mem (L : SampleMap) (m : SampleMap) (k : String)
    (h : ∀ e ∈ L, e.1 ≠ k) :
    (L.foldl (fun (m : SampleMap) x => m.set x.1 x.2) m).find k = m.find k := by
  induction L generalizing m with
  | nil => rfl
  | cons a L ih =>
    rw [List.foldl_cons, ih _ (fun e he => h e (List.mem_cons_of_mem _ he)), SampleMap.find_set]
    have := h a (List.mem_cons_self _ _)
    rw [if_neg (fun hk => this hk.symm)]

theorem SampleMap.find_foldl_set_of_mem (L : SampleMap) (hn : (L.map Prod.fst).Nodup)
    (m : SampleMap) (k : String) (s : Sample) (h : (k, s) ∈ L) :
    (L.foldl (fun (m : SampleMap) x => m.set x.1 x.2) m).find k = some s := by
  induction L generalizing m with
  | nil => cases h
  | cons a L ih =>
    rw [List.map_cons, List.nodup_cons] at hn
    rw [List.foldl_cons]
    rcases List.mem_cons.mp h with h1 | h1
    · rw [SampleMap.find_foldl_set_of_not_mem, SampleMap.find_set, ← h1]
      · simp
      · intro e he hek
        apply hn.1
        rw [← h1]
        simp only
        rw [← hek]
        exact List.mem_map_of_mem Prod.fst he
    · exact ih hn.2 _ h1
/-! ## The shape invariant is kept by the update of a tree -/

theorem settled_updateSamples {F : Type} (P : Platform F) (dt : DecisionTreeNode) :
    ∀ (A R : List Sample), Settled P dt → Settled P (updateDecisionTreeSamples dt A R) := by
  induction dt with
  | leaf d v samples =>
    intro A R h
    simpa [updateDecisionTreeSamples, Settled] using h
  | internal code d negative positive ihn ihp =>
    intro A R h
    rw [updateDecisionTreeSamples_internal]
    exact ⟨h.1, h.2.1, ihn _ _ h.2.2.1, ihp _ _ h.2.2.2⟩

theorem settled_setupLeaf {F : Type} (P : Platform F) (d : NodeData) (L : List Sample)
    (lf : DecisionTreeNode) (h : setupLeafFromSamples P d L = some lf) :
    Settled P lf ∧ RootUpdated lf := by
  rw [setupLeafFromSamples_eq] at h
  cases h
  exact ⟨Or.inl rfl, rfl⟩

theorem splitNode_settled {F : Type} (P : Platform F)
    (cascade : Nat → DecisionTreeNode → Option (Nat × DecisionTreeNode))
    (ts : Nat) (d : NodeData) (code : Int) (sw : List Sample) (r : Nat × DecisionTreeNode)
    (hcasc : ∀ tsa l r1, cascade tsa l = some r1 → Settled P l → Settled P r1.2)
    (hcode : findMinEntropyCode P.fl (entropyBinary P.fl (toInt32 d.c0) (toInt32 d.c1)) d = code)
    (hne : code ≠ -1)
    (h : splitNode P cascade ts d code sw = some r) :
    Settled P r.2 ∧ RootUpdated r.2 := by
  unfold splitNode at h
  simp only at h
  split at h
  · cases h
  · rw [setupLeafFromSamples_eq, setupLeafFromSamples_eq] at h
    simp only at h
    split at h
    · cases h
    · rename_i tsa negative hneg
      split at h
      · cases h
      · rename_i tsb positive hpos
        cases h
        have hn := hcasc _ _ _ hneg (Or.inl rfl)
        have hp := hcasc _ _ _ hpos (Or.inl rfl)
        exact ⟨⟨hcode, hne, hn, hp⟩, trivial⟩

theorem splitLeafIfPossible_settled {F : Type} (P : Platform F) (fuel : Nat) :
    ∀ (ts : Nat) (dt : DecisionTreeNode) (r : Nat × DecisionTreeNode),
      splitLeafIfPossible P fuel ts dt = some r → Settled P dt → Settled P r.2 := by
  induction fuel with
  | zero =>
    intro ts dt r h hs
    unfold splitLeafIfPossible at h
    simp only at h
    split at h
    · cases h
    · cases h
      exact hs
  | succ fuel ih =>
    intro ts dt r h hs
    unfold splitLeafIfPossible at h
    simp only at h
    split at h
    · rename_i hne
      rw [walkSamples_eq] at h
      simp only at h
      exact (splitNode_settled P _ _ _ _ _ r (fun tsa l r1 hc hl => ih tsa l r1 hc hl)
        rfl hne h).1
    · cases h
      exact hs

/-- The second pass of the update keeps the shape invariant, and the root it
returns has been visited. -/
theorem updateDecisionTreeNode_settled {F : Type} (P : Platform F) (dt : DecisionTreeNode) :
    ∀ (ts : Nat) (A R : List Sample) (r : Nat × DecisionTreeNode),
      Settled P dt → updateDecisionTreeNode P dt ts A R = some r →
      Settled P r.2 ∧ RootUpdated r.2 := by
  induction dt with
  | leaf d0 v samples =>
    intro ts A R r _ h
    unfold updateDecisionTreeNode at h
    split at h
    · cases h
    · rename_i d hd
      simp only at h
      split at h
      · rename_i hne
        exact splitNode_settled P _ _ _ _ _ r
          (fun tsa l r1 hc hl => splitLeafIfPossible_settled P _ tsa l r1 hc hl) rfl hne h
      · cases h
        exact ⟨Or.inl rfl, rfl⟩
  | internal code d0 negative positive ihn ihp =>
    intro ts A R r hs h
    unfold updateDecisionTreeNode at h
    split at h
    · cases h
    · rename_i d hd
      simp only at h
      split at h
      · rw [walkSamples_eq] at h
        simp only at h
        rw [setupLeafFromSamples_eq] at h
        simp only at h
        cases h
        exact ⟨Or.inl rfl, rfl⟩
      · rename_i hne
        split at h
        · rw [walkSamples_eq] at h
          simp only at h
          exact splitNode_settled P _ _ _ _ _ r
            (fun tsa l r1 hc hl => splitLeafIfPossible_settled P _ tsa l r1 hc hl) rfl hne h
        · rename_i hsame
          split at h
          · cases h
          · rename_i tsa negative1 hrn
            split at h
            · cases h
            · rename_i tsb positive1 hrp
              cases h
              have hn1 : Settled P negative1 := by
                split at hrn
                · exact (ihn _ _ _ _ hs.2.2.1 hrn).1
                · cases hrn
                  exact hs.2.2.1
              have hp1 : Settled P positive1 := by
                split at hrp
                · exact (ihp _ _ _ _ hs.2.2.2 hrp).1
                · cases hrp
                  exact hs.2.2.2
              have hcode : findMinEntropyCode P.fl
                  (entropyBinary P.fl (toInt32 d.c0) (toInt32 d.c1)) d = code := by
                by_contra hc
                exact hsame hc
              refine ⟨⟨hcode, ?_, hn1, hp1⟩, trivial⟩
              rw [← hcode]
              exact hne

theorem updateDecisionTree_settled {F : Type} (P : Platform F) (ts : Nat)
    (dt : DecisionTreeNode) (A R : List Sample) (r : Nat × DecisionTreeNode)
    (hs : Settled P dt) (h : updateDecisionTree P ts dt A R = some r) :
    Settled P r.2 ∧ RootUpdated r.2 := by
  unfold updateDecisionTree at h
  split at h
  · cases h
  · split at h
    · cases h
    · exact updateDecisionTreeNode_settled P _ ts A R r (settled_updateSamples P dt A R hs) h

theorem commitTrees_settled {F : Type} (P : Platform F) (toAdd toRemove : SampleMap)
    (trees : List DecisionTreeNode) :
    ∀ (i ts : Nat) (r : Nat × List DecisionTreeNode),
      (∀ t ∈ trees, Settled P t) → commitTrees P toAdd toRemove trees i ts = some r →
      ∀ t ∈ r.2, Settled P t ∧ RootUpdated t := by
  induction trees with
  | nil =>
    intro i ts r _ h
    simp only [commitTrees] at h
    cases h
    intro t ht
    cases ht
  | cons tree rest ih =>
    intro i ts r hs h
    simp only [commitTrees] at h
    split at h
    · cases h
    · rename_i tsa tree1 hup
      split at h
      · cases h
      · rename_i tsb rest1 hrest
        cases h
        intro t ht
        rcases List.mem_cons.mp ht with h1 | h1
        · rw [h1]
          exact updateDecisionTree_settled P ts tree _ _ (tsa, tree1)
            (hs tree (List.mem_cons_self _ _)) hup
        · exact ih (i + 1) tsa (tsb, rest1)
            (fun t1 ht1 => hs t1 (List.mem_cons_of_mem _ ht1)) hrest t h1

theorem settled_commit {F : Type} (P : Platform F) (rf rf1 : Forest)
    (hs : ∀ t ∈ rf.forest, Settled P t) (hc : rf.commit P = some rf1) :
    (∀ t ∈ rf1.forest, Settled P t) ∧
      (rf.changesToCommit = true → ∀ t ∈ rf1.forest, RootUpdated t) := by
  unfold Forest.commit at hc
  split at hc
  · rename_i hflag
    cases hc
    refine ⟨hs, ?_⟩
    intro h
    rw [h] at hflag
    simp at hflag
  · split at hc
    · cases hc
    · rename_i ts1 forest1 hct
      cases hc
      have := commitTrees_settled P _ _ rf.forest 0 rf.ts (ts1, forest1) hs hct
      exact ⟨fun t ht => (this t ht).1, fun _ t ht => (this t ht).2⟩

/-- Every tree of a forest reached from `create` satisfies the shape invariant. -/
theorem settled_of_reachable {F : Type} (P : Platform F) (ok : Forest → Sample → Prop)
    (rf : Forest) (h : Reachable P ok rf) : ∀ t ∈ rf.forest, Settled P t := by
  induction h with
  | create n =>
    intro t ht
    obtain ⟨id, hid⟩ := createTrees_empty P _ _ _ (by simp) t ht
    rw [hid]
    exact Or.inr ⟨rfl, rfl, rfl⟩
  | add rf s _ _ ih =>
    rw [Forest.add_forest]
    exact ih
  | remove rf sId _ ih =>
    rw [Forest.remove_eq]
    split
    · exact ih
    · split
      · exact ih
      · split
        · exact ih
        · exact ih
  | commit rf rf1 _ hc ih => exact (settled_commit P rf rf1 ih hc).1
/-! ## A split needs two samples on each side -/

theorem countPresent_le_class (S : List Sample) (c : Int) :
    countPresent0 S c ≤ countClass0 S ∧ countPresent1 S c ≤ countClass1 S := by
  constructor
  · apply List.countP_mono_left
    intro x _ hx
    simp only [Bool.and_eq_true] at hx
    exact hx.1
  · apply List.countP_mono_left
    intro x _ hx
    simp only [Bool.and_eq_true] at hx
    exact hx.1

/-- With exact counters, a node that splits on the code `findMinEntropyCode`
returns holds at least four samples. -/
theorem settled_internal_length {F : Type} (P : Platform F) (d : NodeData) (S : List Sample)
    (hne : findMinEntropyCode P.fl (entropyBinary P.fl (toInt32 d.c0) (toInt32 d.c1)) d ≠ -1)
    (hinv : NodeInv P True S d) : 4 ≤ S.length := by
  obtain ⟨e, he, _, hev⟩ := findMinEntropyCode_spec _ _ _ hne
  obtain ⟨_, hlen, hcount⟩ := hinv.2 trivial
  obtain ⟨h0, h1, _⟩ := hcount.entries e he
  have hc0 := hcount.c0
  have hc1 := hcount.c1
  have hadd := countClass_add S
  obtain ⟨hle0, hle1⟩ := countPresent_le_class S e.1
  unfold DecisionCounts.enoughEvidence at hev
  simp only [Bool.and_eq_true, decide_eq_true_eq, subU32, wrapU32, minEvidence] at hev
  rw [h0, h1, hc0, hc1] at hev
  omega

/-- After a commit that updates the trees of a forest of binary samples, a tree that
holds fewer than four samples is a single leaf with exact totals and the value
that `updateValue` computes. -/
theorem small_tree_is_leaf {F : Type} (P : Platform F) (rf rf1 : Forest)
    (hr : Reachable P binarySample rf) (hflag : rf.changesToCommit = true)
    (hc : rf.commit P = some rf1) (tree : DecisionTreeNode) (ht : tree ∈ rf1.forest)
    (hsmall : (collectRecursive tree).length < 4) :
    ∃ d v samples, tree = .leaf d v samples ∧ v = updateValue d ∧
      d.c0 = countClass0 samples ∧ d.c1 = countClass1 samples := by
  have hinv := forestInv_of_reachable P True binarySample
    (fun rf s h => ⟨h.1, fun _ => ⟨h.2.1, h.2.2⟩⟩) rf hr
  have hinv1 := forestInv_commit P True rf rf1 hinv hc
  obtain ⟨j, hok⟩ := treesOK_mem P True _ _ 0 hinv1.trees tree ht
  have hset := settled_commit P rf rf1 (settled_of_reachable P binarySample rf hr) hc
  have hs := hset.1 tree ht
  have hroot := hset.2 hflag tree ht
  have hnode := treeInv_nodeInv P True tree hok.1
  cases tree with
  | leaf d v samples =>
    obtain ⟨_, _, hcount⟩ := hnode.2 trivial
    exact ⟨d, v, samples, rfl, hroot, hcount.c0, hcount.c1⟩
  | internal code d negative positive =>
    exfalso
    have h4 := settled_internal_length P d _ (by rw [hs.1]; exact hs.2.1) hnode
    omega

/-! ## The committed map is kept in key order -/

theorem char_eq_of_toNat (a b : Char) (h : a.toNat = b.toNat) : a = b := by
  apply Char.ext
  apply UInt32.ext
  exact h

theorem charsLt_irrefl : ∀ a : List Char, charsLt a a = false
  | [] => rfl
  | x :: xs => by
    simp [charsLt, charsLt_irrefl xs]

theorem charsLt_trans : ∀ a b c : List Char,
    charsLt a b = true → charsLt b c = true → charsLt a c = true
  | _, [], _ => by
    intro h
    cases ‹List Char› <;> simp [charsLt] at h
  | [], _ :: _, [] => by
    intro _ h
    simp [charsLt] at h
  | [], _ :: _, _ :: _ => by
    intro _ _
    simp [charsLt]
  | _ :: _, _ :: _, [] => by
    intro _ h
    simp [charsLt] at h
  | x :: xs, y :: ys, z :: zs => by
    intro h1 h2
    simp only [charsLt] at h1 h2 ⊢
    have ih := charsLt_trans xs ys zs
    split_ifs at h1 h2 ⊢ <;> first | rfl | omega | (exact ih h1 h2)

theorem charsLt_total : ∀ a b : List Char,
    charsLt a b = false → charsLt b a = false → a = b
  | [], [] => fun _ _ => rfl
  | [], _ :: _ => by
    intro h
    simp [charsLt] at h
  | _ :: _, [] => by
    intro _ h
    simp [charsLt] at h
  | x :: xs, y :: ys => by
    intro h1 h2
    simp only [charsLt] at h1 h2
    split_ifs at h1 h2
    have hxy : x = y := char_eq_of_toNat x y (by omega)
    rw [hxy, charsLt_total xs ys h1 h2]

theorem string_eq_of_data (a b : String) (h : a.data = b.data) : a = b := by
  cases a
  cases b
  simp only at h
  rw [h]

theorem SampleMap.ascending_insertNew (k : String) (v : Sample) (m : SampleMap)
    (hs : m.Ascending) (hk : ∀ e ∈ m, e.1 ≠ k) : (SampleMap.insertNew k v m).Ascending := by
  induction m with
  | nil => simp [SampleMap.insertNew, SampleMap.Ascending]
  | cons a m ih =>
    unfold SampleMap.Ascending at hs
    simp only [List.map_cons, List.pairwise_cons] at hs
    unfold SampleMap.insertNew
    split
    · rename_i hlt
      unfold SampleMap.Ascending
      simp only [List.map_cons, List.pairwise_cons]
      refine ⟨?_, hs.1, hs.2⟩
      intro b hb
      rcases List.mem_cons.mp hb with h | h
      · rw [h]
        exact hlt
      · exact charsLt_trans _ _ _ hlt (hs.1 b h)
    · rename_i hnlt
      have hak : charsLt a.1.data k.data = true := by
        by_contra hc
        have h1 : charsLt k.data a.1.data = false := by simpa using hnlt
        have h2 : charsLt a.1.data k.data = false := by simpa using hc
        have := charsLt_total _ _ h1 h2
        exact hk a (List.mem_cons_self _ _) (string_eq_of_data _ _ this).symm
      have ih1 := ih hs.2 (fun e he => hk e (List.mem_cons_of_mem _ he))
      unfold SampleMap.Ascending at ih1 ⊢
      simp only [List.map_cons, List.pairwise_cons]
      refine ⟨?_, ih1⟩
      intro b hb
      obtain ⟨e, he, rfl⟩ := List.mem_map.mp hb
      rcases (SampleMap.mem_insertNew k v m e).mp he with h | h
      · rw [h]
        exact hak
      · exact hs.1 _ (List.mem_map.mpr ⟨e, h, rfl⟩)

theorem SampleMap.ascending_set (m : SampleMap) (k : String) (v : Sample)
    (hs : m.Ascending) : (m.set k v).Ascending := by
  unfold SampleMap.set
  split
  · have : (m.map (fun e => if e.1 = k then (k, v) else e)).map (fun e => e.1.data)
        = m.map (fun e => e.1.data) := by
      rw [List.map_map]
      apply List.map_congr_left
      intro e _
      simp only [Function.comp]
      split
      · rename_i h
        rw [h]
      · rfl
    unfold SampleMap.Ascending
    rw [this]
    exact hs
  · rename_i hc
    apply SampleMap.ascending_insertNew k v m hs
    have hnone : m.find k = none := by
      rw [SampleMap.contains_eq] at hc
      cases hf : m.find k with
      | none => rfl
      | some x => rw [hf] at hc; simp at hc
    exact (SampleMap.find_none_iff m k).mp hnone

theorem SampleMap.ascending_erase (m : SampleMap) (k : String)
    (hs : m.Ascending) : (m.erase k).Ascending := by
  unfold SampleMap.Ascending SampleMap.erase at *
  exact hs.sublist ((List.filter_sublist _).map _)

theorem SampleMap.ascending_foldl_erase (R : SampleMap) :
    ∀ m : SampleMap, m.Ascending →
      (R.foldl (fun (m : SampleMap) e => m.erase e.1) m).Ascending := by
  induction R with
  | nil => intro m h; exact h
  | cons e R ih =>
    intro m h
    rw [List.foldl_cons]
    exact ih _ (SampleMap.ascending_erase m e.1 h)

theorem SampleMap.ascending_foldl_set (A : SampleMap) :
    ∀ m : SampleMap, m.Ascending →
      (A.foldl (fun (m : SampleMap) e => m.set e.1 e.2) m).Ascending := by
  induction A with
  | nil => intro m h; exact h
  | cons e A ih =>
    intro m h
    rw [List.foldl_cons]
    exact ih _ (SampleMap.ascending_set m e.1 e.2 h)

theorem ascending_commit {F : Type} (P : Platform F) (rf rf1 : Forest)
    (hs : rf.samples.Ascending) (hc : rf.commit P = some rf1) : rf1.samples.Ascending := by
  unfold Forest.commit at hc
  split at hc
  · cases hc
    exact hs
  · split at hc
    · cases hc
    · cases hc
      exact SampleMap.ascending_foldl_set _ _ (SampleMap.ascending_foldl_erase _ _ hs)

theorem Forest.remove_samples (rf : Forest) (sId : String) :
    (rf.remove sId).1.samples = rf.samples := by
  unfold Forest.remove
  split
  · rfl
  · split
    · rfl
    · split <;> rfl

theorem ascending_of_reachable {F : Type} (P : Platform F) (ok : Forest → Sample → Prop)
    (rf : Forest) (h : Reachable P ok rf) : rf.samples.Ascending := by
  induction h with
  | create n => simp [create, SampleMap.Ascending]
  | add rf s _ _ ih => rw [Forest.add_samples]; exact ih
  | remove rf sId _ ih => rw [Forest.remove_samples]; exact ih
  | commit rf rf1 _ hc ih => exact ascending_commit P rf rf1 ih hc

theorem MapSampleWalker.take_spec (m : SampleMap) :
    ∀ k, k ≤ m.length →
      MapSampleWalker.take k (MapSampleWalker.new m)
        = some ((m.take k).map Prod.snd, ⟨m.drop k⟩) := by
  induction m with
  | nil =>
    intro k hk
    have : k = 0 := by simpa using hk
    subst this
    rfl
  | cons e m ih =>
    intro k hk
    cases k with
    | zero => rfl
    | succ k =>
      have hk1 : k ≤ m.length := by simpa using hk
      have := ih k hk1
      unfold MapSampleWalker.new at this
      simp only [MapSampleWalker.take, MapSampleWalker.new, MapSampleWalker.get, this,
        List.take_succ_cons, List.map_cons, List.drop_succ_cons]

theorem pending_empty_of_reachable {F : Type} (P : Platform F) (ok : Forest → Sample → Prop)
    (rf : Forest) (h : Reachable P ok rf) :
    rf.changesToCommit = false → rf.toAdd = [] ∧ rf.toRemove = [] := by
  induction h with
  | create n => intro _; exact ⟨rfl, rfl⟩
  | add rf s _ _ _ =>
    intro hf
    rw [Forest.add_changesToCommit] at hf
    cases hf
  | remove rf sId _ ih =>
    unfold Forest.remove
    split
    · intro hf; cases hf
    · split
      · exact ih
      · split
        · exact ih
        · intro hf; cases hf
  | commit rf rf1 _ hc ih =>
    intro hf
    unfold Forest.commit at hc
    split at hc
    · cases hc
      exact ih hf
    · split at hc
      · cases hc
      · cases hc
        exact ⟨rfl, rfl⟩

theorem commit_pending_empty {F : Type} (P : Platform F) (ok : Forest → Sample → Prop)
    (rf rf1 : Forest) (h : Reachable P ok rf) (hc : rf.commit P = some rf1) :
    rf1.toAdd = [] ∧ rf1.toRemove = [] ∧ rf1.changesToCommit = false := by
  have hr1 : Reachable P ok rf1 := Reachable.commit rf rf1 h hc
  have hflag : rf1.changesToCommit = false := by
    unfold Forest.commit at hc
    split at hc
    · rename_i hf
      cases hc
      simpa using hf
    · split at hc
      · cases hc
      · cases hc
        rfl
  have := pending_empty_of_reachable P ok rf1 hr1 hflag
  exact ⟨this.1, this.2, hflag⟩

/-! ## Sets that keep the largest pairs -/

theorem pairLt_irrefl (a : RankPair) : pairLt a a = false := by
  rw [Bool.eq_false_iff, Ne, pairLt_iff]
  omega

theorem pairLt_trans (a b c : RankPair) (h1 : pairLt a b = true) (h2 : pairLt b c = true) :
    pairLt a c = true := by
  rw [pairLt_iff] at h1 h2 ⊢
  omega

theorem pairLt_total (a b : RankPair) (h1 : pairLt a b = false) (h2 : pairLt b a = false) :
    a = b := by
  rw [Bool.eq_false_iff, Ne, pairLt_iff] at h1 h2
  apply Prod.ext <;> omega

theorem pairLt_asymm (a b : RankPair) (h : pairLt a b = true) : pairLt b a = false := by
  rw [Bool.eq_false_iff, Ne, pairLt_iff]
  rw [pairLt_iff] at h
  omega

theorem pairGe_eq_not (a b : RankPair) : pairGe a b = !pairLt a b := rfl

theorem rankSorted_nodup (l : List RankPair) (h : RankSorted l) : l.Nodup := by
  unfold RankSorted at h
  refine h.imp ?_
  intro a b hab heq
  rw [heq, pairLt_irrefl] at hab
  cases hab

theorem rankSetInsert_sorted (p : RankPair) (l : List RankPair) (h : RankSorted l) :
    RankSorted (rankSetInsert p l) := by
  unfold RankSorted at *
  induction l with
  | nil => simp [rankSetInsert]
  | cons q l ih =>
    rw [List.pairwise_cons] at h
    unfold rankSetInsert
    split
    · rename_i hpq
      rw [List.pairwise_cons, List.pairwise_cons]
      refine ⟨?_, h.1, h.2⟩
      intro x hx
      rcases List.mem_cons.mp hx with hx1 | hx1
      · rw [hx1]; exact hpq
      · exact pairLt_trans _ _ _ hpq (h.1 x hx1)
    · split
      · rename_i _ hqp
        rw [List.pairwise_cons]
        refine ⟨?_, ih h.2⟩
        intro x hx
        rcases (mem_rankSetInsert p l x).mp hx with hx1 | hx1
        · rw [hx1]; exact hqp
        · exact h.1 x hx1
      · rw [List.pairwise_cons]
        exact h

theorem rankSetInsert_length (p : RankPair) (l : List RankPair) (hp : p ∉ l) :
    (rankSetInsert p l).length = l.length + 1 := by
  induction l with
  | nil => simp [rankSetInsert]
  | cons q l ih =>
    rw [List.mem_cons, not_or] at hp
    unfold rankSetInsert
    split
    · simp
    · split
      · simp [ih hp.2]
      · rename_i h1 h2
        exact absurd (pairLt_total p q (by simpa using h1) (by simpa using h2)) hp.1

theorem rankSetInsert_of_mem (p : RankPair) (l : List RankPair) (h : RankSorted l)
    (hp : p ∈ l) : rankSetInsert p l = l := by
  unfold RankSorted at h
  induction l with
  | nil => cases hp
  | cons q l ih =>
    rw [List.pairwise_cons] at h
    unfold rankSetInsert
    rcases List.mem_cons.mp hp with hpq | hpl
    · subst hpq
      simp [pairLt_irrefl]
    · have hqp := h.1 p hpl
      rw [pairLt_asymm q p hqp, hqp]
      simp [ih h.2 hpl]

theorem topInv_nil (K : Nat) : TopInv K [] [] := by
  constructor
  · exact List.Pairwise.nil
  · intro p hp; cases hp
  · simp
  · intro _ q hq; cases hq
  · intro q hq; cases hq

theorem keepTop_inv (K : Nat) (ranks done : List RankPair) (p : RankPair)
    (hp : p ∉ done) (h : TopInv K ranks done) : TopInv K (keepTop K ranks p) (p :: done) := by
  have hpr : p ∉ ranks := fun hm => hp (h.sub p hm)
  have hlen := rankSetInsert_length p ranks hpr
  have hsorted := rankSetInsert_sorted p ranks h.sorted
  have hle : ranks.length ≤ K := by
    rw [h.len]; exact Nat.min_le_left _ _
  unfold keepTop
  simp only
  split
  · rename_i hgt
    have hfull : ranks.length = K := by omega
    have hdone : K ≤ done.length := by
      have := h.len
      rw [hfull] at this
      omega
    cases hr : rankSetInsert p ranks with
    | nil => rw [hr] at hlen; simp at hlen
    | cons hd tl =>
      rw [hr] at hsorted hlen
      unfold RankSorted at hsorted
      rw [List.pairwise_cons] at hsorted
      have hmem : ∀ x, x ∈ hd :: tl ↔ x = p ∨ x ∈ ranks := by
        intro x
        rw [← hr]
        exact mem_rankSetInsert p ranks x
      simp only [List.tail_cons]
      constructor
      · exact hsorted.2
      · intro x hx
        rcases (hmem x).mp (List.mem_cons_of_mem _ hx) with h1 | h1
        · rw [h1]; exact List.mem_cons_self _ _
        · exact List.mem_cons_of_mem _ (h.sub x h1)
      · simp only [List.length_cons] at hlen ⊢
        omega
      · intro hlt
        simp only [List.length_cons] at hlen
        omega
      · intro q hq hqt x hx
        by_cases hqr : q ∈ hd :: tl
        · rcases List.mem_cons.mp hqr with h1 | h1
          · rw [h1]; exact hsorted.1 x hx
          · exact absurd h1 hqt
        · have hq1 : q ≠ p ∧ q ∉ ranks := by
            constructor
            · intro he; exact hqr ((hmem q).mpr (Or.inl he))
            · intro he; exact hqr ((hmem q).mpr (Or.inr he))
          have hqd : q ∈ done := by
            rcases List.mem_cons.mp hq with h1 | h1
            · exact absurd h1 hq1.1
            · exact h1
          rcases (hmem x).mp (List.mem_cons_of_mem _ hx) with h1 | h1
          · have hhd : hd ∈ ranks := by
              rcases (hmem hd).mp (List.mem_cons_self _ _) with h2 | h2
              · exfalso
                have := hsorted.1 x hx
                rw [h1, h2, pairLt_irrefl] at this
                cases this
              · exact h2
            have hlt1 := h.rest q hqd hq1.2 hd hhd
            have hlt2 := hsorted.1 x hx
            exact pairLt_trans _ _ _ hlt1 hlt2
          · exact h.rest q hqd hq1.2 x h1
  · rename_i hngt
    have hlt : ranks.length < K := by omega
    have hall := h.full hlt
    have hmem : ∀ x, x ∈ rankSetInsert p ranks ↔ x = p ∨ x ∈ ranks :=
      mem_rankSetInsert p ranks
    constructor
    · exact hsorted
    · intro x hx
      rcases (hmem x).mp hx with h1 | h1
      · rw [h1]; exact List.mem_cons_self _ _
      · exact List.mem_cons_of_mem _ (h.sub x h1)
    · have := h.len
      simp only [List.length_cons]
      omega
    · intro _ q hq
      rcases List.mem_cons.mp hq with h1 | h1
      · exact (hmem q).mpr (Or.inl h1)
      · exact (hmem q).mpr (Or.inr (hall q h1))
    · intro q hq hqn
      exfalso
      apply hqn
      rcases List.mem_cons.mp hq with h1 | h1
      · exact (hmem q).mpr (Or.inl h1)
      · exact (hmem q).mpr (Or.inr (hall q h1))

theorem keepTop_fold_inv (K : Nat) (L : List RankPair) :
    ∀ (ranks done : List RankPair), L.Nodup → (∀ p ∈ L, p ∉ done) → TopInv K ranks done →
      TopInv K (L.foldl (keepTop K) ranks) (L.reverse ++ done) := by
  induction L with
  | nil => intro ranks done _ _ h; simpa using h
  | cons p L ih =>
    intro ranks done hn hd h
    rw [List.nodup_cons] at hn
    rw [List.foldl_cons]
    have h1 := keepTop_inv K ranks done p (hd p (List.mem_cons_self _ _)) h
    have h2 := ih (keepTop K ranks p) (p :: done) hn.2 (by
      intro q hq hqd
      rcases List.mem_cons.mp hqd with h3 | h3
      · rw [h3] at hq; exact hn.1 hq
      · exact hd q (List.mem_cons_of_mem _ hq) h3) h1
    simpa using h2

/-- The set that the loop leaves for the list `L` of distinct pairs. -/
theorem keepTop_fold_spec (K : Nat) (L : List RankPair) (hn : L.Nodup) :
    RankSorted (L.foldl (keepTop K) [])
      ∧ (∀ p ∈ L.foldl (keepTop K) [], p ∈ L)
      ∧ (L.foldl (keepTop K) []).length = min K L.length
      ∧ (L.length ≤ K → ∀ q ∈ L, q ∈ L.foldl (keepTop K) [])
      ∧ (∀ q ∈ L, q ∉ L.foldl (keepTop K) [] → ∀ p ∈ L.foldl (keepTop K) [], pairLt q p = true) := by
  have h := keepTop_fold_inv K L [] [] hn (fun _ _ hm => by cases hm) (topInv_nil K)
  simp only [List.append_nil] at h
  refine ⟨h.sorted, ?_, ?_, ?_, ?_⟩
  · intro p hp
    exact List.mem_reverse.mp (h.sub p hp)
  · have := h.len
    simpa using this
  · intro hle q hq
    by_cases hlt : (L.foldl (keepTop K) []).length < K
    · exact h.full hlt q (List.mem_reverse.mpr hq)
    · -- the set has `K` elements, so `L` has exactly `K` and all are kept
      have hlen := h.len
      simp only [List.length_reverse] at hlen
      have hKL : L.length = K := by omega
      have hsub : (L.foldl (keepTop K) []) ⊆ L := fun p hp => List.mem_reverse.mp (h.sub p hp)
      have hnd := rankSorted_nodup _ h.sorted
      have hperm : List.Perm (L.foldl (keepTop K) []) L := by
        have hsp : List.Subperm (L.foldl (keepTop K) []) L := hnd.subperm hsub
        exact hsp.perm_of_length_le (by omega)
      exact hperm.mem_iff.mpr hq
  · intro q hq hqn p hp
    exact h.rest q (List.mem_reverse.mpr hq) hqn p hp

/-- The pairs of `L` at or above the smallest kept pair are the kept pairs. -/
theorem keepTop_threshold (K : Nat) (hK : 0 < K) (L : List RankPair) (hn : L.Nodup)
    (hlen : K ≤ L.length) :
    (L.foldl (keepTop K) []).headD (0, 0) ∈ L.foldl (keepTop K) []
      ∧ (∀ q ∈ L, pairGe q ((L.foldl (keepTop K) []).headD (0, 0)) = true
          ↔ q ∈ L.foldl (keepTop K) [])
      ∧ (L.filter (fun q => pairGe q ((L.foldl (keepTop K) []).headD (0, 0)))).length = K
      ∧ (L.filter (fun q => pairLt ((L.foldl (keepTop K) []).headD (0, 0)) q)).length
          = K - 1 := by
  obtain ⟨hs, hsub, hl, _, hrest⟩ := keepTop_fold_spec K L hn
  have hlK : (L.foldl (keepTop K) []).length = K := by omega
  cases hr : L.foldl (keepTop K) [] with
  | nil => rw [hr] at hlK; simp at hlK; omega
  | cons hd tl =>
    rw [hr] at hs hsub hl hrest hlK
    simp only [List.headD_cons]
    unfold RankSorted at hs
    have hs' := hs
    rw [List.pairwise_cons] at hs
    have hiff : ∀ q ∈ L, pairGe q hd = true ↔ q ∈ hd :: tl := by
      intro q hq
      constructor
      · intro hge
        by_contra hnot
        have := hrest q hq hnot hd (List.mem_cons_self _ _)
        rw [pairGe_eq_not, this] at hge
        cases hge
      · intro hm
        rcases List.mem_cons.mp hm with h1 | h1
        · rw [h1, pairGe_eq_not, pairLt_irrefl]; rfl
        · rw [pairGe_eq_not, pairLt_asymm hd q (hs.1 q h1)]; rfl
    have hiff2 : ∀ q ∈ L, pairLt hd q = true ↔ q ∈ tl := by
      intro q hq
      constructor
      · intro hlt
        have hge : pairGe q hd = true := by
          rw [pairGe_eq_not, pairLt_asymm hd q hlt]; rfl
        rcases List.mem_cons.mp ((hiff q hq).mp hge) with h1 | h1
        · rw [h1, pairLt_irrefl] at hlt; cases hlt
        · exact h1
      · intro hm
        exact hs.1 q hm
    refine ⟨List.mem_cons_self _ _, hiff, ?_, ?_⟩
    · have hperm : List.Perm (L.filter (fun q => pairGe q hd)) (hd :: tl) := by
        rw [List.perm_ext_iff_of_nodup (hn.filter _) (rankSorted_nodup _ hs')]
        intro q
        rw [List.mem_filter]
        constructor
        · rintro ⟨hq, hge⟩
          exact (hiff q hq).mp hge
        · intro hm
          exact ⟨hsub q hm, (hiff q (hsub q hm)).mpr hm⟩
      rw [hperm.length_eq]
      exact hlK
    · have hperm : List.Perm (L.filter (fun q => pairLt hd q)) tl := by
        rw [List.perm_ext_iff_of_nodup (hn.filter _) (rankSorted_nodup _ hs'.of_cons)]
        intro q
        rw [List.mem_filter]
        constructor
        · rintro ⟨hq, hlt⟩
          exact (hiff2 q hq).mp hlt
        · intro hm
          have hqL := hsub q (List.mem_cons_of_mem _ hm)
          exact ⟨hqL, (hiff2 q hqL).mpr hm⟩
      rw [hperm.length_eq]
      simp only [List.length_cons] at hlK
      omega

theorem entryPair_nodup (m : DCMap) (hn : (m.map Prod.fst).Nodup) :
    (m.map entryPair).Nodup := by
  have : (m.map entryPair).map Prod.snd = m.map Prod.fst := by
    rw [List.map_map]
    rfl
  rw [← this] at hn
  exact List.Nodup.of_map _ hn

theorem findMinRankToConsider_small (m : DCMap) (h : m.length ≤ maxCodesToConsider) :
    findMinRankToConsider m = (0, 0) := by
  unfold findMinRankToConsider
  rw [if_neg (by omega)]

theorem findMinRankToConsider_large (m : DCMap) (h : maxCodesToConsider < m.length) :
    findMinRankToConsider m
      = ((m.map entryPair).foldl (keepTop maxCodesToConsider) []).headD (0, 0) := by
  unfold findMinRankToConsider
  rw [if_pos h, List.foldl_map]
  rfl

/-! ## The keys of the table that a full recount builds -/

theorem rankStep_fst {F : Type} (P : Platform F) (id : Nat) (acc : List RankPair × RankPair)
    (code : Int) :
    (rankStep P id acc code).1
      = keepTop maxCodesToKeep acc.1 (codeRankInNode P code id, code) := by
  unfold rankStep keepTop
  simp only
  split <;> rfl

theorem rankFold_fst {F : Type} (P : Platform F) (id : Nat) (L : List Int) :
    ∀ acc : List RankPair × RankPair,
      (L.foldl (rankStep P id) acc).1
        = (L.map (fun c => (codeRankInNode P c id, c))).foldl (keepTop maxCodesToKeep) acc.1 := by
  induction L with
  | nil => intro acc; rfl
  | cons c L ih =>
    intro acc
    rw [List.foldl_cons, ih, List.map_cons, List.foldl_cons, rankStep_fst]

theorem rankSetInsert_length_le (p : RankPair) (l : List RankPair) :
    (rankSetInsert p l).length ≤ l.length + 1 := by
  induction l with
  | nil => simp [rankSetInsert]
  | cons q l ih =>
    unfold rankSetInsert
    split
    · simp
    · split
      · simp only [List.length_cons]
        omega
      · simp

theorem rankFold_small {F : Type} (P : Platform F) (id : Nat) (L : List Int) :
    ∀ acc : List RankPair × RankPair, acc.1.length + L.length ≤ maxCodesToKeep →
      (L.foldl (rankStep P id) acc).2 = acc.2 := by
  induction L with
  | nil => intro acc _; rfl
  | cons c L ih =>
    intro acc h
    rw [List.foldl_cons]
    simp only [List.length_cons] at h
    have hle := rankSetInsert_length_le (codeRankInNode P c id, c) acc.1
    have hstep : rankStep P id acc c
        = (rankSetInsert (codeRankInNode P c id, c) acc.1, acc.2) := by
      unfold rankStep
      simp only
      rw [if_neg (by omega)]
    rw [hstep]
    rw [ih _ (by simp only; omega)]

theorem DCMap.keys_insertNew_perm (code : Int) (dc : DecisionCounts) (m : DCMap) :
    List.Perm ((DCMap.insertNew code dc m).map Prod.fst) (code :: m.map Prod.fst) := by
  induction m with
  | nil => simp [DCMap.insertNew]
  | cons e m ih =>
    unfold DCMap.insertNew
    split
    · simp
    · simp only [List.map_cons]
      exact (List.Perm.cons e.1 ih).trans (List.Perm.swap _ _ _)

theorem fillStep_keys {F : Type} (P : Platform F) (id : Nat) (sw : List Sample) (m : DCMap)
    (rc : RankPair) (hnew : m.contains rc.2 = false) :
    List.Perm ((fillStep P id sw m rc).map Prod.fst) (rc.2 :: m.map Prod.fst) := by
  unfold fillStep
  simp only [hnew, Bool.false_eq_true, if_false]
  have : ∀ l : DCMap, (l.map (fun e =>
      if e.1 = rc.2 then (e.1, countCode rc.2 { e.2 with rank := codeRankInNode P rc.2 id } sw)
      else e)).map Prod.fst = l.map Prod.fst := by
    intro l
    rw [List.map_map]
    apply List.map_congr_left
    intro e _
    simp only [Function.comp]
    split <;> rfl
  rw [this]
  exact DCMap.keys_insertNew_perm _ _ _

theorem fillFold_keys {F : Type} (P : Platform F) (id : Nat) (sw : List Sample)
    (L : List RankPair) :
    ∀ (m0 : DCMap), (L.map Prod.snd).Nodup → (∀ e ∈ m0, e.1 ∉ L.map Prod.snd) →
      List.Perm ((L.foldl (fillStep P id sw) m0).map Prod.fst)
        (L.reverse.map Prod.snd ++ m0.map Prod.fst) := by
  induction L with
  | nil => intro m0 _ _; simp
  | cons rc L ih =>
    intro m0 hn hd
    rw [List.map_cons, List.nodup_cons] at hn
    rw [List.foldl_cons]
    have hnew : m0.contains rc.2 = false := by
      rw [DCMap.contains_false_iff]
      intro e he heq
      exact hd e he (by rw [heq]; exact List.mem_cons_self _ _)
    have hk := fillStep_keys P id sw m0 rc hnew
    have h1 := ih (fillStep P id sw m0 rc) hn.2 (by
      intro e he hmem
      have : e.1 ∈ (fillStep P id sw m0 rc).map Prod.fst := List.mem_map.mpr ⟨e, he, rfl⟩
      rcases List.mem_cons.mp (hk.mem_iff.mp this) with h2 | h2
      · rw [h2] at hmem
        exact hn.1 hmem
      · obtain ⟨e0, he0, hk0⟩ := List.mem_map.mp h2
        apply hd e0 he0
        rw [hk0]
        exact List.mem_cons_of_mem _ hmem)
    refine h1.trans ?_
    simp only [List.reverse_cons, List.map_append, List.map_cons, List.map_nil,
      List.append_assoc, List.singleton_append]
    exact List.Perm.append_left _ hk

/-- The pair `(rank, code)` of a code in the node `id`. -/
theorem rankPairs_nodup {F : Type} (P : Platform F) (id : Nat) (L : List Int) (hn : L.Nodup) :
    (L.map (fun c => (codeRankInNode P c id, c))).Nodup := by
  have : (L.map (fun c => (codeRankInNode P c id, c))).map Prod.snd = L := by
    rw [List.map_map]
    exact List.map_id _
  have h2 : ((L.map (fun c => (codeRankInNode P c id, c))).map Prod.snd).Nodup := by
    rw [this]; exact hn
  exact List.Nodup.of_map _ h2

theorem computeDecisionCounters_keys {F : Type} (P : Platform F) (id : Nat) (sw : List Sample) :
    List.Perm ((computeDecisionCounters P id sw).1.map Prod.fst)
        ((((findUsedCodes sw).map (fun c => (codeRankInNode P c id, c))).foldl
          (keepTop maxCodesToKeep) []).map Prod.snd)
      ∧ ((computeDecisionCounters P id sw).1.map Prod.fst).Nodup := by
  have hU : (findUsedCodes sw).Nodup := by
    refine (findUsedCodes_sorted sw).imp ?_
    intro a b hab
    omega
  have hpn := rankPairs_nodup P id _ hU
  obtain ⟨hs, hsub, _, _, _⟩ := keepTop_fold_spec maxCodesToKeep _ hpn
  have hcodes : ((((findUsedCodes sw).map (fun c => (codeRankInNode P c id, c))).foldl
      (keepTop maxCodesToKeep) []).map Prod.snd).Nodup := by
    have hnd := rankSorted_nodup _ hs
    refine List.Nodup.map_on ?_ hnd
    intro a ha b hb hab
    obtain ⟨ca, _, hca⟩ := List.mem_map.mp (hsub a ha)
    obtain ⟨cb, _, hcb⟩ := List.mem_map.mp (hsub b hb)
    rw [← hca, ← hcb] at hab ⊢
    simp only at hab
    rw [hab]
  have hk := fillFold_keys P id sw
    (((findUsedCodes sw).map (fun c => (codeRankInNode P c id, c))).foldl
      (keepTop maxCodesToKeep) []) [] hcodes (fun _ he => by cases he)
  have heq : (computeDecisionCounters P id sw).1
      = (((findUsedCodes sw).map (fun c => (codeRankInNode P c id, c))).foldl
          (keepTop maxCodesToKeep) []).foldl (fillStep P id sw) [] := by
    unfold computeDecisionCounters
    simp only
    rw [rankFold_fst]
  rw [heq]
  have hperm : List.Perm
      (((((findUsedCodes sw).map (fun c => (codeRankInNode P c id, c))).foldl
          (keepTop maxCodesToKeep) []).foldl (fillStep P id sw) []).map Prod.fst)
      ((((findUsedCodes sw).map (fun c => (codeRankInNode P c id, c))).foldl
          (keepTop maxCodesToKeep) []).map Prod.snd) := by
    refine hk.trans ?_
    simp only [List.map_nil, List.append_nil, List.map_reverse]
    exact List.reverse_perm _
  exact ⟨hperm, hperm.nodup_iff.mpr hcodes⟩

/-! ## The cap of the tables -/

theorem sync_length {F : Type} (P : Platform F) (id : Nat)
    (acc : DCMap × List RankPair × RankPair) (h : SyncInv P id acc) :
    acc.2.1.length = acc.1.length := by
  have hnd1 := rankSorted_nodup _ h.sorted
  have hnd2 := entryPair_nodup acc.1 h.keys
  have hperm : List.Perm acc.2.1 (acc.1.map entryPair) := by
    rw [List.perm_ext_iff_of_nodup hnd1 hnd2]
    intro p
    rw [h.sync, List.mem_map]
  simpa using hperm.length_eq

theorem insertStep_eq_core {F : Type} (P : Platform F) (id : Nat) (s : Sample)
    (direction : Int) (acc : DCMap × List RankPair × RankPair) (x : Int × ℚ) :
    insertStep P id s direction acc x = acc
      ∨ (acc.1.contains x.1 = false
        ∧ pairGe (codeRankInNode P x.1 id, x.1) acc.2.2 = true
        ∧ ∃ dc : DecisionCounts, dc.rank = codeRankInNode P x.1 id
          ∧ insertStep P id s direction acc x = insertCore acc.1 acc.2.1 acc.2.2 x.1 dc) := by
  by_cases hc : acc.1.contains x.1 = true
  · left
    unfold insertStep
    rw [if_pos hc]
  · by_cases hge : pairGe (codeRankInNode P x.1 id, x.1) acc.2.2 = true
    · right
      refine ⟨by simpa using hc, hge, ?_⟩
      by_cases hy : s.y ≥ 1 / 2 <;> by_cases hv : x.2 ≥ 1 / 2
      · exact ⟨⟨0, addDirection 0 direction, codeRankInNode P x.1 id⟩, rfl, by
          simp only [insertStep, insertCore, if_neg hc, if_pos hge, hy, hv, if_true, if_false]⟩
      · exact ⟨⟨0, 0, codeRankInNode P x.1 id⟩, rfl, by
          simp only [insertStep, insertCore, if_neg hc, if_pos hge, hy, hv, if_true, if_false]⟩
      · exact ⟨⟨addDirection 0 direction, 0, codeRankInNode P x.1 id⟩, rfl, by
          simp only [insertStep, insertCore, if_neg hc, if_pos hge, hy, hv, if_true, if_false]⟩
      · exact ⟨⟨0, 0, codeRankInNode P x.1 id⟩, rfl, by
          simp only [insertStep, insertCore, if_neg hc, if_pos hge, hy, hv, if_true, if_false]⟩
    · left
      unfold insertStep
      rw [if_neg hc]
      simp only
      rw [if_neg hge]

theorem DCMap.keys_nodup_insertNew (code : Int) (dc : DecisionCounts) (m : DCMap)
    (hn : (m.map Prod.fst).Nodup) (hnc : m.contains code = false) :
    ((DCMap.insertNew code dc m).map Prod.fst).Nodup := by
  rw [(DCMap.keys_insertNew_perm code dc m).nodup_iff, List.nodup_cons]
  refine ⟨?_, hn⟩
  intro hmem
  obtain ⟨e, he, hk⟩ := List.mem_map.mp hmem
  rw [DCMap.contains_false_iff] at hnc
  exact hnc e he hk

theorem DCMap.keys_nodup_erase (m : DCMap) (code : Int) (hn : (m.map Prod.fst).Nodup) :
    ((m.erase code).map Prod.fst).Nodup := by
  unfold DCMap.erase
  exact hn.sublist ((List.filter_sublist _).map Prod.fst)

theorem DCMap.eq_of_key_eq (m : DCMap) (hn : (m.map Prod.fst).Nodup)
    (a b : Int × DecisionCounts) (ha : a ∈ m) (hb : b ∈ m) (h : a.1 = b.1) : a = b := by
  induction m with
  | nil => cases ha
  | cons e m ih =>
    rw [List.map_cons, List.nodup_cons] at hn
    rcases List.mem_cons.mp ha with ha1 | ha1 <;> rcases List.mem_cons.mp hb with hb1 | hb1
    · rw [ha1, hb1]
    · exfalso
      apply hn.1
      rw [← ha1, h]
      exact List.mem_map.mpr ⟨b, hb1, rfl⟩
    · exfalso
      apply hn.1
      rw [← hb1, ← h]
      exact List.mem_map.mpr ⟨a, ha1, rfl⟩
    · exact ih hn.2 ha1 hb1

/-- The insertion of a new code keeps the set `ranks` and the table in step; when
a pair is evicted it is the pair of an entry, and the watermark is raised past it. -/
theorem insertCore_sync {F : Type} (P : Platform F) (id : Nat) (m : DCMap)
    (ranks : List RankPair) (mvr : RankPair) (code : Int) (dc : DecisionCounts)
    (hrank : dc.rank = codeRankInNode P code id) (hnc : m.contains code = false)
    (h : SyncInv P id (m, ranks, mvr)) :
    SyncInv P id (insertCore m ranks mvr code dc)
      ∧ (∀ c, (insertCore m ranks mvr code dc).1.contains c = true →
          c = code ∨ m.contains c = true)
      ∧ (∀ c, (c = code ∨ m.contains c = true) →
          (insertCore m ranks mvr code dc).1.contains c = false →
          pairLt (codeRankInNode P c id, c) (insertCore m ranks mvr code dc).2.2 = true) := by
  have hkeys1 := DCMap.keys_nodup_insertNew code dc m h.keys hnc
  have hmem1 := DCMap.mem_insertCode code dc m
  have hnew : (dc.rank, code) ∉ ranks := by
    intro hm
    obtain ⟨e, he, hpe⟩ := (h.sync _).mp hm
    rw [DCMap.contains_false_iff] at hnc
    apply hnc e he
    have := congrArg Prod.snd hpe
    exact this
  have hlen1 := rankSetInsert_length (dc.rank, code) ranks hnew
  have hsorted1 := rankSetInsert_sorted (dc.rank, code) ranks h.sorted
  have hmemr := mem_rankSetInsert (dc.rank, code) ranks
  have hsync1 : ∀ p, p ∈ rankSetInsert (dc.rank, code) ranks
      ↔ ∃ e ∈ DCMap.insertNew code dc m, entryPair e = p := by
    intro p
    rw [hmemr]
    constructor
    · rintro (h1 | h1)
      · exact ⟨(code, dc), (hmem1 _).mpr (Or.inl rfl), h1.symm⟩
      · obtain ⟨e, he, hpe⟩ := (h.sync p).mp h1
        exact ⟨e, (hmem1 _).mpr (Or.inr he), hpe⟩
    · rintro ⟨e, he, hpe⟩
      rcases (hmem1 e).mp he with h1 | h1
      · left
        rw [← hpe, h1]
        rfl
      · right
        exact (h.sync p).mpr ⟨e, h1, hpe⟩
  have hgen1 : ∀ e ∈ DCMap.insertNew code dc m, e.2.rank = codeRankInNode P e.1 id := by
    intro e he
    rcases (hmem1 e).mp he with h1 | h1
    · rw [h1]; exact hrank
    · exact h.genuine e h1
  have hcap := h.cap
  simp only at hcap
  unfold insertCore
  simp only
  split
  · rename_i hgt
    cases hr : rankSetInsert (dc.rank, code) ranks with
    | nil => rw [hr] at hlen1; simp at hlen1
    | cons b tl =>
      rw [hr] at hsorted1 hlen1 hsync1
      simp only [List.headD_cons, List.tail_cons]
      unfold RankSorted at hsorted1
      rw [List.pairwise_cons] at hsorted1
      obtain ⟨eb, heb, hpb⟩ := (hsync1 b).mp (List.mem_cons_self _ _)
      have hb2 : eb.1 = b.2 := congrArg Prod.snd hpb
      have hb1 : eb.2.rank = b.1 := congrArg Prod.fst hpb
      have hmem2 := DCMap.mem_eraseCode (DCMap.insertNew code dc m) b.2
      have hsync2 : ∀ p, p ∈ tl ↔ ∃ e ∈ (DCMap.insertNew code dc m).erase b.2,
          entryPair e = p := by
        intro p
        constructor
        · intro hp
          obtain ⟨e, he, hpe⟩ := (hsync1 p).mp (List.mem_cons_of_mem _ hp)
          refine ⟨e, (hmem2 e).mpr ⟨he, ?_⟩, hpe⟩
          intro hk
          have hee : e = eb := DCMap.eq_of_key_eq _ hkeys1 e eb he heb (by rw [hk, hb2])
          have hlt := hsorted1.1 p hp
          rw [← hpe, hee, hpb, pairLt_irrefl] at hlt
          cases hlt
        · rintro ⟨e, he, hpe⟩
          obtain ⟨he1, hne⟩ := (hmem2 e).mp he
          rcases List.mem_cons.mp ((hsync1 p).mpr ⟨e, he1, hpe⟩) with h1 | h1
          · exfalso
            apply hne
            rw [← h1, ← hpe]
            rfl
          · exact h1
      refine ⟨⟨DCMap.keys_nodup_erase _ _ hkeys1, hsorted1.2, hsync2, ?_, ?_⟩, ?_, ?_⟩
      · simp only [List.length_cons] at hlen1
        simp only
        omega
      · intro e he
        exact hgen1 e ((hmem2 e).mp he).1
      · intro c hc
        rw [DCMap.contains_eraseCode, DCMap.contains_insertNew] at hc
        simp only [Bool.and_eq_true, Bool.or_eq_true, decide_eq_true_eq] at hc
        exact hc.2
      · intro c hc hnot
        rw [DCMap.contains_eraseCode, DCMap.contains_insertNew] at hnot
        have hcb : c = b.2 := by
          by_contra hne
          have : (decide (c = code) || m.contains c) = true := by
            rcases hc with h1 | h1
            · simp [h1]
            · simp [h1]
          simp [hne, this] at hnot
        have hrc : codeRankInNode P c id = b.1 := by
          rw [← hb1, hgen1 eb heb, hb2, hcb]
        apply pairLt_pairMax_right
        rw [hrc, hcb]
        exact pairLt_succ b.1 b.2 b.2 (le_refl _)
  · rename_i hngt
    refine ⟨⟨hkeys1, hsorted1, hsync1, ?_, hgen1⟩, ?_, ?_⟩
    · simp only
      omega
    · intro c hc
      simp only at hc
      rw [DCMap.contains_insertNew] at hc
      simpa using hc
    · intro c hc hnot
      exfalso
      simp only at hnot
      rw [DCMap.contains_insertNew] at hnot
      rcases hc with h1 | h1
      · simp [h1] at hnot
      · simp [h1] at hnot

theorem pairMax_ge_left (a b : RankPair) : pairLt (pairMax a b) a = false := by
  unfold pairMax
  split
  · rename_i h
    exact pairLt_asymm a b h
  · exact pairLt_irrefl a

theorem pairLt_of_lt_of_ge (q a b : RankPair) (h1 : pairLt q a = true)
    (h2 : pairLt b a = false) : pairLt q b = true := by
  rw [pairLt_iff] at h1 ⊢
  rw [Bool.eq_false_iff, Ne, pairLt_iff] at h2
  omega

theorem pairGe_of_ge_of_ge (q a b : RankPair) (h1 : pairGe q b = true)
    (h2 : pairLt b a = false) : pairGe q a = true := by
  rw [pairGe_iff] at h1 ⊢
  rw [Bool.eq_false_iff, Ne, pairLt_iff] at h2
  omega

theorem pairLt_ge_trans (c b a : RankPair) (h1 : pairLt c b = false)
    (h2 : pairLt b a = false) : pairLt c a = false := by
  rw [Bool.eq_false_iff, Ne, pairLt_iff] at h1 h2 ⊢
  omega

/-- One iteration of the insertion loop: the set and the table stay in step, the
watermark does not decrease, a code enters the table only at or above the
watermark, and a code that leaves the table is below the new watermark. -/
theorem insertStep_sync {F : Type} (P : Platform F) (id : Nat) (s : Sample) (direction : Int)
    (acc : DCMap × List RankPair × RankPair) (x : Int × ℚ) (h : SyncInv P id acc) :
    SyncInv P id (insertStep P id s direction acc x)
      ∧ pairLt (insertStep P id s direction acc x).2.2 acc.2.2 = false
      ∧ (∀ c, (insertStep P id s direction acc x).1.contains c = true →
          acc.1.contains c = true
            ∨ (c = x.1 ∧ pairGe (codeRankInNode P c id, c) acc.2.2 = true))
      ∧ (∀ c, acc.1.contains c = true →
          (insertStep P id s direction acc x).1.contains c = false →
          pairLt (codeRankInNode P c id, c) (insertStep P id s direction acc x).2.2 = true) := by
  rcases insertStep_eq_core P id s direction acc x with heq | ⟨hnc, hge, dc, hrank, heq⟩
  · rw [heq]
    refine ⟨h, pairLt_irrefl _, fun c hc => Or.inl hc, ?_⟩
    intro c hc hn
    rw [hc] at hn
    cases hn
  · rw [heq]
    obtain ⟨hs, hgate, hev⟩ := insertCore_sync P id acc.1 acc.2.1 acc.2.2 x.1 dc hrank hnc h
    refine ⟨hs, ?_, ?_, ?_⟩
    · unfold insertCore
      simp only
      split
      · exact pairMax_ge_left _ _
      · exact pairLt_irrefl _
    · intro c hc
      rcases hgate c hc with h1 | h1
      · right
        rw [h1]
        exact ⟨rfl, hge⟩
      · exact Or.inl h1
    · intro c hc hn
      exact hev c (Or.inr hc) hn

/-- A code that is not in the table and is below the watermark stays so. -/
theorem insertStep_blocked {F : Type} (P : Platform F) (id : Nat) (s : Sample) (direction : Int)
    (acc : DCMap × List RankPair × RankPair) (x : Int × ℚ) (h : SyncInv P id acc) (c : Int)
    (hc : acc.1.contains c = false)
    (hlt : pairLt (codeRankInNode P c id, c) acc.2.2 = true) :
    (insertStep P id s direction acc x).1.contains c = false
      ∧ pairLt (codeRankInNode P c id, c) (insertStep P id s direction acc x).2.2 = true := by
  obtain ⟨_, hmono, hgate, _⟩ := insertStep_sync P id s direction acc x h
  constructor
  · rw [Bool.eq_false_iff]
    intro hin
    rcases hgate c hin with h1 | h1
    · rw [hc] at h1; cases h1
    · have := h1.2
      rw [pairGe_eq_not, hlt] at this
      cases this
  · exact pairLt_of_lt_of_ge _ _ _ hlt hmono

theorem insertFold_sync {F : Type} (P : Platform F) (id : Nat) (s : Sample) (direction : Int)
    (L : List (Int × ℚ)) :
    ∀ acc : DCMap × List RankPair × RankPair, SyncInv P id acc →
      SyncInv P id (L.foldl (insertStep P id s direction) acc)
        ∧ pairLt (L.foldl (insertStep P id s direction) acc).2.2 acc.2.2 = false
        ∧ (∀ c, (L.foldl (insertStep P id s direction) acc).1.contains c = true →
            acc.1.contains c = true ∨ pairGe (codeRankInNode P c id, c) acc.2.2 = true)
        ∧ (∀ c, acc.1.contains c = false →
            pairLt (codeRankInNode P c id, c) acc.2.2 = true →
            (L.foldl (insertStep P id s direction) acc).1.contains c = false
              ∧ pairLt (codeRankInNode P c id, c)
                  (L.foldl (insertStep P id s direction) acc).2.2 = true)
        ∧ (∀ c, acc.1.contains c = true →
            (L.foldl (insertStep P id s direction) acc).1.contains c = false →
            pairLt (codeRankInNode P c id, c)
              (L.foldl (insertStep P id s direction) acc).2.2 = true) := by
  induction L with
  | nil =>
    intro acc h
    refine ⟨h, pairLt_irrefl _, fun c hc => Or.inl hc, fun c hc hlt => ⟨hc, hlt⟩, ?_⟩
    intro c hc hn
    simp only [List.foldl_nil] at hn
    rw [hc] at hn
    cases hn
  | cons x L ih =>
    intro acc h
    rw [List.foldl_cons]
    obtain ⟨hs1, hmono1, hgate1, hev1⟩ := insertStep_sync P id s direction acc x h
    obtain ⟨hs2, hmono2, hgate2, hblock2, hev2⟩ := ih _ hs1
    refine ⟨hs2, pairLt_ge_trans _ _ _ hmono2 hmono1, ?_, ?_, ?_⟩
    · intro c hc
      rcases hgate2 c hc with h1 | h1
      · rcases hgate1 c h1 with h2 | h2
        · exact Or.inl h2
        · exact Or.inr h2.2
      · exact Or.inr (pairGe_of_ge_of_ge _ _ _ h1 hmono1)
    · intro c hc hlt
      obtain ⟨h1, h2⟩ := insertStep_blocked P id s direction acc x h c hc hlt
      exact hblock2 c h1 h2
    · intro c hc hn
      cases hin : (insertStep P id s direction acc x).1.contains c with
      | true => exact hev2 c hin hn
      | false => exact (hblock2 c hin (hev1 c hc hin)).2

theorem bumpCounts_rank (dc : DecisionCounts) (s : Sample) (code : Int) (direction : Int) :
    (bumpCounts dc s code direction).rank = dc.rank := by
  unfold bumpCounts
  split
  · rfl
  · split_ifs <;> rfl

theorem filterMap_bump_keys (s : Sample) (direction : Int) (m : DCMap) :
    ((m.filterMap (bumpEntry s direction)).map Prod.fst).Sublist (m.map Prod.fst)
      ∧ ∀ e1 ∈ m.filterMap (bumpEntry s direction),
          ∃ e ∈ m, e1.1 = e.1 ∧ e1.2.rank = e.2.rank := by
  induction m with
  | nil =>
    refine ⟨by simp, ?_⟩
    intro e1 he1
    simp at he1
  | cons e m ih =>
    have hb : bumpEntry s direction e = none
        ∨ bumpEntry s direction e = some (e.1, bumpCounts e.2 s e.1 direction) := by
      unfold bumpEntry
      simp only
      split
      · exact Or.inl rfl
      · exact Or.inr rfl
    rcases hb with hb | hb
    · rw [List.filterMap_cons_none hb]
      refine ⟨ih.1.trans (List.sublist_cons_self _ _), ?_⟩
      intro e1 he1
      obtain ⟨e0, he0, h0⟩ := ih.2 e1 he1
      exact ⟨e0, List.mem_cons_of_mem _ he0, h0⟩
    · rw [List.filterMap_cons_some hb]
      refine ⟨?_, ?_⟩
      · simp only [List.map_cons]
        exact ih.1.cons₂ _
      · intro e1 he1
        rcases List.mem_cons.mp he1 with h1 | h1
        · refine ⟨e, List.mem_cons_self _ _, ?_, ?_⟩
          · rw [h1]
          · rw [h1]
            exact bumpCounts_rank _ _ _ _
        · obtain ⟨e0, he0, h0⟩ := ih.2 e1 h1
          exact ⟨e0, List.mem_cons_of_mem _ he0, h0⟩

theorem rankFold_sorted (L : DCMap) :
    ∀ r0 : List RankPair, RankSorted r0 →
      RankSorted (L.foldl (fun (ranks : List RankPair) e =>
        rankSetInsert (e.2.rank, e.1) ranks) r0) := by
  induction L with
  | nil => intro r0 h; exact h
  | cons e L ih =>
    intro r0 h
    rw [List.foldl_cons]
    exact ih _ (rankSetInsert_sorted _ _ h)

/-- The state in which the insertion loop of `updateDecisionCounters` starts. -/
theorem sync_start {F : Type} (P : Platform F) (id : Nat) (m : DCMap) (mvr : RankPair)
    (h : TableOK P id m) :
    SyncInv P id (m, m.foldl (fun (ranks : List RankPair) e =>
      rankSetInsert (e.2.rank, e.1) ranks) [], mvr) := by
  have hsorted := rankFold_sorted m [] List.Pairwise.nil
  have hmem : ∀ p, p ∈ m.foldl (fun (ranks : List RankPair) e =>
      rankSetInsert (e.2.rank, e.1) ranks) [] ↔ ∃ e ∈ m, entryPair e = p := by
    intro p
    rw [mem_foldl_rankSetInsert]
    constructor
    · rintro (h1 | ⟨e, he, hp⟩)
      · cases h1
      · exact ⟨e, he, hp.symm⟩
    · rintro ⟨e, he, hp⟩
      exact Or.inr ⟨e, he, hp.symm⟩
  refine ⟨h.1, hsorted, hmem, ?_, h.2.2⟩
  have hperm : List.Perm (m.foldl (fun (ranks : List RankPair) e =>
      rankSetInsert (e.2.rank, e.1) ranks) []) (m.map entryPair) := by
    rw [List.perm_ext_iff_of_nodup (rankSorted_nodup _ hsorted) (entryPair_nodup m h.1)]
    intro p
    rw [hmem, List.mem_map]
  have := hperm.length_eq
  rw [List.length_map] at this
  simp only
  rw [this]
  exact h.2.1

theorem tableOK_filterMap {F : Type} (P : Platform F) (id : Nat) (m : DCMap) (s : Sample)
    (direction : Int) (h : TableOK P id m) :
    TableOK P id (m.filterMap (bumpEntry s direction)) := by
  obtain ⟨hsub, hmem⟩ := filterMap_bump_keys s direction m
  refine ⟨h.1.sublist hsub, ?_, ?_⟩
  · have := hsub.length_le
    rw [List.length_map, List.length_map] at this
    exact le_trans this h.2.1
  · intro e1 he1
    obtain ⟨e, he, hk, hr⟩ := hmem e1 he1
    rw [hr, hk]
    exact h.2.2 e he

theorem contains_filterMap_sub (s : Sample) (direction : Int) (m : DCMap) (c : Int)
    (h : DCMap.contains (m.filterMap (bumpEntry s direction)) c = true) :
    m.contains c = true := by
  rw [DCMap.contains_iff] at h ⊢
  obtain ⟨e1, he1, hk⟩ := h
  obtain ⟨e, he, hk1, _⟩ := (filterMap_bump_keys s direction m).2 e1 he1
  exact ⟨e, he, by rw [← hk1, hk]⟩

/-- An incremental counter update keeps the table of a node within the cap, does
not lower the watermark, admits a code only at or above the watermark, and
leaves a code that an addition takes out of the table below the watermark. -/
theorem incrementalStep_spec {F : Type} (P : Platform F) (d : NodeData) (st : Sample × Bool)
    (h : TableOK P d.id d.decisionCountMap) :
    (incrementalStep P d st).id = d.id
      ∧ TableOK P d.id (incrementalStep P d st).decisionCountMap
      ∧ pairLt (incrementalStep P d st).minValidRank d.minValidRank = false
      ∧ (∀ c, (incrementalStep P d st).decisionCountMap.contains c = true →
          d.decisionCountMap.contains c = true
            ∨ (st.2 = true ∧ pairGe (codeRankInNode P c d.id, c) d.minValidRank = true))
      ∧ (∀ c, d.decisionCountMap.contains c = false →
          pairLt (codeRankInNode P c d.id, c) d.minValidRank = true →
          (incrementalStep P d st).decisionCountMap.contains c = false
            ∧ pairLt (codeRankInNode P c d.id, c) (incrementalStep P d st).minValidRank = true)
      ∧ (st.2 = true → ∀ c, d.decisionCountMap.contains c = true →
          (incrementalStep P d st).decisionCountMap.contains c = false →
          pairLt (codeRankInNode P c d.id, c) (incrementalStep P d st).minValidRank = true) := by
  obtain ⟨s, b⟩ := st
  cases b with
  | false =>
    have heq : incrementalStep P d (s, false)
        = { d with decisionCountMap := d.decisionCountMap.filterMap (bumpEntry s (-1)) } := by
      unfold incrementalStep
      simp only [Bool.false_eq_true, if_false]
      exact updateDecisionCounters_remove P d s
    rw [heq]
    refine ⟨rfl, tableOK_filterMap P d.id _ s (-1) h, pairLt_irrefl _, ?_, ?_, ?_⟩
    · intro c hc
      exact Or.inl (contains_filterMap_sub s (-1) _ c hc)
    · intro c hc hlt
      refine ⟨?_, hlt⟩
      rw [Bool.eq_false_iff]
      intro hin
      rw [contains_filterMap_sub s (-1) _ c hin] at hc
      cases hc
    · intro hb
      cases hb
  | true =>
    have heq : incrementalStep P d (s, true) = updateDecisionCounters P d s 1 := by
      unfold incrementalStep
      simp
    rw [heq, updateDecisionCounters_add]
    have h1 := tableOK_filterMap P d.id _ s 1 h
    have hstart := sync_start P d.id _ d.minValidRank h1
    obtain ⟨hs, hmono, hgate, hblock, hev⟩ :=
      insertFold_sync P d.id s 1 s.xCodes _ hstart
    have hlen := sync_length P d.id _ hs
    refine ⟨rfl, ⟨hs.keys, ?_, hs.genuine⟩, hmono, ?_, ?_, ?_⟩
    · have hcap := hs.cap
      show (s.xCodes.foldl (insertStep P d.id s 1) _).1.length ≤ maxCodesToKeep
      rw [← hlen]
      exact hcap
    · intro c hc
      rcases hgate c hc with h2 | h2
      · left
        rw [contains_filterMap_bump_add] at h2
        exact h2
      · exact Or.inr ⟨rfl, h2⟩
    · intro c hc hlt
      exact hblock c (by rw [contains_filterMap_bump_add]; exact hc) hlt
    · intro _ c hc hn
      exact hev c (by rw [contains_filterMap_bump_add]; exact hc) hn

/-! ## Every table of a reachable forest is within the cap -/

theorem tableOK_recount {F : Type} (P : Platform F) (id : Nat) (sw : List Sample) :
    TableOK P id (computeDecisionCounters P id sw).1 := by
  obtain ⟨hperm, hnd⟩ := computeDecisionCounters_keys P id sw
  have hU : (findUsedCodes sw).Nodup := by
    refine (findUsedCodes_sorted sw).imp ?_
    intro a b hab
    omega
  have hpn := rankPairs_nodup P id _ hU
  obtain ⟨_, _, hlen, _, _⟩ := keepTop_fold_spec maxCodesToKeep _ hpn
  obtain ⟨_, _, hent, _⟩ := computeDecisionCounters_spec P id sw
  refine ⟨hnd, ?_, ?_⟩
  · have h1 := hperm.length_eq
    rw [List.length_map, List.length_map] at h1
    rw [h1, hlen]
    exact Nat.min_le_left _ _
  · intro e he
    rw [(hent e he).1]
    exact (countCode_spec e.1 sw ⟨0, 0, codeRankInNode P e.1 id⟩).1

theorem incrementalStep_remove {F : Type} (P : Platform F) (d : NodeData) (s : Sample) :
    incrementalStep P d (s, false) = updateDecisionCounters P d s (-1) := by
  unfold incrementalStep
  simp

theorem incrementalStep_add {F : Type} (P : Platform F) (d : NodeData) (s : Sample) :
    incrementalStep P d (s, true) = updateDecisionCounters P d s 1 := by
  unfold incrementalStep
  simp

theorem tableOK_removeFold {F : Type} (P : Platform F) (R : List Sample) :
    ∀ d : NodeData, TableOK P d.id d.decisionCountMap →
      (R.foldl (fun (d : NodeData) s => updateDecisionCounters P d s (-1)) d).id = d.id
        ∧ TableOK P d.id
            (R.foldl (fun (d : NodeData) s => updateDecisionCounters P d s (-1)) d).decisionCountMap := by
  induction R with
  | nil => intro d h; exact ⟨rfl, h⟩
  | cons s R ih =>
    intro d h
    rw [List.foldl_cons]
    obtain ⟨hid, hok, _⟩ := incrementalStep_spec P d (s, false) h
    rw [incrementalStep_remove] at hid hok
    have := ih (updateDecisionCounters P d s (-1)) (by rw [hid]; exact hok)
    rw [hid] at this
    exact this

theorem tableOK_addFold {F : Type} (P : Platform F) (A : List Sample) :
    ∀ d : NodeData, TableOK P d.id d.decisionCountMap →
      (A.foldl (fun (d : NodeData) s => updateDecisionCounters P d s 1) d).id = d.id
        ∧ TableOK P d.id
            (A.foldl (fun (d : NodeData) s => updateDecisionCounters P d s 1) d).decisionCountMap := by
  induction A with
  | nil => intro d h; exact ⟨rfl, h⟩
  | cons s A ih =>
    intro d h
    rw [List.foldl_cons]
    obtain ⟨hid, hok, _⟩ := incrementalStep_spec P d (s, true) h
    rw [incrementalStep_add] at hid hok
    have := ih (updateDecisionCounters P d s 1) (by rw [hid]; exact hok)
    rw [hid] at this
    exact this

theorem tableOK_applyBatches {F : Type} (P : Platform F) (d : NodeData) (A R : List Sample)
    (h : TableOK P d.id d.decisionCountMap) :
    (applyBatches P d A R).id = d.id
      ∧ TableOK P d.id (applyBatches P d A R).decisionCountMap := by
  obtain ⟨hid1, hok1⟩ := tableOK_removeFold P R d h
  have h2 := tableOK_addFold P A
    { (R.foldl (fun (d : NodeData) s => updateDecisionCounters P d s (-1)) d) with
      c1 := subU32 (R.foldl (fun (d : NodeData) s => updateDecisionCounters P d s (-1)) d).c1
        (splitListByTarget R).2.length,
      c0 := subU32 (R.foldl (fun (d : NodeData) s => updateDecisionCounters P d s (-1)) d).c0
        (splitListByTarget R).1.length } (by
      simp only
      rw [hid1]
      exact hok1)
  simp only at h2
  have key : ∀ T : DCMap,
      TableOK P (R.foldl (fun (d : NodeData) s => updateDecisionCounters P d s (-1)) d).id T
        ↔ TableOK P d.id T := by
    intro T
    rw [hid1]
  unfold applyBatches
  simp only
  exact ⟨h2.1.trans hid1, (key _).mp h2.2⟩

theorem updateNodeCounters_tableOK {F : Type} (P : Platform F) (dt : DecisionTreeNode)
    (A R : List Sample) (d : NodeData) (h : TableOK P dt.data.id dt.data.decisionCountMap)
    (hu : updateNodeCounters P dt A R = some d) :
    d.id = dt.data.id ∧ TableOK P d.id d.decisionCountMap := by
  obtain ⟨hid, hok⟩ := tableOK_applyBatches P dt.data A R h
  unfold updateNodeCounters at hu
  simp only at hu
  split at hu
  · rw [walkSamples_eq] at hu
    simp only [Option.some.injEq] at hu
    rw [← hu]
    exact ⟨hid, tableOK_recount P _ _⟩
  · simp only [Option.some.injEq] at hu
    rw [← hu]
    exact ⟨hid, by rw [hid]; exact hok⟩

theorem capped_root {F : Type} (P : Platform F) (dt : DecisionTreeNode) (h : Capped P dt) :
    TableOK P dt.data.id dt.data.decisionCountMap := by
  cases dt with
  | leaf d v samples => exact h
  | internal code d negative positive => exact h.1

theorem capped_updateSamples {F : Type} (P : Platform F) (dt : DecisionTreeNode) :
    ∀ (A R : List Sample), Capped P dt → Capped P (updateDecisionTreeSamples dt A R) := by
  induction dt with
  | leaf d v samples =>
    intro A R h
    simpa [updateDecisionTreeSamples, Capped] using h
  | internal code d negative positive ihn ihp =>
    intro A R h
    rw [updateDecisionTreeSamples_internal]
    exact ⟨h.1, ihn _ _ h.2.1, ihp _ _ h.2.2⟩

theorem capped_setupLeaf {F : Type} (P : Platform F) (d : NodeData) (L : List Sample)
    (lf : DecisionTreeNode) (h : setupLeafFromSamples P d L = some lf) : Capped P lf := by
  rw [setupLeafFromSamples_eq] at h
  cases h
  exact tableOK_recount P _ _

theorem splitNode_capped {F : Type} (P : Platform F)
    (cascade : Nat → DecisionTreeNode → Option (Nat × DecisionTreeNode))
    (ts : Nat) (d : NodeData) (code : Int) (sw : List Sample) (r : Nat × DecisionTreeNode)
    (hcasc : ∀ tsa l r1, cascade tsa l = some r1 → Capped P l → Capped P r1.2)
    (hd : TableOK P d.id d.decisionCountMap)
    (h : splitNode P cascade ts d code sw = some r) : Capped P r.2 := by
  unfold splitNode at h
  simp only at h
  split at h
  · cases h
  · rw [setupLeafFromSamples_eq, setupLeafFromSamples_eq] at h
    simp only at h
    split at h
    · cases h
    · rename_i tsa negative hneg
      split at h
      · cases h
      · rename_i tsb positive hpos
        cases h
        exact ⟨hd, hcasc _ _ _ hneg (tableOK_recount P _ _),
          hcasc _ _ _ hpos (tableOK_recount P _ _)⟩

theorem splitLeafIfPossible_capped {F : Type} (P : Platform F) (fuel : Nat) :
    ∀ (ts : Nat) (dt : DecisionTreeNode) (r : Nat × DecisionTreeNode),
      splitLeafIfPossible P fuel ts dt = some r → Capped P dt → Capped P r.2 := by
  induction fuel with
  | zero =>
    intro ts dt r h hs
    unfold splitLeafIfPossible at h
    simp only at h
    split at h
    · cases h
    · cases h
      exact hs
  | succ fuel ih =>
    intro ts dt r h hs
    unfold splitLeafIfPossible at h
    simp only at h
    split at h
    · rw [walkSamples_eq] at h
      simp only at h
      exact splitNode_capped P _ _ _ _ _ r (fun tsa l r1 hc hl => ih tsa l r1 hc hl)
        (capped_root P dt hs) h
    · cases h
      exact hs

theorem updateDecisionTreeNode_capped {F : Type} (P : Platform F) (dt : DecisionTreeNode) :
    ∀ (ts : Nat) (A R : List Sample) (r : Nat × DecisionTreeNode),
      Capped P dt → updateDecisionTreeNode P dt ts A R = some r → Capped P r.2 := by
  induction dt with
  | leaf d0 v samples =>
    intro ts A R r hs h
    unfold updateDecisionTreeNode at h
    split at h
    · cases h
    · rename_i d hd
      obtain ⟨_, hok⟩ := updateNodeCounters_tableOK P (.leaf d0 v samples) A R d hs hd
      simp only at h
      split at h
      · exact splitNode_capped P _ _ _ _ _ r
          (fun tsa l r1 hc hl => splitLeafIfPossible_capped P _ tsa l r1 hc hl) hok h
      · cases h
        exact hok
  | internal code d0 negative positive ihn ihp =>
    intro ts A R r hs h
    unfold updateDecisionTreeNode at h
    split at h
    · cases h
    · rename_i d hd
      obtain ⟨_, hok⟩ := updateNodeCounters_tableOK P (.internal code d0 negative positive) A R d
        hs.1 hd
      simp only at h
      split at h
      · rw [walkSamples_eq] at h
        simp only at h
        rw [setupLeafFromSamples_eq] at h
        simp only at h
        cases h
        exact tableOK_recount P _ _
      · split at h
        · rw [walkSamples_eq] at h
          simp only at h
          exact splitNode_capped P _ _ _ _ _ r
            (fun tsa l r1 hc hl => splitLeafIfPossible_capped P _ tsa l r1 hc hl) hok h
        · split at h
          · cases h
          · rename_i tsa negative1 hrn
            split at h
            · cases h
            · rename_i tsb positive1 hrp
              cases h
              have hn1 : Capped P negative1 := by
                split at hrn
                · exact ihn _ _ _ _ hs.2.1 hrn
                · cases hrn
                  exact hs.2.1
              have hp1 : Capped P positive1 := by
                split at hrp
                · exact ihp _ _ _ _ hs.2.2 hrp
                · cases hrp
                  exact hs.2.2
              exact ⟨hok, hn1, hp1⟩

theorem updateDecisionTree_capped {F : Type} (P : Platform F) (ts : Nat)
    (dt : DecisionTreeNode) (A R : List Sample) (r : Nat × DecisionTreeNode)
    (hs : Capped P dt) (h : updateDecisionTree P ts dt A R = some r) : Capped P r.2 := by
  unfold updateDecisionTree at h
  split at h
  · cases h
  · split at h
    · cases h
    · exact updateDecisionTreeNode_capped P _ ts A R r (capped_updateSamples P dt A R hs) h

theorem commitTrees_capped {F : Type} (P : Platform F) (toAdd toRemove : SampleMap)
    (trees : List DecisionTreeNode) :
    ∀ (i ts : Nat) (r : Nat × List DecisionTreeNode),
      (∀ t ∈ trees, Capped P t) → commitTrees P toAdd toRemove trees i ts = some r →
      ∀ t ∈ r.2, Capped P t := by
  induction trees with
  | nil =>
    intro i ts r _ h
    simp only [commitTrees] at h
    cases h
    intro t ht
    cases ht
  | cons tree rest ih =>
    intro i ts r hs h
    simp only [commitTrees] at h
    split at h
    · cases h
    · rename_i tsa tree1 hup
      split at h
      · cases h
      · rename_i tsb rest1 hrest
        cases h
        intro t ht
        rcases List.mem_cons.mp ht with h1 | h1
        · rw [h1]
          exact updateDecisionTree_capped P ts tree _ _ (tsa, tree1)
            (hs tree (List.mem_cons_self _ _)) hup
        · exact ih (i + 1) tsa (tsb, rest1)
            (fun t1 ht1 => hs t1 (List.mem_cons_of_mem _ ht1)) hrest t h1

theorem capped_commit {F : Type} (P : Platform F) (rf rf1 : Forest)
    (hs : ∀ t ∈ rf.forest, Capped P t) (hc : rf.commit P = some rf1) :
    ∀ t ∈ rf1.forest, Capped P t := by
  unfold Forest.commit at hc
  split at hc
  · cases hc
    exact hs
  · split at hc
    · cases hc
    · rename_i ts1 forest1 hct
      cases hc
      exact commitTrees_capped P _ _ rf.forest 0 rf.ts (ts1, forest1) hs hct

theorem capped_of_reachable {F : Type} (P : Platform F) (ok : Forest → Sample → Prop)
    (rf : Forest) (h : Reachable P ok rf) : ∀ t ∈ rf.forest, Capped P t := by
  induction h with
  | create n =>
    intro t ht
    obtain ⟨id, hid⟩ := createTrees_empty P _ _ _ (by simp) t ht
    rw [hid]
    exact ⟨by simp, by simp, fun e he => by cases he⟩
  | add rf s _ _ ih =>
    rw [Forest.add_forest]
    exact ih
  | remove rf sId _ ih =>
    rw [Forest.remove_eq]
    split
    · exact ih
    · split
      · exact ih
      · split
        · exact ih
        · exact ih
  | commit rf rf1 _ hc ih => exact capped_commit P rf rf1 ih hc

theorem capped_nodes {F : Type} (P : Platform F) (t : DecisionTreeNode) (h : Capped P t) :
    ∀ n ∈ t.nodes, TableOK P n.data.id n.data.decisionCountMap := by
  induction t with
  | leaf d v samples =>
    intro n hn
    simp only [DecisionTreeNode.nodes, List.mem_singleton] at hn
    rw [hn]
    exact h
  | internal code d negative positive ihn ihp =>
    intro n hn
    simp only [DecisionTreeNode.nodes, List.mem_cons, List.mem_append] at hn
    rcases hn with h1 | h1 | h1
    · rw [h1]; exact h.1
    · exact ihn h.2.1 n h1
    · exact ihp h.2.2 n h1

/-- A code enters the table in the insertion loop only at or above the watermark
of that moment. -/
theorem insertStep_gate {F : Type} (P : Platform F) (id : Nat) (s : Sample) (direction : Int)
    (acc : DCMap × List RankPair × RankPair) (x : Int × ℚ) (c : Int)
    (hc : (insertStep P id s direction acc x).1.contains c = true) :
    acc.1.contains c = true
      ∨ (c = x.1 ∧ acc.1.contains x.1 = false
          ∧ pairGe (codeRankInNode P x.1 id, x.1) acc.2.2 = true) := by
  rcases insertStep_eq_core P id s direction acc x with heq | ⟨hnc, hge, dc, _, heq⟩
  · rw [heq] at hc
    exact Or.inl hc
  · rw [heq] at hc
    unfold insertCore at hc
    simp only at hc
    split at hc
    · rw [DCMap.contains_eraseCode, DCMap.contains_insertNew] at hc
      simp only [Bool.and_eq_true, Bool.or_eq_true, decide_eq_true_eq] at hc
      rcases hc.2 with h1 | h1
      · exact Or.inr ⟨h1, hnc, hge⟩
      · exact Or.inl h1
    · rw [DCMap.contains_insertNew] at hc
      simp only [Bool.or_eq_true, decide_eq_true_eq] at hc
      rcases hc with h1 | h1
      · exact Or.inr ⟨h1, hnc, hge⟩
      · exact Or.inl h1

theorem incrementalFold_spec {F : Type} (P : Platform F) (steps : List (Sample × Bool)) :
    ∀ d : NodeData, TableOK P d.id d.decisionCountMap →
      (steps.foldl (incrementalStep P) d).id = d.id
        ∧ TableOK P d.id (steps.foldl (incrementalStep P) d).decisionCountMap
        ∧ pairLt (steps.foldl (incrementalStep P) d).minValidRank d.minValidRank = false
        ∧ (∀ c, d.decisionCountMap.contains c = false →
            pairLt (codeRankInNode P c d.id, c) d.minValidRank = true →
            (steps.foldl (incrementalStep P) d).decisionCountMap.contains c = false
              ∧ pairLt (codeRankInNode P c d.id, c)
                  (steps.foldl (incrementalStep P) d).minValidRank = true) := by
  induction steps with
  | nil =>
    intro d h
    exact ⟨rfl, h, pairLt_irrefl _, fun c hc hlt => ⟨hc, hlt⟩⟩
  | cons st steps ih =>
    intro d h
    rw [List.foldl_cons]
    obtain ⟨hid, hok, hmono, _, hblock, _⟩ := incrementalStep_spec P d st h
    obtain ⟨hid2, hok2, hmono2, hblock2⟩ := ih (incrementalStep P d st) (by rw [hid]; exact hok)
    rw [hid] at hid2 hok2 hblock2
    refine ⟨hid2, hok2, pairLt_ge_trans _ _ _ hmono2 hmono, ?_⟩
    intro c hc hlt
    obtain ⟨h1, h2⟩ := hblock c hc hlt
    exact hblock2 c h1 h2

/-! ## The search of `findMinEntropyCode` -/

theorem findMinEntropyCode_eq {F : Type} (fl : FloatOps F) (ce : F) (d : NodeData) :
    findMinEntropyCode fl ce d
      = if (minEntropyLoop fl d d.decisionCountMap (fl.ofInt 10, -1)).2 = -1 then -1
        else if fl.lt (minEntropyLoop fl d d.decisionCountMap (fl.ofInt 10, -1)).1 ce then
          (minEntropyLoop fl d d.decisionCountMap (fl.ofInt 10, -1)).2
        else -1 := rfl

/-- The state of the loop after the entries `done`: nothing has been taken and no
eligible entry is below the bound, or an eligible entry of the least entropy has
been taken. -/
theorem minEntropyLoop_spec {F : Type} (fl : FloatOps F) (hord : fl.IsOrder) (d : NodeData)
    (b : F) (m : DCMap) :
    ∀ (done : DCMap) (acc : F × Int),
      ((acc = (b, -1) ∧ ∀ e ∈ done, eligible d e = true → fl.lt (e.2.entropy fl d) b = false)
        ∨ (∃ e ∈ done, eligible d e = true ∧ acc = (e.2.entropy fl d, e.1)
            ∧ ∀ e1 ∈ done, eligible d e1 = true →
                fl.lt (e1.2.entropy fl d) (e.2.entropy fl d) = false)) →
      ((minEntropyLoop fl d m acc = (b, -1)
          ∧ ∀ e ∈ done ++ m, eligible d e = true → fl.lt (e.2.entropy fl d) b = false)
        ∨ (∃ e ∈ done ++ m, eligible d e = true
            ∧ minEntropyLoop fl d m acc = (e.2.entropy fl d, e.1)
            ∧ ∀ e1 ∈ done ++ m, eligible d e1 = true →
                fl.lt (e1.2.entropy fl d) (e.2.entropy fl d) = false)) := by
  induction m with
  | nil =>
    intro done acc h
    simpa [minEntropyLoop] using h
  | cons x m ih =>
    intro done acc h
    have hstep : minEntropyLoop fl d (x :: m) acc
        = minEntropyLoop fl d m
            (if eligible d x then
              (if fl.lt (x.2.entropy fl d) acc.1 then (x.2.entropy fl d, x.1) else acc)
            else acc) := rfl
    rw [hstep]
    have hdone : ∀ e, e ∈ (done ++ [x]) ++ m ↔ e ∈ done ++ x :: m := by
      intro e
      simp
    have key := ih (done ++ [x])
      (if eligible d x then
        (if fl.lt (x.2.entropy fl d) acc.1 then (x.2.entropy fl d, x.1) else acc)
      else acc) ?_
    · rcases key with ⟨h1, h2⟩ | ⟨e, he, h1, h2, h3⟩
      · exact Or.inl ⟨h1, fun e he => h2 e ((hdone e).mpr he)⟩
      · exact Or.inr ⟨e, (hdone e).mp he, h1, h2, fun e1 he1 => h3 e1 ((hdone e1).mpr he1)⟩
    · by_cases hel : eligible d x = true
      · rw [if_pos hel]
        by_cases hlt : fl.lt (x.2.entropy fl d) acc.1 = true
        · rw [if_pos hlt]
          right
          refine ⟨x, by simp, hel, rfl, ?_⟩
          intro e1 he1 hel1
          rcases List.mem_append.mp he1 with h1 | h1
          · rcases h with ⟨hacc, hall⟩ | ⟨e, he, _, hacc, hall⟩
            · rw [hacc] at hlt
              have := hall e1 h1 hel1
              by_contra hc
              have hc' : fl.lt (e1.2.entropy fl d) (x.2.entropy fl d) = true := by
                simpa using hc
              rw [hord.trans _ _ _ hc' hlt] at this
              cases this
            · rw [hacc] at hlt
              have := hall e1 h1 hel1
              by_contra hc
              have hc' : fl.lt (e1.2.entropy fl d) (x.2.entropy fl d) = true := by
                simpa using hc
              rw [hord.trans _ _ _ hc' hlt] at this
              cases this
          · rw [List.mem_singleton] at h1
            rw [h1]
            exact hord.irrefl _
        · rw [if_neg hlt]
          have hlt' : fl.lt (x.2.entropy fl d) acc.1 = false := by simpa using hlt
          rcases h with ⟨hacc, hall⟩ | ⟨e, he, hel0, hacc, hall⟩
          · left
            refine ⟨hacc, ?_⟩
            intro e1 he1 hel1
            rcases List.mem_append.mp he1 with h1 | h1
            · exact hall e1 h1 hel1
            · rw [List.mem_singleton] at h1
              rw [h1]
              rw [hacc] at hlt'
              exact hlt'
          · right
            refine ⟨e, List.mem_append_left _ he, hel0, hacc, ?_⟩
            intro e1 he1 hel1
            rcases List.mem_append.mp he1 with h1 | h1
            · exact hall e1 h1 hel1
            · rw [List.mem_singleton] at h1
              rw [h1]
              rw [hacc] at hlt'
              exact hlt'
      · rw [if_neg hel]
        rcases h with ⟨hacc, hall⟩ | ⟨e, he, hel0, hacc, hall⟩
        · left
          refine ⟨hacc, ?_⟩
          intro e1 he1 hel1
          rcases List.mem_append.mp he1 with h1 | h1
          · exact hall e1 h1 hel1
          · rw [List.mem_singleton] at h1
            rw [h1] at hel1
            exact absurd hel1 hel
        · right
          refine ⟨e, List.mem_append_left _ he, hel0, hacc, ?_⟩
          intro e1 he1 hel1
          rcases List.mem_append.mp he1 with h1 | h1
          · exact hall e1 h1 hel1
          · rw [List.mem_singleton] at h1
            rw [h1] at hel1
            exact absurd hel1 hel

theorem enoughEvidence_iff (dc : DecisionCounts) (d : NodeData) (h0 : dc.c0p ≤ d.c0)
    (h1 : dc.c1p ≤ d.c1) (hb : d.c0 + d.c1 < 4294967296) :
    dc.enoughEvidence d = true
      ↔ 2 ≤ (d.c0 - dc.c0p) + (d.c1 - dc.c1p) ∧ 2 ≤ dc.c0p + dc.c1p := by
  unfold DecisionCounts.enoughEvidence subU32 wrapU32 minEvidence
  simp only [Bool.and_eq_true, decide_eq_true_eq, ge_iff_le]
  omega
/-! ## The walker between two calls of `get` -/

theorem good_stillSome (w : TreeSampleWalker) (hg : w.Good) :
    w.stillSome = false ↔ w.remaining = [] := by
  rcases hg with ⟨h1, h2⟩ | ⟨d, v, samples, st, h1, _, h3⟩
  · simp [TreeSampleWalker.stillSome, TreeSampleWalker.remaining, h1, h2, pendingSamples]
  · constructor
    · intro h
      simp [TreeSampleWalker.stillSome, h1] at h
    · intro h
      simp only [TreeSampleWalker.remaining, List.append_eq_nil] at h
      exact absurd h.1 h3

theorem getN_spec (k : Nat) :
    ∀ (w : TreeSampleWalker), w.Good → k ≤ w.remaining.length →
      ∃ w1, w.getN k = some (w.remaining.take k, w1) ∧ w1.Good ∧
        w1.remaining = w.remaining.drop k := by
  induction k with
  | zero =>
    intro w hg _
    exact ⟨w, rfl, hg, rfl⟩
  | succ k ih =>
    intro w hg hk
    have hs : w.stillSome = true := by
      cases hst : w.stillSome
      · have := (good_stillSome w hg).mp hst
        rw [this] at hk
        simp at hk
      · rfl
    obtain ⟨s, w1, hget, hg1, hrem⟩ := walker_get_spec w hg hs
    have hk1 : k ≤ w1.remaining.length := by
      rw [hrem] at hk
      simp only [List.length_cons] at hk
      omega
    obtain ⟨w2, hn, hg2, hrem2⟩ := ih w1 hg1 hk1
    refine ⟨w2, ?_, hg2, ?_⟩
    · simp only [TreeSampleWalker.getN, hget, hn, hrem, List.take_succ_cons]
    · rw [hrem2, hrem, List.drop_succ_cons]
/-! ## What the structural transitions keep of a node -/

theorem applyBatches_id {F : Type} (P : Platform F) (d : NodeData) (A R : List Sample) :
    (applyBatches P d A R).id = d.id := by
  unfold applyBatches
  simp only
  rw [(addFold_frame P A _).1]
  exact (removeFold_frame P R d).1

theorem updateNodeCounters_id {F : Type} (P : Platform F) (dt : DecisionTreeNode)
    (A R : List Sample) (d : NodeData) (h : updateNodeCounters P dt A R = some d) :
    d.id = dt.data.id := by
  unfold updateNodeCounters at h
  simp only at h
  split at h
  · rw [walkSamples_eq] at h
    simp only [Option.some.injEq] at h
    rw [← h]
    exact applyBatches_id P _ A R
  · simp only [Option.some.injEq] at h
    rw [← h]
    exact applyBatches_id P _ A R

theorem splitNode_shape {F : Type} (P : Platform F)
    (cascade : Nat → DecisionTreeNode → Option (Nat × DecisionTreeNode))
    (ts : Nat) (d : NodeData) (code : Int) (sw : List Sample) (r : Nat × DecisionTreeNode)
    (hcasc : ∀ tsa l r1, cascade tsa l = some r1 → r1.2.data = l.data)
    (h : splitNode P cascade ts d code sw = some r) :
    ∃ negative positive, r.2 = .internal code d negative positive ∧
      negative.data.id = (P.rand_r ts).1 ∧
      positive.data.id = (P.rand_r (P.rand_r ts).2).1 := by
  unfold splitNode at h
  simp only at h
  split at h
  · cases h
  · rw [setupLeafFromSamples_eq, setupLeafFromSamples_eq] at h
    simp only at h
    split at h
    · cases h
    · rename_i tsa negative hneg
      split at h
      · cases h
      · rename_i tsb positive hpos
        cases h
        have hn := hcasc _ _ _ hneg
        have hp := hcasc _ _ _ hpos
        refine ⟨negative, positive, rfl, ?_, ?_⟩
        · simp only at hn
          rw [hn]
          rfl
        · simp only at hp
          rw [hp]
          rfl

theorem splitLeafIfPossible_data {F : Type} (P : Platform F) (fuel : Nat) :
    ∀ (ts : Nat) (dt : DecisionTreeNode) (r : Nat × DecisionTreeNode),
      splitLeafIfPossible P fuel ts dt = some r → r.2.data = dt.data := by
  induction fuel with
  | zero =>
    intro ts dt r h
    unfold splitLeafIfPossible at h
    simp only at h
    split at h
    · cases h
    · cases h
      rfl
  | succ fuel ih =>
    intro ts dt r h
    unfold splitLeafIfPossible at h
    simp only at h
    split at h
    · rw [walkSamples_eq] at h
      simp only at h
      obtain ⟨negative, positive, hr, _, _⟩ := splitNode_shape P _ _ _ _ _ r
        (fun tsa l r1 hc => ih tsa l r1 hc) h
      rw [hr]
      rfl
    · cases h
      rfl

/-- A cascade step returns the leaf itself or an internal node with the data of
the leaf and two children with newly drawn ids. -/
theorem splitLeafIfPossible_shape {F : Type} (P : Platform F) (fuel : Nat) (ts : Nat)
    (dt : DecisionTreeNode) (r : Nat × DecisionTreeNode)
    (h : splitLeafIfPossible P fuel ts dt = some r) :
    r = (ts, dt) ∨ ∃ code negative positive, r.2 = .internal code dt.data negative positive ∧
      code = findMinEntropyCode P.fl
        (entropyBinary P.fl (toInt32 dt.data.c0) (toInt32 dt.data.c1)) dt.data ∧
      negative.data.id = (P.rand_r (P.rand_r ts).2).1 ∧
      positive.data.id = (P.rand_r (P.rand_r (P.rand_r ts).2).2).1 := by
  cases fuel with
  | zero =>
    unfold splitLeafIfPossible at h
    simp only at h
    split at h
    · cases h
    · cases h
      exact Or.inl rfl
  | succ fuel =>
    unfold splitLeafIfPossible at h
    simp only at h
    split at h
    · rw [walkSamples_eq] at h
      simp only at h
      obtain ⟨negative, positive, hr, hn, hp⟩ := splitNode_shape P _ _ _ _ _ r
        (fun tsa l r1 hc => splitLeafIfPossible_data P fuel tsa l r1 hc) h
      exact Or.inr ⟨_, negative, positive, hr, rfl, hn, hp⟩
    · cases h
      exact Or.inl rfl

/-- The node that `updateDecisionTreeNode` returns has the id of the node it was
called on. -/
theorem updateDecisionTreeNode_id {F : Type} (P : Platform F) (dt : DecisionTreeNode)
    (ts : Nat) (A R : List Sample) (r : Nat × DecisionTreeNode)
    (h : updateDecisionTreeNode P dt ts A R = some r) : r.2.data.id = dt.data.id := by
  cases dt with
  | leaf d0 v samples =>
    unfold updateDecisionTreeNode at h
    split at h
    · cases h
    · rename_i d hd
      have hid := updateNodeCounters_id P _ A R d hd
      simp only at h
      split at h
      · obtain ⟨negative, positive, hr, _, _⟩ := splitNode_shape P _ _ _ _ _ r
          (fun tsa l r1 hc => splitLeafIfPossible_data P _ tsa l r1 hc) h
        rw [hr]
        exact hid
      · cases h
        exact hid
  | internal code d0 negative positive =>
    unfold updateDecisionTreeNode at h
    split at h
    · cases h
    · rename_i d hd
      have hid := updateNodeCounters_id P _ A R d hd
      simp only at h
      split at h
      · rw [walkSamples_eq] at h
        simp only at h
        rw [setupLeafFromSamples_eq] at h
        simp only at h
        cases h
        exact hid
      · split at h
        · rw [walkSamples_eq] at h
          simp only at h
          obtain ⟨negative1, positive1, hr, _, _⟩ := splitNode_shape P _ _ _ _ _ r
            (fun tsa l r1 hc => splitLeafIfPossible_data P _ tsa l r1 hc) h
          rw [hr]
          exact hid
        · split at h
          · cases h
          · split at h
            · cases h
            · cases h
              exact hid
/-! ## Every leaf that an update has produced or visited has the value of `updateValue` -/

theorem refreshed_updateSamples (dt : DecisionTreeNode) :
    ∀ (A R : List Sample), Refreshed dt → Refreshed (updateDecisionTreeSamples dt A R) := by
  induction dt with
  | leaf d v samples =>
    intro A R h
    simpa [updateDecisionTreeSamples, Refreshed] using h
  | internal code d negative positive ihn ihp =>
    intro A R h
    rw [updateDecisionTreeSamples_internal]
    exact ⟨ihn _ _ h.1, ihp _ _ h.2⟩

theorem untouched_updateSamples (dt : DecisionTreeNode) (A R : List Sample)
    (h : Untouched dt) : ∃ d v samples, updateDecisionTreeSamples dt A R = .leaf d v samples := by
  obtain ⟨id, hid⟩ := h
  rw [hid]
  exact ⟨_, _, _, rfl⟩

theorem splitNode_refreshed {F : Type} (P : Platform F)
    (cascade : Nat → DecisionTreeNode → Option (Nat × DecisionTreeNode))
    (ts : Nat) (d : NodeData) (code : Int) (sw : List Sample) (r : Nat × DecisionTreeNode)
    (hcasc : ∀ tsa l r1, cascade tsa l = some r1 → Refreshed l → Refreshed r1.2)
    (h : splitNode P cascade ts d code sw = some r) : Refreshed r.2 := by
  unfold splitNode at h
  simp only at h
  split at h
  · cases h
  · rw [setupLeafFromSamples_eq, setupLeafFromSamples_eq] at h
    simp only at h
    split at h
    · cases h
    · rename_i tsa negative hneg
      split at h
      · cases h
      · rename_i tsb positive hpos
        cases h
        exact ⟨hcasc _ _ _ hneg rfl, hcasc _ _ _ hpos rfl⟩

theorem splitLeafIfPossible_refreshed {F : Type} (P : Platform F) (fuel : Nat) :
    ∀ (ts : Nat) (dt : DecisionTreeNode) (r : Nat × DecisionTreeNode),
      splitLeafIfPossible P fuel ts dt = some r → Refreshed dt → Refreshed r.2 := by
  induction fuel with
  | zero =>
    intro ts dt r h hs
    unfold splitLeafIfPossible at h
    simp only at h
    split at h
    · cases h
    · cases h
      exact hs
  | succ fuel ih =>
    intro ts dt r h hs
    unfold splitLeafIfPossible at h
    simp only at h
    split at h
    · rw [walkSamples_eq] at h
      simp only at h
      exact splitNode_refreshed P _ _ _ _ _ r (fun tsa l r1 hc hl => ih tsa l r1 hc hl) h
    · cases h
      exact hs

/-- The children of the node are refreshed; nothing is asked of a leaf. -/
theorem updateDecisionTreeNode_refreshed {F : Type} (P : Platform F) (dt : DecisionTreeNode) :
    ∀ (ts : Nat) (A R : List Sample) (r : Nat × DecisionTreeNode),
      ((∃ d v samples, dt = .leaf d v samples) ∨ Refreshed dt) →
      updateDecisionTreeNode P dt ts A R = some r → Refreshed r.2 := by
  induction dt with
  | leaf d0 v samples =>
    intro ts A R r _ h
    unfold updateDecisionTreeNode at h
    split at h
    · cases h
    · rename_i d hd
      simp only at h
      split at h
      · exact splitNode_refreshed P _ _ _ _ _ r
          (fun tsa l r1 hc hl => splitLeafIfPossible_refreshed P _ tsa l r1 hc hl) h
      · cases h
        rfl
  | internal code d0 negative positive ihn ihp =>
    intro ts A R r hs h
    have hs1 : Refreshed negative ∧ Refreshed positive := by
      rcases hs with ⟨d, v, samples, hl⟩ | hs
      · cases hl
      · exact hs
    unfold updateDecisionTreeNode at h
    split at h
    · cases h
    · rename_i d hd
      simp only at h
      split at h
      · rw [walkSamples_eq] at h
        simp only at h
        rw [setupLeafFromSamples_eq] at h
        simp only at h
        cases h
        rfl
      · split at h
        · rw [walkSamples_eq] at h
          simp only at h
          exact splitNode_refreshed P _ _ _ _ _ r
            (fun tsa l r1 hc hl => splitLeafIfPossible_refreshed P _ tsa l r1 hc hl) h
        · split at h
          · cases h
          · rename_i tsa negative1 hrn
            split at h
            · cases h
            · rename_i tsb positive1 hrp
              cases h
              refine ⟨?_, ?_⟩
              · split at hrn
                · exact ihn _ _ _ _ (Or.inr hs1.1) hrn
                · cases hrn
                  exact hs1.1
              · split at hrp
                · exact ihp _ _ _ _ (Or.inr hs1.2) hrp
                · cases hrp
                  exact hs1.2

theorem updateDecisionTree_refreshed {F : Type} (P : Platform F) (ts : Nat)
    (dt : DecisionTreeNode) (A R : List Sample) (r : Nat × DecisionTreeNode)
    (hs : Untouched dt ∨ Refreshed dt) (h : updateDecisionTree P ts dt A R = some r) :
    Refreshed r.2 := by
  unfold updateDecisionTree at h
  split at h
  · cases h
  · split at h
    · cases h
    · apply updateDecisionTreeNode_refreshed P _ ts A R r _ h
      rcases hs with hu | hr
      · exact Or.inl (untouched_updateSamples dt A R hu)
      · exact Or.inr (refreshed_updateSamples dt A R hr)

theorem commitTrees_refreshed {F : Type} (P : Platform F) (toAdd toRemove : SampleMap)
    (trees : List DecisionTreeNode) :
    ∀ (i ts : Nat) (r : Nat × List DecisionTreeNode),
      (∀ t ∈ trees, Untouched t ∨ Refreshed t) →
      commitTrees P toAdd toRemove trees i ts = some r → ∀ t ∈ r.2, Refreshed t := by
  induction trees with
  | nil =>
    intro i ts r _ h
    simp only [commitTrees] at h
    cases h
    intro t ht
    cases ht
  | cons tree rest ih =>
    intro i ts r hs h
    simp only [commitTrees] at h
    split at h
    · cases h
    · rename_i tsa tree1 hup
      split at h
      · cases h
      · rename_i tsb rest1 hrest
        cases h
        intro t ht
        rcases List.mem_cons.mp ht with h1 | h1
        · rw [h1]
          exact updateDecisionTree_refreshed P ts tree _ _ (tsa, tree1)
            (hs tree (List.mem_cons_self _ _)) hup
        · exact ih (i + 1) tsa (tsb, rest1)
            (fun t1 ht1 => hs t1 (List.mem_cons_of_mem _ ht1)) hrest t h1

theorem refreshed_commit {F : Type} (P : Platform F) (rf rf1 : Forest)
    (hs : ∀ t ∈ rf.forest, Untouched t ∨ Refreshed t) (hc : rf.commit P = some rf1) :
    (∀ t ∈ rf1.forest, Untouched t ∨ Refreshed t) ∧
      (rf.changesToCommit = true → ∀ t ∈ rf1.forest, Refreshed t) := by
  unfold Forest.commit at hc
  split at hc
  · rename_i hflag
    cases hc
    refine ⟨hs, ?_⟩
    intro h
    rw [h] at hflag
    simp at hflag
  · split at hc
    · cases hc
    · rename_i ts1 forest1 hct
      cases hc
      have := commitTrees_refreshed P _ _ rf.forest 0 rf.ts (ts1, forest1) hs hct
      exact ⟨fun t ht => Or.inr (this t ht), fun _ t ht => this t ht⟩

/-- Every tree of a forest reached from `create` is an untouched leaf of `create`
or has the value of `updateValue` in every leaf. -/
theorem refreshed_of_reachable {F : Type} (P : Platform F) (ok : Forest → Sample → Prop)
    (rf : Forest) (h : Reachable P ok rf) : ∀ t ∈ rf.forest, Untouched t ∨ Refreshed t := by
  induction h with
  | create n =>
    intro t ht
    exact Or.inl (createTrees_empty P _ _ _ (by simp) t ht)
  | add rf s _ _ ih =>
    rw [Forest.add_forest]
    exact ih
  | remove rf sId _ ih =>
    rw [Forest.remove_eq]
    split
    · exact ih
    · split
      · exact ih
      · split
        · exact ih
        · exact ih
  | commit rf rf1 _ hc ih => exact (refreshed_commit P rf rf1 ih hc).1

theorem refreshed_nodes (t : DecisionTreeNode) (h : Refreshed t) :
    ∀ d v samples, DecisionTreeNode.leaf d v samples ∈ t.nodes → v = updateValue d := by
  induction t with
  | leaf d0 v0 samples0 =>
    intro d v samples hn
    simp only [DecisionTreeNode.nodes, List.mem_singleton] at hn
    cases hn
    exact h
  | internal code d0 negative positive ihn ihp =>
    intro d v samples hn
    simp only [DecisionTreeNode.nodes, List.mem_cons, List.mem_append] at hn
    rcases hn with h1 | h1 | h1
    · cases h1
    · exact ihn h.1 d v samples h1
    · exact ihp h.2 d v samples h1

theorem updateValue_exact (d : NodeData) (h : d.c0 + d.c1 < 2147483648) :
    (0 < d.c0 + d.c1 → updateValue d = (d.c1 : ℚ) / ((d.c0 : ℚ) + (d.c1 : ℚ))) ∧
      (d.c0 + d.c1 = 0 → updateValue d = 1) := by
  have hw : wrapU32 (d.c0 + d.c1) = d.c0 + d.c1 := by
    unfold wrapU32
    omega
  have hi : toInt32 (d.c0 + d.c1) = ((d.c0 + d.c1 : Nat) : Int) := by
    have hm : (d.c0 + d.c1) % 4294967296 = d.c0 + d.c1 := by omega
    unfold toInt32
    rw [hm]
    split
    · rfl
    · omega
  constructor
  · intro hpos
    unfold updateValue
    simp only [hw, hi]
    split
    · omega
    · push_cast
      rfl
  · intro hz
    unfold updateValue
    simp only [hw, hi]
    split
    · rfl
    · omega
/-! ## The samples under a tree across an update -/

theorem placed_of_treeInv {F : Type} (P : Platform F) (B : Prop) (t : DecisionTreeNode)
    (h : TreeInv P B t) : Placed t := by
  induction t with
  | leaf d v samples => trivial
  | internal code d negative positive ihn ihp =>
    exact ⟨h.2.1, h.2.2.1, ihn h.2.2.2.1, ihp h.2.2.2.2⟩

theorem eraseSample_eq_erase_of_ptr (L : List Sample) (r : Sample)
    (hp : ∀ x ∈ L, x.ptr = r.ptr → x = r) : eraseSample L r = L.erase r := by
  induction L with
  | nil => rfl
  | cons x xs ih =>
    have ihx := ih (fun y hy => hp y (List.mem_cons_of_mem _ hy))
    by_cases hx : x.ptr = r.ptr
    · have hxr := hp x (List.mem_cons_self _ _) hx
      rw [hxr]
      simp [eraseSample]
    · have hne : x ≠ r := fun he => hx (by rw [he])
      simp only [eraseSample, if_neg hx, ihx]
      rw [List.erase_cons_tail]
      simpa using hne

theorem eraseFold_eq_diff (R : List Sample) :
    ∀ (L : List Sample), (∀ r ∈ R, ∀ x ∈ L, x.ptr = r.ptr → x = r) →
      R.foldl eraseSample L = L.diff R := by
  induction R with
  | nil =>
    intro L _
    simp
  | cons r R ih =>
    intro L hp
    rw [List.foldl_cons, eraseSample_eq_erase_of_ptr L r (hp r (List.mem_cons_self _ _)),
      List.diff_cons]
    apply ih
    intro r1 hr1 x hx
    exact hp r1 (List.mem_cons_of_mem _ hr1) x (List.mem_of_mem_erase hx)

theorem filter_sub_child (code : Int) (N Q R : List Sample)
    (hR : ∀ r ∈ R, r ∈ N ++ Q)
    (hN : ∀ s ∈ N, hasCodeGt s code = false) (hQ : ∀ s ∈ Q, hasCodeGt s code = true) :
    (∀ r ∈ R.filter (fun s => !hasCodeGt s code), r ∈ N) ∧
      (∀ r ∈ R.filter (fun s => hasCodeGt s code), r ∈ Q) := by
  constructor
  · intro r hr
    rw [List.mem_filter] at hr
    rcases List.mem_append.mp (hR r hr.1) with h | h
    · exact h
    · have := hQ r h
      simp [this] at hr
  · intro r hr
    rw [List.mem_filter] at hr
    rcases List.mem_append.mp (hR r hr.1) with h | h
    · have := hN r h
      simp [this] at hr
    · exact h

theorem count_filter_code (L : List Sample) (code : Int) (x : Sample) :
    (hasCodeGt x code = true →
        (L.filter (fun s => hasCodeGt s code)).count x = L.count x ∧
          (L.filter (fun s => !hasCodeGt s code)).count x = 0) ∧
      (hasCodeGt x code = false →
        (L.filter (fun s => hasCodeGt s code)).count x = 0 ∧
          (L.filter (fun s => !hasCodeGt s code)).count x = L.count x) := by
  constructor
  · intro hx
    constructor
    · exact List.count_filter (by simpa using hx)
    · apply List.count_eq_zero_of_not_mem
      intro hm
      rw [List.mem_filter] at hm
      simp [hx] at hm
  · intro hx
    constructor
    · apply List.count_eq_zero_of_not_mem
      intro hm
      rw [List.mem_filter] at hm
      simp [hx] at hm
    · exact List.count_filter (by simp [hx])

/-- The first pass on a tree whose samples are placed by its splits: the samples
under the tree are the old ones without `batchRemove` plus `batchAdd`. -/
theorem updateDecisionTreeSamples_count (dt : DecisionTreeNode) :
    ∀ (A R : List Sample), Placed dt → (∀ r ∈ R, r ∈ collectRecursive dt) →
      PtrInj (collectRecursive dt) →
      ∀ x, (collectRecursive (updateDecisionTreeSamples dt A R)).count x
        = (collectRecursive dt).count x - R.count x + A.count x := by
  induction dt with
  | leaf d v samples =>
    intro A R _ hR hp x
    simp only [updateDecisionTreeSamples, collectRecursive]
    rw [eraseFold_eq_diff R samples
      (fun r hr y hy hptr => hp y hy r (hR r hr) hptr)]
    have hd : (samples.diff R).count x = samples.count x - R.count x := by
      rw [← Multiset.coe_count, ← Multiset.coe_sub, Multiset.count_sub, Multiset.coe_count,
        Multiset.coe_count]
    rw [List.count_append, hd]
  | internal code d negative positive ihn ihp =>
    intro A R hpl hR hp x
    rw [updateDecisionTreeSamples_internal]
    simp only [collectRecursive] at hR hp ⊢
    obtain ⟨hRn, hRp⟩ := filter_sub_child code _ _ R hR hpl.1 hpl.2.1
    have hpn : PtrInj (collectRecursive negative) :=
      ptrInj_sub _ _ hp (fun s hs => List.mem_append_left _ hs)
    have hpp : PtrInj (collectRecursive positive) :=
      ptrInj_sub _ _ hp (fun s hs => List.mem_append_right _ hs)
    rw [List.count_append, List.count_append,
      ihn (A.filter (fun s => !hasCodeGt s code)) (R.filter (fun s => !hasCodeGt s code))
        hpl.2.2.1 hRn hpn x,
      ihp (A.filter (fun s => hasCodeGt s code)) (R.filter (fun s => hasCodeGt s code))
        hpl.2.2.2 hRp hpp x]
    obtain ⟨hA1, hA0⟩ := count_filter_code A code x
    obtain ⟨hR1, hR0⟩ := count_filter_code R code x
    cases hx : hasCodeGt x code
    · have hq : (collectRecursive positive).count x = 0 := by
        apply List.count_eq_zero_of_not_mem
        intro hm
        rw [hpl.2.1 x hm] at hx
        cases hx
      rw [(hA0 hx).1, (hA0 hx).2, (hR0 hx).1, (hR0 hx).2, hq]
      omega
    · have hq : (collectRecursive negative).count x = 0 := by
        apply List.count_eq_zero_of_not_mem
        intro hm
        rw [hpl.1 x hm] at hx
        cases hx
      rw [(hA1 hx).1, (hA1 hx).2, (hR1 hx).1, (hR1 hx).2, hq]
      omega

theorem splitNode_perm {F : Type} (P : Platform F)
    (cascade : Nat → DecisionTreeNode → Option (Nat × DecisionTreeNode))
    (ts : Nat) (d : NodeData) (code : Int) (sw : List Sample) (r : Nat × DecisionTreeNode)
    (hcasc : ∀ tsa l r1, cascade tsa l = some r1 →
      List.Perm (collectRecursive r1.2) (collectRecursive l))
    (h : splitNode P cascade ts d code sw = some r) :
    List.Perm (collectRecursive r.2) sw := by
  unfold splitNode at h
  simp only at h
  split at h
  · cases h
  · rw [setupLeafFromSamples_eq, setupLeafFromSamples_eq, splitListAgainstCode_eq] at h
    simp only at h
    split at h
    · cases h
    · rename_i tsa negative hneg
      split at h
      · cases h
      · rename_i tsb positive hpos
        cases h
        have hn := hcasc _ _ _ hneg
        have hp := hcasc _ _ _ hpos
        simp only [collectRecursive] at hn hp ⊢
        exact (List.Perm.append hn hp).trans (filter_not_perm sw (fun s => hasCodeGt s code))

theorem splitLeafIfPossible_perm {F : Type} (P : Platform F) (fuel : Nat) :
    ∀ (ts : Nat) (dt : DecisionTreeNode) (r : Nat × DecisionTreeNode),
      splitLeafIfPossible P fuel ts dt = some r →
      List.Perm (collectRecursive r.2) (collectRecursive dt) := by
  induction fuel with
  | zero =>
    intro ts dt r h
    unfold splitLeafIfPossible at h
    simp only at h
    split at h
    · cases h
    · cases h
      exact List.Perm.refl _
  | succ fuel ih =>
    intro ts dt r h
    unfold splitLeafIfPossible at h
    simp only at h
    split at h
    · rw [walkSamples_eq] at h
      simp only at h
      exact splitNode_perm P _ _ _ _ _ r (fun tsa l r1 hc => ih tsa l r1 hc) h
    · cases h
      exact List.Perm.refl _

/-- The second pass keeps the samples under the tree, whatever the counters say. -/
theorem updateDecisionTreeNode_perm {F : Type} (P : Platform F) (dt : DecisionTreeNode) :
    ∀ (ts : Nat) (A R : List Sample) (r : Nat × DecisionTreeNode),
      updateDecisionTreeNode P dt ts A R = some r →
      List.Perm (collectRecursive r.2) (collectRecursive dt) := by
  induction dt with
  | leaf d0 v samples =>
    intro ts A R r h
    unfold updateDecisionTreeNode at h
    split at h
    · cases h
    · simp only at h
      split at h
      · exact splitNode_perm P _ _ _ _ _ r
          (fun tsa l r1 hc => splitLeafIfPossible_perm P _ tsa l r1 hc) h
      · cases h
        exact List.Perm.refl _
  | internal code d0 negative positive ihn ihp =>
    intro ts A R r h
    unfold updateDecisionTreeNode at h
    split at h
    · cases h
    · simp only at h
      split at h
      · rw [walkSamples_eq] at h
        simp only at h
        rw [setupLeafFromSamples_eq] at h
        simp only at h
        cases h
        exact List.Perm.refl _
      · split at h
        · rw [walkSamples_eq] at h
          simp only at h
          exact splitNode_perm P _ _ _ _ _ r
            (fun tsa l r1 hc => splitLeafIfPossible_perm P _ tsa l r1 hc) h
        · split at h
          · cases h
          · rename_i tsa negative1 hrn
            split at h
            · cases h
            · rename_i tsb positive1 hrp
              cases h
              simp only [collectRecursive]
              apply List.Perm.append
              · split at hrn
                · exact ihn _ _ _ _ hrn
                · cases hrn
                  exact List.Perm.refl _
              · split at hrp
                · exact ihp _ _ _ _ hrp
                · cases hrp
                  exact List.Perm.refl _

/-! ## The removal log -/

theorem removeLoop_found (R : List Sample) :
    ∀ (L : List Sample) (n : Nat), (∀ r ∈ R, r ∈ L) → R.Nodup → PtrInj L →
      (R.foldl (fun (acc : List Sample × Nat) s =>
        if acc.1.any (fun x => decide (x.ptr = s.ptr)) then (eraseSample acc.1 s, acc.2)
        else (acc.1, acc.2 + 1)) (L, n)).2 = n := by
  induction R with
  | nil =>
    intro L n _ _ _
    rfl
  | cons r R ih =>
    intro L n hsub hn hp
    rw [List.foldl_cons]
    have hr : r ∈ L := hsub r (List.mem_cons_self _ _)
    have hany : L.any (fun x => decide (x.ptr = r.ptr)) = true := by
      rw [List.any_eq_true]
      exact ⟨r, hr, by simp⟩
    simp only [hany, if_true]
    rw [eraseSample_eq_erase L r hr hp]
    apply ih
    · intro r1 hr1
      have hne : r1 ≠ r := by
        intro he
        rw [he] at hr1
        exact (List.nodup_cons.mp hn).1 hr1
      exact (List.mem_erase_of_ne hne).mpr (hsub r1 (List.mem_cons_of_mem _ hr1))
    · exact (List.nodup_cons.mp hn).2
    · exact ptrInj_sub _ _ hp (fun s hs => List.mem_of_mem_erase hs)

/-- In a tree whose samples are placed by its splits, a batch of distinct stored
samples is found completely. -/
theorem missedRemovals_zero (dt : DecisionTreeNode) :
    ∀ (A R : List Sample), Placed dt → (∀ r ∈ R, r ∈ collectRecursive dt) → R.Nodup →
      PtrInj (collectRecursive dt) → missedRemovals dt A R = 0 := by
  induction dt with
  | leaf d v samples =>
    intro A R _ hR hn hp
    exact removeLoop_found R samples 0 hR hn hp
  | internal code d negative positive ihn ihp =>
    intro A R hpl hR hn hp
    simp only [collectRecursive] at hR hp
    obtain ⟨hRn, hRp⟩ := filter_sub_child code _ _ R hR hpl.1 hpl.2.1
    have hpn : PtrInj (collectRecursive negative) :=
      ptrInj_sub _ _ hp (fun s hs => List.mem_append_left _ hs)
    have hpp : PtrInj (collectRecursive positive) :=
      ptrInj_sub _ _ hp (fun s hs => List.mem_append_right _ hs)
    simp only [missedRemovals, splitListAgainstCode_eq]
    rw [ihn _ _ hpl.2.2.1 hRn (hn.filter _) hpn, ihp _ _ hpl.2.2.2 hRp (hn.filter _) hpp]
    simp

theorem treesOK_get {F : Type} (P : Platform F) (B : Prop) (samples : SampleMap)
    (trees : List DecisionTreeNode) :
    ∀ (i j : Nat) (tree : DecisionTreeNode), TreesOK P B samples trees i →
      trees[j]? = some tree → TreeOK P B samples tree (i + j) := by
  induction trees with
  | nil =>
    intro i j tree _ h
    simp at h
  | cons a rest ih =>
    intro i j tree hok h
    cases j with
    | zero =>
      simp only [List.getElem?_cons_zero, Option.some.injEq] at h
      rw [← h]
      exact hok.1
    | succ j =>
      simp only [List.getElem?_cons_succ] at h
      have := ih (i + 1) j tree hok.2 h
      have he : i + (j + 1) = i + 1 + j := by omega
      rw [he]
      exact this

theorem treeOK_ptrInj {F : Type} (P : Platform F) (B : Prop) (rf : Forest) (hp : PtrInv rf)
    (tree : DecisionTreeNode) (i : Nat) (h : TreeOK P B rf.samples tree i) :
    PtrInj (collectRecursive tree) := by
  intro a ha b hb hab
  have h1 := ((h.2.2 a).mp ha).1
  have h2 := ((h.2.2 b).mp hb).1
  have := hp.ptrInj (a.suid, a) (List.mem_append_left _ h1) (b.suid, b)
    (List.mem_append_left _ h2) hab
  exact (Prod.mk.inj this).2
/-! ## The cascade of splits -/

/-- In a leaf set up from the samples `L`, a table entry with enough evidence
splits `L` into two parts of at least two samples. -/
theorem evidence_parts_two {F : Type} (P : Platform F) (id : Nat) (L : List Sample)
    (e : Int × DecisionCounts) (he : e ∈ (computeDecisionCounters P id L).1)
    (hev : e.2.enoughEvidence ⟨(computeDecisionCounters P id L).2.1,
      (computeDecisionCounters P id L).2.2.1, (computeDecisionCounters P id L).1, id,
      (computeDecisionCounters P id L).2.2.2⟩ = true) :
    2 ≤ (L.filter (fun s => hasCodeGt s e.1)).length ∧
      2 ≤ (L.filter (fun s => !hasCodeGt s e.1)).length := by
  obtain ⟨h0, h1, hent, _⟩ := computeDecisionCounters_spec P id L
  obtain ⟨heq, _⟩ := hent e he
  obtain ⟨_, c1, c0, b1, b0⟩ := countCode_spec e.1 L ⟨0, 0, codeRankInNode P e.1 id⟩
  rw [← heq] at c1 c0 b1 b0
  have hb1 := b1 (by simp)
  have hb0 := b0 (by simp)
  have hsplit := countP_split L isAboveHalf (fun s => hasCodeGt s e.1)
  have hlen := List.length_eq_countP_add_countP (fun s => hasCodeGt s e.1) L
  have hadd := countClass_add L
  rw [← List.countP_eq_length_filter, ← List.countP_eq_length_filter]
  unfold DecisionCounts.enoughEvidence at hev
  simp only [Bool.and_eq_true, decide_eq_true_eq, h0, h1, subU32, wrapU32, minEvidence] at hev
  have hnot : L.countP (fun s => !hasCodeGt s e.1) = L.countP (fun a => ¬ hasCodeGt a e.1 = true) := by
    congr 1
    funext s
    cases hasCodeGt s e.1 <;> simp
  rw [hnot]
  simp only [Nat.zero_add] at c1 c0
  omega

theorem splitNode_inv {F : Type} (P : Platform F)
    (cascade : Nat → DecisionTreeNode → Option (Nat × DecisionTreeNode))
    (ts : Nat) (d : NodeData) (code : Int) (sw : List Sample) (r : Nat × DecisionTreeNode)
    (h : splitNode P cascade ts d code sw = some r) :
    ∃ dn dp ln lp tsn tsa negative positive,
      setupLeafFromSamples P dn (sw.filter (fun s => !hasCodeGt s code)) = some ln ∧
      setupLeafFromSamples P dp (sw.filter (fun s => hasCodeGt s code)) = some lp ∧
      cascade tsn ln = some (tsa, negative) ∧ cascade tsa lp = some (r.1, positive) ∧
      r.2 = .internal code d negative positive := by
  unfold splitNode at h
  simp only at h
  split at h
  · cases h
  · rw [splitListAgainstCode_eq] at h
    simp only at h
    split at h
    · rename_i ln lp hln hlp
      split at h
      · cases h
      · rename_i tsa negative hneg
        split at h
        · cases h
        · rename_i tsb positive hpos
          cases h
          exact ⟨_, _, ln, lp, _, tsa, negative, positive, hln, hlp, hneg, hpos, rfl⟩
    · cases h

theorem splitNode_mono {F : Type} (P : Platform F)
    (c1 c2 : Nat → DecisionTreeNode → Option (Nat × DecisionTreeNode))
    (ts : Nat) (d : NodeData) (code : Int) (sw : List Sample) (r : Nat × DecisionTreeNode)
    (hc : ∀ tsa l r1, c1 tsa l = some r1 → c2 tsa l = some r1)
    (h : splitNode P c1 ts d code sw = some r) : splitNode P c2 ts d code sw = some r := by
  unfold splitNode at h ⊢
  simp only at h ⊢
  split at h
  · cases h
  · rename_i hcont
    rw [if_neg hcont]
    split at h
    · rename_i ln lp hln hlp
      split at h
      · cases h
      · rename_i tsa negative hneg
        split at h
        · cases h
        · rename_i tsb positive hpos
          cases h
          simp only [hc _ _ _ hneg, hc _ _ _ hpos]
    · cases h

theorem splitLeafIfPossible_mono {F : Type} (P : Platform F) (fuel : Nat) :
    ∀ (ts : Nat) (dt : DecisionTreeNode) (r : Nat × DecisionTreeNode),
      splitLeafIfPossible P fuel ts dt = some r →
      splitLeafIfPossible P (fuel + 1) ts dt = some r := by
  induction fuel with
  | zero =>
    intro ts dt r h
    unfold splitLeafIfPossible at h
    simp only at h
    split at h
    · cases h
    · rename_i hne
      unfold splitLeafIfPossible
      simp only [if_neg hne]
      exact h
  | succ fuel ih =>
    intro ts dt r h
    unfold splitLeafIfPossible at h
    simp only at h
    split at h
    · rename_i hne
      rw [walkSamples_eq] at h
      simp only at h
      have := splitNode_mono P _ (fun ts2 dt2 => splitLeafIfPossible P (fuel + 1) ts2 dt2)
        _ _ _ _ r (fun tsa l r1 hc => ih tsa l r1 hc) h
      unfold splitLeafIfPossible
      simp only [if_pos hne, walkSamples_eq]
      exact this
    · rename_i hne
      unfold splitLeafIfPossible
      simp only [if_neg hne]
      exact h

theorem splitLeafIfPossible_mono_le {F : Type} (P : Platform F) (fuel fuel1 : Nat)
    (hle : fuel ≤ fuel1) (ts : Nat) (dt : DecisionTreeNode) (r : Nat × DecisionTreeNode)
    (h : splitLeafIfPossible P fuel ts dt = some r) :
    splitLeafIfPossible P fuel1 ts dt = some r := by
  induction hle with
  | refl => exact h
  | step _ ih => exact splitLeafIfPossible_mono P _ ts dt r ih

/-- Every split of the cascade leaves at least two samples on either side. -/
theorem splitLeafIfPossible_evidence {F : Type} (P : Platform F) (fuel : Nat) :
    ∀ (ts : Nat) (d0 : NodeData) (L : List Sample) (lf : DecisionTreeNode)
      (r : Nat × DecisionTreeNode),
      setupLeafFromSamples P d0 L = some lf → splitLeafIfPossible P fuel ts lf = some r →
      EvidenceSplit r.2 := by
  induction fuel with
  | zero =>
    intro ts d0 L lf r hlf h
    rw [setupLeafFromSamples_eq] at hlf
    cases hlf
    unfold splitLeafIfPossible at h
    simp only at h
    split at h
    · cases h
    · cases h
      trivial
  | succ fuel ih =>
    intro ts d0 L lf r hlf h
    rw [setupLeafFromSamples_eq] at hlf
    cases hlf
    unfold splitLeafIfPossible at h
    simp only [DecisionTreeNode.data] at h
    split at h
    · rename_i hne
      obtain ⟨e, he, hcode, hev⟩ := findMinEntropyCode_spec _ _ _ hne
      rw [walkSamples_eq] at h
      simp only [collectRecursive] at h
      obtain ⟨hpos, hneg⟩ := evidence_parts_two P d0.id L e he hev
      rw [hcode] at hpos hneg
      obtain ⟨dn, dp, ln, lp, tsn, tsa, negative, positive, hln, hlp, hcn, hcp, hr⟩ :=
        splitNode_inv P _ _ _ _ _ r h
      rw [hr]
      have hpn := (splitLeafIfPossible_perm P fuel tsn ln _ hcn).length_eq
      have hpp := (splitLeafIfPossible_perm P fuel tsa lp _ hcp).length_eq
      rw [setupLeafFromSamples_eq] at hln hlp
      cases hln
      cases hlp
      simp only [collectRecursive] at hpn hpp
      refine ⟨?_, ?_, ?_, ?_⟩
      · rw [hpn]
        exact hneg
      · rw [hpp]
        exact hpos
      · exact ih tsn dn _ _ _ (setupLeafFromSamples_eq P _ _) hcn
      · exact ih tsa dp _ _ _ (setupLeafFromSamples_eq P _ _) hcp
    · cases h
      trivial

theorem evidenceSplit_internal (t : DecisionTreeNode) (h : EvidenceSplit t) :
    ∀ c d n p, DecisionTreeNode.internal c d n p ∈ t.nodes →
      2 ≤ (collectRecursive n).length ∧ 2 ≤ (collectRecursive p).length := by
  induction t with
  | leaf d0 v0 samples0 =>
    intro c d n p hn
    simp only [DecisionTreeNode.nodes, List.mem_singleton] at hn
    cases hn
  | internal code d0 negative positive ihn ihp =>
    intro c d n p hn
    simp only [DecisionTreeNode.nodes, List.mem_cons, List.mem_append] at hn
    rcases hn with h1 | h1 | h1
    · cases h1
      exact ⟨h.1, h.2.1⟩
    · exact ihn h.2.2.1 c d n p h1
    · exact ihp h.2.2.2 c d n p h1

theorem evidenceSplit_leaves (t : DecisionTreeNode) (h : EvidenceSplit t)
    (hlen : 2 ≤ (collectRecursive t).length) :
    ∀ d v samples, DecisionTreeNode.leaf d v samples ∈ t.nodes → 2 ≤ samples.length := by
  induction t with
  | leaf d0 v0 samples0 =>
    intro d v samples hn
    simp only [DecisionTreeNode.nodes, List.mem_singleton] at hn
    cases hn
    exact hlen
  | internal code d0 negative positive ihn ihp =>
    intro d v samples hn
    simp only [DecisionTreeNode.nodes, List.mem_cons, List.mem_append] at hn
    rcases hn with h1 | h1 | h1
    · cases h1
    · exact ihn h.2.2.1 h.1 d v samples h1
    · exact ihp h.2.2.2 h.2.1 d v samples h1
/-! ## Decimal numerals and the JSON output -/

theorem digitChar_mem (k : Nat) (hk : k < 10) :
    Char.ofNat (48 + k) ∈ floatChars ∧ Char.ofNat (48 + k) ≠ '-' ∧
      (Char.ofNat (48 + k)).toNat - 48 = k := by
  interval_cases k <;> decide

theorem floatChars_plain (c : Char) (h : c ∈ floatChars) :
    c ≠ '[' ∧ c ≠ ',' ∧ c ≠ ']' ∧ isSpaceChar c = false := by
  simp only [floatChars, List.mem_cons, List.mem_singleton, List.not_mem_nil, or_false] at h
  rcases h with h | h | h | h | h | h | h | h | h | h | h | h | h | h <;> subst h <;> decide

theorem digitsValue_append (ds : List Char) (c : Char) :
    digitsValue (ds ++ [c]) = 10 * digitsValue ds + (c.toNat - 48) := by
  simp [digitsValue, List.foldl_append]

/-- The digits that `decimalDigits` puts before `acc`: characters of a numeral,
no sign, and their value is `n` when the fuel suffices. -/
theorem decimalDigits_spec (fuel : Nat) :
    ∀ (n : Nat) (acc : List Char),
      ∃ ds, decimalDigits fuel n acc = ds ++ acc ∧
        (∀ c ∈ ds, c ∈ floatChars ∧ c ≠ '-') ∧ (n < 10 ^ fuel → digitsValue ds = n) ∧
        (0 < fuel → ds ≠ []) := by
  induction fuel with
  | zero =>
    intro n acc
    refine ⟨[], rfl, by simp, ?_, by simp⟩
    intro h
    simp only [pow_zero, Nat.lt_one_iff] at h
    rw [h]
    rfl
  | succ fuel ih =>
    intro n acc
    obtain ⟨hmem, hne, hval⟩ := digitChar_mem (n % 10) (Nat.mod_lt _ (by norm_num))
    unfold decimalDigits
    simp only
    split
    · rename_i hz
      refine ⟨[Char.ofNat (48 + n % 10)], rfl, ?_, ?_, by simp⟩
      · intro c hc
        rw [List.mem_singleton] at hc
        rw [hc]
        exact ⟨hmem, hne⟩
      · intro _
        have hd := digitsValue_append [] (Char.ofNat (48 + n % 10))
        simp only [List.nil_append] at hd
        rw [hd, hval]
        simp only [digitsValue, List.foldl_nil]
        omega
    · rename_i hz
      obtain ⟨ds, hds, hch, hv, _⟩ := ih (n / 10) (Char.ofNat (48 + n % 10) :: acc)
      refine ⟨ds ++ [Char.ofNat (48 + n % 10)], ?_, ?_, ?_, by simp⟩
      · rw [hds]
        simp
      · intro c hc
        rcases List.mem_append.mp hc with h | h
        · exact hch c h
        · rw [List.mem_singleton] at h
          rw [h]
          exact ⟨hmem, hne⟩
      · intro hlt
        have hlt1 : n / 10 < 10 ^ fuel := by
          rw [pow_succ] at hlt
          exact Nat.div_lt_of_lt_mul (by rw [Nat.mul_comm]; exact hlt)
        rw [digitsValue_append, hv hlt1, hval]
        omega

theorem decimalNat_spec (n : Nat) :
    (∀ c ∈ decimalNat n, c ∈ floatChars ∧ c ≠ '-') ∧ decimalNat n ≠ [] ∧
      (n < 10 ^ 40 → digitsValue (decimalNat n) = n) := by
  obtain ⟨ds, hds, hch, hv, hne⟩ := decimalDigits_spec 40 n []
  rw [List.append_nil] at hds
  unfold decimalNat
  rw [hds]
  exact ⟨hch, hne (by norm_num), hv⟩

theorem decimalInt_chars (z : Int) : ∀ c ∈ decimalInt z, c ∈ floatChars := by
  intro c hc
  unfold decimalInt at hc
  split at hc
  · rcases List.mem_cons.mp hc with h | h
    · rw [h]
      decide
    · exact ((decimalNat_spec _).1 c h).1
  · exact ((decimalNat_spec _).1 c hc).1

/-- The numeral of an `int` determines it. -/
theorem decimalInt_inj (a b : Int) (ha : -2147483648 ≤ a ∧ a < 2147483648)
    (hb : -2147483648 ≤ b ∧ b < 2147483648) (h : decimalInt a = decimalInt b) : a = b := by
  have hna : a.natAbs < 10 ^ 40 := by
    have : a.natAbs ≤ 2147483648 := by omega
    exact lt_of_le_of_lt this (by norm_num)
  have hnb : b.natAbs < 10 ^ 40 := by
    have : b.natAbs ≤ 2147483648 := by omega
    exact lt_of_le_of_lt this (by norm_num)
  obtain ⟨cha, nea, va⟩ := decimalNat_spec a.natAbs
  obtain ⟨chb, neb, vb⟩ := decimalNat_spec b.natAbs
  unfold decimalInt at h
  by_cases hA : a < 0 <;> by_cases hB : b < 0
  · simp only [if_pos hA, if_pos hB, List.cons.injEq, true_and] at h
    have : a.natAbs = b.natAbs := by rw [← va hna, ← vb hnb, h]
    omega
  · simp only [if_pos hA, if_neg hB] at h
    cases hd : decimalNat b.natAbs with
    | nil => exact absurd hd neb
    | cons c tl =>
      rw [hd] at h
      have hc := (chb c (by rw [hd]; exact List.mem_cons_self _ _)).2
      simp only [List.cons.injEq] at h
      exact absurd h.1.symm hc
  · simp only [if_neg hA, if_pos hB] at h
    cases hd : decimalNat a.natAbs with
    | nil => exact absurd hd nea
    | cons c tl =>
      rw [hd] at h
      have hc := (cha c (by rw [hd]; exact List.mem_cons_self _ _)).2
      simp only [List.cons.injEq] at h
      exact absurd h.1 hc
  · simp only [if_neg hA, if_neg hB] at h
    have : a.natAbs = b.natAbs := by rw [← va hna, ← vb hnb, h]
    omega

/-- A text of characters that are no delimiters, followed by the end of the
stream or by a comma or a closing bracket, is determined by the stream. -/
theorem plain_prefix_unique (v1 : List Char) :
    ∀ (v2 rest1 rest2 : List Char),
      (∀ c ∈ v1, c ≠ ',' ∧ c ≠ ']') → (∀ c ∈ v2, c ≠ ',' ∧ c ≠ ']') →
      (rest1 = [] ∨ ∃ c tl, rest1 = c :: tl ∧ (c = ',' ∨ c = ']')) →
      (rest2 = [] ∨ ∃ c tl, rest2 = c :: tl ∧ (c = ',' ∨ c = ']')) →
      v1 ++ rest1 = v2 ++ rest2 → v1 = v2 ∧ rest1 = rest2 := by
  induction v1 with
  | nil =>
    intro v2 rest1 rest2 _ h2 hr1 _ h
    cases v2 with
    | nil => exact ⟨rfl, h⟩
    | cons c tl =>
      exfalso
      have hc := h2 c (List.mem_cons_self _ _)
      rcases hr1 with hr | ⟨c1, tl1, hr, hd⟩
      · rw [hr] at h
        simp at h
      · rw [hr] at h
        simp only [List.nil_append, List.cons_append, List.cons.injEq] at h
        rw [h.1] at hd
        rcases hd with hd | hd
        · exact hc.1 hd
        · exact hc.2 hd
  | cons a v1 ih =>
    intro v2 rest1 rest2 h1 h2 hr1 hr2 h
    cases v2 with
    | nil =>
      exfalso
      have hc := h1 a (List.mem_cons_self _ _)
      rcases hr2 with hr | ⟨c1, tl1, hr, hd⟩
      · rw [hr] at h
        simp at h
      · rw [hr] at h
        simp only [List.nil_append, List.cons_append, List.cons.injEq] at h
        rw [← h.1] at hd
        rcases hd with hd | hd
        · exact hc.1 hd
        · exact hc.2 hd
    | cons b v2 =>
      simp only [List.cons_append, List.cons.injEq] at h
      obtain ⟨hv, hr⟩ := ih v2 rest1 rest2
        (fun c hc => h1 c (List.mem_cons_of_mem _ hc))
        (fun c hc => h2 c (List.mem_cons_of_mem _ hc)) hr1 hr2 h.2
      exact ⟨by rw [h.1, hv], hr⟩

/-- The text of a tree, followed by the end of the stream or by a comma or a
closing bracket, determines the shape of the tree and what follows. -/
theorem outputDecisionTree_unique (io : StreamOps) (t1 : DecisionTreeNode) :
    ∀ (t2 : DecisionTreeNode) (rest1 rest2 : List Char),
      PlainValues io t1 → PlainValues io t2 → IntCodes t1 → IntCodes t2 →
      (rest1 = [] ∨ ∃ c tl, rest1 = c :: tl ∧ (c = ',' ∨ c = ']')) →
      (rest2 = [] ∨ ∃ c tl, rest2 = c :: tl ∧ (c = ',' ∨ c = ']')) →
      outputDecisionTree io t1 ++ rest1 = outputDecisionTree io t2 ++ rest2 →
      t1.shape = t2.shape ∧ rest1 = rest2 := by
  have hstart : ∀ (v rest tl : List Char), (∀ c ∈ v, c ≠ '[' ∧ c ≠ ',' ∧ c ≠ ']') →
      (rest = [] ∨ ∃ c tl, rest = c :: tl ∧ (c = ',' ∨ c = ']')) →
      v ++ rest = '[' :: tl → False := by
    intro v rest tl hv hr h
    cases v with
    | nil =>
      rcases hr with hr | ⟨c, tl1, hr, hd⟩
      · rw [hr] at h
        simp at h
      · rw [hr] at h
        simp only [List.nil_append, List.cons.injEq] at h
        rw [h.1] at hd
        rcases hd with hd | hd
        · exact absurd hd (by decide)
        · exact absurd hd (by decide)
    | cons c v =>
      simp only [List.cons_append, List.cons.injEq] at h
      exact (hv c (List.mem_cons_self _ _)).1 h.1
  have hdec : ∀ z : Int, ∀ c ∈ decimalInt z, c ≠ ',' ∧ c ≠ ']' := by
    intro z c hc
    have := floatChars_plain c (decimalInt_chars z c hc)
    exact ⟨this.2.1, this.2.2.1⟩
  induction t1 with
  | leaf d1 v1 s1 =>
    intro t2 rest1 rest2 hp1 hp2 _ _ hr1 hr2 h
    cases t2 with
    | leaf d2 v2 s2 =>
      simp only [outputDecisionTree] at h
      simp only [PlainValues] at hp1 hp2
      exact ⟨rfl, (plain_prefix_unique _ _ _ _ (fun c hc => (hp1 c hc).2)
        (fun c hc => (hp2 c hc).2) hr1 hr2 h).2⟩
    | internal c2 d2 n2 p2 =>
      exfalso
      simp only [outputDecisionTree, List.append_assoc, List.cons_append, List.nil_append] at h
      exact hstart _ _ _ hp1 hr1 h
  | internal c1 d1 n1 p1 ihn ihp =>
    intro t2 rest1 rest2 hp1 hp2 hc1 hc2 hr1 hr2 h
    cases t2 with
    | leaf d2 v2 s2 =>
      exfalso
      simp only [outputDecisionTree, List.append_assoc, List.cons_append, List.nil_append] at h
      exact hstart _ _ _ hp2 hr2 h.symm
    | internal c2 d2 n2 p2 =>
      simp only [outputDecisionTree, List.append_assoc, List.cons_append, List.nil_append,
        List.cons.injEq, true_and] at h
      obtain ⟨hcode, hrest⟩ := plain_prefix_unique _ _ _ _ (hdec c1) (hdec c2)
        (Or.inr ⟨_, _, rfl, Or.inl rfl⟩) (Or.inr ⟨_, _, rfl, Or.inl rfl⟩) h
      simp only [List.cons.injEq, true_and] at hrest
      obtain ⟨hn, hrest1⟩ := ihn n2 _ _ hp1.1 hp2.1 hc1.2.1 hc2.2.1
        (Or.inr ⟨_, _, rfl, Or.inl rfl⟩) (Or.inr ⟨_, _, rfl, Or.inl rfl⟩) hrest
      simp only [List.cons.injEq, true_and] at hrest1
      obtain ⟨hp, hrest2⟩ := ihp p2 _ _ hp1.2 hp2.2 hc1.2.2 hc2.2.2
        (Or.inr ⟨_, _, rfl, Or.inr rfl⟩) (Or.inr ⟨_, _, rfl, Or.inr rfl⟩) hrest1
      simp only [List.cons.injEq, true_and] at hrest2
      have hceq := decimalInt_inj c1 c2 hc1.1 hc2.1 hcode
      refine ⟨?_, hrest2⟩
      simp only [DecisionTreeNode.shape, hceq, hn, hp]

theorem outputTrees_false (io : StreamOps) (trees : List DecisionTreeNode) :
    outputTrees io false trees
      = (trees.map (fun t => ',' :: outputDecisionTree io t)).flatten := by
  induction trees with
  | nil => rfl
  | cons t rest ih =>
    simp only [outputTrees, Bool.false_eq_true, if_false, ih, List.map_cons,
      List.flatten_cons, List.singleton_append, List.cons_append, List.append_assoc,
      List.nil_append]

theorem intercalate_cons_eq (sep x : List Char) (xs : List (List Char)) :
    List.intercalate sep (x :: xs) = x ++ (xs.map (fun y => sep ++ y)).flatten := by
  induction xs generalizing x with
  | nil => simp [List.intercalate]
  | cons y ys ih =>
    have h := ih y
    simp only [List.intercalate, List.intersperse, List.flatten_cons, List.map_cons] at h ⊢
    rw [h]
    simp

theorem outputTrees_eq (io : StreamOps) (trees : List DecisionTreeNode) :
    outputTrees io true trees
      = List.intercalate [','] (trees.map (outputDecisionTree io)) := by
  cases trees with
  | nil => rfl
  | cons t rest =>
    rw [List.map_cons, intercalate_cons_eq]
    simp only [outputTrees, if_true, List.nil_append, outputTrees_false, List.map_map,
      List.singleton_append]
    rfl

theorem stripZeros_sub (ds : List Char) : ∀ c ∈ stripZeros ds, c ∈ ds := by
  intro c hc
  unfold stripZeros at hc
  rw [List.mem_reverse] at hc
  exact List.mem_reverse.mp ((List.dropWhile_sublist _).subset hc)

theorem showPositive_chars (num den : Nat) : ∀ c ∈ showPositive num den, c ∈ floatChars := by
  have hd : ∀ n : Nat, ∀ c ∈ decimalNat n, c ∈ floatChars :=
    fun n c hc => ((decimalNat_spec n).1 c hc).1
  intro c hc
  unfold showPositive at hc
  simp only at hc
  split at hc
  · simp only [List.mem_append, List.mem_cons, List.mem_singleton, List.not_mem_nil,
      or_false] at hc
    rcases hc with ((h | h) | h) | h
    · exact hd _ c (List.mem_of_mem_take h)
    · split at h
      · cases h
      · rcases List.mem_cons.mp h with h1 | h1
        · rw [h1]; decide
        · exact hd _ c (List.mem_of_mem_tail (stripZeros_sub _ c h1))
    · rcases h with h | h
      · rw [h]; decide
      · rw [h]
        split <;> decide
    · split at h
      · rcases List.mem_cons.mp h with h1 | h1
        · rw [h1]; decide
        · exact hd _ c h1
      · exact hd _ c h
  · split at hc
    · rcases List.mem_append.mp hc with h | h
      · exact hd _ c (List.mem_of_mem_take h)
      · split at h
        · cases h
        · rcases List.mem_cons.mp h with h1 | h1
          · rw [h1]; decide
          · exact hd _ c (List.mem_of_mem_drop (stripZeros_sub _ c h1))
    · simp only [List.mem_append, List.mem_cons, List.mem_singleton, List.not_mem_nil,
        or_false] at hc
      rcases hc with (h | h) | h
      · rcases h with h | h
        · rw [h]; decide
        · rw [h]; decide
      · rw [(List.mem_replicate.mp h).2]
        decide
      · exact hd _ c (stripZeros_sub _ c h)

/-- The reference format of a `float` writes characters of a decimal numeral only. -/
theorem refShowFloat_chars (x : ℚ) : ∀ c ∈ refShowFloat x, c ∈ floatChars := by
  intro c hc
  unfold refShowFloat at hc
  split at hc
  · rw [List.mem_singleton] at hc
    rw [hc]
    decide
  · split at hc
    · rcases List.mem_cons.mp hc with h | h
      · rw [h]; decide
      · exact showPositive_chars _ _ c h
    · exact showPositive_chars _ _ c hc

theorem plainValues_refStream (t : DecisionTreeNode) : PlainValues refStream t := by
  induction t with
  | leaf d v s =>
    intro c hc
    have := floatChars_plain c (refShowFloat_chars v c hc)
    exact ⟨this.1, this.2.1, this.2.2.1⟩
  | internal code d negative positive ihn ihp => exact ⟨ihn, ihp⟩

theorem outputDecisionTree_noSpace (t : DecisionTreeNode) :
    ∀ c ∈ outputDecisionTree refStream t, isSpaceChar c = false := by
  induction t with
  | leaf d v s =>
    intro c hc
    exact (floatChars_plain c (refShowFloat_chars v c hc)).2.2.2
  | internal code d negative positive ihn ihp =>
    intro c hc
    simp only [outputDecisionTree, List.mem_append, List.mem_singleton] at hc
    rcases hc with ((((((h | h) | h) | h) | h) | h) | h)
    · rw [h]; decide
    · exact (floatChars_plain c (decimalInt_chars code c h)).2.2.2
    · rw [h]; decide
    · exact ihn c h
    · rw [h]; decide
    · exact ihp c h
    · rw [h]; decide
/-! ## Incremental additions against the recount -/

theorem insertStep_core_of {F : Type} (P : Platform F) (id : Nat) (s : Sample)
    (direction : Int) (acc : DCMap × List RankPair × RankPair) (x : Int × ℚ)
    (hc : acc.1.contains x.1 = false)
    (hge : pairGe (codeRankInNode P x.1 id, x.1) acc.2.2 = true) :
    ∃ dc : DecisionCounts, dc.rank = codeRankInNode P x.1 id
      ∧ insertStep P id s direction acc x = insertCore acc.1 acc.2.1 acc.2.2 x.1 dc := by
  have hc1 : ¬ acc.1.contains x.1 = true := by simp [hc]
  by_cases hy : s.y ≥ 1 / 2 <;> by_cases hv : x.2 ≥ 1 / 2
  · exact ⟨⟨0, addDirection 0 direction, codeRankInNode P x.1 id⟩, rfl, by
      simp only [insertStep, insertCore, if_neg hc1, if_pos hge, hy, hv, if_true, if_false]⟩
  · exact ⟨⟨0, 0, codeRankInNode P x.1 id⟩, rfl, by
      simp only [insertStep, insertCore, if_neg hc1, if_pos hge, hy, hv, if_true, if_false]⟩
  · exact ⟨⟨addDirection 0 direction, 0, codeRankInNode P x.1 id⟩, rfl, by
      simp only [insertStep, insertCore, if_neg hc1, if_pos hge, hy, hv, if_true, if_false]⟩
  · exact ⟨⟨0, 0, codeRankInNode P x.1 id⟩, rfl, by
      simp only [insertStep, insertCore, if_neg hc1, if_pos hge, hy, hv, if_true, if_false]⟩

theorem pairGe_succ_of_lt (b p : RankPair) (h : pairLt b p = true) :
    pairGe p (b.1, b.2 + 1) = true := by
  rw [pairLt_iff] at h
  rw [pairGe_iff]
  simp only
  omega

theorem pairGe_pairMax (p a b : RankPair) (ha : pairGe p a = true) (hb : pairGe p b = true) :
    pairGe p (pairMax a b) = true := by
  unfold pairMax
  split
  · exact hb
  · exact ha

/-- After an insertion every pair of the set is at or above the watermark, and the
watermark has moved only when the set is full. -/
theorem insertCore_above (m : DCMap) (ranks : List RankPair) (mvr : RankPair) (code : Int)
    (dc : DecisionCounts) (hs : RankSorted ranks) (hnotin : (dc.rank, code) ∉ ranks)
    (hcap : ranks.length ≤ maxCodesToKeep)
    (hnew : pairGe (dc.rank, code) mvr = true) (habove : ∀ p ∈ ranks, pairGe p mvr = true)
    (hfull : mvr = (0, 0) ∨ ranks.length = maxCodesToKeep) :
    (∀ p ∈ (insertCore m ranks mvr code dc).2.1,
        pairGe p (insertCore m ranks mvr code dc).2.2 = true)
      ∧ ((insertCore m ranks mvr code dc).2.2 = (0, 0)
        ∨ (insertCore m ranks mvr code dc).2.1.length = maxCodesToKeep) := by
  have hlen1 := rankSetInsert_length (dc.rank, code) ranks hnotin
  have hsorted1 := rankSetInsert_sorted (dc.rank, code) ranks hs
  have hmemr := mem_rankSetInsert (dc.rank, code) ranks
  have hall : ∀ p ∈ rankSetInsert (dc.rank, code) ranks, pairGe p mvr = true := by
    intro p hp
    rcases (hmemr p).mp hp with h1 | h1
    · rw [h1]; exact hnew
    · exact habove p h1
  unfold insertCore
  simp only
  split
  · rename_i hgt
    cases hr : rankSetInsert (dc.rank, code) ranks with
    | nil => rw [hr] at hlen1; simp at hlen1
    | cons b tl =>
      rw [hr] at hsorted1 hlen1 hall hgt
      simp only [List.headD_cons, List.tail_cons]
      unfold RankSorted at hsorted1
      rw [List.pairwise_cons] at hsorted1
      constructor
      · intro p hp
        exact pairGe_pairMax p _ _ (hall p (List.mem_cons_of_mem _ hp))
          (pairGe_succ_of_lt b p (hsorted1.1 p hp))
      · right
        simp only [List.length_cons, maxCodesToKeep] at hlen1 hgt hcap ⊢
        omega
  · rename_i hle
    constructor
    · exact hall
    · left
      rcases hfull with h1 | h1
      · exact h1
      · exfalso
        simp only [maxCodesToKeep] at hlen1 hle h1
        omega

/-- One iteration of the insertion loop with the code of `x` offered. -/
theorem insertStep_seen {F : Type} (P : Platform F) (id : Nat) (s : Sample) (direction : Int)
    (seen : Int → Prop) (acc : DCMap × List RankPair × RankPair) (x : Int × ℚ)
    (h : SeenInv P id seen acc) :
    SeenInv P id (fun c => seen c ∨ c = x.1) (insertStep P id s direction acc x) := by
  obtain ⟨hsync1, _, hgate, hout⟩ := insertStep_sync P id s direction acc x h.sync
  have hblocked := insertStep_blocked P id s direction acc x h.sync
  have hkeep : ∀ c, acc.1.contains c = true →
      (insertStep P id s direction acc x).1.contains c = true
        ∨ pairLt (codeRankInNode P c id, c) (insertStep P id s direction acc x).2.2 = true := by
    intro c hc
    cases hc1 : (insertStep P id s direction acc x).1.contains c
    · exact Or.inr (hout c hc hc1)
    · exact Or.inl rfl
  have hlow : ∀ c, acc.1.contains c = false →
      pairLt (codeRankInNode P c id, c) acc.2.2 = true →
      pairLt (codeRankInNode P c id, c) (insertStep P id s direction acc x).2.2 = true :=
    fun c hc hlt => (hblocked c hc hlt).2
  have hold : ∀ c, seen c →
      (insertStep P id s direction acc x).1.contains c = true
        ∨ pairLt (codeRankInNode P c id, c) (insertStep P id s direction acc x).2.2 = true := by
    intro c hc
    cases hcc : acc.1.contains c
    · rcases h.cover c hc with h1 | h1
      · rw [hcc] at h1
        cases h1
      · exact Or.inr (hlow c hcc h1)
    · exact hkeep c hcc
  refine ⟨hsync1, ?_, ?_, ?_, ?_⟩
  · intro c hc
    rcases hgate c hc with h1 | h1
    · exact Or.inl (h.sub c h1)
    · exact Or.inr h1.1
  · intro c hc
    rcases hc with hc | hc
    · exact hold c hc
    · rw [hc]
      cases hcc : acc.1.contains x.1
      · cases hge : pairGe (codeRankInNode P x.1 id, x.1) acc.2.2
        · have hlt : pairLt (codeRankInNode P x.1 id, x.1) acc.2.2 = true := by
            rw [pairGe_eq_not] at hge
            simpa using hge
          exact Or.inr (hlow x.1 hcc hlt)
        · obtain ⟨dc, hrank, heq⟩ := insertStep_core_of P id s direction acc x hcc hge
          obtain ⟨_, _, h3⟩ := insertCore_sync P id acc.1 acc.2.1 acc.2.2 x.1 dc hrank hcc h.sync
          rw [heq]
          cases hc1 : (insertCore acc.1 acc.2.1 acc.2.2 x.1 dc).1.contains x.1
          · exact Or.inr (h3 x.1 (Or.inl rfl) hc1)
          · exact Or.inl rfl
      · exact hkeep x.1 hcc
  · rcases insertStep_eq_core P id s direction acc x with heq | ⟨hcc, hge, dc, hrank, heq⟩
    · rw [heq]
      exact h.above
    · rw [heq]
      have hnotin : (dc.rank, x.1) ∉ acc.2.1 := by
        intro hm
        obtain ⟨e, he, hpe⟩ := (h.sync.sync _).mp hm
        rw [DCMap.contains_false_iff] at hcc
        exact hcc e he (congrArg Prod.snd hpe)
      exact (insertCore_above acc.1 acc.2.1 acc.2.2 x.1 dc h.sync.sorted hnotin h.sync.cap
        (by rw [hrank]; exact hge) h.above h.full).1
  · rcases insertStep_eq_core P id s direction acc x with heq | ⟨hcc, hge, dc, hrank, heq⟩
    · rw [heq]
      exact h.full
    · rw [heq]
      have hnotin : (dc.rank, x.1) ∉ acc.2.1 := by
        intro hm
        obtain ⟨e, he, hpe⟩ := (h.sync.sync _).mp hm
        rw [DCMap.contains_false_iff] at hcc
        exact hcc e he (congrArg Prod.snd hpe)
      exact (insertCore_above acc.1 acc.2.1 acc.2.2 x.1 dc h.sync.sorted hnotin h.sync.cap
        (by rw [hrank]; exact hge) h.above h.full).2

theorem seenInv_congr {F : Type} (P : Platform F) (id : Nat) (seen1 seen2 : Int → Prop)
    (acc : DCMap × List RankPair × RankPair) (hiff : ∀ c, seen1 c ↔ seen2 c)
    (h : SeenInv P id seen1 acc) : SeenInv P id seen2 acc :=
  ⟨h.sync, fun c hc => (hiff c).mp (h.sub c hc), fun c hc => h.cover c ((hiff c).mpr hc),
    h.above, h.full⟩

theorem insertFold_seen {F : Type} (P : Platform F) (id : Nat) (s : Sample) (direction : Int)
    (L : List (Int × ℚ)) :
    ∀ (seen : Int → Prop) (acc : DCMap × List RankPair × RankPair), SeenInv P id seen acc →
      SeenInv P id (fun c => seen c ∨ c ∈ L.map Prod.fst)
        (L.foldl (insertStep P id s direction) acc) := by
  induction L with
  | nil =>
    intro seen acc h
    exact seenInv_congr P id _ _ _ (fun c => by simp) h
  | cons x L ih =>
    intro seen acc h
    rw [List.foldl_cons]
    have h1 := ih _ _ (insertStep_seen P id s direction seen acc x h)
    apply seenInv_congr P id _ _ _ _ h1
    intro c
    simp only [List.map_cons, List.mem_cons]
    tauto

theorem filterMap_bump_add_length (s : Sample) (m : DCMap) :
    (m.filterMap (bumpEntry s 1)).length = m.length := by
  induction m with
  | nil => rfl
  | cons e m ih =>
    rw [List.filterMap_cons, bumpEntry_add]
    simp only [List.length_cons, ih]

theorem mem_findUsedCodes_append (S : List Sample) (s : Sample) (c : Int) :
    c ∈ findUsedCodes (S ++ [s]) ↔ c ∈ findUsedCodes S ∨ c ∈ s.xCodes.map Prod.fst := by
  rw [mem_findUsedCodes, mem_findUsedCodes]
  constructor
  · rintro ⟨s1, hs1, hc⟩
    rcases List.mem_append.mp hs1 with h | h
    · exact Or.inl ⟨s1, h, hc⟩
    · rw [List.mem_singleton] at h
      rw [h] at hc
      exact Or.inr hc
  · rintro (⟨s1, hs1, hc⟩ | hc)
    · exact ⟨s1, List.mem_append_left _ hs1, hc⟩
    · exact ⟨s, List.mem_append_right _ (List.mem_singleton_self s), hc⟩

/-- One incremental addition keeps the description of the table. -/
theorem nodeSeen_add {F : Type} (P : Platform F) (S : List Sample) (d : NodeData) (s : Sample)
    (h : NodeSeen P S d) : NodeSeen P (S ++ [s]) (updateDecisionCounters P d s 1) := by
  have htab1 := tableOK_filterMap P d.id d.decisionCountMap s 1 h.table
  have hsync0 := sync_start P d.id (d.decisionCountMap.filterMap (bumpEntry s 1))
    d.minValidRank htab1
  have hlen0 := sync_length P d.id _ hsync0
  simp only at hlen0
  have hstart : SeenInv P d.id (fun c => c ∈ findUsedCodes S)
      (d.decisionCountMap.filterMap (bumpEntry s 1),
        (d.decisionCountMap.filterMap (bumpEntry s 1)).foldl
          (fun (ranks : List RankPair) e => rankSetInsert (e.2.rank, e.1) ranks) [],
        d.minValidRank) := by
    refine ⟨hsync0, ?_, ?_, ?_, ?_⟩
    · intro c hc
      simp only at hc
      rw [contains_filterMap_bump_add] at hc
      exact h.sub c hc
    · intro c hc
      simp only
      rw [contains_filterMap_bump_add]
      exact h.cover c hc
    · intro p hp
      obtain ⟨e1, he1, hpe⟩ := (hsync0.sync p).mp hp
      obtain ⟨e, he, heq⟩ := (mem_filterMap_bump_add s _ e1).mp he1
      have : entryPair e1 = entryPair e := by
        rw [heq]
        simp only [entryPair, bumpCounts_rank]
      rw [← hpe, this]
      exact h.above e he
    · rcases h.full with h1 | h1
      · exact Or.inl h1
      · right
        simp only
        rw [hlen0, filterMap_bump_add_length]
        exact h1
  have hfold := insertFold_seen P d.id s 1 s.xCodes _ _ hstart
  have hlen1 := sync_length P d.id _ hfold.sync
  rw [updateDecisionCounters_add]
  refine ⟨⟨hfold.sync.keys, ?_, hfold.sync.genuine⟩, ?_, ?_, ?_, ?_⟩
  · simp only
    rw [← hlen1]
    exact hfold.sync.cap
  · intro c hc
    rw [mem_findUsedCodes_append]
    exact hfold.sub c hc
  · intro c hc
    rw [mem_findUsedCodes_append] at hc
    exact hfold.cover c hc
  · intro e he
    exact hfold.above _ ((hfold.sync.sync _).mpr ⟨e, he, rfl⟩)
  · rcases hfold.full with h1 | h1
    · exact Or.inl h1
    · right
      simp only
      rw [← hlen1]
      exact h1

theorem nodeSeen_addFold {F : Type} (P : Platform F) (A : List Sample) :
    ∀ (S : List Sample) (d : NodeData), NodeSeen P S d →
      NodeSeen P (S ++ A) (A.foldl (fun (d : NodeData) s => updateDecisionCounters P d s 1) d) := by
  induction A with
  | nil =>
    intro S d h
    simpa using h
  | cons s A ih =>
    intro S d h
    rw [List.foldl_cons]
    have := ih (S ++ [s]) _ (nodeSeen_add P S d s h)
    simpa using this

theorem nodeSeen_empty {F : Type} (P : Platform F) (id : Nat) :
    NodeSeen P [] ⟨0, 0, [], id, (0, 0)⟩ := by
  refine ⟨⟨by simp, by simp [maxCodesToKeep], by simp⟩, ?_, ?_, ?_, Or.inl rfl⟩
  · intro c hc
    simp [DCMap.contains] at hc
  · intro c hc
    simp [findUsedCodes] at hc
  · intro e he
    cases he

/-- Two sets of `K` largest pairs of the same list have the same members. -/
theorem top_unique (D K1 K2 : List RankPair) (hn2 : K2.Nodup)
    (hs1 : ∀ p ∈ K1, p ∈ D) (hs2 : ∀ p ∈ K2, p ∈ D) (hlen : K1.length ≤ K2.length)
    (hu1 : ∀ q ∈ D, q ∉ K1 → ∀ p ∈ K1, pairLt q p = true)
    (hu2 : ∀ q ∈ D, q ∉ K2 → ∀ p ∈ K2, pairLt q p = true) : ∀ p ∈ K1, p ∈ K2 := by
  intro p hp
  by_contra hnot
  have hsub : K2 ⊆ K1.erase p := by
    intro k hk
    have hpk := hu2 p (hs1 p hp) hnot k hk
    have hk1 : k ∈ K1 := by
      by_contra hk1
      have := hu1 k (hs2 k hk) hk1 p hp
      rw [pairLt_asymm p k hpk] at this
      cases this
    have hne : k ≠ p := by
      intro he
      rw [he] at hk
      exact hnot hk
    exact (List.mem_erase_of_ne hne).mpr hk1
  have hle := (List.subperm_of_subset hn2 hsub).length_le
  rw [List.length_erase_of_mem hp] at hle
  have hpos : 0 < K1.length := List.length_pos_of_mem hp
  omega

theorem entry_eq (a b : Int × DecisionCounts) (h1 : a.1 = b.1) (h2 : a.2.c0p = b.2.c0p)
    (h3 : a.2.c1p = b.2.c1p) (h4 : a.2.rank = b.2.rank) : a = b := by
  obtain ⟨ka, ⟨a0, a1, ar⟩⟩ := a
  obtain ⟨kb, ⟨b0, b1, br⟩⟩ := b
  simp only at h1 h2 h3 h4
  rw [h1, h2, h3, h4]

/-- After the incremental addition of samples with non-negative codes to an empty
node, the table holds the codes that the recount of the samples keeps. -/
theorem increcount_keys {F : Type} (P : Platform F) (id : Nat) (A : List Sample)
    (hcodes : ∀ s ∈ A, ∀ e ∈ s.xCodes, 0 ≤ e.1) (c : Int) :
    (A.foldl (fun (d : NodeData) s => updateDecisionCounters P d s 1)
        ⟨0, 0, [], id, (0, 0)⟩).decisionCountMap.contains c
      = (computeDecisionCounters P id A).1.contains c := by
  have hseen := nodeSeen_addFold P A [] _ (nodeSeen_empty P id)
  rw [List.nil_append] at hseen
  have hid := (addFold_frame P A ⟨0, 0, [], id, (0, 0)⟩).1
  simp only at hid
  generalize hd : A.foldl (fun (d : NodeData) s => updateDecisionCounters P d s 1)
    ⟨0, 0, [], id, (0, 0)⟩ = d at hseen hid
  have hU : (findUsedCodes A).Nodup := by
    refine (findUsedCodes_sorted A).imp ?_
    intro a b hab
    omega
  have hnonneg : ∀ c ∈ findUsedCodes A, 0 ≤ c := by
    intro c hc
    obtain ⟨s, hs, hcs⟩ := (mem_findUsedCodes A c).mp hc
    obtain ⟨e, he, hec⟩ := List.mem_map.mp hcs
    rw [← hec]
    exact hcodes s hs e he
  have hnD := rankPairs_nodup P id _ hU
  obtain ⟨hs2, hsub2, hlen2, _, hrest2⟩ := keepTop_fold_spec maxCodesToKeep _ hnD
  have hn2 := rankSorted_nodup _ hs2
  have hn1 := entryPair_nodup d.decisionCountMap hseen.table.1
  have hpair : ∀ e ∈ d.decisionCountMap, entryPair e = (codeRankInNode P e.1 id, e.1) := by
    intro e he
    have := hseen.table.2.2 e he
    rw [hid] at this
    simp only [entryPair, this]
  have hs1 : ∀ p ∈ d.decisionCountMap.map entryPair,
      p ∈ (findUsedCodes A).map (fun c => (codeRankInNode P c id, c)) := by
    intro p hp
    obtain ⟨e, he, hpe⟩ := List.mem_map.mp hp
    rw [← hpe, hpair e he]
    exact List.mem_map.mpr ⟨e.1, hseen.sub e.1 ((DCMap.contains_iff _ _).mpr ⟨e, he, rfl⟩), rfl⟩
  have hout : ∀ q ∈ (findUsedCodes A).map (fun c => (codeRankInNode P c id, c)),
      q ∉ d.decisionCountMap.map entryPair → pairLt q d.minValidRank = true := by
    intro q hq hnot
    obtain ⟨c1, hc1, hqc⟩ := List.mem_map.mp hq
    rcases hseen.cover c1 hc1 with h1 | h1
    · exfalso
      obtain ⟨e, he, hec⟩ := (DCMap.contains_iff _ _).mp h1
      apply hnot
      refine List.mem_map.mpr ⟨e, he, ?_⟩
      rw [hpair e he, hec]
      exact hqc
    · rw [hid] at h1
      rw [← hqc]
      exact h1
  have hu1 : ∀ q ∈ (findUsedCodes A).map (fun c => (codeRankInNode P c id, c)),
      q ∉ d.decisionCountMap.map entryPair →
      ∀ p ∈ d.decisionCountMap.map entryPair, pairLt q p = true := by
    intro q hq hnot p hp
    obtain ⟨e, he, hpe⟩ := List.mem_map.mp hp
    have habove := hseen.above e he
    rw [hpe, pairGe_eq_not] at habove
    exact pairLt_of_lt_of_ge q _ p (hout q hq hnot) (by simpa using habove)
  have hlen1 : (d.decisionCountMap.map entryPair).length
      = (((findUsedCodes A).map (fun c => (codeRankInNode P c id, c))).foldl
          (keepTop maxCodesToKeep) []).length := by
    rw [hlen2, List.length_map]
    have hle : d.decisionCountMap.length
        ≤ ((findUsedCodes A).map (fun c => (codeRankInNode P c id, c))).length := by
      have := (List.subperm_of_subset hn1 hs1).length_le
      rw [List.length_map] at this
      exact this
    rcases hseen.full with h0 | h40
    · have hall : ∀ q ∈ (findUsedCodes A).map (fun c => (codeRankInNode P c id, c)),
          q ∈ d.decisionCountMap.map entryPair := by
        intro q hq
        by_contra hnot
        have hlt := hout q hq hnot
        obtain ⟨c1, hc1, hqc⟩ := List.mem_map.mp hq
        have hc0 := hnonneg c1 hc1
        rw [h0, pairLt_iff, ← hqc] at hlt
        simp only at hlt
        omega
      have hge := (List.subperm_of_subset hnD hall).length_le
      simp only [List.length_map] at hge hle ⊢
      have hcap := hseen.table.2.1
      omega
    · simp only [List.length_map] at hle ⊢
      rw [h40] at hle ⊢
      omega
  have h12 := top_unique _ _ _ hn2 hs1 hsub2 (Nat.le_of_eq hlen1) hu1 hrest2
  have h21 := top_unique _ _ _ hn1 hsub2 hs1 (Nat.le_of_eq hlen1.symm) hrest2 hu1
  obtain ⟨hkeys, _⟩ := computeDecisionCounters_keys P id A
  have hleft : d.decisionCountMap.contains c = true
      ↔ (codeRankInNode P c id, c) ∈ d.decisionCountMap.map entryPair := by
    rw [DCMap.contains_iff]
    constructor
    · rintro ⟨e, he, hec⟩
      refine List.mem_map.mpr ⟨e, he, ?_⟩
      rw [hpair e he, hec]
    · intro hm
      obtain ⟨e, he, hpe⟩ := List.mem_map.mp hm
      rw [hpair e he] at hpe
      exact ⟨e, he, congrArg Prod.snd hpe⟩
  have hright : (computeDecisionCounters P id A).1.contains c = true
      ↔ (codeRankInNode P c id, c) ∈ ((findUsedCodes A).map
          (fun c => (codeRankInNode P c id, c))).foldl (keepTop maxCodesToKeep) [] := by
    rw [DCMap.contains_iff]
    constructor
    · rintro ⟨e, he, hec⟩
      have hm : c ∈ (computeDecisionCounters P id A).1.map Prod.fst :=
        List.mem_map.mpr ⟨e, he, hec⟩
      obtain ⟨p, hp, hpc⟩ := List.mem_map.mp (hkeys.subset hm)
      obtain ⟨c1, _, hpc1⟩ := List.mem_map.mp (hsub2 p hp)
      rw [← hpc1] at hpc hp
      simp only at hpc
      rw [← hpc]
      exact hp
    · intro hm
      have hm2 : c ∈ (((findUsedCodes A).map (fun c => (codeRankInNode P c id, c))).foldl
          (keepTop maxCodesToKeep) []).map Prod.snd := List.mem_map.mpr ⟨_, hm, rfl⟩
      obtain ⟨e, he, hec⟩ := List.mem_map.mp (hkeys.symm.subset hm2)
      exact ⟨e, he, hec⟩
  have hiff : d.decisionCountMap.contains c = true
      ↔ (computeDecisionCounters P id A).1.contains c = true := by
    rw [hleft, hright]
    exact ⟨fun h => h12 _ h, fun h => h21 _ h⟩
  cases h1 : d.decisionCountMap.contains c
  · cases h2 : (computeDecisionCounters P id A).1.contains c
    · rfl
    · rw [hiff.mpr h2] at h1
      cases h1
  · exact (hiff.mp h1).symm

theorem applyBatches_add_table {F : Type} (P : Platform F) (id : Nat) (A : List Sample) :
    (applyBatches P ⟨0, 0, [], id, (0, 0)⟩ A []).decisionCountMap
      = (A.foldl (fun (d : NodeData) s => updateDecisionCounters P d s 1)
          ⟨0, 0, [], id, (0, 0)⟩).decisionCountMap := by
  have h0 : subU32 0 0 = 0 := by decide
  simp only [applyBatches, List.foldl_nil, splitListByTarget, List.length_nil, h0]
/-! ## The entropies of the engine in exact real arithmetic -/

theorem toInt32_of_lt (n : Nat) (h : n < 2147483648) : toInt32 n = (n : Int) := by
  have hm : n % 4294967296 = n := by omega
  unfold toInt32
  rw [hm]
  split
  · rfl
  · omega

theorem wrapInt32_of_nat (n : Nat) (h : n < 2147483648) : wrapInt32 (n : Int) = (n : Int) := by
  unfold wrapInt32
  have h1 : ((n : Int) % 4294967296).toNat = n := by omega
  rw [h1]
  exact toInt32_of_lt n h

theorem subU32_of_le (a b : Nat) (hab : b ≤ a) (ha : a < 4294967296) : subU32 a b = a - b := by
  unfold subU32
  omega

theorem exactFloat_isOrder : (exactFloat Real.log).IsOrder := by
  refine ⟨?_, ?_, ?_⟩
  · intro a
    simp [exactFloat]
  · intro a b c h1 h2
    simp only [exactFloat, decide_eq_true_eq] at h1 h2 ⊢
    exact lt_trans h1 h2
  · intro a b c h
    simp only [exactFloat, decide_eq_true_eq] at h ⊢
    rcases lt_or_le a c with h1 | h1
    · exact Or.inl h1
    · exact Or.inr (lt_of_le_of_lt h1 h)

/-- The function `entropyBinary` computes the binary entropy of the specification
when the counts fit an `int`. -/
theorem entropyBinary_exact (a b : Nat) (h : a + b < 2147483648) :
    entropyBinary (exactFloat Real.log) (toInt32 a) (toInt32 b) = specEntropy Real.log a b := by
  have ha : toInt32 a = (a : Int) := toInt32_of_lt a (by omega)
  have hb : toInt32 b = (b : Int) := toInt32_of_lt b (by omega)
  have hn : wrapInt32 ((a : Int) + (b : Int)) = ((a + b : Nat) : Int) := by
    have := wrapInt32_of_nat (a + b) h
    push_cast at this ⊢
    exact this
  unfold entropyBinary specEntropy
  simp only [ha, hb, hn, exactFloat]
  by_cases h0 : a = 0 <;> by_cases h1 : b = 0
  · simp [h0, h1]
  · have hb0 : (0 : Int) < (b : Int) := by omega
    simp only [h0, h1, hb0, if_true, if_false]
    push_cast
    simp
  · have ha0 : (0 : Int) < (a : Int) := by omega
    simp only [h0, h1, ha0, if_true, if_false]
    push_cast
    simp
  · have ha0 : (0 : Int) < (a : Int) := by omega
    have hb0 : (0 : Int) < (b : Int) := by omega
    simp only [h0, h1, ha0, hb0, if_true, if_false, gt_iff_lt]
    push_cast
    ring

/-- The method `DecisionCounts::entropy` computes the weighted split entropy of the
specification when the counts of the entry are within the totals of the node and
the totals fit an `int`. -/
theorem entropy_exact (d : NodeData) (dc : DecisionCounts) (h0 : dc.c0p ≤ d.c0)
    (h1 : dc.c1p ≤ d.c1) (hlt : d.c0 + d.c1 < 2147483648) :
    dc.entropy (exactFloat Real.log) d
      = specSplitEntropy Real.log d.c0 d.c1 dc.c0p dc.c1p := by
  have hs0 : subU32 d.c0 dc.c0p = d.c0 - dc.c0p := subU32_of_le _ _ h0 (by omega)
  have hs1 : subU32 d.c1 dc.c1p = d.c1 - dc.c1p := subU32_of_le _ _ h1 (by omega)
  have hn := entropyBinary_exact (d.c0 - dc.c0p) (d.c1 - dc.c1p) (by omega)
  have hp := entropyBinary_exact dc.c0p dc.c1p (by omega)
  have hwp : wrapU32 (dc.c0p + dc.c1p) = dc.c0p + dc.c1p := by
    unfold wrapU32
    omega
  have hwn : wrapU32 (d.c0 - dc.c0p + (d.c1 - dc.c1p)) = d.c0 - dc.c0p + (d.c1 - dc.c1p) := by
    unfold wrapU32
    omega
  have hcp : toInt32 (dc.c0p + dc.c1p) = ((dc.c0p + dc.c1p : Nat) : Int) :=
    toInt32_of_lt _ (by omega)
  have hcn : toInt32 (d.c0 - dc.c0p + (d.c1 - dc.c1p))
      = ((d.c0 - dc.c0p + (d.c1 - dc.c1p) : Nat) : Int) := toInt32_of_lt _ (by omega)
  have hsum : wrapInt32 (((d.c0 - dc.c0p + (d.c1 - dc.c1p) : Nat) : Int)
      + ((dc.c0p + dc.c1p : Nat) : Int)) = ((d.c0 + d.c1 : Nat) : Int) := by
    have := wrapInt32_of_nat (d.c0 + d.c1) hlt
    have he : ((d.c0 - dc.c0p + (d.c1 - dc.c1p) : Nat) : Int) + ((dc.c0p + dc.c1p : Nat) : Int)
        = ((d.c0 + d.c1 : Nat) : Int) := by omega
    rw [he]
    exact this
  unfold DecisionCounts.entropy specSplitEntropy
  simp only [hs0, hs1, hn, hp, hwp, hwn, hcp, hcn, hsum]
  simp only [exactFloat]
  push_cast
  rfl

theorem specEntropy_le_log_two (a b : Nat) : specEntropy Real.log a b ≤ Real.log 2 := by
  have hlog2 : (0 : ℝ) ≤ Real.log 2 := Real.log_nonneg (by norm_num)
  unfold specEntropy
  by_cases h0 : a = 0 <;> by_cases h1 : b = 0
  · simp [h0, h1, hlog2]
  · have hb : (b : ℝ) ≠ 0 := by exact_mod_cast h1
    simp [h0, h1, hb, hlog2]
  · have ha : (a : ℝ) ≠ 0 := by exact_mod_cast h0
    simp [h0, h1, ha, hlog2]
  · have ha : (0 : ℝ) < (a : ℝ) := by exact_mod_cast Nat.pos_of_ne_zero h0
    have hb : (0 : ℝ) < (b : ℝ) := by exact_mod_cast Nat.pos_of_ne_zero h1
    have hab : (0 : ℝ) < (a : ℝ) + (b : ℝ) := by linarith
    simp only [h0, h1, if_false]
    have hq : (b : ℝ) / ((a : ℝ) + (b : ℝ)) = 1 - (a : ℝ) / ((a : ℝ) + (b : ℝ)) := by
      field_simp
    have hbin := Real.binEntropy_le_log_two (p := (a : ℝ) / ((a : ℝ) + (b : ℝ)))
    unfold Real.binEntropy at hbin
    rw [Real.log_inv, Real.log_inv] at hbin
    rw [hq]
    linarith

/-- The weighted split entropy is below the start value 10 of the search. -/
theorem specSplitEntropy_lt_ten (c0 c1 c0p c1p : Nat) (h0 : c0p ≤ c0) (h1 : c1p ≤ c1) :
    specSplitEntropy Real.log c0 c1 c0p c1p < 10 := by
  have hlog2 : Real.log 2 < 10 := by
    have := Real.log_two_lt_d9
    linarith
  have hlog0 : (0 : ℝ) ≤ Real.log 2 := Real.log_nonneg (by norm_num)
  have hn := specEntropy_le_log_two (c0 - c0p) (c1 - c1p)
  have hp := specEntropy_le_log_two c0p c1p
  have hcn : (0 : ℝ) ≤ ((c0 - c0p : Nat) : ℝ) + ((c1 - c1p : Nat) : ℝ) := by positivity
  have hcp : (0 : ℝ) ≤ (c0p : ℝ) + (c1p : ℝ) := by positivity
  have htot : ((c0 - c0p : Nat) : ℝ) + ((c1 - c1p : Nat) : ℝ) + ((c0p : ℝ) + (c1p : ℝ))
      = (c0 : ℝ) + (c1 : ℝ) := by
    rw [Nat.cast_sub h0, Nat.cast_sub h1]
    ring
  have hnum : specEntropy Real.log (c0 - c0p) (c1 - c1p)
        * (((c0 - c0p : Nat) : ℝ) + ((c1 - c1p : Nat) : ℝ))
      + specEntropy Real.log c0p c1p * ((c0p : ℝ) + (c1p : ℝ))
      ≤ Real.log 2 * ((c0 : ℝ) + (c1 : ℝ)) := by
    rw [← htot]
    nlinarith [mul_le_mul_of_nonneg_right hn hcn, mul_le_mul_of_nonneg_right hp hcp]
  unfold specSplitEntropy
  rcases eq_or_lt_of_le (show (0 : ℝ) ≤ (c0 : ℝ) + (c1 : ℝ) by positivity) with hz | hpos
  · rw [← hz, div_zero]
    norm_num
  · have : (specEntropy Real.log (c0 - c0p) (c1 - c1p)
          * (((c0 - c0p : Nat) : ℝ) + ((c1 - c1p : Nat) : ℝ))
        + specEntropy Real.log c0p c1p * ((c0p : ℝ) + (c1p : ℝ))) / ((c0 : ℝ) + (c1 : ℝ))
        ≤ Real.log 2 := by
      rw [div_le_iff₀ hpos]
      exact hnum
    linarith
/-! ## A removal that the first pass does not find -/

theorem eraseSample_not_found (L : List Sample) (r : Sample)
    (h : ∀ x ∈ L, x.ptr ≠ r.ptr) : eraseSample L r = L := by
  induction L with
  | nil => rfl
  | cons x xs ih =>
    have hx := h x (List.mem_cons_self _ _)
    simp only [eraseSample, if_neg hx]
    rw [ih (fun y hy => h y (List.mem_cons_of_mem _ hy))]

theorem mem_of_mem_eraseSample (L : List Sample) (r x : Sample) (h : x ∈ eraseSample L r) :
    x ∈ L := by
  induction L with
  | nil => cases h
  | cons y ys ih =>
    simp only [eraseSample] at h
    split at h
    · exact List.mem_cons_of_mem _ h
    · rcases List.mem_cons.mp h with h1 | h1
      · rw [h1]
        exact List.mem_cons_self _ _
      · exact List.mem_cons_of_mem _ (ih h1)

theorem eraseFold_skip (m : Sample) (R : List Sample) :
    ∀ (L : List Sample), (∀ x ∈ L, x.ptr ≠ m.ptr) →
      R.foldl eraseSample L
        = (R.filter (fun r => !decide (r.ptr = m.ptr))).foldl eraseSample L := by
  induction R with
  | nil =>
    intro L _
    rfl
  | cons r R ih =>
    intro L hL
    rw [List.foldl_cons]
    by_cases hr : r.ptr = m.ptr
    · have hnf : eraseSample L r = L := by
        apply eraseSample_not_found
        intro x hx
        rw [hr]
        exact hL x hx
      rw [hnf, List.filter_cons_of_neg (by simp [hr])]
      exact ih L hL
    · rw [List.filter_cons_of_pos (by simp [hr]), List.foldl_cons]
      apply ih
      intro x hx
      exact hL x (mem_of_mem_eraseSample L r x hx)

/-- The first pass returns the same tree whether or not `batchRemove` names a
sample whose address no stored sample has. -/
theorem updateDecisionTreeSamples_skip (m : Sample) (dt : DecisionTreeNode) :
    ∀ (A R : List Sample), (∀ x ∈ collectRecursive dt, x.ptr ≠ m.ptr) →
      updateDecisionTreeSamples dt A R
        = updateDecisionTreeSamples dt A (R.filter (fun r => !decide (r.ptr = m.ptr))) := by
  induction dt with
  | leaf d v samples =>
    intro A R h
    simp only [updateDecisionTreeSamples]
    rw [eraseFold_skip m R samples h]
  | internal code d negative positive ihn ihp =>
    intro A R h
    simp only [collectRecursive] at h
    rw [updateDecisionTreeSamples_internal, updateDecisionTreeSamples_internal]
    rw [ihn _ (R.filter (fun s => !hasCodeGt s code))
        (fun x hx => h x (List.mem_append_left _ hx)),
      ihp _ (R.filter (fun s => hasCodeGt s code))
        (fun x hx => h x (List.mem_append_right _ hx))]
    simp only [List.filter_filter, Bool.and_comm]

theorem updateDecisionTree_of_disjoint {F : Type} (P : Platform F) (ts : Nat)
    (dt : DecisionTreeNode) (A R : List Sample) (h : ∀ a ∈ A, ∀ r ∈ R, a.ptr ≠ r.ptr) :
    updateDecisionTree P ts dt A R
      = updateDecisionTreeNode P (updateDecisionTreeSamples dt A R) ts A R := by
  have h1 : A.any (fun a => R.any (fun r => decide (r.ptr = a.ptr))) = false := by
    rw [List.any_eq_false]
    intro a ha
    rw [Bool.not_eq_true, List.any_eq_false]
    intro r hr
    simpa using fun he => h a ha r hr he.symm
  have h2 : R.any (fun r => A.any (fun a => decide (a.ptr = r.ptr))) = false := by
    rw [List.any_eq_false]
    intro r hr
    rw [Bool.not_eq_true, List.any_eq_false]
    intro a ha
    simpa using h a ha r hr
  unfold updateDecisionTree
  simp [h1, h2]
/-! ## The concrete forests are reachable -/

theorem Reachable.mono {F : Type} (P : Platform F) (ok ok1 : Forest → Sample → Prop)
    (h : ∀ rf s, ok rf s → ok1 rf s) (rf : Forest) (hr : Reachable P ok rf) :
    Reachable P ok1 rf := by
  induction hr with
  | create n => exact Reachable.create n
  | add rf s _ hs ih => exact Reachable.add rf s ih (h rf s hs)
  | remove rf sId _ ih => exact Reachable.remove rf sId ih
  | commit rf rf1 _ hc ih => exact Reachable.commit rf rf1 ih hc

theorem binarySample_fresh (rf : Forest) (s : Sample) (h : binarySample rf s) :
    freshSample rf s := h.1

theorem reachable_exPending : Reachable refPlatform binarySample exPending := by
  unfold exPending
  refine Reachable.add _ _ (Reachable.add _ _ (Reachable.add _ _ (Reachable.add _ _
    (Reachable.create 1) ?_) ?_) ?_) ?_
  all_goals (unfold binarySample freshSample Sample.Binary; decide!)

theorem commit_exPending : exPending.commit refPlatform = some exCommitted := by decide!

theorem reachable_exCommitted : Reachable refPlatform binarySample exCommitted :=
  Reachable.commit _ _ reachable_exPending commit_exPending

theorem reachable_exReplace : Reachable refPlatform binarySample (exCommitted.add exA2).1 := by
  refine Reachable.add _ _ reachable_exCommitted ?_
  unfold binarySample freshSample Sample.Binary
  decide!

theorem reachable_exPendingK : Reachable refPlatform freshSample exPendingK := by
  unfold exPendingK
  refine Reachable.add _ _
    (Reachable.mono refPlatform binarySample freshSample binarySample_fresh _ reachable_exPending) ?_
  unfold freshSample
  decide!

theorem commit_exPendingK : exPendingK.commit refPlatform = some exCommittedK := by decide!

theorem commit_exHalf :
    ((create refPlatform 1).add exHalf).1.commit refPlatform = some exCommittedHalf := by decide!

theorem reachable_exMixedPending : Reachable refPlatform freshSample exMixedPending := by
  unfold exMixedPending
  refine Reachable.add _ _ (Reachable.add _ _ (Reachable.add _ _ (Reachable.add _ _
    (Reachable.add _ _ (Reachable.add _ _ (Reachable.remove _ _ (Reachable.remove _ _
      (Reachable.remove _ _ (Reachable.remove _ _
        (Reachable.mono refPlatform binarySample freshSample binarySample_fresh _
          reachable_exCommitted)))))
      ?_) ?_) ?_) ?_) ?_) ?_
  all_goals (unfold freshSample; decide!)

/-! ## Claims on the sample store -/

/-- C7: `Forest::add(s)` returns true if and only if `toAdd` held no entry for
`s.suid` before the call, whatever `samples` and `toRemove` hold; in every case
`toAdd` maps `s.suid` to `s` afterwards. -/
theorem add_returns_true_iff_no_pending_add (rf : Forest) (s : Sample) :
    ((rf.add s).2 = true ↔ rf.toAdd.find s.suid = none)
      ∧ ((rf.add s).2 = false ↔ ∃ old, rf.toAdd.find s.suid = some old)
      ∧ (rf.add s).1.toAdd.find s.suid = some s := by
  refine ⟨?_, ?_, ?_⟩
  · rw [Forest.add_result, SampleMap.contains_eq]
    cases rf.toAdd.find s.suid <;> simp
  · rw [Forest.add_result, SampleMap.contains_eq]
    cases rf.toAdd.find s.suid <;> simp
  · rw [Forest.add_toAdd, SampleMap.find_set]
    simp

/-- C8: in a reachable forest, `Forest::add(s)` on a suid that is committed (as
`old`) and has no entry in `toAdd` or `toRemove` leaves `samples` unchanged,
records `old` in `toRemove` under that suid (other keys untouched) and `s` in
`toAdd`, and the next commit puts `old` on the remove batch of exactly the trees
on whose add batch it puts `s`; if the suid was already in `toRemove`, `toRemove`
is left unchanged. -/
theorem add_on_committed_suid {F : Type} (P : Platform F) (ok : Forest → Sample → Prop) (rf : Forest)
    (s old : Sample) (hr : Reachable P ok rf) (hs : rf.samples.find s.suid = some old)
    (ha : rf.toAdd.find s.suid = none) :
    (rf.toRemove.find s.suid = none →
        (rf.add s).1.samples = rf.samples
        ∧ (rf.add s).1.toRemove = rf.toRemove.set s.suid old
        ∧ (∀ k, (rf.add s).1.toRemove.find k
            = if k = s.suid then some old else rf.toRemove.find k)
        ∧ (rf.add s).1.toAdd.find s.suid = some s
        ∧ (∀ t, old ∈ treeBatch P (rf.add s).1.toRemove t ↔ s ∈ treeBatch P (rf.add s).1.toAdd t))
      ∧ (rf.toRemove.contains s.suid = true → (rf.add s).1.toRemove = rf.toRemove) := by
  have hinv := storeInv_of_reachable P ok rf hr
  have hca : ¬ rf.toAdd.contains s.suid = true := by
    rw [SampleMap.contains_eq, ha]; simp
  constructor
  · intro hnr
    have hcr : ¬ rf.toRemove.contains s.suid = true := by
      rw [SampleMap.contains_eq, hnr]; simp
    have hrem : (rf.add s).1.toRemove = rf.toRemove.set s.suid old := by
      rw [Forest.add_toRemove]
      simp [hca, hcr, hs]
    have holdkey : old.suid = s.suid :=
      hinv.keySamples (s.suid, old) (SampleMap.mem_of_find _ _ _ hs)
    refine ⟨Forest.add_samples rf s, hrem, ?_, ?_, ?_⟩
    · intro k
      rw [hrem, SampleMap.find_set]
    · rw [Forest.add_toAdd, SampleMap.find_set]; simp
    · intro t
      rw [mem_treeBatch, mem_treeBatch, hrem, Forest.add_toAdd,
        sampleInTree_congr P old s t holdkey]
      constructor
      · rintro ⟨_, _, ht⟩
        exact ⟨s.suid, (SampleMap.mem_set _ _ _ _).mpr (Or.inl rfl), ht⟩
      · rintro ⟨_, _, ht⟩
        exact ⟨s.suid, (SampleMap.mem_set _ _ _ _).mpr (Or.inl rfl), ht⟩
  · intro hcr
    rw [Forest.add_toRemove]
    simp [hcr]

/-- C9: `Forest::remove(suid)`: with a pending add the `toAdd` entry is erased,
only `changesToCommit` changes besides, and the result is true; otherwise, when
the suid is committed and not in `toRemove`, the committed sample is recorded in
`toRemove` and the result is true; otherwise the result is false and the state
is unchanged. -/
theorem remove_cases (rf : Forest) (sId : String) :
    (rf.toAdd.contains sId = true →
        rf.remove sId
          = (⟨rf.samples, rf.toAdd.erase sId, rf.toRemove, rf.forest, true, rf.ts⟩, true)
        ∧ (rf.remove sId).1.toAdd.find sId = none
        ∧ ∀ k, k ≠ sId → (rf.remove sId).1.toAdd.find k = rf.toAdd.find k)
      ∧ (rf.toAdd.contains sId = false → rf.toRemove.contains sId = false →
          ∀ old, rf.samples.find sId = some old →
            rf.remove sId
              = (⟨rf.samples, rf.toAdd, rf.toRemove.set sId old, rf.forest, true, rf.ts⟩, true)
            ∧ (rf.remove sId).1.toRemove.find sId = some old)
      ∧ (rf.toAdd.contains sId = false →
          (rf.toRemove.contains sId = true ∨ rf.samples.find sId = none) →
            rf.remove sId = (rf, false)) := by
  refine ⟨?_, ?_, ?_⟩
  · intro h
    have heq : rf.remove sId
        = (⟨rf.samples, rf.toAdd.erase sId, rf.toRemove, rf.forest, true, rf.ts⟩, true) := by
      rw [Forest.remove_eq]; simp [h]
    refine ⟨heq, ?_, ?_⟩
    · rw [heq]
      show (rf.toAdd.erase sId).find sId = none
      rw [SampleMap.find_erase]; simp
    · intro k hk
      rw [heq]
      show (rf.toAdd.erase sId).find k = rf.toAdd.find k
      rw [SampleMap.find_erase]; simp [hk]
  · intro h1 h2 old hold
    have heq : rf.remove sId
        = (⟨rf.samples, rf.toAdd, rf.toRemove.set sId old, rf.forest, true, rf.ts⟩, true) := by
      rw [Forest.remove_eq]; simp [h1, h2, hold]
    refine ⟨heq, ?_⟩
    rw [heq]
    show (rf.toRemove.set sId old).find sId = some old
    rw [SampleMap.find_set]; simp
  · intro h1 h2
    rw [Forest.remove_eq]
    rcases h2 with h2 | h2
    · simp [h1, h2]
    · by_cases h3 : rf.toRemove.contains sId = true
      · simp [h1, h3]
      · simp [h1, h3, h2]

/-- C10: in every forest state reachable from `create` by `add`, `remove` and
`commit`, every `toRemove` entry is the committed sample of its suid, and every
suid that is both in `toAdd` and committed is also in `toRemove`. -/
theorem store_invariant_of_reachable {F : Type} (P : Platform F) (ok : Forest → Sample → Prop)
    (rf : Forest) (hr : Reachable P ok rf) :
    (∀ k s, rf.toRemove.find k = some s → rf.samples.find k = some s)
      ∧ (∀ k, rf.toAdd.contains k = true → rf.samples.contains k = true →
          rf.toRemove.contains k = true) := by
  have hinv := storeInv_of_reachable P ok rf hr
  constructor
  · intro k s hk
    exact SampleMap.find_of_mem _ _ _ hinv.nodupSamples
      (hinv.removeSub _ (SampleMap.mem_of_find _ _ _ hk))
  · intro k hk hc
    obtain ⟨v, hv⟩ := (SampleMap.contains_iff_mem _ _).mp hk
    exact hinv.addCovered (k, v) hv hc

/-! ## Claims on the trees and on `commit` -/

/-- C1: counter consistency. In every forest reached from `create` by `add`,
`remove` and `commit` with fresh samples whose target and feature values are in
`{0, 1}` (fewer than `2^32` of them), `commit` returns, and afterwards every node
of every tree has `c0` and `c1` equal to the numbers of class-0 and class-1
samples under the node, and every entry of its `decisionCountMap` has `c0p` and
`c1p` equal to the numbers of class-0 and class-1 samples under the node in which
the code is present. -/
theorem counters_consistent_after_commit {F : Type} (P : Platform F) (rf : Forest)
    (hr : Reachable P binarySample rf) :
    ∃ rf1, rf.commit P = some rf1 ∧
      ∀ tree ∈ rf1.forest, ∀ n ∈ tree.nodes,
        n.data.c0 = countClass0 (collectRecursive n) ∧
        n.data.c1 = countClass1 (collectRecursive n) ∧
        ∀ e ∈ n.data.decisionCountMap,
          e.2.c0p = countPresent0 (collectRecursive n) e.1 ∧
          e.2.c1p = countPresent1 (collectRecursive n) e.1 := by
  have hinv := forestInv_of_reachable P True binarySample
    (fun rf s h => ⟨h.1, fun _ => ⟨h.2.1, h.2.2⟩⟩) rf hr
  obtain ⟨rf1, hc⟩ := commit_total P rf hinv.store hinv.ptr
  have hinv1 := forestInv_commit P True rf rf1 hinv hc
  refine ⟨rf1, hc, ?_⟩
  intro tree ht n hn
  obtain ⟨j, hok⟩ := treesOK_mem P True _ _ 0 hinv1.trees tree ht
  have hnode := treeInv_nodeInv P True n (treeInv_nodes P True tree hok.1 n hn)
  obtain ⟨_, _, hcount⟩ := hnode.2 trivial
  refine ⟨hcount.c0, hcount.c1, ?_⟩
  intro e he
  exact ⟨(hcount.entries e he).1, (hcount.entries e he).2.1⟩

/-- C3: in every forest reached from `create` by `add`, `remove` and `commit`
with fresh samples (any target and feature values), `commit` returns, and
afterwards every leaf of every tree has `samples.size() == c0 + c1` (the sum taken
in `unsigned int`; the sizes agree modulo `2^32` and are equal when the leaf holds
fewer than `2^32` samples) and its samples have pairwise distinct `suid`. -/
theorem leaf_size_matches_totals_after_commit {F : Type} (P : Platform F) (rf : Forest)
    (hr : Reachable P freshSample rf) :
    ∃ rf1, rf.commit P = some rf1 ∧
      ∀ tree ∈ rf1.forest, ∀ d v samples, DecisionTreeNode.leaf d v samples ∈ tree.nodes →
        samples.length % 4294967296 = wrapU32 (d.c0 + d.c1) ∧
        (samples.length < 4294967296 → samples.length = wrapU32 (d.c0 + d.c1)) ∧
        (samples.map Sample.suid).Nodup := by
  have hinv := forestInv_of_reachable P False freshSample
    (fun rf s h => ⟨h, False.elim⟩) rf hr
  obtain ⟨rf1, hc⟩ := commit_total P rf hinv.store hinv.ptr
  have hinv1 := forestInv_commit P False rf rf1 hinv hc
  refine ⟨rf1, hc, ?_⟩
  intro tree ht d v samples hn
  obtain ⟨j, hok⟩ := treesOK_mem P False _ _ 0 hinv1.trees tree ht
  have hnode := treeInv_nodeInv P False _ (treeInv_nodes P False tree hok.1 _ hn)
  have hsum : (d.c0 + d.c1) % 4294967296 = samples.length % 4294967296 := hnode.1
  refine ⟨?_, ?_, ?_⟩
  · unfold wrapU32
    exact hsum.symm
  · intro hlt
    unfold wrapU32
    rw [hsum]
    exact (Nat.mod_eq_of_lt hlt).symm
  · have hsub := nodes_sublist tree _ hn
    exact (treeOK_suids P False _ hinv1.store.nodupSamples tree j hok).sublist
      (hsub.map Sample.suid)

/-- C6: store postcondition of `Forest::commit`. In a forest state with
`changesToCommit` set, `commit` returns when no sample object is on both pending
lists, and whenever it returns, the committed map is the old committed map with
every suid of `toRemove` erased and then every entry of `toAdd` assigned (a suid
that is not in `toAdd` is looked up in the old map unless it is in `toRemove`, a
suid of `toAdd` yields the sample of `toAdd`), `toAdd` and `toRemove` are empty and
`changesToCommit` is false. -/
theorem commit_store_postcondition {F : Type} (P : Platform F) (rf : Forest)
    (hc : rf.changesToCommit = true) :
    ((∀ a ∈ rf.toAdd, ∀ r ∈ rf.toRemove, a.2.ptr ≠ r.2.ptr) → ∃ rf1, rf.commit P = some rf1)
      ∧ ∀ rf1, rf.commit P = some rf1 →
        rf1.samples = rf.toAdd.foldl (fun (m : SampleMap) e => m.set e.1 e.2)
            (rf.toRemove.foldl (fun (m : SampleMap) e => m.erase e.1) rf.samples)
          ∧ (∀ k, (∀ e ∈ rf.toAdd, e.1 ≠ k) →
              rf1.samples.find k = if rf.toRemove.contains k = true then none
                else rf.samples.find k)
          ∧ ((rf.toAdd.map Prod.fst).Nodup → ∀ k s, (k, s) ∈ rf.toAdd →
              rf1.samples.find k = some s)
          ∧ rf1.toAdd = [] ∧ rf1.toRemove = [] ∧ rf1.changesToCommit = false := by
  constructor
  · intro hdis
    unfold Forest.commit
    rw [hc]
    simp only [Bool.not_true, Bool.false_eq_true, if_false]
    obtain ⟨r, hr⟩ := commitTrees_total P rf.toAdd rf.toRemove hdis rf.forest 0 rf.ts
    rw [hr]
    exact ⟨_, rfl⟩
  · intro rf1 h
    unfold Forest.commit at h
    rw [hc] at h
    simp only [Bool.not_true, Bool.false_eq_true, if_false] at h
    split at h
    · cases h
    · cases h
      refine ⟨rfl, ?_, ?_, rfl, rfl, rfl⟩
      · intro k hk
        show SampleMap.find _ k = _
        rw [SampleMap.find_foldl_set_of_not_mem _ _ _ hk, SampleMap.find_foldl_erase]
      · intro hn k s hks
        exact SampleMap.find_foldl_set_of_mem _ hn _ k s hks

/-! ## Instances of the claims at the concrete forests -/

theorem counters_consistent_after_commit_witness :
    Reachable refPlatform binarySample (exCommitted.add exA2).1 ∧
      ∃ rf1, (exCommitted.add exA2).1.commit refPlatform = some rf1 ∧
        ∀ tree ∈ rf1.forest, ∀ n ∈ tree.nodes,
          n.data.c0 = countClass0 (collectRecursive n) ∧
          n.data.c1 = countClass1 (collectRecursive n) ∧
          ∀ e ∈ n.data.decisionCountMap,
            e.2.c0p = countPresent0 (collectRecursive n) e.1 ∧
            e.2.c1p = countPresent1 (collectRecursive n) e.1 :=
  ⟨reachable_exReplace,
    counters_consistent_after_commit refPlatform (exCommitted.add exA2).1 reachable_exReplace⟩

theorem leaf_size_matches_totals_after_commit_witness :
    Reachable refPlatform freshSample exPendingK ∧
      ∃ rf1, exPendingK.commit refPlatform = some rf1 ∧
        ∀ tree ∈ rf1.forest, ∀ d v samples, DecisionTreeNode.leaf d v samples ∈ tree.nodes →
          samples.length % 4294967296 = wrapU32 (d.c0 + d.c1) ∧
          (samples.length < 4294967296 → samples.length = wrapU32 (d.c0 + d.c1)) ∧
          (samples.map Sample.suid).Nodup :=
  ⟨reachable_exPendingK,
    leaf_size_matches_totals_after_commit refPlatform exPendingK reachable_exPendingK⟩

theorem commit_store_postcondition_witness :
    exPending.changesToCommit = true ∧
      (((∀ a ∈ exPending.toAdd, ∀ r ∈ exPending.toRemove, a.2.ptr ≠ r.2.ptr) →
          ∃ rf1, exPending.commit refPlatform = some rf1)
        ∧ ∀ rf1, exPending.commit refPlatform = some rf1 →
          rf1.samples = exPending.toAdd.foldl (fun (m : SampleMap) e => m.set e.1 e.2)
              (exPending.toRemove.foldl (fun (m : SampleMap) e => m.erase e.1) exPending.samples)
            ∧ (∀ k, (∀ e ∈ exPending.toAdd, e.1 ≠ k) →
                rf1.samples.find k = if exPending.toRemove.contains k = true then none
                  else exPending.samples.find k)
            ∧ ((exPending.toAdd.map Prod.fst).Nodup → ∀ k s, (k, s) ∈ exPending.toAdd →
                rf1.samples.find k = some s)
            ∧ rf1.toAdd = [] ∧ rf1.toRemove = [] ∧ rf1.changesToCommit = false) :=
  ⟨by decide!, commit_store_postcondition refPlatform exPending (by decide!)⟩

theorem add_on_committed_suid_witness :
    Reachable refPlatform binarySample exCommitted ∧
      exCommitted.samples.find exA2.suid = some exA ∧
      exCommitted.toAdd.find exA2.suid = none ∧
      ((exCommitted.toRemove.find exA2.suid = none →
          (exCommitted.add exA2).1.samples = exCommitted.samples
          ∧ (exCommitted.add exA2).1.toRemove = exCommitted.toRemove.set exA2.suid exA
          ∧ (∀ k, (exCommitted.add exA2).1.toRemove.find k
              = if k = exA2.suid then some exA else exCommitted.toRemove.find k)
          ∧ (exCommitted.add exA2).1.toAdd.find exA2.suid = some exA2
          ∧ (∀ t, exA ∈ treeBatch refPlatform (exCommitted.add exA2).1.toRemove t ↔
              exA2 ∈ treeBatch refPlatform (exCommitted.add exA2).1.toAdd t))
        ∧ (exCommitted.toRemove.contains exA2.suid = true →
            (exCommitted.add exA2).1.toRemove = exCommitted.toRemove)) :=
  ⟨reachable_exCommitted, by decide!, by decide!,
    add_on_committed_suid refPlatform binarySample exCommitted exA2 exA reachable_exCommitted
      (by decide!) (by decide!)⟩

theorem store_invariant_of_reachable_witness :
    Reachable refPlatform binarySample (exCommitted.add exA2).1 ∧
      ((∀ k s, (exCommitted.add exA2).1.toRemove.find k = some s →
          (exCommitted.add exA2).1.samples.find k = some s)
        ∧ (∀ k, (exCommitted.add exA2).1.toAdd.contains k = true →
            (exCommitted.add exA2).1.samples.contains k = true →
            (exCommitted.add exA2).1.toRemove.contains k = true)) :=
  ⟨reachable_exReplace,
    store_invariant_of_reachable refPlatform binarySample (exCommitted.add exA2).1
      reachable_exReplace⟩

/-- C2 (evaluation of the code): the forest `exCommittedHalf` is reached by
`create(1)`, `add(exHalf)` and `commit`, where `exHalf` has the target `0.5` and
feature 1 present. `updateDecisionCounters` counts the sample as class 1
(`y >= 0.5`) and `splitListByTarget` as class 0 (`y > 0.5`): the leaf has `c0 = 1`
and `c1 = 0` while its entry for code 1 has `c1p = 1`, so `c1p ≤ c1` fails. -/
theorem present_count_exceeds_total :
    Reachable refPlatform freshSample exCommittedHalf ∧
      ((create refPlatform 1).add exHalf).1.commit refPlatform = some exCommittedHalf ∧
      exCommittedHalf.forest
        = [.leaf ⟨1, 0, [(1, ⟨0, 1, 1167667938⟩)], 476707713, (0, 0)⟩ 0 [exHalf]] ∧
      ¬ (∀ tree ∈ exCommittedHalf.forest, ∀ n ∈ tree.nodes, ∀ e ∈ n.data.decisionCountMap,
          e.2.c0p ≤ n.data.c0 ∧ e.2.c1p ≤ n.data.c1) := by
  refine ⟨?_, commit_exHalf, rfl, by decide!⟩
  refine Reachable.commit _ _ (Reachable.add _ _ (Reachable.create 1) ?_) commit_exHalf
  unfold freshSample
  decide!

/-- C4 (evaluation of the code): the forest `exCommittedK` is reached by
`create(1)`, five calls of `add` and `commit`; the sample `exK` has feature 1
with the value `0.5`. `updateDecisionCounters` counts the feature as present
(`>= 0.5`) and `splitListAgainstCode` sends the sample to the negative child
(`> 0.5`): the root has split on code 1 with the entry `c0p = 0`, `c1p = 3` and the
totals `c0 = 2`, `c1 = 3`, but the positive child has `c1 = 2` and the negative
child has `c1 = 1`; `validate` returns false. -/
theorem child_totals_differ_from_split_counts :
    Reachable refPlatform freshSample exCommittedK ∧
      exPendingK.commit refPlatform = some exCommittedK ∧
      (∃ tree ∈ exCommittedK.forest, ∃ code d negative positive dc,
        DecisionTreeNode.internal code d negative positive ∈ tree.nodes ∧
        d.decisionCountMap.find code = some dc ∧
        d.c1 = 3 ∧ dc.c1p = 3 ∧ positive.data.c1 = 2 ∧ negative.data.c1 = 1 ∧
        positive.data.c1 ≠ dc.c1p ∧ negative.data.c1 ≠ subU32 d.c1 dc.c1p) ∧
      exCommittedK.validate refPlatform = some false := by
  refine ⟨Reachable.commit _ _ reachable_exPendingK commit_exPendingK, commit_exPendingK,
    ?_, by decide!⟩
  refine ⟨_, List.mem_singleton.mpr rfl, 1, _, _, _, ⟨0, 3, 1167667938⟩,
    List.mem_cons_self _ _, ?_, ?_, ?_, ?_, ?_, ?_, ?_⟩ <;> decide!

/-- C5 (evaluation of the code): `exBig` and `exZero` are binary samples. After
`create(1)`, `add(exBig)`, `add(exZero)` and `commit`, `validate` returns true and
the table of the leaf holds the codes 1 to 31. After `remove("e")` and `commit`
the removal has erased the entry of code 31, whose counts are zero: the stored
table holds the codes 1 to 30 (so that every entry is above its top-30
threshold), the table recomputed from the samples holds 31 codes, a stored code
is below the top-30 threshold of the recomputed table, and `validate` returns
false. -/
theorem validate_false_after_zero_entry_erased :
    exBig.Binary ∧ exZero.Binary ∧
      ((((create refPlatform 1).add exBig).1.add exZero).1.commit refPlatform).bind
        (fun rf1 => (rf1.validate refPlatform).bind (fun v1 =>
          ((rf1.remove "e").1.commit refPlatform).bind (fun rf2 =>
            (rf2.validate refPlatform).map (fun v2 =>
              (v1, rf1.forest.map (fun t => t.data.decisionCountMap.map Prod.fst),
                v2, rf2.forest.map (fun t => t.data.decisionCountMap.map Prod.fst))))))
        = some (true, [(List.range 31).map (fun i => (i : Int) + 1)],
            false, [(List.range 30).map (fun i => (i : Int) + 1)]) := by
  refine ⟨?_, ?_, by decide!⟩
  · unfold Sample.Binary; decide!
  · unfold Sample.Binary; decide!

/-! ## Claims on delete-then-add, idempotence of `commit`, `classify` and `create` -/

theorem foldl_add_eq_sum {α : Type} (f : α → ℚ) (l : List α) (a : ℚ) :
    l.foldl (fun (v : ℚ) t => v + f t) a = a + (l.map f).sum := by
  induction l generalizing a with
  | nil => simp
  | cons x l ih =>
    rw [List.foldl_cons, ih, List.map_cons, List.sum_cons]
    ring

theorem evaluate_eq_reachedLeaf (s : Sample) (tree : DecisionTreeNode) :
    evaluateSampleAgainstDecisionTree s tree = (reachedLeaf s tree).leafValue := by
  induction tree with
  | leaf d v samples => rfl
  | internal code d negative positive ihn ihp =>
    simp only [evaluateSampleAgainstDecisionTree, reachedLeaf]
    split
    · exact ihp
    · exact ihn

theorem reachedLeaf_isLeaf (s : Sample) (tree : DecisionTreeNode) :
    (reachedLeaf s tree).isLeaf = true ∧ reachedLeaf s tree ∈ tree.nodes := by
  induction tree with
  | leaf d v samples => simp [reachedLeaf, DecisionTreeNode.isLeaf, DecisionTreeNode.nodes]
  | internal code d negative positive ihn ihp =>
    simp only [reachedLeaf, DecisionTreeNode.nodes, List.mem_cons, List.mem_append]
    split
    · exact ⟨ihp.1, Or.inr (Or.inr ihp.2)⟩
    · exact ⟨ihn.1, Or.inr (Or.inl ihn.2)⟩

theorem createTrees_length {F : Type} (P : Platform F) (n : Nat) :
    ∀ (ts : Nat) (acc : List DecisionTreeNode),
      (createTrees P n ts acc).2.length = acc.length + n := by
  induction n with
  | zero => intro ts acc; simp [createTrees]
  | succ n ih =>
    intro ts acc
    simp only [createTrees]
    rw [ih]
    simp
    omega

/-- C11: delete-then-add equals add alone. In a forest state in which the suid of
`s` is committed (as `old`) and has no entry in `toAdd` or `toRemove`, `remove`
of the suid followed by `add(s)` leaves the same state as `add(s)` alone (both
calls return true), so that `commit` yields the same committed samples and the
same trees, node ids included; in a consistent store with a fresh `s` this
`commit` returns. -/
theorem remove_then_add_eq_add {F : Type} (P : Platform F) (rf : Forest) (s old : Sample)
    (hs : rf.samples.find s.suid = some old) (ha : rf.toAdd.contains s.suid = false)
    (hr : rf.toRemove.contains s.suid = false) :
    ((rf.remove s.suid).1.add s).1 = (rf.add s).1
      ∧ (rf.remove s.suid).2 = true ∧ ((rf.remove s.suid).1.add s).2 = true
      ∧ (rf.add s).2 = true
      ∧ ((rf.remove s.suid).1.add s).1.commit P = (rf.add s).1.commit P
      ∧ (StoreInv rf → PtrInv rf → freshSample rf s →
          ∃ rf1, ((rf.remove s.suid).1.add s).1.commit P = some rf1
            ∧ (rf.add s).1.commit P = some rf1) := by
  have hrem : rf.remove s.suid
      = (⟨rf.samples, rf.toAdd, rf.toRemove.set s.suid old, rf.forest, true, rf.ts⟩, true) := by
    rw [Forest.remove_eq]
    simp [ha, hr, hs]
  have hc : (rf.toRemove.set s.suid old).contains s.suid = true := by
    rw [SampleMap.contains_set]; simp
  have hadd : (rf.add s).1
      = ⟨rf.samples, rf.toAdd.set s.suid s, rf.toRemove.set s.suid old, rf.forest, true, rf.ts⟩ := by
    unfold Forest.add
    simp [ha, hr, hs]
  have hboth : ((rf.remove s.suid).1.add s).1
      = ⟨rf.samples, rf.toAdd.set s.suid s, rf.toRemove.set s.suid old, rf.forest, true, rf.ts⟩ := by
    rw [hrem]
    unfold Forest.add
    simp [ha, hc]
  have heq : ((rf.remove s.suid).1.add s).1 = (rf.add s).1 := by rw [hboth, hadd]
  refine ⟨heq, ?_, ?_, ?_, ?_, ?_⟩
  · rw [hrem]
  · rw [Forest.add_result, hrem]; simp [ha]
  · rw [Forest.add_result]; simp [ha]
  · rw [heq]
  · intro hst hpt hfresh
    obtain ⟨rf1, h1⟩ := commit_total P (rf.add s).1 (storeInv_add rf s hst)
      (ptrInv_add rf s hpt hfresh)
    exact ⟨rf1, by rw [heq]; exact h1, h1⟩

theorem classify_eq_sum {F : Type} (P : Platform F) (rf : Forest) (x : Sample) :
    rf.classify P x = (rf.commit P).map (fun rf1 =>
        (rf1, (rf1.forest.map (fun tree => (reachedLeaf x tree).leafValue)).sum
          / (rf1.forest.length : ℚ))) := by
  unfold Forest.classify
  cases hc : rf.commit P with
  | none => rfl
  | some rf1 =>
    simp only [Option.map_some']
    rw [foldl_add_eq_sum, zero_add]
    have : rf1.forest.map (fun tree => evaluateSampleAgainstDecisionTree x tree)
        = rf1.forest.map (fun tree => (reachedLeaf x tree).leafValue) := by
      apply List.map_congr_left
      intro t _
      exact evaluate_eq_reachedLeaf x t
    rw [this]

/-- C13: `Forest::classify(x)` commits and returns, with the state after the
commit, the sum over the trees of the value of the leaf that the walk of `x` from
the root reaches, divided by the number of trees (the sum and the quotient taken
exactly); the state it leaves is the state after that commit, and the leaf
reached is a leaf of the tree. Without pending changes the state is left as it
is, and on every forest reached by `create`, `add`, `remove` and `commit` the
call returns. -/
theorem classify_commits_then_averages {F : Type} (P : Platform F) (rf : Forest) (x : Sample) :
    rf.classify P x = (rf.commit P).map (fun rf1 =>
        (rf1, (rf1.forest.map (fun tree => (reachedLeaf x tree).leafValue)).sum
          / (rf1.forest.length : ℚ)))
      ∧ (∀ tree, (reachedLeaf x tree).isLeaf = true ∧ reachedLeaf x tree ∈ tree.nodes)
      ∧ (rf.changesToCommit = false → ∃ v, rf.classify P x = some (rf, v))
      ∧ (Reachable P freshSample rf → ∃ rf1, rf.commit P = some rf1
          ∧ rf.classify P x = some (rf1,
              (rf1.forest.map (fun tree => (reachedLeaf x tree).leafValue)).sum
                / (rf1.forest.length : ℚ))) := by
  have key := classify_eq_sum P rf x
  refine ⟨key, reachedLeaf_isLeaf x, ?_, ?_⟩
  · intro hflag
    rw [key]
    have : rf.commit P = some rf := by
      unfold Forest.commit
      simp [hflag]
    rw [this]
    exact ⟨_, rfl⟩
  · intro hreach
    obtain ⟨rf1, h1⟩ := commit_total P rf (storeInv_of_reachable P _ rf hreach)
      (ptrInv_of_reachable P _ (fun _ _ h => h) rf hreach)
    refine ⟨rf1, h1, ?_⟩
    rw [key, h1]
    rfl

/-- C19: `create(n)` yields `n` trees (none for a negative `n`), each a leaf with
value 0, `c0 = c1 = 0`, no samples, an empty table and `minValidRank = (0, 0)`;
`samples`, `toAdd` and `toRemove` are empty and `changesToCommit` is false; with at
least one tree, `classify` of any query on this forest returns 0 and leaves the
forest as it is. -/
theorem create_builds_empty_leaves {F : Type} (P : Platform F) (n : Int) :
    (create P n).forest.length = n.toNat
      ∧ (∀ t ∈ (create P n).forest, ∃ id, t = .leaf ⟨0, 0, [], id, (0, 0)⟩ 0 [])
      ∧ (create P n).samples = [] ∧ (create P n).toAdd = [] ∧ (create P n).toRemove = []
      ∧ (create P n).changesToCommit = false
      ∧ (1 ≤ n → ∀ q, (create P n).classify P q = some (create P n, 0)) := by
  have hlen : (create P n).forest.length = n.toNat := by
    simp [create, createTrees_length]
  have hleaf : ∀ t ∈ (create P n).forest, ∃ id, t = .leaf ⟨0, 0, [], id, (0, 0)⟩ 0 [] :=
    createTrees_empty P _ _ _ (by simp)
  refine ⟨hlen, hleaf, rfl, rfl, rfl, rfl, ?_⟩
  intro hn q
  have hkey := classify_eq_sum P (create P n) q
  rw [hkey]
  have hc : (create P n).commit P = some (create P n) := by
    unfold Forest.commit
    simp [create]
  rw [hc]
  simp only [Option.map_some']
  have hz : (create P n).forest.map (fun tree => (reachedLeaf q tree).leafValue)
      = (create P n).forest.map (fun _ => (0 : ℚ)) := by
    apply List.map_congr_left
    intro t ht
    obtain ⟨id, hid⟩ := hleaf t ht
    rw [hid]
    rfl
  rw [hz]
  simp

/-! ## Idempotence of `commit` -/

theorem treesOK_perm {F : Type} (P : Platform F) (B : Prop) (samples : SampleMap)
    (l : List DecisionTreeNode) :
    ∀ (l1 : List DecisionTreeNode) (i : Nat), TreesOK P B samples l i →
      TreesOK P B samples l1 i → l.length = l1.length →
      List.Forall₂ (fun t t1 => List.Perm (collectRecursive t) (collectRecursive t1)) l l1 := by
  induction l with
  | nil =>
    intro l1 i _ _ hlen
    cases l1 with
    | nil => exact List.Forall₂.nil
    | cons a l1 => simp at hlen
  | cons t l ih =>
    intro l1 i h h1 hlen
    cases l1 with
    | nil => simp at hlen
    | cons t1 l1 =>
      refine List.Forall₂.cons ?_ (ih l1 (i + 1) h.2 h1.2 (by simpa using hlen))
      rw [List.perm_ext_iff_of_nodup h.1.2.1 h1.1.2.1]
      intro s
      rw [h.1.2.2 s, h1.1.2.2 s]

theorem commit_of_not_changed {F : Type} (P : Platform F) (rf : Forest)
    (h : rf.changesToCommit = false) : rf.commit P = some rf := by
  unfold Forest.commit
  simp [h]

theorem commit_flag {F : Type} (P : Platform F) (rf rf1 : Forest)
    (h : rf.commit P = some rf1) : rf1.changesToCommit = false := by
  unfold Forest.commit at h
  split at h
  · rename_i hf
    cases h
    simpa using hf
  · split at h
    · cases h
    · cases h
      rfl

/-- C12 (counterexample): the forest `exCancelled` is reached by `create(1)`,
`add(exA)` and `remove("a")`; `toAdd` and `toRemove` are empty and
`changesToCommit` is set. `commit` visits the root of the tree with empty
batches and `updateValue` gives the empty leaf, which `create` made with the
value 0, the value 1. The forest `exRecommit` is reached by a `commit` that
collapsed the root to a leaf, `add(exZ)` and `remove("z")`; nothing is pending,
and `commit` splits the leaf. -/
theorem commit_changes_fresh_leaf_value :
    Reachable refPlatform freshSample exCancelled
      ∧ exCancelled.toAdd = [] ∧ exCancelled.toRemove = []
      ∧ exCancelled.forest = [.leaf ⟨0, 0, [], 476707713, (0, 0)⟩ 0 []]
      ∧ exCancelled.commit refPlatform = some exCancelledCommitted
      ∧ exCancelledCommitted.forest = [.leaf ⟨0, 0, [], 476707713, (0, 0)⟩ 1 []]
      ∧ ¬ (∀ rf1, exCancelled.commit refPlatform = some rf1 →
            rf1.samples = exCancelled.samples ∧ rf1.forest = exCancelled.forest)
      ∧ Reachable refPlatform freshSample exRecommit
      ∧ exRecommit.toAdd = [] ∧ exRecommit.toRemove = []
      ∧ exRecommit.forest.map DecisionTreeNode.isLeaf = [true]
      ∧ (exRecommit.commit refPlatform).map
          (fun rf1 => rf1.forest.map DecisionTreeNode.isLeaf) = some [false] := by
  have hm : exMixedPending.commit refPlatform = some exMixedCommitted := by decide!
  refine ⟨?_, by decide!, by decide!, by decide!, by decide!, rfl, ?_, ?_, by decide!,
    by decide!, by decide!, by decide!⟩
  · unfold exCancelled
    refine Reachable.remove _ _ (Reachable.add _ _ (Reachable.create 1) ?_)
    unfold freshSample
    decide!
  · intro h
    have h1 := (h exCancelledCommitted (by decide!)).2
    revert h1
    decide!
  · unfold exRecommit
    refine Reachable.remove _ _ (Reachable.add _ _
      (Reachable.commit _ _ reachable_exMixedPending hm) ?_)
    unfold freshSample
    decide!

/-- C12 (amended): `commit` is idempotent. In every forest state in which
`changesToCommit` is not set, `commit` leaves the whole state unchanged, and this
is the state after every `commit`: a second `commit` changes nothing. In a state
with `toAdd` and `toRemove` both empty (`changesToCommit` set or not), `commit`
returns, the committed samples are unchanged, both pending maps are empty,
`changesToCommit` is false and there are as many trees as before; in a forest
reached with fresh samples every tree holds the same samples as before. -/
theorem commit_idempotent {F : Type} (P : Platform F) (rf : Forest) :
    (rf.changesToCommit = false → rf.commit P = some rf)
      ∧ (∀ rf1, rf.commit P = some rf1 → rf1.commit P = some rf1)
      ∧ (rf.toAdd = [] → rf.toRemove = [] →
          (∃ rf1, rf.commit P = some rf1)
          ∧ ∀ rf1, rf.commit P = some rf1 →
              rf1.samples = rf.samples ∧ rf1.toAdd = [] ∧ rf1.toRemove = []
              ∧ rf1.changesToCommit = false ∧ rf1.forest.length = rf.forest.length
              ∧ (Reachable P freshSample rf →
                  List.Forall₂ (fun t t1 =>
                    List.Perm (collectRecursive t) (collectRecursive t1)) rf.forest rf1.forest)) := by
  refine ⟨commit_of_not_changed P rf, ?_, ?_⟩
  · intro rf1 h
    exact commit_of_not_changed P rf1 (commit_flag P rf rf1 h)
  · intro hadd hrem
    constructor
    · unfold Forest.commit
      split
      · exact ⟨_, rfl⟩
      · obtain ⟨r, hr⟩ := commitTrees_total P rf.toAdd rf.toRemove
          (by rw [hadd]; intro a ha; cases ha) rf.forest 0 rf.ts
        rw [hr]
        exact ⟨_, rfl⟩
    · intro rf1 h
      have hsamples : rf1.samples = rf.samples := by
        unfold Forest.commit at h
        split at h
        · cases h; rfl
        · split at h
          · cases h
          · cases h
            simp [hadd, hrem]
      have hlen : rf1.forest.length = rf.forest.length := by
        unfold Forest.commit at h
        split at h
        · cases h; rfl
        · split at h
          · cases h
          · rename_i ts1 forest1 hct
            cases h
            exact commitTrees_length P _ _ _ _ _ _ _ hct
      have hpend : rf1.toAdd = [] ∧ rf1.toRemove = [] := by
        unfold Forest.commit at h
        split at h
        · cases h; exact ⟨hadd, hrem⟩
        · split at h
          · cases h
          · cases h
            exact ⟨rfl, rfl⟩
      refine ⟨hsamples, hpend.1, hpend.2, commit_flag P rf rf1 h, hlen, ?_⟩
      intro hreach
      have hinv := forestInv_of_reachable P False freshSample
        (fun rf s h => ⟨h, False.elim⟩) rf hreach
      have hinv1 := forestInv_commit P False rf rf1 hinv h
      have ht1 := hinv1.trees
      rw [hsamples] at ht1
      exact treesOK_perm P False rf.samples rf.forest rf1.forest 0 hinv.trees ht1 hlen.symm

/-! ## Scenario S1 -/

theorem commit_samples_eq {F : Type} (P : Platform F) (rf rf1 : Forest)
    (hflag : rf.changesToCommit = true) (hc : rf.commit P = some rf1) :
    rf1.samples = rf.toAdd.foldl (fun (m : SampleMap) e => m.set e.1 e.2)
        (rf.toRemove.foldl (fun (m : SampleMap) e => m.erase e.1) rf.samples)
      ∧ rf1.forest.length = rf.forest.length := by
  unfold Forest.commit at hc
  rw [hflag] at hc
  simp only [Bool.not_true, Bool.false_eq_true, if_false] at hc
  split at hc
  · cases hc
  · rename_i ts1 forest1 hct
    cases hc
    exact ⟨rfl, commitTrees_length P _ _ _ _ _ _ _ hct⟩

theorem treeOK_length_le {F : Type} (P : Platform F) (B : Prop) (samples : SampleMap)
    (tree : DecisionTreeNode) (i : Nat) (h : TreeOK P B samples tree i) :
    (collectRecursive tree).length ≤ samples.length := by
  have hsubp : (collectRecursive tree).Subperm (samples.map Prod.snd) :=
    List.subperm_of_subset h.2.1
      (fun s hs1 => List.mem_map.mpr ⟨(s.suid, s), ((h.2.2 s).mp hs1).1, rfl⟩)
  simpa using hsubp.length_le

theorem reachable_scenarioS1 {F : Type} (P : Platform F) (pa pb : Nat) (hp : pa ≠ pb) :
    Reachable P binarySample (scenarioS1 P pa pb) := by
  unfold scenarioS1
  refine Reachable.add _ _ (Reachable.add _ _ (Reachable.create 1) ?_) ?_
  · refine ⟨?_, ?_, ?_⟩
    · intro e he
      simp [create] at he
    · simp [Sample.Binary, sampleS1a]
    · simp [create]
  · refine ⟨?_, ?_, ?_⟩
    · intro e he
      rw [Forest.add_samples, Forest.add_toAdd] at he
      simp [create, SampleMap.set, SampleMap.contains, SampleMap.insertNew] at he
      rw [he]
      simpa [sampleS1a, sampleS1b] using hp
    · simp [Sample.Binary, sampleS1b]
    · rw [Forest.add_samples, Forest.add_toAdd]
      simp [create, SampleMap.set, SampleMap.contains, SampleMap.insertNew]

theorem scenarioS1_pending {F : Type} (P : Platform F) (pa pb : Nat) :
    (scenarioS1 P pa pb).samples = [] ∧ (scenarioS1 P pa pb).toRemove = []
      ∧ (scenarioS1 P pa pb).toAdd = [("a", sampleS1a pa), ("b", sampleS1b pb)]
      ∧ (scenarioS1 P pa pb).changesToCommit = true
      ∧ (scenarioS1 P pa pb).forest.length = 1 := by
  refine ⟨rfl, rfl, ?_, rfl, rfl⟩
  unfold scenarioS1
  rw [Forest.add_toAdd, Forest.add_toAdd]
  rfl

theorem scenarioS1_counts {F : Type} (P : Platform F) (pa pb : Nat) (samples : List Sample)
    (hperm : List.Perm samples
      (treeBatch P [("a", sampleS1a pa), ("b", sampleS1b pb)] 0)) :
    countClass0 samples = (if sampleInTree P (sampleS1b pb) 0 = true then 1 else 0)
      ∧ countClass1 samples = (if sampleInTree P (sampleS1a pa) 0 = true then 1 else 0) := by
  have ha1 : isClass1 (sampleS1a pa) = true := by
    simp [isClass1, sampleS1a]; norm_num
  have hb1 : isClass1 (sampleS1b pb) = false := by
    simp [isClass1, sampleS1b]
  unfold countClass0 countClass1
  rw [hperm.countP_eq, hperm.countP_eq]
  unfold treeBatch
  by_cases ha : sampleInTree P (sampleS1a pa) 0 = true <;>
    by_cases hb : sampleInTree P (sampleS1b pb) 0 = true <;>
    simp [List.filter, ha, hb, ha1, hb1]

/-- C16 (amended): scenario S1. In a one-tree forest, after
`add("a", {1: 1.0}, 1.0)`, `add("b", {1: 0.0}, 0.0)` and `commit`, the tree is a
single leaf (a split needs two samples on each side) that holds those of the two
samples that `sampleInTree` routes to the tree, and `classify` of every query
returns the value of that leaf: `1/2` when both samples are in the tree, 1 when
only `a` is or none, 0 when only `b` is. -/
theorem scenario_s1_single_leaf {F : Type} (P : Platform F) (pa pb : Nat) (hp : pa ≠ pb) :
    ∃ rf1 d v samples,
      (scenarioS1 P pa pb).commit P = some rf1
      ∧ rf1.forest = [.leaf d v samples]
      ∧ (∀ s, s ∈ samples ↔
          (s = sampleS1a pa ∧ sampleInTree P (sampleS1a pa) 0 = true)
            ∨ (s = sampleS1b pb ∧ sampleInTree P (sampleS1b pb) 0 = true))
      ∧ (∀ q, (scenarioS1 P pa pb).classify P q = some (rf1, v))
      ∧ v = (if sampleInTree P (sampleS1a pa) 0 = true then
              (if sampleInTree P (sampleS1b pb) 0 = true then 1 / 2 else 1)
            else (if sampleInTree P (sampleS1b pb) 0 = true then 0 else 1)) := by
  have hreach := reachable_scenarioS1 P pa pb hp
  obtain ⟨hs0, hr0, ha0, hflag, hlen0⟩ := scenarioS1_pending P pa pb
  have hinv := forestInv_of_reachable P True binarySample
    (fun rf s h => ⟨h.1, fun _ => ⟨h.2.1, h.2.2⟩⟩) _ hreach
  obtain ⟨rf1, hc⟩ := commit_total P _ hinv.store hinv.ptr
  have hinv1 := forestInv_commit P True _ rf1 hinv hc
  obtain ⟨hsam, hlen⟩ := commit_samples_eq P _ rf1 hflag hc
  rw [hs0, hr0, ha0] at hsam
  have hsam1 : rf1.samples = [("a", sampleS1a pa), ("b", sampleS1b pb)] := by
    rw [hsam]; rfl
  rw [hlen0] at hlen
  obtain ⟨tree, htree⟩ := List.length_eq_one.mp hlen
  have htrees := hinv1.trees
  rw [htree, hsam1] at htrees
  have hok := htrees.1
  have hle := treeOK_length_le P True _ tree 0 hok
  simp only [List.length_cons, List.length_nil] at hle
  obtain ⟨d, v, samples, hleaf, hv, hc0, hc1⟩ := small_tree_is_leaf P _ rf1 hreach hflag hc tree
    (by rw [htree]; exact List.mem_singleton.mpr rfl) (by omega)
  subst hleaf
  have hmem : ∀ s, s ∈ samples ↔
      (s = sampleS1a pa ∧ sampleInTree P (sampleS1a pa) 0 = true)
        ∨ (s = sampleS1b pb ∧ sampleInTree P (sampleS1b pb) 0 = true) := by
    intro s
    have := hok.2.2 s
    simp only [collectRecursive] at this
    rw [this]
    simp only [List.mem_cons, List.mem_singleton, Prod.mk.injEq, List.not_mem_nil, or_false]
    constructor
    · rintro ⟨h1 | h1, h2⟩
      · exact Or.inl ⟨h1.2, h1.2 ▸ h2⟩
      · exact Or.inr ⟨h1.2, h1.2 ▸ h2⟩
    · rintro (⟨h1, h2⟩ | ⟨h1, h2⟩)
      · rw [h1]; exact ⟨Or.inl ⟨rfl, rfl⟩, h2⟩
      · rw [h1]; exact ⟨Or.inr ⟨rfl, rfl⟩, h2⟩
  have hperm : List.Perm samples (treeBatch P [("a", sampleS1a pa), ("b", sampleS1b pb)] 0) := by
    have hnd : (treeBatch P [("a", sampleS1a pa), ("b", sampleS1b pb)] 0).Nodup := by
      apply treeBatch_nodup
      · intro e he
        simp only [List.mem_cons, List.mem_singleton, List.not_mem_nil, or_false] at he
        rcases he with h | h <;> rw [h] <;> rfl
      · simp
    have hnds : samples.Nodup := hok.2.1
    rw [List.perm_ext_iff_of_nodup hnds hnd]
    intro s
    have := hok.2.2 s
    simp only [collectRecursive] at this
    rw [this, mem_treeBatch]
    constructor
    · rintro ⟨h1, h2⟩
      exact ⟨s.suid, h1, h2⟩
    · rintro ⟨k, h1, h2⟩
      refine ⟨?_, h2⟩
      simp only [List.mem_cons, List.mem_singleton, Prod.mk.injEq, List.not_mem_nil,
        or_false] at h1 ⊢
      rcases h1 with h | h
      · left; rw [h.2]; exact ⟨rfl, rfl⟩
      · right; rw [h.2]; exact ⟨rfl, rfl⟩
  obtain ⟨hcnt0, hcnt1⟩ := scenarioS1_counts P pa pb samples hperm
  rw [hcnt0] at hc0
  rw [hcnt1] at hc1
  refine ⟨rf1, d, v, samples, hc, htree, hmem, ?_, ?_⟩
  · intro q
    unfold Forest.classify
    rw [hc]
    simp [htree, evaluateSampleAgainstDecisionTree]
  · rw [hv]
    unfold updateValue
    rw [hc0, hc1]
    by_cases ha : sampleInTree P (sampleS1a pa) 0 = true <;>
      by_cases hb : sampleInTree P (sampleS1b pb) 0 = true <;>
      simp only [ha, hb, if_true, if_false] <;>
      norm_num [toInt32, wrapU32]

/-! ## Evaluations of the engine for the claims on classification and on shapes -/

theorem scenario_s1_single_leaf_witness :
    (1 : Nat) ≠ 2 ∧
      ∃ rf1 d v samples,
        (scenarioS1 refPlatform 1 2).commit refPlatform = some rf1
        ∧ rf1.forest = [.leaf d v samples]
        ∧ (∀ s, s ∈ samples ↔
            (s = sampleS1a 1 ∧ sampleInTree refPlatform (sampleS1a 1) 0 = true)
              ∨ (s = sampleS1b 2 ∧ sampleInTree refPlatform (sampleS1b 2) 0 = true))
        ∧ (∀ q, (scenarioS1 refPlatform 1 2).classify refPlatform q = some (rf1, v))
        ∧ v = (if sampleInTree refPlatform (sampleS1a 1) 0 = true then
                (if sampleInTree refPlatform (sampleS1b 2) 0 = true then 1 / 2 else 1)
              else (if sampleInTree refPlatform (sampleS1b 2) 0 = true then 0 else 1)) :=
  ⟨by decide, scenario_s1_single_leaf refPlatform 1 2 (by decide)⟩

theorem remove_then_add_eq_add_witness :
    exCommitted.samples.find exA2.suid = some exA
      ∧ exCommitted.toAdd.contains exA2.suid = false
      ∧ exCommitted.toRemove.contains exA2.suid = false
      ∧ (((exCommitted.remove exA2.suid).1.add exA2).1 = (exCommitted.add exA2).1
        ∧ (exCommitted.remove exA2.suid).2 = true
        ∧ ((exCommitted.remove exA2.suid).1.add exA2).2 = true
        ∧ (exCommitted.add exA2).2 = true
        ∧ ((exCommitted.remove exA2.suid).1.add exA2).1.commit refPlatform
            = (exCommitted.add exA2).1.commit refPlatform
        ∧ (StoreInv exCommitted → PtrInv exCommitted → freshSample exCommitted exA2 →
            ∃ rf1, ((exCommitted.remove exA2.suid).1.add exA2).1.commit refPlatform = some rf1
              ∧ (exCommitted.add exA2).1.commit refPlatform = some rf1)) :=
  ⟨by decide!, by decide!, by decide!,
    remove_then_add_eq_add refPlatform exCommitted exA2 exA (by decide!) (by decide!)
      (by decide!)⟩

/-- C16 (counterexample): scenario S1 on the reference platform. After
`create(1)`, `add("a", {1: 1.0}, 1.0)`, `add("b", {1: 0.0}, 0.0)` and `commit`
the tree is a leaf, not an internal node split on code 1, and
`classify({1: 0.0})` returns 1, not 0. -/
theorem scenario_s1_not_split :
    (scenarioS1 refPlatform 1 2).commit refPlatform = some exS1Committed
      ∧ exS1Committed.forest
          = [.leaf ⟨0, 1, [(1, ⟨0, 1, 1167667938⟩)], 476707713, (0, 0)⟩ 1 [sampleS1a 1]]
      ∧ (scenarioS1 refPlatform 1 2).classify refPlatform exQueryOne = some (exS1Committed, 1)
      ∧ (scenarioS1 refPlatform 1 2).classify refPlatform exQueryZero = some (exS1Committed, 1)
      ∧ ¬ (∃ rf1 code d negative positive,
            (scenarioS1 refPlatform 1 2).commit refPlatform = some rf1
            ∧ rf1.forest = [.internal code d negative positive]
            ∧ (scenarioS1 refPlatform 1 2).classify refPlatform exQueryZero = some (rf1, 0)) := by
  have hc : (scenarioS1 refPlatform 1 2).commit refPlatform = some exS1Committed := by decide!
  refine ⟨hc, rfl, by decide!, by decide!, ?_⟩
  rintro ⟨rf1, code, d, negative, positive, h1, h2, _⟩
  rw [hc] at h1
  cases h1
  simp [exS1Committed] at h2

/-- C14 (evaluation of the code): the forest `exBoundsFinal` is reached by
`create(1)`, six calls of `add`, `commit`, two calls of `remove` and `commit`. The
four samples with the target `0.5` are taken as class 0 when the totals are
updated per batch (`y > 0.5` in `splitListByTarget`) and as class 1 by the recount
of the child (`y >= 0.5` in `computeDecisionCounters`): removing two of them
leaves the child with `c0 = 2^32 - 2` and `c1 = 4`, `updateValue` computes
`n = 2` and the value `4 / 2`, and `classify` of a query without features returns
2, which is not in `[0, 1]`. -/
theorem classify_out_of_bounds :
    Reachable refPlatform freshSample exBoundsFinal
      ∧ exBoundsPending.commit refPlatform = some exBoundsCommitted
      ∧ ((exBoundsCommitted.remove "g").1.remove "h").1.commit refPlatform = some exBoundsFinal
      ∧ exBoundsFinal.classify refPlatform exQueryNone = some (exBoundsFinal, 2)
      ∧ ¬ (∀ v, exBoundsFinal.classify refPlatform exQueryNone = some (exBoundsFinal, v) →
            0 ≤ v ∧ v ≤ 1) := by
  have h1 : exBoundsPending.commit refPlatform = some exBoundsCommitted := by decide!
  have h2 : ((exBoundsCommitted.remove "g").1.remove "h").1.commit refPlatform
      = some exBoundsFinal := by decide!
  have h3 : exBoundsFinal.classify refPlatform exQueryNone = some (exBoundsFinal, 2) := by
    decide!
  refine ⟨?_, h1, h2, h3, ?_⟩
  · refine Reachable.commit _ _ (Reachable.remove _ _ (Reachable.remove _ _
      (Reachable.commit _ _ ?_ h1))) h2
    unfold exBoundsPending
    refine Reachable.add _ _ (Reachable.add _ _ (Reachable.add _ _ (Reachable.add _ _
      (Reachable.add _ _ (Reachable.add _ _ (Reachable.create 1) ?_) ?_) ?_) ?_) ?_) ?_
    all_goals (unfold freshSample; decide!)
  · intro h
    have := (h 2 h3).2
    norm_num at this

/-- C15 (evaluation of the code): `evaluateSampleAgainstDecisionTree` descends to
the positive child when the value of the query for the node's code is `>= 0.5`
(a missing code counts as 0), while `splitListAgainstCode` places a sample in the
positive child when the value is `> 0.5`. In the forest `exCommittedK`, reached by
`create(1)`, five calls of `add` and `commit`, the sample `exK` (feature 1 at
`0.5`) is stored in the negative leaf, which is the leaf the walk by presence
reaches; the walk of the code with `exK` as the query reaches the positive leaf,
which does not store it, and returns the value 1 instead of `1/3`. -/
theorem classification_walk_differs_from_placement :
    (∀ s code d negative positive,
        evaluateSampleAgainstDecisionTree s (.internal code d negative positive)
          = if (match s.find code with
                | some v => v
                | none => 0) ≥ 1 / 2 then evaluateSampleAgainstDecisionTree s positive
            else evaluateSampleAgainstDecisionTree s negative)
      ∧ Reachable refPlatform freshSample exCommittedK
      ∧ (∃ tree ∈ exCommittedK.forest,
          exK ∈ (presenceWalk exK tree).leafSamples
          ∧ exK ∉ (reachedLeaf exK tree).leafSamples
          ∧ (presenceWalk exK tree).leafValue = 1 / 3
          ∧ evaluateSampleAgainstDecisionTree exK tree = 1)
      ∧ ¬ (∀ tree ∈ exCommittedK.forest, ∀ s ∈ collectRecursive tree,
            s ∈ (reachedLeaf s tree).leafSamples) := by
  refine ⟨fun s code d negative positive => rfl,
    Reachable.commit _ _ reachable_exPendingK commit_exPendingK, ?_, ?_⟩
  · refine ⟨_, List.mem_singleton.mpr rfl, ?_, ?_, ?_, ?_⟩ <;> decide!
  · decide!

/-- C17 (evaluation of the code): all samples have `y` in `{0, 1}`. The forest
`exMixedFinal` is reached from `exCommitted` (`create(1)`, four calls of `add`,
`commit`) by removing its four samples and adding four class-0 samples with
feature 2 present and two class-1 samples with feature 2 at `0.5`, `commit` (the
root collapses to a leaf, whose recount leaves the two class-1 samples out of
`c1p` of code 2, `> 0.5`), `remove` of the two class-1 samples and `commit` (their
removal takes them off `c1p`, `>= 0.5`, which wraps around to `2^32 - 2`). All four
samples under the tree are then of class 0, and the tree is an internal node with
`c1 = 0` that splits on code 2, not a single leaf. -/
theorem single_class_tree_is_split :
    Reachable refPlatform freshSample exMixedFinal
      ∧ exMixedPending.commit refPlatform = some exMixedCommitted
      ∧ ((exMixedCommitted.remove "o").1.remove "p").1.commit refPlatform = some exMixedFinal
      ∧ (∀ e ∈ exMixedPending.samples ++ exMixedPending.toAdd, e.2.y = 0 ∨ e.2.y = 1)
      ∧ (∀ tree ∈ exMixedFinal.forest, ∀ s ∈ collectRecursive tree, isClass1 s = false)
      ∧ (∀ tree ∈ exMixedFinal.forest, (collectRecursive tree).length = 4)
      ∧ (∃ tree ∈ exMixedFinal.forest, tree.isLeaf = false ∧ tree.data.c1 = 0
          ∧ tree.code = 2) := by
  have h1 : exMixedPending.commit refPlatform = some exMixedCommitted := by decide!
  have h2 : ((exMixedCommitted.remove "o").1.remove "p").1.commit refPlatform
      = some exMixedFinal := by decide!
  refine ⟨?_, h1, h2, by decide!, by decide!, by decide!, ?_⟩
  · exact Reachable.commit _ _ (Reachable.remove _ _ (Reachable.remove _ _
      (Reachable.commit _ _ reachable_exMixedPending h1))) h2
  · exact ⟨_, List.mem_singleton.mpr rfl, by decide!, by decide!, by decide!⟩

/-- C18 (evaluation of the code): in the forest `exS4Pending` the samples routed to
the tree are two class-1 samples with `xCodes = {1: 1.0}` and two class-0 samples
with no feature present and no other code: `exG` has no code and `exK0` has
feature 1 at `0.5`, which is not present (`> 0.5`). `updateDecisionCounters` counts
the feature of `exK0` (`>= 0.5`): the entry of code 1 gets `c0p = 1`, only one
sample is left on the negative side, the tree stays a leaf with the value `1/2`,
its output for the query `{1: 1}` is `1/2` and `validate` returns false. -/
theorem scenario_s4_with_half_feature :
    Reachable refPlatform freshSample exS4Committed
      ∧ exS4Pending.commit refPlatform = some exS4Committed
      ∧ (∀ tree ∈ exS4Committed.forest,
          collectRecursive tree = [exA, exE, exG, exK0] ∧ tree.isLeaf = true
          ∧ evaluateSampleAgainstDecisionTree exQueryOne tree = 1 / 2)
      ∧ (∀ s ∈ [exA, exE], isClass1 s = true ∧ s.xCodes = [(1, 1)])
      ∧ (∀ s ∈ [exG, exK0], isClass1 s = false ∧ (∀ c, hasCodeGt s c = false)
          ∧ ∀ e ∈ s.xCodes, e.1 = 1)
      ∧ exS4Committed.validate refPlatform = some false := by
  have h1 : exS4Pending.commit refPlatform = some exS4Committed := by decide!
  refine ⟨?_, h1, by decide!, by decide!, ?_, by decide!⟩
  · refine Reachable.commit _ _ ?_ h1
    unfold exS4Pending
    refine Reachable.add _ _ (Reachable.add _ _ (Reachable.add _ _ (Reachable.add _ _
      (Reachable.create 1) ?_) ?_) ?_) ?_
    all_goals (unfold freshSample; decide!)
  · intro s hs
    simp only [List.mem_cons, List.mem_singleton, List.not_mem_nil, or_false] at hs
    rcases hs with h | h <;> subst h
    · refine ⟨by decide!, ?_, by decide!⟩
      intro c
      simp [hasCodeGt, Sample.find, exG]
    · refine ⟨by decide!, ?_, by decide!⟩
      intro c
      by_cases hc : c = 1
      · subst hc
        decide!
      · have hb : (c == 1) = false := by simpa using hc
        simp [hasCodeGt, Sample.find, exK0, List.lookup, hb]

/-! ## Evaluation of `save` and `load` -/

/-- C20 (evaluation of the code): `save` writes a `float` with the default
precision of the stream, six significant digits. The forest `exThirdPending`,
reached by `create(1)` and three calls of `add`, commits to one leaf with
`c0 = 2`, `c1 = 1` and the value `1/3`; `save` writes the value as `0.333333`, and
`load` of what `save` wrote is a forest with the same shape, node id, `c0`, `c1`,
`minValidRank`, table and suids in the leaf, for which `validate` returns true,
but whose leaf has the value `333333/1000000`: `classify` of a query returns
`1/3` on the forest saved and `333333/1000000` on the forest loaded. -/
theorem save_load_changes_leaf_value :
    Reachable refPlatform freshSample exThirdPending
      ∧ refShowFloat (1 / 3) = "0.333333".data
      ∧ exThirdPending.save refPlatform refStream = some (exThirdCommitted, exThirdText)
      ∧ Forest.load refPlatform refStream exThirdText = some exThirdLoaded
      ∧ exThirdCommitted.forest
          = [.leaf ⟨2, 1, [], 476707713, (0, 0)⟩ (1 / 3) [exA1, exG, exH]]
      ∧ exThirdLoaded.forest
          = [.leaf ⟨2, 1, [], 476707713, (0, 0)⟩ (333333 / 1000000)
              [⟨1, "a", 1, []⟩, ⟨2, "g", 0, []⟩, ⟨3, "h", 0, []⟩]]
      ∧ exThirdLoaded.validate refPlatform = some true
      ∧ exThirdCommitted.classify refPlatform exQueryNone = some (exThirdCommitted, 1 / 3)
      ∧ exThirdLoaded.classify refPlatform exQueryNone
          = some (exThirdLoaded, 333333 / 1000000)
      ∧ ¬ (∃ v, exThirdCommitted.classify refPlatform exQueryNone = some (exThirdCommitted, v)
            ∧ exThirdLoaded.classify refPlatform exQueryNone = some (exThirdLoaded, v)) := by
  have h1 : exThirdCommitted.classify refPlatform exQueryNone
      = some (exThirdCommitted, 1 / 3) := by decide!
  have h2 : exThirdLoaded.classify refPlatform exQueryNone
      = some (exThirdLoaded, 333333 / 1000000) := by decide!
  refine ⟨?_, by decide!, by decide!, by decide!, rfl, rfl, by decide!, h1, h2, ?_⟩
  · unfold exThirdPending
    refine Reachable.add _ _ (Reachable.add _ _ (Reachable.add _ _ (Reachable.create 1) ?_) ?_) ?_
    all_goals (unfold freshSample; decide!)
  · rintro ⟨v, hv1, hv2⟩
    rw [h1] at hv1
    rw [h2] at hv2
    have e1 : (1 : ℚ) / 3 = v := by
      have := Option.some.inj hv1
      exact (Prod.mk.inj this).2
    have e2 : (333333 : ℚ) / 1000000 = v := by
      have := Option.some.inj hv2
      exact (Prod.mk.inj this).2
    rw [← e1] at e2
    norm_num at e2

/-! ## Claims on `validate`, the precondition of `updateDecisionTree` and the watermark -/

theorem validateCounters_true (d : NodeData) (h0 : d.c0 < 4294967296) (h1 : d.c1 < 4294967296) :
    validateCounters d = true := by
  unfold validateCounters
  have key : ∀ (m : DCMap) (b : Bool), b = true →
      m.foldl (fun (valid : Bool) e =>
        let c0n := subU32 d.c0 e.2.c0p
        let c1n := subU32 d.c1 e.2.c1p
        let valid := if wrapU32 (e.2.c0p + c0n) ≠ d.c0 then false else valid
        let valid := if wrapU32 (e.2.c1p + c1n) ≠ d.c1 then false else valid
        valid) b = true := by
    intro m
    induction m with
    | nil => intro b hb; simpa using hb
    | cons e m ih =>
      intro b hb
      rw [List.foldl_cons]
      apply ih
      have e0 : wrapU32 (e.2.c0p + subU32 d.c0 e.2.c0p) = d.c0 := by
        unfold wrapU32 subU32
        omega
      have e1 : wrapU32 (e.2.c1p + subU32 d.c1 e.2.c1p) = d.c1 := by
        unfold wrapU32 subU32
        omega
      simp [e0, e1, hb]
  exact key _ true rfl

/-- C21 (evaluation of the code): `Forest::validate` does not call `commit`: its
result is the audit of the trees as they are, whatever is pending, and the pending
maps stay as they are. In the forest `exPendingK`, reached by `create(1)` and five
calls of `add`, five additions are pending and `changesToCommit` is set; `validate`
audits the empty leaf that `create` made and returns true, while the audit of the
committed forest returns false. -/
theorem validate_does_not_commit :
    (∀ (rf : Forest), rf.validate refPlatform
        = (⟨rf.samples, [], [], rf.forest, false, rf.ts⟩ : Forest).validate refPlatform)
      ∧ Reachable refPlatform freshSample exPendingK
      ∧ exPendingK.toAdd.length = 5 ∧ exPendingK.changesToCommit = true
      ∧ exPendingK.forest = [.leaf ⟨0, 0, [], 476707713, (0, 0)⟩ 0 []]
      ∧ exPendingK.validate refPlatform = some true
      ∧ exPendingK.commit refPlatform = some exCommittedK
      ∧ exCommittedK.validate refPlatform = some false := by
  refine ⟨fun rf => rfl, reachable_exPendingK, by decide!, by decide!, by decide!, by decide!,
    commit_exPendingK, by decide!⟩

/-- C22: `updateDecisionTree` aborts (`exit(1)`) if and only if some sample, by
address, occurs in both `batchAdd` and `batchRemove`. The abort is decided by
the two loops over the batches, which come before `updateDecisionTreeSamples`
and `updateDecisionTreeNode` and do not look at the tree; with disjoint batches
the call returns the updated tree for every tree, seed and pair of batches, so
that no abort further down, the one of `splitNode` included, is reached. -/
theorem updateDecisionTree_aborts_iff {F : Type} (P : Platform F) (ts : Nat)
    (dt : DecisionTreeNode) (batchAdd batchRemove : List Sample) :
    (updateDecisionTree P ts dt batchAdd batchRemove = none
        ↔ ∃ a ∈ batchAdd, ∃ r ∈ batchRemove, a.ptr = r.ptr)
      ∧ (updateDecisionTree P ts dt batchAdd batchRemove = none
        ↔ batchAdd.any (fun a => batchRemove.any (fun r => decide (r.ptr = a.ptr))) = true)
      ∧ ((∀ a ∈ batchAdd, ∀ r ∈ batchRemove, a.ptr ≠ r.ptr) →
          ∃ r, updateDecisionTree P ts dt batchAdd batchRemove = some r
            ∧ updateDecisionTreeNode P (updateDecisionTreeSamples dt batchAdd batchRemove) ts
                batchAdd batchRemove = some r) := by
  have hiff : updateDecisionTree P ts dt batchAdd batchRemove = none
      ↔ ∃ a ∈ batchAdd, ∃ r ∈ batchRemove, a.ptr = r.ptr := by
    constructor
    · intro hnone
      by_contra hno
      have hdis : ∀ a ∈ batchAdd, ∀ r ∈ batchRemove, a.ptr ≠ r.ptr := by
        intro a ha r hr heq
        exact hno ⟨a, ha, r, hr, heq⟩
      obtain ⟨r, hr⟩ := updateDecisionTree_total P ts dt batchAdd batchRemove hdis
      rw [hnone] at hr
      cases hr
    · rintro ⟨a, ha, r, hr, heq⟩
      exact updateDecisionTree_none P ts dt batchAdd batchRemove a ha r hr heq
  have hany : batchAdd.any (fun a => batchRemove.any (fun r => decide (r.ptr = a.ptr))) = true
      ↔ ∃ a ∈ batchAdd, ∃ r ∈ batchRemove, a.ptr = r.ptr := by
    simp only [List.any_eq_true, decide_eq_true_eq]
    constructor
    · rintro ⟨a, ha, r, hr, heq⟩
      exact ⟨a, ha, r, hr, heq.symm⟩
    · rintro ⟨a, ha, r, hr, heq⟩
      exact ⟨a, ha, r, hr, heq.symm⟩
  refine ⟨hiff, hiff.trans hany.symm, ?_⟩
  intro hdis
  obtain ⟨r, hr⟩ := updateDecisionTree_total P ts dt batchAdd batchRemove hdis
  refine ⟨r, hr, ?_⟩
  have h1 : batchAdd.any (fun a => batchRemove.any (fun r => decide (r.ptr = a.ptr))) = false := by
    rw [Bool.eq_false_iff]
    intro h
    obtain ⟨a, ha, r, hr, heq⟩ := hany.mp h
    exact hdis a ha r hr heq
  have h2 : batchRemove.any (fun r => batchAdd.any (fun a => decide (a.ptr = r.ptr))) = false := by
    rw [Bool.eq_false_iff]
    intro h
    simp only [List.any_eq_true, decide_eq_true_eq] at h
    obtain ⟨r, hr, a, ha, heq⟩ := h
    exact hdis a ha r hr heq
  unfold updateDecisionTree at hr
  simpa [h1, h2] using hr

/-- C23 (evaluation of the code): the checks of `validateDecisionTree` on `c0n`
and `c1n` are made on `unsigned int` values: `c0n < 0` is never true and
`c0p + c0n` is `c0` again after the wrap-around, so that these checks pass for
all counters. The forest `exOverCommitted` is reached from `exCommitted` by
removing its four samples, adding `exW` (target `0.5`, feature 2 present) and
`commit`: the root collapses to a leaf whose recount takes the sample as class 1
in the totals (`y >= 0.5`) and as class 0 in the entry of code 2 (`y > 0.5`).
The entry has `c0p = 1 > c0 = 0`, and `validateDecisionTree` and `validate`
return true. -/
theorem validate_true_with_count_above_total :
    (∀ d : NodeData, d.c0 < 4294967296 → d.c1 < 4294967296 → validateCounters d = true)
      ∧ Reachable refPlatform freshSample exOverCommitted
      ∧ exOverPending.commit refPlatform = some exOverCommitted
      ∧ exOverCommitted.forest
          = [.leaf ⟨0, 1, [(2, ⟨1, 0, 155670421⟩)], 476707713, (0, 0)⟩ 1 [exW]]
      ∧ (∃ tree ∈ exOverCommitted.forest, ∃ e ∈ tree.data.decisionCountMap,
          e.2.c0p > tree.data.c0 ∧ validateDecisionTree refPlatform tree = some true)
      ∧ exOverCommitted.validate refPlatform = some true := by
  have hc : exOverPending.commit refPlatform = some exOverCommitted := by decide!
  refine ⟨validateCounters_true, ?_, hc, rfl, ?_, by decide!⟩
  · refine Reachable.commit _ _ ?_ hc
    unfold exOverPending
    refine Reachable.add _ _ (Reachable.remove _ _ (Reachable.remove _ _
      (Reachable.remove _ _ (Reachable.remove _ _
        (Reachable.mono refPlatform binarySample freshSample binarySample_fresh _
          reachable_exCommitted))))) ?_
    unfold freshSample
    decide!
  · exact ⟨_, List.mem_singleton.mpr rfl, (2, ⟨1, 0, 155670421⟩), by decide!, by decide!,
      by decide!⟩

theorem reachable_exWidePending : Reachable refPlatform freshSample exWidePending := by
  unfold exWidePending
  refine Reachable.add _ _ (Reachable.add _ _ (Reachable.add _ _ (Reachable.add _ _
    (Reachable.create 1) ?_) ?_) ?_) ?_
  all_goals (unfold freshSample; decide!)

theorem exWide_root :
    (exWidePending.commit refPlatform).map (fun rf1 => rf1.forest.map (fun tree =>
        (tree.data.id, tree.data.minValidRank))) = some [(476707713, (53249146, 14))]
      ∧ (exWidePending.commit refPlatform).map (fun rf1 => rf1.forest.map (fun tree =>
            tree.data.decisionCountMap.map Prod.fst))
          = some [(codesTo 41).filter (fun c => c ≠ 13)] := by
  constructor <;> decide!

theorem exWide_positive :
    (exWidePending.commit refPlatform).map (fun rf1 => rf1.forest.map (fun tree =>
        tree.positiveChild.map (fun p => (p.data.id, p.data.minValidRank))))
          = some [some (2137716191, (24804698, 42))]
      ∧ (exWidePending.commit refPlatform).map (fun rf1 => rf1.forest.map (fun tree =>
            tree.positiveChild.map (fun p => p.data.decisionCountMap.map Prod.fst)))
          = some [some ((codesTo 41).filter (fun c => c ≠ 13))] := by
  constructor <;> decide!

theorem exWide_positive_samples :
    (exWidePending.commit refPlatform).map (fun rf1 => rf1.forest.map (fun tree =>
        tree.positiveChild.map collectRecursive))
      = some [some [exWideA, exWideE]] := by decide!

theorem exWide_recount :
    (computeDecisionCounters refPlatform 2137716191 [exWideA, exWideE]).2.2.2 = (24804698, 42)
      ∧ (computeDecisionCounters refPlatform 2137716191 [exWideA, exWideE]).1.map Prod.fst
          = (codesTo 41).filter (fun c => c ≠ 13)
      ∧ findUsedCodes [exWideA, exWideE] = codesTo 41 := by
  refine ⟨?_, ?_, ?_⟩ <;> decide!

/-- C28 (evaluation of the code): in the full recount the watermark takes the
rank of the evicted pair and `code + 1` of the code that is being inserted, not
of the evicted code. In the forest `exWidePending`, reached by `create(1)` and
four calls of `add`, two samples have the 41 codes 1 to 41. `commit` splits the
root and recounts the positive child from these two samples: the recount evicts
code 13, the code of the lowest rank, when it inserts code 41, and leaves
`minValidRank = (rank(13), 42)`, not `(rank(13), 14)`. In the root, where the
same code 13 is evicted on the incremental path, `minValidRank` is
`(rank(13), 14)`. -/
theorem recount_watermark_uses_inserted_code :
    Reachable refPlatform freshSample exWidePending
      ∧ (exWidePending.commit refPlatform).map (fun rf1 => rf1.forest.map (fun tree =>
            (tree.data.id, tree.data.minValidRank))) = some [(476707713, (53249146, 14))]
      ∧ (exWidePending.commit refPlatform).map (fun rf1 => rf1.forest.map (fun tree =>
            tree.data.decisionCountMap.map Prod.fst))
          = some [(codesTo 41).filter (fun c => c ≠ 13)]
      ∧ (exWidePending.commit refPlatform).map (fun rf1 => rf1.forest.map (fun tree =>
            tree.positiveChild.map (fun p => (p.data.id, p.data.minValidRank))))
          = some [some (2137716191, (24804698, 42))]
      ∧ (exWidePending.commit refPlatform).map (fun rf1 => rf1.forest.map (fun tree =>
            tree.positiveChild.map (fun p => p.data.decisionCountMap.map Prod.fst)))
          = some [some ((codesTo 41).filter (fun c => c ≠ 13))]
      ∧ (exWidePending.commit refPlatform).map (fun rf1 => rf1.forest.map (fun tree =>
            tree.positiveChild.map collectRecursive))
          = some [some [exWideA, exWideE]]
      ∧ (computeDecisionCounters refPlatform 2137716191 [exWideA, exWideE]).2.2.2
          = (24804698, 42)
      ∧ (computeDecisionCounters refPlatform 2137716191 [exWideA, exWideE]).1.map Prod.fst
          = (codesTo 41).filter (fun c => c ≠ 13)
      ∧ findUsedCodes [exWideA, exWideE] = codesTo 41
      ∧ codeRankInNode refPlatform 13 2137716191 = 24804698
      ∧ codeRankInNode refPlatform 13 476707713 = 53249146
      ∧ (computeDecisionCounters refPlatform 2137716191 [exWideA, exWideE]).2.2.2
          ≠ (codeRankInNode refPlatform 13 2137716191, 13 + 1) := by
  have hr13 : codeRankInNode refPlatform 13 2137716191 = 24804698 := by decide!
  refine ⟨reachable_exWidePending, exWide_root.1, exWide_root.2, exWide_positive.1,
    exWide_positive.2, exWide_positive_samples, exWide_recount.1, exWide_recount.2.1,
    exWide_recount.2.2, hr13, by decide!, ?_⟩
  rw [exWide_recount.1, hr13]
  decide

/-- C24: on every forest reached by `create`, `add`, `remove` and `commit`,
`getSamples` commits (afterwards nothing is pending) and returns a walker over
the committed map. The walker yields each committed sample exactly once: after
`k` calls of `get`, `stillSome` is true exactly when `k` is less than the number
of committed samples; the suids of the samples that these calls yield are the
keys of the committed map, without duplicates and in ascending order. -/
theorem getSamples_enumerates_committed {F : Type} (P : Platform F) (rf : Forest)
    (h : Reachable P freshSample rf) :
    ∃ rf1, rf.commit P = some rf1
      ∧ rf.getSamples P = some (rf1, MapSampleWalker.new rf1.samples)
      ∧ rf1.toAdd = [] ∧ rf1.toRemove = [] ∧ rf1.changesToCommit = false
      ∧ (∀ k, k ≤ rf1.samples.length →
          ∃ l w, MapSampleWalker.take k (MapSampleWalker.new rf1.samples) = some (l, w)
            ∧ l.length = k ∧ (w.stillSome = true ↔ k < rf1.samples.length))
      ∧ ∃ l, MapSampleWalker.take rf1.samples.length (MapSampleWalker.new rf1.samples)
            = some (l, ⟨[]⟩)
          ∧ l = rf1.samples.map Prod.snd
          ∧ l.map Sample.suid = rf1.samples.map Prod.fst
          ∧ (l.map Sample.suid).Nodup
          ∧ (∀ sId, sId ∈ l.map Sample.suid ↔ rf1.samples.contains sId = true)
          ∧ (l.map (fun s => s.suid.data)).Pairwise (fun a b => charsLt a b = true) := by
  obtain ⟨rf1, hc⟩ := commit_total P rf (storeInv_of_reachable P _ rf h)
    (ptrInv_of_reachable P _ (fun _ _ hf => hf) rf h)
  have hr1 : Reachable P freshSample rf1 := Reachable.commit rf rf1 h hc
  have hst := storeInv_of_reachable P _ rf1 hr1
  have hasc := ascending_of_reachable P _ rf1 hr1
  obtain ⟨hA, hR, hF⟩ := commit_pending_empty P _ rf rf1 h hc
  have hsuid : (rf1.samples.map Prod.snd).map Sample.suid = rf1.samples.map Prod.fst := by
    rw [List.map_map]
    apply List.map_congr_left
    intro e he
    exact hst.keySamples e he
  refine ⟨rf1, hc, ?_, hA, hR, hF, ?_, rf1.samples.map Prod.snd, ?_, rfl, hsuid, ?_, ?_, ?_⟩
  · unfold Forest.getSamples
    rw [hc]
  · intro k hk
    refine ⟨_, _, MapSampleWalker.take_spec rf1.samples k hk, ?_, ?_⟩
    · simp [List.length_take, hk]
    · unfold MapSampleWalker.stillSome
      simp only [Bool.not_eq_true', List.isEmpty_eq_false_iff_exists_mem]
      constructor
      · rintro ⟨x, hx⟩
        by_contra hlt
        have : rf1.samples.drop k = [] := List.drop_eq_nil_of_le (by omega)
        rw [this] at hx
        cases hx
      · intro hlt
        have hne : rf1.samples.drop k ≠ [] := by
          intro hnil
          have := List.drop_eq_nil_iff.mp hnil
          omega
        obtain ⟨x, hx⟩ := List.exists_mem_of_ne_nil _ hne
        exact ⟨x, hx⟩
  · have := MapSampleWalker.take_spec rf1.samples rf1.samples.length (le_refl _)
    simpa using this
  · rw [hsuid]
    exact hst.nodupSamples
  · intro sId
    rw [hsuid, SampleMap.contains_iff_mem]
    constructor
    · intro hm
      obtain ⟨e, he, hk⟩ := List.mem_map.mp hm
      exact ⟨e.2, by rw [← hk]; exact he⟩
    · rintro ⟨s, hs⟩
      exact List.mem_map.mpr ⟨(sId, s), hs, rfl⟩
  · have : (rf1.samples.map Prod.snd).map (fun s => s.suid.data)
        = rf1.samples.map (fun e => e.1.data) := by
      rw [List.map_map]
      apply List.map_congr_left
      intro e he
      simp only [Function.comp]
      rw [hst.keySamples e he]
    rw [this]
    exact hasc

/-! ## Claims on the rank threshold, the recount and the cap of the tables -/

/-- C26: `findMinRankToConsider`. For a table with at most 30 entries it returns
`(0, 0)`, and every entry with a non-negative code passes the test
`(rank, code) >= (0, 0)`. For a table with more than 30 entries (the keys of a
table are distinct) it returns the pair `(rank, code)` of an entry of the table
such that exactly 30 entries have a pair at or above it and exactly 29 a pair
above it: it is the 30th largest pair, and the entries that pass the test are
the 30 entries with the largest pairs. -/
theorem findMinRankToConsider_threshold (m : DCMap) :
    (m.length ≤ 30 →
        findMinRankToConsider m = (0, 0)
          ∧ ∀ e ∈ m, 0 ≤ e.1 → pairGe (e.2.rank, e.1) (findMinRankToConsider m) = true)
      ∧ (30 < m.length → (m.map Prod.fst).Nodup →
          (∃ e ∈ m, (e.2.rank, e.1) = findMinRankToConsider m)
            ∧ (m.filter (fun e => pairGe (e.2.rank, e.1) (findMinRankToConsider m))).length = 30
            ∧ (m.filter (fun e => pairLt (findMinRankToConsider m) (e.2.rank, e.1))).length = 29
            ∧ ∀ e ∈ m, ∀ e1 ∈ m,
                pairGe (e.2.rank, e.1) (findMinRankToConsider m) = true →
                pairGe (e1.2.rank, e1.1) (findMinRankToConsider m) = false →
                pairLt (e1.2.rank, e1.1) (e.2.rank, e.1) = true) := by
  constructor
  · intro h
    have h0 := findMinRankToConsider_small m h
    refine ⟨h0, ?_⟩
    intro e _ hc
    rw [h0, pairGe_iff]
    simp only
    omega
  · intro h hn
    have hlarge := findMinRankToConsider_large m h
    have hnd := entryPair_nodup m hn
    have hlen : maxCodesToConsider ≤ (m.map entryPair).length := by
      rw [List.length_map]
      exact Nat.le_of_lt h
    obtain ⟨hmem, _, hcount, hcount2⟩ :=
      keepTop_threshold maxCodesToConsider (by decide) (m.map entryPair) hnd hlen
    rw [← hlarge] at hmem hcount hcount2
    refine ⟨?_, ?_, ?_, ?_⟩
    · have hsub := (keepTop_fold_spec maxCodesToConsider (m.map entryPair) hnd).2.1 _ hmem
      obtain ⟨e, he, hpe⟩ := List.mem_map.mp hsub
      exact ⟨e, he, hpe⟩
    · have : (m.filter (fun e => pairGe (e.2.rank, e.1) (findMinRankToConsider m))).length
          = ((m.map entryPair).filter
              (fun q => pairGe q (findMinRankToConsider m))).length := by
        rw [List.filter_map, List.length_map]
        rfl
      rw [this, hcount]
      rfl
    · have : (m.filter (fun e => pairLt (findMinRankToConsider m) (e.2.rank, e.1))).length
          = ((m.map entryPair).filter
              (fun q => pairLt (findMinRankToConsider m) q)).length := by
        rw [List.filter_map, List.length_map]
        rfl
      rw [this, hcount2]
      rfl
    · intro e _ e1 _ hge hnge
      rw [pairGe_eq_not] at hge hnge
      have h1 : pairLt (e.2.rank, e.1) (findMinRankToConsider m) = false := by simpa using hge
      have h2 : pairLt (e1.2.rank, e1.1) (findMinRankToConsider m) = true := by simpa using hnge
      rw [pairLt_iff] at h2 ⊢
      rw [Bool.eq_false_iff, Ne, pairLt_iff] at h1
      omega

/-- C27: the full recount `computeDecisionCounters` for the node `id` over the
samples `sw`. With `U = findUsedCodes sw` the set of the codes that occur as keys
of `xCodes` in a sample, the keys of the rebuilt table are distinct elements of
`U`, there are `min(40, |U|)` of them, and every key has a larger pair
`(rank(code, id), code)` than every code of `U` that is not a key. Every entry
carries `rank(code, id)`, and `c0p + c1p` is the number of samples whose value
for the code is `> 0.5`; `outC0 + outC1` is the number of samples (both modulo
`2^32`, and exactly with fewer than `2^32` samples); `minValidRank` is `(0, 0)`
when `|U| <= 40`. -/
theorem recount_keeps_top_codes {F : Type} (P : Platform F) (id : Nat) (sw : List Sample) :
    (∀ c, c ∈ findUsedCodes sw ↔ ∃ s ∈ sw, c ∈ s.xCodes.map Prod.fst)
      ∧ (findUsedCodes sw).Nodup
      ∧ ((computeDecisionCounters P id sw).1.map Prod.fst).Nodup
      ∧ (computeDecisionCounters P id sw).1.length = min 40 (findUsedCodes sw).length
      ∧ (∀ e ∈ (computeDecisionCounters P id sw).1, e.1 ∈ findUsedCodes sw)
      ∧ (∀ e ∈ (computeDecisionCounters P id sw).1, ∀ c ∈ findUsedCodes sw,
          (computeDecisionCounters P id sw).1.contains c = false →
          pairLt (codeRankInNode P c id, c) (codeRankInNode P e.1 id, e.1) = true)
      ∧ (∀ e ∈ (computeDecisionCounters P id sw).1,
          e.2.rank = codeRankInNode P e.1 id
            ∧ (e.2.c0p + e.2.c1p) % 4294967296
                = sw.countP (fun s => hasCodeGt s e.1) % 4294967296
            ∧ (sw.length < 4294967296 →
                e.2.c0p + e.2.c1p = sw.countP (fun s => hasCodeGt s e.1)))
      ∧ ((computeDecisionCounters P id sw).2.1 + (computeDecisionCounters P id sw).2.2.1)
            % 4294967296 = sw.length % 4294967296
      ∧ (sw.length < 4294967296 →
          (computeDecisionCounters P id sw).2.1 + (computeDecisionCounters P id sw).2.2.1
            = sw.length)
      ∧ ((findUsedCodes sw).length ≤ 40 → (computeDecisionCounters P id sw).2.2.2 = (0, 0)) := by
  have hU : (findUsedCodes sw).Nodup := by
    refine (findUsedCodes_sorted sw).imp ?_
    intro a b hab
    omega
  obtain ⟨hperm, hnd⟩ := computeDecisionCounters_keys P id sw
  have hpn := rankPairs_nodup P id _ hU
  obtain ⟨_, hsub, hlen, _, hrest⟩ := keepTop_fold_spec maxCodesToKeep _ hpn
  obtain ⟨hc0, hc1, hent, _⟩ := computeDecisionCounters_spec P id sw
  have hadd := countClass_add sw
  refine ⟨mem_findUsedCodes sw, hU, hnd, ?_, fun e he => (hent e he).2, ?_, ?_, ?_, ?_, ?_⟩
  · have h1 := hperm.length_eq
    rw [List.length_map, List.length_map] at h1
    rw [h1, hlen, List.length_map]
    rfl
  · intro e he c hc hnot
    have hkey : e.1 ∈ (computeDecisionCounters P id sw).1.map Prod.fst :=
      List.mem_map.mpr ⟨e, he, rfl⟩
    obtain ⟨p, hp, hpe⟩ := List.mem_map.mp (hperm.mem_iff.mp hkey)
    have hpform : p = (codeRankInNode P e.1 id, e.1) := by
      obtain ⟨c0, _, hc0p⟩ := List.mem_map.mp (hsub p hp)
      rw [← hc0p] at hpe ⊢
      simp only at hpe
      rw [hpe]
    have hqL : (codeRankInNode P c id, c)
        ∈ (findUsedCodes sw).map (fun c => (codeRankInNode P c id, c)) :=
      List.mem_map.mpr ⟨c, hc, rfl⟩
    have hqn : (codeRankInNode P c id, c)
        ∉ ((findUsedCodes sw).map (fun c => (codeRankInNode P c id, c))).foldl
          (keepTop maxCodesToKeep) [] := by
      intro hm
      have : c ∈ (computeDecisionCounters P id sw).1.map Prod.fst :=
        hperm.mem_iff.mpr (List.mem_map.mpr ⟨_, hm, rfl⟩)
      obtain ⟨e1, he1, hk1⟩ := List.mem_map.mp this
      rw [DCMap.contains_false_iff] at hnot
      exact hnot e1 he1 hk1
    have := hrest _ hqL hqn p hp
    rw [hpform] at this
    exact this
  · intro e he
    have he2 := (hent e he).1
    obtain ⟨hr, h1p, h0p, hb1, hb0⟩ := countCode_spec e.1 sw ⟨0, 0, codeRankInNode P e.1 id⟩
    rw [← he2] at hr h1p h0p hb1 hb0
    have hsplit := countP_split sw isAboveHalf (fun s => hasCodeGt s e.1)
    have hb1' := hb1 (by simp)
    have hb0' := hb0 (by simp)
    simp only [Nat.zero_add] at h1p h0p
    refine ⟨hr, ?_, ?_⟩
    · omega
    · intro hlt
      have hle : sw.countP (fun s => hasCodeGt s e.1) ≤ sw.length :=
        List.countP_le_length _
      omega
  · rw [hc0, hc1]
    omega
  · intro hlt
    rw [hc0, hc1]
    omega
  · intro hle
    have := rankFold_small P id (findUsedCodes sw) ([], (0, 0)) (by
      simp only [List.length_nil, Nat.zero_add]
      exact hle)
    unfold computeDecisionCounters
    simp only
    exact this

/-- C29: no incremental re-admission. On a node whose table is well formed (the
keys are distinct, at most 40 entries, every entry carries the rank of its code,
as in every node of a reachable forest), an incremental counter update, and so
every sequence of them, does not lower `minValidRank`; in the insertion loop a
code enters the table only when it is new and its `(rank, code)` is at or above
the `minValidRank` of that moment; and a code that an addition takes out of the
table (an eviction for the cap) is below the new `minValidRank` and is in the
table after no sequence of incremental updates that follows. -/
theorem no_incremental_readmission {F : Type} (P : Platform F) (d : NodeData)
    (h : TableOK P d.id d.decisionCountMap) :
    (∀ steps : List (Sample × Bool),
        pairLt (steps.foldl (incrementalStep P) d).minValidRank d.minValidRank = false
          ∧ TableOK P d.id (steps.foldl (incrementalStep P) d).decisionCountMap)
      ∧ (∀ (s : Sample), (incrementalStep P d (s, false)).minValidRank = d.minValidRank
          ∧ ∀ c, (incrementalStep P d (s, false)).decisionCountMap.contains c = true →
              d.decisionCountMap.contains c = true)
      ∧ (∀ (s : Sample) (direction : Int) (acc : DCMap × List RankPair × RankPair)
          (x : Int × ℚ) (c : Int),
          (insertStep P d.id s direction acc x).1.contains c = true →
          acc.1.contains c = true
            ∨ (c = x.1 ∧ acc.1.contains x.1 = false
                ∧ pairGe (codeRankInNode P x.1 d.id, x.1) acc.2.2 = true))
      ∧ (∀ (s : Sample) (c : Int),
          (incrementalStep P d (s, true)).decisionCountMap.contains c = true →
          d.decisionCountMap.contains c = true
            ∨ pairGe (codeRankInNode P c d.id, c) d.minValidRank = true)
      ∧ (∀ (s : Sample) (c : Int), d.decisionCountMap.contains c = true →
          (incrementalStep P d (s, true)).decisionCountMap.contains c = false →
          pairLt (codeRankInNode P c d.id, c) (incrementalStep P d (s, true)).minValidRank = true
            ∧ ∀ steps : List (Sample × Bool),
                (steps.foldl (incrementalStep P)
                  (incrementalStep P d (s, true))).decisionCountMap.contains c = false) := by
  refine ⟨?_, ?_, ?_, ?_, ?_⟩
  · intro steps
    obtain ⟨_, hok, hmono, _⟩ := incrementalFold_spec P steps d h
    exact ⟨hmono, hok⟩
  · intro s
    obtain ⟨_, _, _, hgate, _⟩ := incrementalStep_spec P d (s, false) h
    constructor
    · rw [incrementalStep_remove, (updateDecisionCounters_frame P d s).2.2.2.1]
    · intro c hc
      rcases hgate c hc with h1 | h1
      · exact h1
      · cases h1.1
  · intro s direction acc x c hc
    exact insertStep_gate P d.id s direction acc x c hc
  · intro s c hc
    obtain ⟨_, _, _, hgate, _⟩ := incrementalStep_spec P d (s, true) h
    rcases hgate c hc with h1 | h1
    · exact Or.inl h1
    · exact Or.inr h1.2
  · intro s c hc hn
    obtain ⟨hid, hok, _, _, _, hev⟩ := incrementalStep_spec P d (s, true) h
    have hlt := hev rfl c hc hn
    refine ⟨hlt, ?_⟩
    intro steps
    obtain ⟨_, _, _, hblock⟩ := incrementalFold_spec P steps (incrementalStep P d (s, true))
      (by rw [hid]; exact hok)
    rw [hid] at hblock
    exact (hblock c hn hlt).1

/-- C30: the table cap. In every forest reached by `create`, `add`, `remove` and
`commit` every node has a table with at most 40 entries (with distinct keys, each
entry carrying the rank of its code); the table of such a node has at most 40
entries after every sequence of incremental counter updates, and the table that a
full recount builds has at most 40 entries. -/
theorem table_cap_of_reachable {F : Type} (P : Platform F) (rf : Forest)
    (h : Reachable P freshSample rf) :
    (∀ t ∈ rf.forest, ∀ n ∈ t.nodes,
        n.data.decisionCountMap.length ≤ 40 ∧ (n.data.decisionCountMap.map Prod.fst).Nodup
          ∧ ∀ e ∈ n.data.decisionCountMap, e.2.rank = codeRankInNode P e.1 n.data.id)
      ∧ (∀ t ∈ rf.forest, ∀ n ∈ t.nodes, ∀ steps : List (Sample × Bool),
          (steps.foldl (incrementalStep P) n.data).decisionCountMap.length ≤ 40)
      ∧ (∀ (id : Nat) (sw : List Sample), (computeDecisionCounters P id sw).1.length ≤ 40)
      ∧ (∀ (d : NodeData) (s : Sample), d.decisionCountMap.length ≤ 40 →
          (d.decisionCountMap.map Prod.fst).Nodup →
          (∀ e ∈ d.decisionCountMap, e.2.rank = codeRankInNode P e.1 d.id) →
          (updateDecisionCounters P d s 1).decisionCountMap.length ≤ 40
            ∧ (updateDecisionCounters P d s (-1)).decisionCountMap.length ≤ 40) := by
  have hcap := capped_of_reachable P _ rf h
  refine ⟨?_, ?_, ?_, ?_⟩
  · intro t ht n hn
    obtain ⟨h1, h2, h3⟩ := capped_nodes P t (hcap t ht) n hn
    exact ⟨h2, h1, h3⟩
  · intro t ht n hn steps
    have hok := capped_nodes P t (hcap t ht) n hn
    exact (incrementalFold_spec P steps n.data hok).2.1.2.1
  · intro id sw
    exact (tableOK_recount P id sw).2.1
  · intro d s h1 h2 h3
    have hok : TableOK P d.id d.decisionCountMap := ⟨h2, h1, h3⟩
    have ha := (incrementalStep_spec P d (s, true) hok).2.1.2.1
    have hr := (incrementalStep_spec P d (s, false) hok).2.1.2.1
    rw [incrementalStep_add] at ha
    rw [incrementalStep_remove] at hr
    exact ⟨ha, hr⟩

/-- The search of `findMinEntropyCode` for float operations whose comparison is a
strict weak order, when `currentEntropy` is not above the start value 10 of the
search and the table has no key `-1`: a code other than `-1` is returned if and
only if some eligible entry has an entropy strictly below `currentEntropy`, and
the code returned is the key of an eligible entry of the least entropy. -/
theorem findMinEntropyCode_least_of_order {F : Type} (fl : FloatOps F) (currentEntropy : F)
    (d : NodeData) (hord : fl.IsOrder)
    (hkeys : ∀ e ∈ d.decisionCountMap, e.1 ≠ -1)
    (hcur : fl.lt (fl.ofInt 10) currentEntropy = false) :
    (findMinEntropyCode fl currentEntropy d ≠ -1
        ↔ ∃ e ∈ d.decisionCountMap, eligible d e = true
            ∧ fl.lt (e.2.entropy fl d) currentEntropy = true)
      ∧ (findMinEntropyCode fl currentEntropy d ≠ -1 →
          ∃ e ∈ d.decisionCountMap, e.1 = findMinEntropyCode fl currentEntropy d
            ∧ eligible d e = true
            ∧ fl.lt (e.2.entropy fl d) currentEntropy = true
            ∧ ∀ e1 ∈ d.decisionCountMap, eligible d e1 = true →
                fl.lt (e1.2.entropy fl d) (e.2.entropy fl d) = false) := by
  have hspec := minEntropyLoop_spec fl hord d (fl.ofInt 10) d.decisionCountMap []
    (fl.ofInt 10, -1) (Or.inl ⟨rfl, fun e he => by cases he⟩)
  simp only [List.nil_append] at hspec
  have heq := findMinEntropyCode_eq fl currentEntropy d
  refine ⟨?_, ?_⟩
  · rcases hspec with ⟨h1, h2⟩ | ⟨e, he, hel, h1, h2⟩
    · rw [h1] at heq
      simp only [if_true] at heq
      constructor
      · intro hne
        exact absurd heq hne
      · rintro ⟨e, he, hel, hlt⟩
        rcases hord.cotrans _ _ (fl.ofInt 10) hlt with h3 | h3
        · rw [h2 e he hel] at h3
          cases h3
        · rw [hcur] at h3
          cases h3
    · rw [h1] at heq
      simp only at heq
      rw [if_neg (hkeys e he)] at heq
      constructor
      · intro hne
        refine ⟨e, he, hel, ?_⟩
        by_contra hc
        rw [if_neg hc] at heq
        exact hne heq
      · rintro ⟨e1, he1, hel1, hlt1⟩
        have hlt : fl.lt (e.2.entropy fl d) currentEntropy = true := by
          rcases hord.cotrans _ _ (e.2.entropy fl d) hlt1 with h3 | h3
          · rw [h2 e1 he1 hel1] at h3
            cases h3
          · exact h3
        rw [if_pos hlt] at heq
        rw [heq]
        exact hkeys e he
  · intro hne
    rcases hspec with ⟨h1, _⟩ | ⟨e, he, hel, h1, h2⟩
    · rw [h1] at heq
      simp only [if_true] at heq
      exact absurd heq hne
    · rw [h1] at heq
      simp only at heq
      rw [if_neg (hkeys e he)] at heq
      by_cases hlt : fl.lt (e.2.entropy fl d) currentEntropy = true
      · rw [if_pos hlt] at heq
        exact ⟨e, he, heq.symm, hel, hlt, h2⟩
      · rw [if_neg hlt] at heq
        exact absurd heq hne

theorem exactFloat_lt (a b : ℝ) : (exactFloat Real.log).lt a b = true ↔ a < b := by
  simp [exactFloat]

/-- C25: `findMinEntropyCode` with the entropies taken as exact reals (the float
operations are the operations of the real numbers with the natural logarithm),
for a node whose table has no key `-1` (the deleted key of the table) and whose
totals fit an `int`. The entropy that the code computes for the node is
`H(c0, c1)` of the specification, and the entropy it computes for an entry with
`c0p <= c0` and `c1p <= c1` is `H_split`. The function returns a code other than
`-1` if and only if some eligible entry has its entropy strictly below
`H(c0, c1)`; the code it then returns is the key of an eligible entry whose
entropy is below `H(c0, c1)` and is not above the entropy of any eligible entry.
When every entry of the table has `c0p <= c0` and `c1p <= c1`, the same holds
with `H_split` for the entropy of an entry: a code other than `-1` is returned if
and only if some eligible entry has `H_split` strictly below `H(c0, c1)`, the
code returned is the key of an eligible entry of the least `H_split`, and
otherwise `-1` is returned. An entry is eligible when its `(rank, code)` is at or
above the threshold of `findMinRankToConsider` and `enoughEvidence` holds, which
is `c0n + c1n >= 2` and `c0p + c1p >= 2`. -/
theorem findMinEntropyCode_picks_least (d : NodeData)
    (hkeys : ∀ e ∈ d.decisionCountMap, e.1 ≠ -1)
    (hlt : d.c0 + d.c1 < 2147483648) :
    entropyBinary (exactFloat Real.log) (toInt32 d.c0) (toInt32 d.c1)
        = specEntropy Real.log d.c0 d.c1
      ∧ (∀ e : Int × DecisionCounts, e.2.c0p ≤ d.c0 → e.2.c1p ≤ d.c1 →
          e.2.entropy (exactFloat Real.log) d
            = specSplitEntropy Real.log d.c0 d.c1 e.2.c0p e.2.c1p)
      ∧ (findMinEntropyCode (exactFloat Real.log)
            (entropyBinary (exactFloat Real.log) (toInt32 d.c0) (toInt32 d.c1)) d ≠ -1
          ↔ ∃ e ∈ d.decisionCountMap, eligible d e = true
              ∧ e.2.entropy (exactFloat Real.log) d < specEntropy Real.log d.c0 d.c1)
      ∧ (findMinEntropyCode (exactFloat Real.log)
            (entropyBinary (exactFloat Real.log) (toInt32 d.c0) (toInt32 d.c1)) d ≠ -1 →
          ∃ e ∈ d.decisionCountMap,
            e.1 = findMinEntropyCode (exactFloat Real.log)
                (entropyBinary (exactFloat Real.log) (toInt32 d.c0) (toInt32 d.c1)) d
              ∧ eligible d e = true
              ∧ e.2.entropy (exactFloat Real.log) d < specEntropy Real.log d.c0 d.c1
              ∧ ∀ e1 ∈ d.decisionCountMap, eligible d e1 = true →
                  e.2.entropy (exactFloat Real.log) d
                    ≤ e1.2.entropy (exactFloat Real.log) d)
      ∧ ((∀ e ∈ d.decisionCountMap, e.2.c0p ≤ d.c0 ∧ e.2.c1p ≤ d.c1) →
          (findMinEntropyCode (exactFloat Real.log)
                (entropyBinary (exactFloat Real.log) (toInt32 d.c0) (toInt32 d.c1)) d ≠ -1
              ↔ ∃ e ∈ d.decisionCountMap, eligible d e = true
                  ∧ specSplitEntropy Real.log d.c0 d.c1 e.2.c0p e.2.c1p
                      < specEntropy Real.log d.c0 d.c1)
            ∧ (findMinEntropyCode (exactFloat Real.log)
                  (entropyBinary (exactFloat Real.log) (toInt32 d.c0) (toInt32 d.c1)) d ≠ -1 →
                ∃ e ∈ d.decisionCountMap,
                  e.1 = findMinEntropyCode (exactFloat Real.log)
                      (entropyBinary (exactFloat Real.log) (toInt32 d.c0) (toInt32 d.c1)) d
                    ∧ eligible d e = true
                    ∧ specSplitEntropy Real.log d.c0 d.c1 e.2.c0p e.2.c1p
                        < specEntropy Real.log d.c0 d.c1
                    ∧ ∀ e1 ∈ d.decisionCountMap, eligible d e1 = true →
                        specSplitEntropy Real.log d.c0 d.c1 e.2.c0p e.2.c1p
                          ≤ specSplitEntropy Real.log d.c0 d.c1 e1.2.c0p e1.2.c1p)
            ∧ ((¬ ∃ e ∈ d.decisionCountMap, eligible d e = true
                    ∧ specSplitEntropy Real.log d.c0 d.c1 e.2.c0p e.2.c1p
                        < specEntropy Real.log d.c0 d.c1) →
                findMinEntropyCode (exactFloat Real.log)
                  (entropyBinary (exactFloat Real.log) (toInt32 d.c0) (toInt32 d.c1)) d = -1))
      ∧ (∀ e, eligible d e
          = (pairGe (e.2.rank, e.1) (findMinRankToConsider d.decisionCountMap)
              && e.2.enoughEvidence d))
      ∧ (∀ e : Int × DecisionCounts, e.2.c0p ≤ d.c0 → e.2.c1p ≤ d.c1 →
          (e.2.enoughEvidence d = true
            ↔ 2 ≤ (d.c0 - e.2.c0p) + (d.c1 - e.2.c1p) ∧ 2 ≤ e.2.c0p + e.2.c1p)) := by
  have hcur := entropyBinary_exact d.c0 d.c1 hlt
  have hent : ∀ e : Int × DecisionCounts, e.2.c0p ≤ d.c0 → e.2.c1p ≤ d.c1 →
      e.2.entropy (exactFloat Real.log) d
        = specSplitEntropy Real.log d.c0 d.c1 e.2.c0p e.2.c1p :=
    fun e h0 h1 => entropy_exact d e.2 h0 h1 hlt
  have hten : (exactFloat Real.log).ofInt 10 = (10 : ℝ) := by
    simp [exactFloat]
  have hcur10 : (exactFloat Real.log).lt ((exactFloat Real.log).ofInt 10)
      (entropyBinary (exactFloat Real.log) (toInt32 d.c0) (toInt32 d.c1)) = false := by
    rw [Bool.eq_false_iff, Ne, exactFloat_lt, hcur, hten]
    have h2 := specEntropy_le_log_two d.c0 d.c1
    have h3 := Real.log_two_lt_d9
    linarith
  obtain ⟨hiff, hpick⟩ := findMinEntropyCode_least_of_order (exactFloat Real.log)
    (entropyBinary (exactFloat Real.log) (toInt32 d.c0) (toInt32 d.c1)) d exactFloat_isOrder
    hkeys hcur10
  have hiff1 : findMinEntropyCode (exactFloat Real.log)
        (entropyBinary (exactFloat Real.log) (toInt32 d.c0) (toInt32 d.c1)) d ≠ -1
      ↔ ∃ e ∈ d.decisionCountMap, eligible d e = true
          ∧ e.2.entropy (exactFloat Real.log) d < specEntropy Real.log d.c0 d.c1 := by
    rw [hiff]
    constructor
    · rintro ⟨e, he, hel, h⟩
      rw [hcur, exactFloat_lt] at h
      exact ⟨e, he, hel, h⟩
    · rintro ⟨e, he, hel, h⟩
      refine ⟨e, he, hel, ?_⟩
      rw [hcur, exactFloat_lt]
      exact h
  have hpick1 : findMinEntropyCode (exactFloat Real.log)
        (entropyBinary (exactFloat Real.log) (toInt32 d.c0) (toInt32 d.c1)) d ≠ -1 →
      ∃ e ∈ d.decisionCountMap,
        e.1 = findMinEntropyCode (exactFloat Real.log)
            (entropyBinary (exactFloat Real.log) (toInt32 d.c0) (toInt32 d.c1)) d
          ∧ eligible d e = true
          ∧ e.2.entropy (exactFloat Real.log) d < specEntropy Real.log d.c0 d.c1
          ∧ ∀ e1 ∈ d.decisionCountMap, eligible d e1 = true →
              e.2.entropy (exactFloat Real.log) d ≤ e1.2.entropy (exactFloat Real.log) d := by
    intro hne
    obtain ⟨e, he, hcode, hel, h, hleast⟩ := hpick hne
    rw [hcur, exactFloat_lt] at h
    refine ⟨e, he, hcode, hel, h, ?_⟩
    intro e1 he1 hel1
    have h1 := hleast e1 he1 hel1
    by_contra hc
    have h2 := (exactFloat_lt _ _).mpr (lt_of_not_le hc)
    rw [h1] at h2
    cases h2
  refine ⟨hcur, hent, hiff1, hpick1, ?_, fun e => rfl, ?_⟩
  · intro hin
    have hiff2 : findMinEntropyCode (exactFloat Real.log)
          (entropyBinary (exactFloat Real.log) (toInt32 d.c0) (toInt32 d.c1)) d ≠ -1
        ↔ ∃ e ∈ d.decisionCountMap, eligible d e = true
            ∧ specSplitEntropy Real.log d.c0 d.c1 e.2.c0p e.2.c1p
                < specEntropy Real.log d.c0 d.c1 := by
      rw [hiff1]
      constructor
      · rintro ⟨e, he, hel, h⟩
        rw [hent e (hin e he).1 (hin e he).2] at h
        exact ⟨e, he, hel, h⟩
      · rintro ⟨e, he, hel, h⟩
        refine ⟨e, he, hel, ?_⟩
        rw [hent e (hin e he).1 (hin e he).2]
        exact h
    refine ⟨hiff2, ?_, ?_⟩
    · intro hne
      obtain ⟨e, he, hcode, hel, h, hleast⟩ := hpick1 hne
      rw [hent e (hin e he).1 (hin e he).2] at h
      refine ⟨e, he, hcode, hel, h, ?_⟩
      intro e1 he1 hel1
      have h1 := hleast e1 he1 hel1
      rw [hent e (hin e he).1 (hin e he).2, hent e1 (hin e1 he1).1 (hin e1 he1).2] at h1
      exact h1
    · intro hno
      by_contra hne
      exact hno (hiff2.mp hne)
  · intro e h0 h1
    exact enoughEvidence_iff e.2 d h0 h1 (by omega)
/-! ## Claims on the class threshold, the traversal and a missing removal -/

/-- C31 (evaluation of the code): the counters of the engine do not share one
class threshold. The function `splitListByTarget`, which gives the node totals
of a batch, takes class 1 to be `y > 0.5`; the totals of the full recount
`computeDecisionCounters` take `y ≥ 0.5` and its per-code loop `y > 0.5`; the
per-code update of `updateDecisionCounters` takes `y ≥ 0.5`. For the sample
`exHalf`, with `y = 0.5` and feature 1 present, the batch totals count class 0
and the incremental table class 1 (the node gets `c1 = 0` and `c1p = 1`), while
the recount totals count class 1 and the recount table class 0 (`c0 = 0` and
`c0p = 1`). -/
theorem class_threshold_differs_at_half :
    exHalf.y = 1 / 2 ∧
      (∀ sl : List Sample, splitListByTarget sl
        = (sl.filter (fun s => !decide (s.y > 1 / 2)), sl.filter (fun s => decide (s.y > 1 / 2)))) ∧
      splitListByTarget [exHalf] = ([exHalf], []) ∧
      applyBatches refPlatform ⟨0, 0, [], 476707713, (0, 0)⟩ [exHalf] []
        = ⟨1, 0, [(1, ⟨0, 1, 1167667938⟩)], 476707713, (0, 0)⟩ ∧
      (updateDecisionCounters refPlatform ⟨0, 0, [], 476707713, (0, 0)⟩ exHalf 1).decisionCountMap
        = [(1, ⟨0, 1, 1167667938⟩)] ∧
      computeDecisionCounters refPlatform 476707713 [exHalf]
        = ([(1, ⟨1, 0, 1167667938⟩)], 0, 1, (0, 0)) := by
  refine ⟨rfl, splitListByTarget_eq, ?_, ?_, ?_, ?_⟩
  · decide!
  · decide!
  · decide!
  · decide!

/-- C32: for every tree, a fresh `TreeSampleWalker` yields the samples of
`collectRecursive` in the same order: `k` calls of `get` return the first `k`
samples, `stillSome` is false after `k` calls exactly when all samples have been
returned, the loop `while(stillSome) get` returns the whole sequence with any
bound of at least its length on the iterations, and `validateWalker` returns
true. -/
theorem walker_yields_collectRecursive (n : DecisionTreeNode) :
    ∃ w, TreeSampleWalker.new n = some w ∧
      (∀ k, k ≤ (collectRecursive n).length →
        ∃ wk, w.getN k = some ((collectRecursive n).take k, wk) ∧
          (wk.stillSome = false ↔ k = (collectRecursive n).length)) ∧
      (∀ fuel, (collectRecursive n).length ≤ fuel →
        drainWalker fuel w = some (collectRecursive n)) ∧
      walkSamples n = some (collectRecursive n) ∧ validateWalker n = some true := by
  obtain ⟨w, hnew, hg, hrem⟩ := walker_new_spec n
  refine ⟨w, hnew, ?_, ?_, walkSamples_eq n, ?_⟩
  · intro k hk
    rw [← hrem] at hk
    obtain ⟨wk, hn, hgk, hremk⟩ := getN_spec k w hg hk
    refine ⟨wk, ?_, ?_⟩
    · rw [← hrem]
      exact hn
    · rw [good_stillSome wk hgk, hremk, List.drop_eq_nil_iff, ← hrem]
      omega
  · intro fuel hf
    rw [← hrem] at hf ⊢
    exact drainWalker_spec fuel w hg hf
  · simp [validateWalker, walkSamples_eq]

/-- C35 (counterexample): the tree `exTree` of the forest `exCommitted`
does not hold the sample `exZ`. The first pass skips the removal of `exZ`, but
the second pass decrements the counters for it: with `batchRemove = [exZ]` the
root gets `c0 = 1`, no code has enough evidence any more and the tree collapses
to a leaf, whereas with the empty `batchRemove` the tree is returned unchanged.
In the leaf `exLeaf`, which holds `exA` and `exG`, the missing removal leaves
`c0 = 0` and the value 1 instead of `c0 = 1` and the value `1/2`. -/
theorem missing_removal_changes_tree :
    exZ ∉ collectRecursive exTree ∧ exCommitted.forest = [exTree] ∧
      updateDecisionTreeSamples exTree [] [exZ] = updateDecisionTreeSamples exTree [] [] ∧
      applyBatches refPlatform exTree.data [] [exZ]
        = ⟨1, 2, [(1, ⟨0, 2, 1167667938⟩)], 476707713, (0, 0)⟩ ∧
      updateDecisionTree refPlatform 836760821 exTree [] [exZ]
        = some (2111915288, .leaf ⟨2, 2, [(1, ⟨0, 2, 1167667938⟩)], 476707713, (0, 0)⟩ (1 / 2)
            [exG, exH, exA, exE]) ∧
      updateDecisionTree refPlatform 836760821 exTree [] [] = some (836760821, exTree) ∧
      exZ ∉ collectRecursive exLeaf ∧
      updateDecisionTree refPlatform 7 exLeaf [] [exZ]
        = some (7, .leaf ⟨0, 1, [(1, ⟨0, 1, 1167667938⟩)], 476707713, (0, 0)⟩ 1 [exA, exG]) ∧
      updateDecisionTree refPlatform 7 exLeaf [] [] = some (7, exLeaf) := by
  refine ⟨?_, rfl, ?_, ?_, ?_, ?_, ?_, ?_, ?_⟩
  · decide!
  · decide!
  · decide!
  · decide!
  · decide!
  · decide!
  · decide!
  · decide!

/-- C35 (amended): for every tree and every pair of batches that share no sample,
if no sample stored under the tree has the address of `m`, the first pass
`updateDecisionTreeSamples` returns the same tree (sample vectors, totals,
tables, shape) as with `m` omitted from `batchRemove`; `updateDecisionTree` is
then the second pass `updateDecisionTreeNode` on that tree with the whole
`batchRemove`, `m` included; both calls return, and the samples stored under the
two results are the same up to their order. -/
theorem missing_removal_skipped_by_first_pass {F : Type} (P : Platform F) (ts : Nat)
    (dt : DecisionTreeNode) (A R : List Sample) (m : Sample)
    (hm : ∀ x ∈ collectRecursive dt, x.ptr ≠ m.ptr)
    (hdisj : ∀ a ∈ A, ∀ r ∈ R, a.ptr ≠ r.ptr) :
    updateDecisionTreeSamples dt A R
        = updateDecisionTreeSamples dt A (R.filter (fun r => !decide (r.ptr = m.ptr))) ∧
      updateDecisionTree P ts dt A R
        = updateDecisionTreeNode P
            (updateDecisionTreeSamples dt A (R.filter (fun r => !decide (r.ptr = m.ptr))))
            ts A R ∧
      ∃ r r0, updateDecisionTree P ts dt A R = some r ∧
        updateDecisionTree P ts dt A (R.filter (fun r => !decide (r.ptr = m.ptr))) = some r0 ∧
        List.Perm (collectRecursive r.2) (collectRecursive r0.2) := by
  have hskip := updateDecisionTreeSamples_skip m dt A R hm
  have hdisj0 : ∀ a ∈ A, ∀ r ∈ R.filter (fun r => !decide (r.ptr = m.ptr)), a.ptr ≠ r.ptr :=
    fun a ha r hr => hdisj a ha r (List.mem_of_mem_filter hr)
  have h1 := updateDecisionTree_of_disjoint P ts dt A R hdisj
  have h0 := updateDecisionTree_of_disjoint P ts dt A _ hdisj0
  obtain ⟨r, hr⟩ := updateDecisionTree_total P ts dt A R hdisj
  obtain ⟨r0, hr0⟩ := updateDecisionTree_total P ts dt A _ hdisj0
  refine ⟨hskip, ?_, r, r0, hr, hr0, ?_⟩
  · rw [h1, hskip]
  · rw [h1] at hr
    rw [h0] at hr0
    have p1 := updateDecisionTreeNode_perm P _ ts A R r hr
    have p0 := updateDecisionTreeNode_perm P _ ts A _ r0 hr0
    rw [hskip] at p1
    exact p1.trans p0.symm
/-! ## Claims on the identity of nodes and the value of leaves -/

/-- C33: a structural transition keeps the identity of the node. When
`updateDecisionTreeNode` returns, the counters of the node have been updated to
some data `d` with the id of the node, and: a leaf that stays a leaf has the data
`d`, its samples and the value of `updateValue`; a leaf that splits becomes an
internal node with the data `d` (id, `c0`, `c1`, `minValidRank` and table) and two
children with newly drawn ids; an internal node that collapses becomes a leaf
with the id of the node that holds the samples of the subtree in the
negative-first order of `collectRecursive`; an internal node that is split again
keeps the data `d` and gets two children with newly drawn ids; an internal node
that keeps its code keeps the data `d`, and its children keep their ids. In the
cascade, `splitLeafIfPossible` returns the leaf itself or an internal node with
the data of the leaf and two children with newly drawn ids. -/
theorem transitions_keep_node_identity {F : Type} (P : Platform F) (dt : DecisionTreeNode)
    (ts : Nat) (A R : List Sample) (r : Nat × DecisionTreeNode)
    (h : updateDecisionTreeNode P dt ts A R = some r) :
    r.2.data.id = dt.data.id ∧
      (∃ d, updateNodeCounters P dt A R = some d ∧ d.id = dt.data.id ∧
        KeepsIdentity P ts d dt r.2) ∧
      (∀ (fuel ts0 : Nat) (lf : DecisionTreeNode) (r0 : Nat × DecisionTreeNode),
        splitLeafIfPossible P fuel ts0 lf = some r0 →
        r0 = (ts0, lf) ∨ ∃ code negative positive,
          r0.2 = .internal code lf.data negative positive ∧
          negative.data.id = (P.rand_r (P.rand_r ts0).2).1 ∧
          positive.data.id = (P.rand_r (P.rand_r (P.rand_r ts0).2).2).1) := by
  refine ⟨updateDecisionTreeNode_id P dt ts A R r h, ?_, ?_⟩
  · cases dt with
    | leaf d0 v samples =>
      unfold updateDecisionTreeNode at h
      split at h
      · cases h
      · rename_i d hd
        refine ⟨d, hd, updateNodeCounters_id P _ A R d hd, ?_⟩
        simp only at h
        split at h
        · obtain ⟨negative, positive, hr, hn, hp⟩ := splitNode_shape P _ _ _ _ _ r
            (fun tsa l r1 hc => splitLeafIfPossible_data P _ tsa l r1 hc) h
          rw [hr]
          exact ⟨rfl, hn, hp⟩
        · cases h
          exact ⟨rfl, rfl, rfl⟩
    | internal code d0 negative positive =>
      unfold updateDecisionTreeNode at h
      split at h
      · cases h
      · rename_i d hd
        refine ⟨d, hd, updateNodeCounters_id P _ A R d hd, ?_⟩
        simp only at h
        split at h
        · rw [walkSamples_eq] at h
          simp only at h
          rw [setupLeafFromSamples_eq] at h
          simp only at h
          cases h
          exact ⟨rfl, rfl⟩
        · split at h
          · rename_i hne
            rw [walkSamples_eq] at h
            simp only at h
            obtain ⟨negative1, positive1, hr, hn, hp⟩ := splitNode_shape P _ _ _ _ _ r
              (fun tsa l r1 hc => splitLeafIfPossible_data P _ tsa l r1 hc) h
            rw [hr]
            exact ⟨rfl, fun hc => absurd hc hne, fun _ => ⟨hn, hp⟩⟩
          · rename_i hsame
            split at h
            · cases h
            · rename_i tsa negative1 hrn
              split at h
              · cases h
              · rename_i tsb positive1 hrp
                cases h
                refine ⟨rfl, fun _ => ⟨?_, ?_⟩, fun hc => absurd rfl hc⟩
                · split at hrn
                  · exact updateDecisionTreeNode_id P _ _ _ _ _ hrn
                  · cases hrn
                    rfl
                · split at hrp
                  · exact updateDecisionTreeNode_id P _ _ _ _ _ hrp
                  · cases hrp
                    rfl
  · intro fuel ts0 lf r0 h0
    rcases splitLeafIfPossible_shape P fuel ts0 lf r0 h0 with h1 | ⟨code, n, p, h1, _, h2, h3⟩
    · exact Or.inl h1
    · exact Or.inr ⟨code, n, p, h1, h2, h3⟩

/-- C34: in every forest reached from `create` by `add`, `remove` and `commit`,
a tree is an untouched leaf of `create` (no counts, no samples, the value 0) or
every leaf of it has the value that `updateValue` computes from its counters:
with `n = c0 + c1` in the arithmetic of the machine, the value is 1 when `n = 0`
and `c1 / n` otherwise. When the sum does not wrap (`c0 + c1 < 2^31`) this is
`c1 / (c0 + c1)` for `c0 + c1 > 0` and 1 for `c0 + c1 = 0`. A commit that visits
the trees leaves no untouched leaf, so the value 0 of an empty leaf occurs only
in an untouched leaf of `create`. -/
theorem leaf_value_of_reachable {F : Type} (P : Platform F) (rf : Forest)
    (h : Reachable P freshSample rf) :
    (∀ t ∈ rf.forest, Untouched t ∨
      ∀ d v samples, DecisionTreeNode.leaf d v samples ∈ t.nodes →
        v = updateValue d ∧
          v = (if toInt32 (wrapU32 (d.c0 + d.c1)) = 0 then 1
            else (d.c1 : ℚ) / (toInt32 (wrapU32 (d.c0 + d.c1)) : ℚ)) ∧
          (d.c0 + d.c1 < 2147483648 →
            (0 < d.c0 + d.c1 → v = (d.c1 : ℚ) / ((d.c0 : ℚ) + (d.c1 : ℚ))) ∧
              (d.c0 + d.c1 = 0 → v = 1))) ∧
      (∀ rf1, rf.changesToCommit = true → rf.commit P = some rf1 →
        ∀ t ∈ rf1.forest, ∀ d v samples, DecisionTreeNode.leaf d v samples ∈ t.nodes →
          v = updateValue d) := by
  have hr := refreshed_of_reachable P freshSample rf h
  refine ⟨?_, ?_⟩
  · intro t ht
    rcases hr t ht with hu | hf
    · exact Or.inl hu
    · refine Or.inr ?_
      intro d v samples hn
      have hv := refreshed_nodes t hf d v samples hn
      refine ⟨hv, ?_, ?_⟩
      · rw [hv]
        rfl
      · intro hlt
        rw [hv]
        exact updateValue_exact d hlt
  · intro rf1 hflag hc t ht d v samples hn
    exact refreshed_nodes t ((refreshed_commit P rf rf1 hr hc).2 hflag t ht) d v samples hn
/-! ## Claims on the samples under a tree -/

/-- C37 (counterexample): in the tree `exMisplaced` the sample `exA`, which has
feature 1, is stored below the negative child of the split on code 1. The update
with `batchRemove = [exA]` routes the removal to the positive child, does not find
the sample there, and returns a tree that still holds `exA`: four samples instead
of the three that remain after the removal. -/
theorem misplaced_sample_is_not_removed :
    exA ∈ collectRecursive exMisplaced ∧ PtrInj (collectRecursive exMisplaced) ∧
      missedRemovals exMisplaced [] [exA] = 1 ∧
      updateDecisionTree refPlatform 7 exMisplaced [] [exA]
        = some (712265938, .leaf ⟨2, 2, [(1, ⟨0, 2, 1167667938⟩)], 476707713, (0, 0)⟩ (1 / 2)
            [exG, exA, exH, exE]) ∧
      [exG, exA, exH, exE].count exA = 1 ∧
      (collectRecursive exMisplaced).count exA - [exA].count exA
        + ([] : List Sample).count exA = 0 := by
  refine ⟨?_, ?_, ?_, ?_, ?_, ?_⟩
  · decide!
  · unfold PtrInj
    decide!
  · decide!
  · decide!
  · decide!
  · decide!

/-- C37 (amended): for every tree `T` in which every stored sample sits on the side
of each split that its feature value selects, and every pair of batches that share
no sample, with every sample of `batchRemove` stored under `T`: the update
returns, and the multiset of the samples under the new tree is the multiset under
`T` minus `batchRemove` plus `batchAdd`, whatever splits and collapses the update
performs. Distinct stored samples have distinct addresses. -/
theorem update_conserves_samples {F : Type} (P : Platform F) (ts : Nat) (T : DecisionTreeNode)
    (A R : List Sample) (hplaced : Placed T) (hptr : PtrInj (collectRecursive T))
    (hR : ∀ r ∈ R, r ∈ collectRecursive T) (hdisj : ∀ a ∈ A, ∀ r ∈ R, a.ptr ≠ r.ptr) :
    ∃ r, updateDecisionTree P ts T A R = some r ∧
      ((collectRecursive r.2 : List Sample) : Multiset Sample)
        = ((collectRecursive T : List Sample) : Multiset Sample) - (R : Multiset Sample)
          + (A : Multiset Sample) := by
  obtain ⟨r, hr⟩ := updateDecisionTree_total P ts T A R hdisj
  refine ⟨r, hr, ?_⟩
  unfold updateDecisionTree at hr
  split at hr
  · cases hr
  · split at hr
    · cases hr
    · have hperm := updateDecisionTreeNode_perm P _ ts A R r hr
      rw [Multiset.coe_eq_coe.mpr hperm]
      ext x
      rw [Multiset.count_add, Multiset.count_sub, Multiset.coe_count, Multiset.coe_count,
        Multiset.coe_count, Multiset.coe_count]
      exact updateDecisionTreeSamples_count T A R hplaced hR hptr x

/-- C38: `sampleInTree` depends only on the suid of the sample and the index of
the tree. In every forest reached from `create` by `add`, `remove` and `commit`,
so also after each commit, the samples stored under tree `i` are the committed
samples `s` with `sampleInTree(s, i)`; every sample of the removal batch that
`commit` hands to tree `i` is stored under that tree, and the first pass of the
update never takes the branch `could not find sample to remove`. -/
theorem routing_invariant_of_reachable {F : Type} (P : Platform F) (rf : Forest)
    (h : Reachable P freshSample rf) :
    (∀ (a b : Sample) (t : Nat), a.suid = b.suid → sampleInTree P a t = sampleInTree P b t) ∧
      ∀ (i : Nat) (tree : DecisionTreeNode), rf.forest[i]? = some tree →
        (∀ s, s ∈ collectRecursive tree ↔
          ((s.suid, s) ∈ rf.samples ∧ sampleInTree P s i = true)) ∧
        (∀ r ∈ treeBatch P rf.toRemove i, r ∈ collectRecursive tree) ∧
        missedRemovals tree (treeBatch P rf.toAdd i) (treeBatch P rf.toRemove i) = 0 := by
  refine ⟨fun a b t hab => sampleInTree_congr P a b t hab, ?_⟩
  intro i tree hi
  have hinv := forestInv_of_reachable P False freshSample
    (fun rf s hok => ⟨hok, fun hf => absurd hf id⟩) rf h
  have hok := treesOK_get P False rf.samples rf.forest 0 i tree hinv.trees hi
  rw [Nat.zero_add] at hok
  have hsub : ∀ r ∈ treeBatch P rf.toRemove i, r ∈ collectRecursive tree := by
    intro r hr
    obtain ⟨k, hk, hin⟩ := (mem_treeBatch P rf.toRemove i r).mp hr
    have hs := hinv.store.removeSub (k, r) hk
    have hkey := hinv.store.keySamples (k, r) hs
    simp only at hkey
    rw [← hkey] at hs
    exact (hok.2.2 r).mpr ⟨hs, hin⟩
  refine ⟨hok.2.2, hsub, ?_⟩
  apply missedRemovals_zero tree _ _ (placed_of_treeInv P False tree hok.1) hsub
  · apply treeBatch_nodup P rf.toRemove i _ hinv.store.nodupRemove
    intro e he
    exact hinv.store.keySamples e (hinv.store.removeSub e he)
  · exact treeOK_ptrInj P False rf hinv.ptr tree i hok
/-! ## Claim on the cascade of splits -/

/-- C40 (counterexample): the leaf `exSingle` holds the single sample `exA` with
the counters that `setupLeafFromSamples` computes. No code has enough evidence,
`splitLeafIfPossible` returns the leaf itself, and the resulting subtree has a
leaf that holds one sample. -/
theorem single_sample_leaf_stays :
    setupLeafFromSamples refPlatform ⟨0, 0, [], 476707713, (0, 0)⟩ [exA] = some exSingle ∧
      splitLeafIfPossible refPlatform 1 7 exSingle = some (7, exSingle) ∧
      exSingle.nodes = [exSingle] ∧ (collectRecursive exSingle).length = 1 := by
  refine ⟨?_, ?_, ?_, ?_⟩
  · decide!
  · decide!
  · decide!
  · decide!

/-- C40 (amended): for every leaf that `setupLeafFromSamples` sets up from a finite
sample vector `L`, the mutual recursion `splitLeafIfPossible` / `splitNode`
terminates: with any bound of at least `L.length` on the nesting it returns the
same tree `r`, which holds the samples of `L`. A split is chosen only when both
parts hold at least 2 samples, so at every internal node of `r` each child holds
at least 2 samples and strictly fewer than the node; when `L` holds at least 2
samples, every leaf of `r` holds at least 2 samples. -/
theorem cascade_terminates {F : Type} (P : Platform F) (d0 : NodeData) (L : List Sample)
    (ts : Nat) :
    ∃ lf r, setupLeafFromSamples P d0 L = some lf ∧
      (∀ fuel, L.length ≤ fuel → splitLeafIfPossible P fuel ts lf = some r) ∧
      List.Perm (collectRecursive r.2) L ∧
      (∀ c d n p, DecisionTreeNode.internal c d n p ∈ r.2.nodes →
        2 ≤ (collectRecursive n).length ∧ 2 ≤ (collectRecursive p).length ∧
          (collectRecursive n).length
            < (collectRecursive (DecisionTreeNode.internal c d n p)).length ∧
          (collectRecursive p).length
            < (collectRecursive (DecisionTreeNode.internal c d n p)).length) ∧
      (2 ≤ L.length →
        ∀ d v samples, DecisionTreeNode.leaf d v samples ∈ r.2.nodes → 2 ≤ samples.length) := by
  have hlf := setupLeafFromSamples_eq P d0 L
  obtain ⟨r, hr⟩ := splitLeafIfPossible_total P L.length ts d0 L _ (Nat.le_refl _) hlf
  have hperm := splitLeafIfPossible_perm P L.length ts _ r hr
  simp only [collectRecursive] at hperm
  have hev := splitLeafIfPossible_evidence P L.length ts d0 L _ r hlf hr
  refine ⟨_, r, hlf, ?_, hperm, ?_, ?_⟩
  · intro fuel hf
    exact splitLeafIfPossible_mono_le P L.length fuel hf ts _ r hr
  · intro c d n p hn
    obtain ⟨h1, h2⟩ := evidenceSplit_internal r.2 hev c d n p hn
    simp only [collectRecursive, List.length_append]
    exact ⟨h1, h2, by omega, by omega⟩
  · intro hlen d v samples hn
    apply evidenceSplit_leaves r.2 hev _ d v samples hn
    rw [hperm.length_eq]
    exact hlen
/-! ## Claim on the JSON output -/

/-- C36: `asJSON` commits and then writes `[`, the texts of the trees in the order
of their positions separated by `,`, and `]`; the text of a leaf is its formatted
value and the text of an internal node is `[` code `,` text of the negative child
`,` text of the positive child `]`, with nothing in between. On a forest reached
from `create` the method returns. When the formatted values hold no bracket and
no comma, as those of the reference format do, and the codes are values of an
`int`, the text of a tree determines its shape and its split codes. In the
reference format the text holds no white space. -/
theorem asJSON_format {F : Type} (P : Platform F) (io : StreamOps) :
    (∀ d v s, outputDecisionTree io (.leaf d v s) = io.showFloat v) ∧
      (∀ c d n p, outputDecisionTree io (.internal c d n p)
        = ['['] ++ decimalInt c ++ [','] ++ outputDecisionTree io n ++ [',']
            ++ outputDecisionTree io p ++ [']']) ∧
      (∀ rf : Forest, rf.asJSON P io = (rf.commit P).map (fun rf1 =>
        (rf1, ['['] ++ List.intercalate [','] (rf1.forest.map (outputDecisionTree io))
          ++ [']']))) ∧
      (∀ rf : Forest, Reachable P freshSample rf → ∃ r, rf.asJSON P io = some r) ∧
      (∀ t1 t2 : DecisionTreeNode, PlainValues io t1 → PlainValues io t2 →
        IntCodes t1 → IntCodes t2 →
        outputDecisionTree io t1 = outputDecisionTree io t2 → t1.shape = t2.shape) ∧
      (∀ t : DecisionTreeNode, PlainValues refStream t) ∧
      (∀ t : DecisionTreeNode, ∀ c ∈ outputDecisionTree refStream t, isSpaceChar c = false) := by
  refine ⟨fun _ _ _ => rfl, fun _ _ _ _ => rfl, ?_, ?_, ?_, plainValues_refStream,
    outputDecisionTree_noSpace⟩
  · intro rf
    unfold Forest.asJSON
    cases rf.commit P with
    | none => rfl
    | some rf1 =>
      simp only [Option.map_some', outputTrees_eq]
  · intro rf hr
    have hinv := forestInv_of_reachable P False freshSample
      (fun rf s hok => ⟨hok, fun hf => absurd hf id⟩) rf hr
    obtain ⟨rf1, hc⟩ := commit_total P rf hinv.store hinv.ptr
    unfold Forest.asJSON
    rw [hc]
    exact ⟨_, rfl⟩
  · intro t1 t2 hp1 hp2 hc1 hc2 h
    have h2 : outputDecisionTree io t1 ++ [] = outputDecisionTree io t2 ++ [] := by
      rw [List.append_nil, List.append_nil]
      exact h
    exact (outputDecisionTree_unique io t1 t2 [] [] hp1 hp2 hc1 hc2 (Or.inl rfl) (Or.inl rfl)
      h2).1
/-! ## Claim on incremental additions against the recount -/

/-- C39 (amended): start from a node with no samples, an empty table and the watermark
`(0, 0)`, and add the samples `A` one by one (`updateDecisionCounters` with
direction 1, then the update of the totals). When the targets and feature values
are in `{0, 1}`, the feature codes are non-negative and there are fewer than
`2^32` samples, the node has the totals `c0` and `c1` of the recount
`computeDecisionCounters` of `A`, and the table has the entries of the table of
the recount: the same keys with the same ranks and the same counts `c0p` and
`c1p`. Neither table holds a key twice. -/
theorem incremental_equals_recount {F : Type} (P : Platform F) (id : Nat) (A : List Sample)
    (hb : ∀ s ∈ A, s.Binary) (hcodes : ∀ s ∈ A, ∀ e ∈ s.xCodes, 0 ≤ e.1)
    (hlen : A.length < 4294967296) :
    (applyBatches P ⟨0, 0, [], id, (0, 0)⟩ A []).c0 = (computeDecisionCounters P id A).2.1 ∧
      (applyBatches P ⟨0, 0, [], id, (0, 0)⟩ A []).c1
        = (computeDecisionCounters P id A).2.2.1 ∧
      (applyBatches P ⟨0, 0, [], id, (0, 0)⟩ A []).decisionCountMap
        = (A.foldl (fun (d : NodeData) s => updateDecisionCounters P d s 1)
            ⟨0, 0, [], id, (0, 0)⟩).decisionCountMap ∧
      (∀ e, e ∈ (applyBatches P ⟨0, 0, [], id, (0, 0)⟩ A []).decisionCountMap
        ↔ e ∈ (computeDecisionCounters P id A).1) ∧
      ((applyBatches P ⟨0, 0, [], id, (0, 0)⟩ A []).decisionCountMap.map Prod.fst).Nodup ∧
      ((computeDecisionCounters P id A).1.map Prod.fst).Nodup := by
  have hstart : NodeInv P True ([] ++ []) ⟨0, 0, [], id, (0, 0)⟩ := by
    refine ⟨by simp, fun _ => ⟨by simp, by simp, ?_⟩⟩
    refine ⟨rfl, rfl, ?_, ?_⟩
    · intro e he
      cases he
    · intro c _ _ s hs
      cases hs
  obtain ⟨hinc, hid⟩ := applyBatches_spec P True ⟨0, 0, [], id, (0, 0)⟩ A [] [] hstart
    (fun _ => ⟨hb, by simpa using hlen⟩)
  rw [List.nil_append] at hinc
  have hci := (hinc.2 trivial).2.2
  have hcr := ((recount_nodeInv P True id A (fun _ => ⟨hb, hlen⟩)).2 trivial).2.2
  have htab := applyBatches_add_table P id A
  have hkeys : ∀ c, (applyBatches P ⟨0, 0, [], id, (0, 0)⟩ A []).decisionCountMap.contains c
      = (computeDecisionCounters P id A).1.contains c := by
    intro c
    rw [htab]
    exact increcount_keys P id A hcodes c
  have hn1 := (tableOK_applyBatches P ⟨0, 0, [], id, (0, 0)⟩ A []
    ⟨by simp, by simp [maxCodesToKeep], by simp⟩).2.1
  have hn2 := (computeDecisionCounters_keys P id A).2
  simp only at hid
  refine ⟨?_, ?_, htab, ?_, hn1, hn2⟩
  · rw [hci.c0]
    exact hcr.c0.symm
  · rw [hci.c1]
    exact hcr.c1.symm
  · intro e
    constructor
    · intro he
      have hc : (computeDecisionCounters P id A).1.contains e.1 = true := by
        rw [← hkeys]
        exact (DCMap.contains_iff _ _).mpr ⟨e, he, rfl⟩
      obtain ⟨e1, he1, hk⟩ := (DCMap.contains_iff _ _).mp hc
      obtain ⟨a0, a1, ar⟩ := hci.entries e he
      obtain ⟨b0, b1, br⟩ := hcr.entries e1 he1
      simp only at br
      rw [hid] at ar
      have : e = e1 := by
        apply entry_eq e e1 hk.symm
        · rw [a0, b0, hk]
        · rw [a1, b1, hk]
        · rw [ar, br, hk]
      rw [this]
      exact he1
    · intro he
      have hc : (applyBatches P ⟨0, 0, [], id, (0, 0)⟩ A []).decisionCountMap.contains e.1
          = true := by
        rw [hkeys]
        exact (DCMap.contains_iff _ _).mpr ⟨e, he, rfl⟩
      obtain ⟨e1, he1, hk⟩ := (DCMap.contains_iff _ _).mp hc
      obtain ⟨a0, a1, ar⟩ := hci.entries e1 he1
      obtain ⟨b0, b1, br⟩ := hcr.entries e he
      simp only at br
      rw [hid] at ar
      have : e1 = e := by
        apply entry_eq e1 e hk
        · rw [a0, b0, hk]
        · rw [a1, b1, hk]
        · rw [ar, br, hk]
      rw [← this]
      exact he1

/-- C39 (counterexample): the sample `exNeg` has the target 1 and the one feature
`-380155102` with the value 1, and this code has the rank 0 in the node
`1186278907`, the root that `create` gives the second tree. The incremental
addition to the empty node drops the code, whose `(rank, code)` is below the
watermark `(0, 0)`, and leaves the table empty; the recount of the same sample
keeps the entry. The forest `exNegCommitted` is what `create(2)`, `add(exNeg)`
and `commit` build: its second tree has the empty table. -/
theorem negative_code_of_rank_zero_is_dropped :
    exNeg.Binary ∧ codeRankInNode refPlatform (-380155102) 1186278907 = 0 ∧
      pairGe (0, -380155102) (0, 0) = false ∧
      applyBatches refPlatform ⟨0, 0, [], 1186278907, (0, 0)⟩ [exNeg] []
        = ⟨0, 1, [], 1186278907, (0, 0)⟩ ∧
      computeDecisionCounters refPlatform 1186278907 [exNeg]
        = ([(-380155102, ⟨0, 1, 0⟩)], 0, 1, (0, 0)) ∧
      ((create refPlatform 2).add exNeg).1.commit refPlatform = some exNegCommitted ∧
      Reachable refPlatform freshSample exNegCommitted ∧
      exNegCommitted.forest[1]?
        = some (.leaf ⟨0, 1, [], 1186278907, (0, 0)⟩ 1 [exNeg]) := by
  have hc : ((create refPlatform 2).add exNeg).1.commit refPlatform = some exNegCommitted := by
    decide!
  refine ⟨?_, ?_, ?_, ?_, ?_, hc, ?_, rfl⟩
  · unfold Sample.Binary
    decide!
  · decide!
  · decide!
  · decide!
  · decide!
  · exact Reachable.commit _ _
      (Reachable.add _ exNeg (Reachable.create 2) (by unfold freshSample; decide!)) hc

/-! ## Instances of the claims on concrete inputs -/

theorem refFloat_isOrder : refFloat.IsOrder := by
  constructor
  · intro a
    simp [refFloat]
  · intro a b c h1 h2
    simp only [refFloat, decide_eq_true_eq] at h1 h2 ⊢
    exact lt_trans h1 h2
  · intro a b c h1
    simp only [refFloat, decide_eq_true_eq] at h1 ⊢
    rcases lt_or_le a c with h | h
    · exact Or.inl h
    · exact Or.inr (lt_of_le_of_lt h h1)

theorem tableOK_exRootData : TableOK refPlatform exRootData.id exRootData.decisionCountMap := by
  refine ⟨?_, ?_, ?_⟩
  · decide!
  · decide!
  · decide!

theorem getSamples_enumerates_committed_witness :
    Reachable refPlatform freshSample exPendingK
      ∧ ∃ rf1, exPendingK.commit refPlatform = some rf1
        ∧ exPendingK.getSamples refPlatform = some (rf1, MapSampleWalker.new rf1.samples)
        ∧ rf1.toAdd = [] ∧ rf1.toRemove = [] ∧ rf1.changesToCommit = false
        ∧ (∀ k, k ≤ rf1.samples.length →
            ∃ l w, MapSampleWalker.take k (MapSampleWalker.new rf1.samples) = some (l, w)
              ∧ l.length = k ∧ (w.stillSome = true ↔ k < rf1.samples.length))
        ∧ ∃ l, MapSampleWalker.take rf1.samples.length (MapSampleWalker.new rf1.samples)
              = some (l, ⟨[]⟩)
            ∧ l = rf1.samples.map Prod.snd
            ∧ l.map Sample.suid = rf1.samples.map Prod.fst
            ∧ (l.map Sample.suid).Nodup
            ∧ (∀ sId, sId ∈ l.map Sample.suid ↔ rf1.samples.contains sId = true)
            ∧ (l.map (fun s => s.suid.data)).Pairwise (fun a b => charsLt a b = true) :=
  ⟨reachable_exPendingK,
    getSamples_enumerates_committed refPlatform exPendingK reachable_exPendingK⟩

theorem findMinEntropyCode_picks_least_witness :
    (∀ e ∈ exRootData.decisionCountMap, e.1 ≠ -1)
      ∧ exRootData.c0 + exRootData.c1 < 2147483648
      ∧ (entropyBinary (exactFloat Real.log) (toInt32 exRootData.c0) (toInt32 exRootData.c1)
            = specEntropy Real.log exRootData.c0 exRootData.c1
        ∧ (∀ e : Int × DecisionCounts, e.2.c0p ≤ exRootData.c0 → e.2.c1p ≤ exRootData.c1 →
            e.2.entropy (exactFloat Real.log) exRootData
              = specSplitEntropy Real.log exRootData.c0 exRootData.c1 e.2.c0p e.2.c1p)
        ∧ (findMinEntropyCode (exactFloat Real.log)
              (entropyBinary (exactFloat Real.log) (toInt32 exRootData.c0)
                (toInt32 exRootData.c1)) exRootData ≠ -1
            ↔ ∃ e ∈ exRootData.decisionCountMap, eligible exRootData e = true
                ∧ e.2.entropy (exactFloat Real.log) exRootData
                    < specEntropy Real.log exRootData.c0 exRootData.c1)
        ∧ (findMinEntropyCode (exactFloat Real.log)
              (entropyBinary (exactFloat Real.log) (toInt32 exRootData.c0)
                (toInt32 exRootData.c1)) exRootData ≠ -1 →
            ∃ e ∈ exRootData.decisionCountMap,
              e.1 = findMinEntropyCode (exactFloat Real.log)
                  (entropyBinary (exactFloat Real.log) (toInt32 exRootData.c0)
                    (toInt32 exRootData.c1)) exRootData
                ∧ eligible exRootData e = true
                ∧ e.2.entropy (exactFloat Real.log) exRootData
                    < specEntropy Real.log exRootData.c0 exRootData.c1
                ∧ ∀ e1 ∈ exRootData.decisionCountMap, eligible exRootData e1 = true →
                    e.2.entropy (exactFloat Real.log) exRootData
                      ≤ e1.2.entropy (exactFloat Real.log) exRootData)
        ∧ ((∀ e ∈ exRootData.decisionCountMap,
              e.2.c0p ≤ exRootData.c0 ∧ e.2.c1p ≤ exRootData.c1) →
            (findMinEntropyCode (exactFloat Real.log)
                  (entropyBinary (exactFloat Real.log) (toInt32 exRootData.c0)
                    (toInt32 exRootData.c1)) exRootData ≠ -1
                ↔ ∃ e ∈ exRootData.decisionCountMap, eligible exRootData e = true
                    ∧ specSplitEntropy Real.log exRootData.c0 exRootData.c1 e.2.c0p e.2.c1p
                        < specEntropy Real.log exRootData.c0 exRootData.c1)
              ∧ (findMinEntropyCode (exactFloat Real.log)
                    (entropyBinary (exactFloat Real.log) (toInt32 exRootData.c0)
                      (toInt32 exRootData.c1)) exRootData ≠ -1 →
                  ∃ e ∈ exRootData.decisionCountMap,
                    e.1 = findMinEntropyCode (exactFloat Real.log)
                        (entropyBinary (exactFloat Real.log) (toInt32 exRootData.c0)
                          (toInt32 exRootData.c1)) exRootData
                      ∧ eligible exRootData e = true
                      ∧ specSplitEntropy Real.log exRootData.c0 exRootData.c1 e.2.c0p e.2.c1p
                          < specEntropy Real.log exRootData.c0 exRootData.c1
                      ∧ ∀ e1 ∈ exRootData.decisionCountMap, eligible exRootData e1 = true →
                          specSplitEntropy Real.log exRootData.c0 exRootData.c1 e.2.c0p
                              e.2.c1p
                            ≤ specSplitEntropy Real.log exRootData.c0 exRootData.c1 e1.2.c0p
                                e1.2.c1p)
              ∧ ((¬ ∃ e ∈ exRootData.decisionCountMap, eligible exRootData e = true
                      ∧ specSplitEntropy Real.log exRootData.c0 exRootData.c1 e.2.c0p e.2.c1p
                          < specEntropy Real.log exRootData.c0 exRootData.c1) →
                  findMinEntropyCode (exactFloat Real.log)
                    (entropyBinary (exactFloat Real.log) (toInt32 exRootData.c0)
                      (toInt32 exRootData.c1)) exRootData = -1))
        ∧ (∀ e, eligible exRootData e
            = (pairGe (e.2.rank, e.1) (findMinRankToConsider exRootData.decisionCountMap)
                && e.2.enoughEvidence exRootData))
        ∧ (∀ e : Int × DecisionCounts, e.2.c0p ≤ exRootData.c0 → e.2.c1p ≤ exRootData.c1 →
            (e.2.enoughEvidence exRootData = true
              ↔ 2 ≤ (exRootData.c0 - e.2.c0p) + (exRootData.c1 - e.2.c1p)
                ∧ 2 ≤ e.2.c0p + e.2.c1p))) :=
  ⟨by decide!, by decide!,
    findMinEntropyCode_picks_least exRootData (by decide!) (by decide!)⟩

theorem no_incremental_readmission_witness :
    TableOK refPlatform exRootData.id exRootData.decisionCountMap
      ∧ ((∀ steps : List (Sample × Bool),
          pairLt (steps.foldl (incrementalStep refPlatform) exRootData).minValidRank
              exRootData.minValidRank = false
            ∧ TableOK refPlatform exRootData.id
                (steps.foldl (incrementalStep refPlatform) exRootData).decisionCountMap)
        ∧ (∀ (s : Sample),
            (incrementalStep refPlatform exRootData (s, false)).minValidRank
                = exRootData.minValidRank
            ∧ ∀ c, (incrementalStep refPlatform exRootData (s, false)).decisionCountMap.contains c
                  = true →
                exRootData.decisionCountMap.contains c = true)
        ∧ (∀ (s : Sample) (direction : Int) (acc : DCMap × List RankPair × RankPair)
            (x : Int × ℚ) (c : Int),
            (insertStep refPlatform exRootData.id s direction acc x).1.contains c = true →
            acc.1.contains c = true
              ∨ (c = x.1 ∧ acc.1.contains x.1 = false
                  ∧ pairGe (codeRankInNode refPlatform x.1 exRootData.id, x.1) acc.2.2 = true))
        ∧ (∀ (s : Sample) (c : Int),
            (incrementalStep refPlatform exRootData (s, true)).decisionCountMap.contains c = true →
            exRootData.decisionCountMap.contains c = true
              ∨ pairGe (codeRankInNode refPlatform c exRootData.id, c)
                  exRootData.minValidRank = true)
        ∧ (∀ (s : Sample) (c : Int), exRootData.decisionCountMap.contains c = true →
            (incrementalStep refPlatform exRootData (s, true)).decisionCountMap.contains c
              = false →
            pairLt (codeRankInNode refPlatform c exRootData.id, c)
                (incrementalStep refPlatform exRootData (s, true)).minValidRank = true
              ∧ ∀ steps : List (Sample × Bool),
                  (steps.foldl (incrementalStep refPlatform)
                    (incrementalStep refPlatform exRootData (s, true))).decisionCountMap.contains c
                    = false)) :=
  ⟨tableOK_exRootData, no_incremental_readmission refPlatform exRootData tableOK_exRootData⟩

theorem table_cap_of_reachable_witness :
    Reachable refPlatform freshSample exCommittedK
      ∧ ((∀ t ∈ exCommittedK.forest, ∀ n ∈ t.nodes,
          n.data.decisionCountMap.length ≤ 40 ∧ (n.data.decisionCountMap.map Prod.fst).Nodup
            ∧ ∀ e ∈ n.data.decisionCountMap,
                e.2.rank = codeRankInNode refPlatform e.1 n.data.id)
        ∧ (∀ t ∈ exCommittedK.forest, ∀ n ∈ t.nodes, ∀ steps : List (Sample × Bool),
            (steps.foldl (incrementalStep refPlatform) n.data).decisionCountMap.length ≤ 40)
        ∧ (∀ (id : Nat) (sw : List Sample),
            (computeDecisionCounters refPlatform id sw).1.length ≤ 40)
        ∧ (∀ (d : NodeData) (s : Sample), d.decisionCountMap.length ≤ 40 →
            (d.decisionCountMap.map Prod.fst).Nodup →
            (∀ e ∈ d.decisionCountMap, e.2.rank = codeRankInNode refPlatform e.1 d.id) →
            (updateDecisionCounters refPlatform d s 1).decisionCountMap.length ≤ 40
              ∧ (updateDecisionCounters refPlatform d s (-1)).decisionCountMap.length ≤ 40)) :=
  ⟨Reachable.commit _ _ reachable_exPendingK commit_exPendingK,
    table_cap_of_reachable refPlatform exCommittedK
      (Reachable.commit _ _ reachable_exPendingK commit_exPendingK)⟩
/-! ## The theorems of the last claims at concrete inputs -/

theorem placed_exTree : Placed exTree := by
  unfold exTree
  exact ⟨by decide!, by decide!, trivial, trivial⟩

theorem ptrInj_exTree : PtrInj (collectRecursive exTree) := by
  unfold PtrInj
  decide!

theorem binary_exA_exG : ∀ s ∈ [exA, exG], s.Binary := by
  intro s hs
  simp only [List.mem_cons, List.mem_singleton, List.not_mem_nil, or_false] at hs
  rcases hs with h | h
  · rw [h]
    unfold Sample.Binary
    decide!
  · rw [h]
    unfold Sample.Binary
    decide!

theorem reachable_exCommittedK_removed :
    Reachable refPlatform freshSample (exCommittedK.remove "a").1 :=
  Reachable.remove _ _ (Reachable.commit _ _ reachable_exPendingK commit_exPendingK)

theorem transitions_keep_node_identity_witness :
    updateDecisionTreeNode refPlatform exRootFilled 662824084 [exA, exE, exG, exH] []
        = some (836760821, exTree)
      ∧ (exTree.data.id = exRootFilled.data.id ∧
        (∃ d, updateNodeCounters refPlatform exRootFilled [exA, exE, exG, exH] [] = some d ∧
          d.id = exRootFilled.data.id ∧
          KeepsIdentity refPlatform 662824084 d exRootFilled exTree) ∧
        (∀ (fuel ts0 : Nat) (lf : DecisionTreeNode) (r0 : Nat × DecisionTreeNode),
          splitLeafIfPossible refPlatform fuel ts0 lf = some r0 →
          r0 = (ts0, lf) ∨ ∃ code negative positive,
            r0.2 = .internal code lf.data negative positive ∧
            negative.data.id = (refPlatform.rand_r (refPlatform.rand_r ts0).2).1 ∧
            positive.data.id
              = (refPlatform.rand_r (refPlatform.rand_r (refPlatform.rand_r ts0).2).2).1)) :=
  ⟨by decide!,
    transitions_keep_node_identity refPlatform exRootFilled 662824084 [exA, exE, exG, exH] []
      (836760821, exTree) (by decide!)⟩

theorem leaf_value_of_reachable_witness :
    Reachable refPlatform freshSample exCommittedK
      ∧ ((∀ t ∈ exCommittedK.forest, Untouched t ∨
          ∀ d v samples, DecisionTreeNode.leaf d v samples ∈ t.nodes →
            v = updateValue d ∧
              v = (if toInt32 (wrapU32 (d.c0 + d.c1)) = 0 then 1
                else (d.c1 : ℚ) / (toInt32 (wrapU32 (d.c0 + d.c1)) : ℚ)) ∧
              (d.c0 + d.c1 < 2147483648 →
                (0 < d.c0 + d.c1 → v = (d.c1 : ℚ) / ((d.c0 : ℚ) + (d.c1 : ℚ))) ∧
                  (d.c0 + d.c1 = 0 → v = 1))) ∧
        (∀ rf1, exCommittedK.changesToCommit = true → exCommittedK.commit refPlatform = some rf1 →
          ∀ t ∈ rf1.forest, ∀ d v samples, DecisionTreeNode.leaf d v samples ∈ t.nodes →
            v = updateValue d)) :=
  ⟨Reachable.commit _ _ reachable_exPendingK commit_exPendingK,
    leaf_value_of_reachable refPlatform exCommittedK
      (Reachable.commit _ _ reachable_exPendingK commit_exPendingK)⟩

theorem update_conserves_samples_witness :
    Placed exTree ∧ PtrInj (collectRecursive exTree)
      ∧ (∀ r ∈ [exG], r ∈ collectRecursive exTree)
      ∧ (∀ a ∈ [exY], ∀ r ∈ [exG], a.ptr ≠ r.ptr)
      ∧ ∃ r, updateDecisionTree refPlatform 836760821 exTree [exY] [exG] = some r ∧
          ((collectRecursive r.2 : List Sample) : Multiset Sample)
            = ((collectRecursive exTree : List Sample) : Multiset Sample)
              - (([exG] : List Sample) : Multiset Sample)
              + (([exY] : List Sample) : Multiset Sample) :=
  ⟨placed_exTree, ptrInj_exTree, by decide!, by decide!,
    update_conserves_samples refPlatform 836760821 exTree [exY] [exG] placed_exTree
      ptrInj_exTree (by decide!) (by decide!)⟩

theorem routing_invariant_of_reachable_witness :
    Reachable refPlatform freshSample (exCommittedK.remove "a").1
      ∧ ((∀ (a b : Sample) (t : Nat), a.suid = b.suid →
          sampleInTree refPlatform a t = sampleInTree refPlatform b t) ∧
        ∀ (i : Nat) (tree : DecisionTreeNode),
          (exCommittedK.remove "a").1.forest[i]? = some tree →
          (∀ s, s ∈ collectRecursive tree ↔
            ((s.suid, s) ∈ (exCommittedK.remove "a").1.samples
              ∧ sampleInTree refPlatform s i = true)) ∧
          (∀ r ∈ treeBatch refPlatform (exCommittedK.remove "a").1.toRemove i,
            r ∈ collectRecursive tree) ∧
          missedRemovals tree (treeBatch refPlatform (exCommittedK.remove "a").1.toAdd i)
            (treeBatch refPlatform (exCommittedK.remove "a").1.toRemove i) = 0) :=
  ⟨reachable_exCommittedK_removed,
    routing_invariant_of_reachable refPlatform (exCommittedK.remove "a").1
      reachable_exCommittedK_removed⟩

theorem incremental_equals_recount_witness :
    (∀ s ∈ [exA, exG], s.Binary) ∧ (∀ s ∈ [exA, exG], ∀ e ∈ s.xCodes, 0 ≤ e.1)
      ∧ [exA, exG].length < 4294967296
      ∧ ((applyBatches refPlatform ⟨0, 0, [], 476707713, (0, 0)⟩ [exA, exG] []).c0
          = (computeDecisionCounters refPlatform 476707713 [exA, exG]).2.1 ∧
        (applyBatches refPlatform ⟨0, 0, [], 476707713, (0, 0)⟩ [exA, exG] []).c1
          = (computeDecisionCounters refPlatform 476707713 [exA, exG]).2.2.1 ∧
        (applyBatches refPlatform ⟨0, 0, [], 476707713, (0, 0)⟩ [exA, exG] []).decisionCountMap
          = ([exA, exG].foldl (fun (d : NodeData) s => updateDecisionCounters refPlatform d s 1)
              ⟨0, 0, [], 476707713, (0, 0)⟩).decisionCountMap ∧
        (∀ e, e ∈ (applyBatches refPlatform ⟨0, 0, [], 476707713, (0, 0)⟩ [exA, exG]
              []).decisionCountMap
          ↔ e ∈ (computeDecisionCounters refPlatform 476707713 [exA, exG]).1) ∧
        ((applyBatches refPlatform ⟨0, 0, [], 476707713, (0, 0)⟩ [exA, exG]
            []).decisionCountMap.map Prod.fst).Nodup ∧
        ((computeDecisionCounters refPlatform 476707713 [exA, exG]).1.map Prod.fst).Nodup) :=
  ⟨binary_exA_exG, by decide!, by decide!,
    incremental_equals_recount refPlatform 476707713 [exA, exG] binary_exA_exG (by decide!)
      (by decide!)⟩

theorem missing_removal_skipped_by_first_pass_witness :
    (∀ x ∈ collectRecursive exTree, x.ptr ≠ exZ.ptr)
      ∧ (∀ a ∈ [exY], ∀ r ∈ [exG, exZ], a.ptr ≠ r.ptr)
      ∧ (updateDecisionTreeSamples exTree [exY] [exG, exZ]
          = updateDecisionTreeSamples exTree [exY]
              ([exG, exZ].filter (fun r => !decide (r.ptr = exZ.ptr))) ∧
        updateDecisionTree refPlatform 836760821 exTree [exY] [exG, exZ]
          = updateDecisionTreeNode refPlatform
              (updateDecisionTreeSamples exTree [exY]
                ([exG, exZ].filter (fun r => !decide (r.ptr = exZ.ptr))))
              836760821 [exY] [exG, exZ] ∧
        ∃ r r0, updateDecisionTree refPlatform 836760821 exTree [exY] [exG, exZ] = some r ∧
          updateDecisionTree refPlatform 836760821 exTree [exY]
            ([exG, exZ].filter (fun r => !decide (r.ptr = exZ.ptr))) = some r0 ∧
          List.Perm (collectRecursive r.2) (collectRecursive r0.2)) :=
  ⟨by decide!, by decide!,
    missing_removal_skipped_by_first_pass refPlatform 836760821 exTree [exY] [exG, exZ] exZ
      (by decide!) (by decide!)⟩

end IncrementalRandomForest
